import Mathlib

/-!
# SimLan: lexer, recursive-descent parser and tree-walking evaluator

A shallow embedding of `lexer.cpp`, `parser.cpp`, `ast.cpp` and the pipeline of
`main.cpp`.

* C++ `double` is not interpreted: the embedding is parametric in a record
  `Float64 V` holding the constant `0.0`, the four arithmetic operations, the
  comparison `x == 0` and `std::stod`.  General theorems hold for every such
  record; concrete runs are evaluated in `exact`, the instance over `ℚ` with
  exact decimal conversion (on the small integers used there IEEE arithmetic
  is exact as well).
* The source text is a `List Char`, one `Char` per C++ `char`; character
  classes are those of the "C" locale.
* `int` line and column counters are `Int`; sources are assumed shorter than
  `2^31` characters, so no counter wraps.
* `while` loops and the mutually recursive parsing functions are structurally
  recursive on a fuel argument; the fuel supplied by the callers is shown to be
  sufficient, so fuel never changes a result.
* Exceptions are explicit results; `std::cout` output of `PrintNode::execute`
  is the list of printed values.
-/

namespace SimLan

/-! ## Floating point parameter -/

/-- Result of `std::stod`: a value, or one of the two exceptions caught in `Lexer::number`. -/
inductive StodResult (V : Type) where
  | value (v : V)
  | out_of_range
  | invalid_argument
deriving DecidableEq, Repr

/-- The operations on `double` used by the program. -/
structure Float64 (V : Type) where
  /-- the literal `0.0` -/
  zero : V
  add : V → V → V
  sub : V → V → V
  mul : V → V → V
  div : V → V → V
  /-- the test `x == 0` -/
  eqZero : V → Bool
  /-- the conversion `std::stod` -/
  stod : String → StodResult V

/-! ## Character classes (`<cctype>`, "C" locale) -/

def isdigit (c : Char) : Bool := 48 ≤ c.toNat && c.toNat ≤ 57

def isalpha (c : Char) : Bool :=
  (65 ≤ c.toNat && c.toNat ≤ 90) || (97 ≤ c.toNat && c.toNat ≤ 122)

def isalnum (c : Char) : Bool := isalpha c || isdigit c

def isspace (c : Char) : Bool := c.toNat = 32 || (9 ≤ c.toNat && c.toNat ≤ 13)

/-! ## Tokens (`lexer.hpp`) -/

inductive TokenType where
  | TOKEN_PRINT
  | TOKEN_NUMBER
  | TOKEN_PLUS
  | TOKEN_MINUS
  | TOKEN_STAR
  | TOKEN_SLASH
  | TOKEN_LPAREN
  | TOKEN_RPAREN
  | TOKEN_SEMICOLON
  | TOKEN_EOF
  | TOKEN_ERROR
  | TOKEN_IDENTIFIER
deriving DecidableEq, Repr

open TokenType

structure Token (V : Type) where
  type : TokenType
  lexeme : String
  value : V
  line : Int
  column : Int
deriving DecidableEq, Repr

/-! ## Lexer (`lexer.cpp`) -/

structure Lexer where
  source_code : List Char
  current_pos : Nat
  current_line : Int
  current_column_start_of_line : Int
deriving DecidableEq, Repr

namespace Lexer

/-- Constructor `Lexer::Lexer(source)`. -/
def new (source : List Char) : Lexer :=
  { source_code := source, current_pos := 0, current_line := 1,
    current_column_start_of_line := 0 }

def isAtEnd (l : Lexer) : Bool := l.source_code.length ≤ l.current_pos

/-- Indexing `source_code[i]`; the position one past the end reads as `'\0'`. -/
def charAt (l : Lexer) (i : Nat) : Char := l.source_code.getD i '\x00'

def peek (l : Lexer) : Char :=
  if l.isAtEnd then '\x00' else l.charAt l.current_pos

def advance (l : Lexer) : Char × Lexer :=
  if l.isAtEnd then ('\x00', l)
  else (l.charAt l.current_pos, { l with current_pos := l.current_pos + 1 })

/-- The call `source_code.substr(start, len)`. -/
def substr (l : Lexer) (start len : Nat) : String :=
  String.mk ((l.source_code.drop start).take len)

/-- The characters not yet consumed. -/
def rest (l : Lexer) : List Char := l.source_code.drop l.current_pos

/-- Number of characters not yet consumed; the fuel of the scanning loops. -/
def remaining (l : Lexer) : Nat := l.source_code.length - l.current_pos

def makeToken {V : Type} (F : Float64 V) (l : Lexer) (type : TokenType)
    (lexeme_val : String) : Token V :=
  let col : Int :=
    if lexeme_val.length ≠ 0 ∧ type ≠ TOKEN_EOF then
      ((l.current_pos : Int) - l.current_column_start_of_line) - lexeme_val.length + 1
    else if type = TOKEN_EOF then
      ((l.current_pos : Int) - l.current_column_start_of_line) + 1
    else
      (l.current_pos : Int) - l.current_column_start_of_line
  { type := type, lexeme := lexeme_val, value := F.zero, line := l.current_line, column := col }

def errorToken {V : Type} (F : Float64 V) (l : Lexer) (message : String) : Token V :=
  let col : Int := ((l.current_pos : Int) - l.current_column_start_of_line) + 1
  { type := TOKEN_ERROR, lexeme := message, value := F.zero, line := l.current_line,
    column := col }

/-- The inner loop `while (peek() != '\n' && !isAtEnd()) advance();` of a comment. -/
def skipCommentLoop : Nat → Lexer → Lexer
  | 0, l => l
  | fuel + 1, l =>
    if l.peek ≠ '\n' ∧ ¬ l.isAtEnd then skipCommentLoop fuel l.advance.2 else l

/-- The outer loop of `skipWhitespaceAndComments`. -/
def skipLoop : Nat → Lexer → Lexer
  | 0, l => l
  | fuel + 1, l =>
    if l.isAtEnd then l
    else
      let c := l.peek
      if isspace c then
        let l1 : Lexer :=
          if c = '\n' then
            { l with current_line := l.current_line + 1,
                     current_column_start_of_line := (l.current_pos : Int) + 1 }
          else l
        skipLoop fuel l1.advance.2
      else if c = '/' ∧ l.current_pos + 1 < l.source_code.length
          ∧ l.charAt (l.current_pos + 1) = '/' then
        let l1 := skipCommentLoop l.remaining l
        let l2 : Lexer :=
          if l1.peek = '\n' then
            let l3 := l1.advance.2
            { l3 with current_line := l3.current_line + 1,
                      current_column_start_of_line := (l3.current_pos : Int) }
          else l1
        skipLoop fuel l2
      else l

def skipWhitespaceAndComments (l : Lexer) : Lexer := skipLoop l.remaining l

/-- The loop `while (std::isdigit(peek())) advance();`. -/
def digitLoop : Nat → Lexer → Lexer
  | 0, l => l
  | fuel + 1, l => if isdigit l.peek then digitLoop fuel l.advance.2 else l

def number {V : Type} (F : Float64 V) (l : Lexer) : Token V × Lexer :=
  let start_pos := l.current_pos
  let l1 := digitLoop l.remaining l
  let l2 : Lexer :=
    if l1.peek = '.' ∧ isdigit (l1.charAt (l1.current_pos + 1)) then
      let l' := l1.advance.2
      digitLoop l'.remaining l'
    else l1
  let lexeme := l2.substr start_pos (l2.current_pos - start_pos)
  match F.stod lexeme with
  | .out_of_range => (l2.errorToken F ("Numeric literal out of range: " ++ lexeme), l2)
  | .invalid_argument => (l2.errorToken F ("Invalid numeric literal: " ++ lexeme), l2)
  | .value value =>
    let col : Int := ((start_pos : Int) - l2.current_column_start_of_line) + 1
    ({ type := TOKEN_NUMBER, lexeme := lexeme, value := value, line := l2.current_line,
       column := col }, l2)

/-- The loop `while (std::isalnum(peek()) || peek() == '_') advance();`. -/
def identLoop : Nat → Lexer → Lexer
  | 0, l => l
  | fuel + 1, l =>
    if isalnum l.peek ∨ l.peek = '_' then identLoop fuel l.advance.2 else l

/-- The static table `keywords` of `identifierOrKeyword`. -/
def keywords (lexeme : String) : Option TokenType :=
  if lexeme = "PRINT" then some TOKEN_PRINT else none

def identifierOrKeyword {V : Type} (F : Float64 V) (l : Lexer) : Token V × Lexer :=
  let start_pos := l.current_pos
  let l1 := identLoop l.remaining l
  let lexeme := l1.substr start_pos (l1.current_pos - start_pos)
  let col : Int := ((start_pos : Int) - l1.current_column_start_of_line) + 1
  match keywords lexeme with
  | some ty =>
    ({ type := ty, lexeme := lexeme, value := F.zero, line := l1.current_line, column := col },
     l1)
  | none => (l1.errorToken F ("Unexpected identifier or keyword: " ++ lexeme), l1)

def getNextToken {V : Type} (F : Float64 V) (l0 : Lexer) : Token V × Lexer :=
  let l := l0.skipWhitespaceAndComments
  if l.isAtEnd then (l.makeToken F TOKEN_EOF "", l)
  else
    let c := l.advance.1
    let l1 := l.advance.2
    let col : Int := ((l1.current_pos : Int) - 1 - l1.current_column_start_of_line) + 1
    let tok (ty : TokenType) (lex : String) : Token V :=
      { type := ty, lexeme := lex, value := F.zero, line := l1.current_line, column := col }
    if isalpha c ∨ c = '_' then
      identifierOrKeyword F { l1 with current_pos := l1.current_pos - 1 }
    else if isdigit c then
      number F { l1 with current_pos := l1.current_pos - 1 }
    else if c = '(' then (tok TOKEN_LPAREN "(", l1)
    else if c = ')' then (tok TOKEN_RPAREN ")", l1)
    else if c = ';' then (tok TOKEN_SEMICOLON ";", l1)
    else if c = '+' then (tok TOKEN_PLUS "+", l1)
    else if c = '-' then (tok TOKEN_MINUS "-", l1)
    else if c = '*' then (tok TOKEN_STAR "*", l1)
    else if c = '/' then (tok TOKEN_SLASH "/", l1)
    else (l1.errorToken F ("Unexpected character: " ++ String.singleton c), l1)

end Lexer

/-! ## AST (`ast.hpp`, `ast.cpp`) -/

/-- Expression nodes; a `unique_ptr` child is `none` when null. -/
inductive ExprNode (V : Type) where
  | NumberNode (value : V)
  | BinaryOpNode (op : Char) (left right : Option (ExprNode V))
deriving Repr

mutual

/-- Decidable equality of expression trees. -/
def ExprNode.decEq {V : Type} [DecidableEq V] : (a b : ExprNode V) → Decidable (a = b)
  | .NumberNode x, .NumberNode y =>
    if h : x = y then isTrue (by rw [h]) else isFalse (by intro h'; cases h'; exact h rfl)
  | .NumberNode _, .BinaryOpNode _ _ _ => isFalse (by intro h; cases h)
  | .BinaryOpNode _ _ _, .NumberNode _ => isFalse (by intro h; cases h)
  | .BinaryOpNode o1 l1 r1, .BinaryOpNode o2 l2 r2 =>
    if ho : o1 = o2 then
      match ExprNode.decEqOpt l1 l2 with
      | isTrue hl =>
        match ExprNode.decEqOpt r1 r2 with
        | isTrue hr => isTrue (by rw [ho, hl, hr])
        | isFalse hr => isFalse (by intro h; cases h; exact hr rfl)
      | isFalse hl => isFalse (by intro h; cases h; exact hl rfl)
    else isFalse (by intro h; cases h; exact ho rfl)

/-- Decidable equality of possibly null children. -/
def ExprNode.decEqOpt {V : Type} [DecidableEq V] :
    (a b : Option (ExprNode V)) → Decidable (a = b)
  | none, none => isTrue rfl
  | none, some _ => isFalse (by intro h; cases h)
  | some _, none => isFalse (by intro h; cases h)
  | some a, some b =>
    match ExprNode.decEq a b with
    | isTrue h => isTrue (by rw [h])
    | isFalse h => isFalse (by intro h'; cases h'; exact h rfl)

end

instance {V : Type} [DecidableEq V] : DecidableEq (ExprNode V) := ExprNode.decEq

/-- Statement nodes; the only statement is `PrintNode`. -/
inductive StatementNode (V : Type) where
  | PrintNode (expression : Option (ExprNode V))
deriving DecidableEq, Repr

structure ProgramNode (V : Type) where
  statements : List (Option (StatementNode V))
deriving DecidableEq, Repr

def ProgramNode.addStatement {V : Type} (prog : ProgramNode V)
    (stmt : Option (StatementNode V)) : ProgramNode V :=
  { statements := prog.statements ++ [stmt] }

/-- The methods `NumberNode::evaluate` and `BinaryOpNode::evaluate`; `Except.error` carries the
message of the `std::runtime_error` thrown. -/
def ExprNode.evaluate {V : Type} (F : Float64 V) : ExprNode V → Except String V
  | .NumberNode value => .ok value
  | .BinaryOpNode op (some left) (some right) =>
    match left.evaluate F with
    | .error e => .error e
    | .ok leftVal =>
      match right.evaluate F with
      | .error e => .error e
      | .ok rightVal =>
        if op = '+' then .ok (F.add leftVal rightVal)
        else if op = '-' then .ok (F.sub leftVal rightVal)
        else if op = '*' then .ok (F.mul leftVal rightVal)
        else if op = '/' then
          if F.eqZero rightVal then .error "Runtime Error: Division by zero"
          else .ok (F.div leftVal rightVal)
        else
          .error ("Runtime Error: Unknown binary operator '" ++ String.singleton op ++ "'")
  | .BinaryOpNode _ _ _ => .error "Runtime Error: Null operand in binary operation"

/-- What an execution wrote to standard output and the exception that ended it, if any. -/
structure Execution (V : Type) where
  output : List V
  thrown : Option String
deriving DecidableEq, Repr

/-- The method `PrintNode::execute`. -/
def StatementNode.execute {V : Type} (F : Float64 V) : StatementNode V → Execution V
  | .PrintNode none =>
    { output := [], thrown := some "Runtime Error: PrintNode has null expression to execute" }
  | .PrintNode (some expression) =>
    match expression.evaluate F with
    | .error e => { output := [], thrown := some e }
    | .ok result => { output := [result], thrown := none }

/-- The loop of `ProgramNode::execute` over the remaining statements. -/
def executeStatements {V : Type} (F : Float64 V) :
    List (Option (StatementNode V)) → Execution V
  | [] => { output := [], thrown := none }
  | none :: rest => executeStatements F rest
  | some stmt :: rest =>
    match stmt.execute F with
    | { output := out, thrown := some e } => { output := out, thrown := some e }
    | { output := out, thrown := none } =>
      let r := executeStatements F rest
      { output := out ++ r.output, thrown := r.thrown }

/-- The method `ProgramNode::execute`. -/
def ProgramNode.execute {V : Type} (F : Float64 V) (prog : ProgramNode V) : Execution V :=
  executeStatements F prog.statements

/-! ## Well-formed trees -/

/-- Trees without a null child whose operators are `+`, `-`, `*` or `/`. -/
inductive ExprNode.WellFormed {V : Type} : ExprNode V → Prop where
  | number (value : V) : ExprNode.WellFormed (.NumberNode value)
  | binary (op : Char) (left right : ExprNode V) :
      (op = '+' ∨ op = '-' ∨ op = '*' ∨ op = '/') →
      ExprNode.WellFormed left → ExprNode.WellFormed right →
      ExprNode.WellFormed (.BinaryOpNode op (some left) (some right))

/-- Programs without a null statement whose statements hold well-formed expressions. -/
def ProgramNode.WellFormed {V : Type} (prog : ProgramNode V) : Prop :=
  ∀ s ∈ prog.statements, ∃ e : ExprNode V, s = some (.PrintNode (some e)) ∧ e.WellFormed

/-! ## Parser (`parser.hpp`, `parser.cpp`) -/

/-- The exception `ParseError`; `what` is the text of the underlying `std::runtime_error`. -/
structure ParseError where
  what : String
  error_line : Int
  error_column : Int
deriving DecidableEq, Repr

/-- Constructor `ParseError(message, line, column)`. -/
def ParseError.new (message : String) (line column : Int) : ParseError :=
  { what := message ++ " at line " ++ toString line ++ ", column " ++ toString column,
    error_line := line, error_column := column }

structure Parser (V : Type) where
  lexer : Lexer
  currentToken : Token V
  previousToken : Token V
deriving DecidableEq, Repr

/-- Result of a parsing function: a value, or a thrown `ParseError`, each with the
parser state at that moment; `outOfFuel` is the fuel of the embedding running out. -/
inductive ParseResult (V : Type) (α : Type) where
  | ok (value : α) (p : Parser V)
  | error (e : ParseError) (p : Parser V)
  | outOfFuel
deriving DecidableEq, Repr

/-- The value returned, if any. -/
def ParseResult.value? {V α : Type} : ParseResult V α → Option α
  | .ok value _ => some value
  | _ => none

/-- The `ParseError` thrown, if any. -/
def ParseResult.error? {V α : Type} : ParseResult V α → Option ParseError
  | .error e _ => some e
  | _ => none

/-- The parser state when the function returned or threw. -/
def ParseResult.parser? {V α : Type} : ParseResult V α → Option (Parser V)
  | .ok _ p => some p
  | .error _ p => some p
  | .outOfFuel => none

/-- The character `token.lexeme[0]`; `'\0'` for the empty string. -/
def Token.lexeme0 {V : Type} (t : Token V) : Char := t.lexeme.data.headD '\x00'

namespace Parser

variable {V : Type}

def advanceToken (F : Float64 V) (p : Parser V) : Parser V :=
  { lexer := (p.lexer.getNextToken F).2,
    currentToken := (p.lexer.getNextToken F).1,
    previousToken := p.currentToken }

/-- Constructor `Parser::Parser(lexer)`. -/
def new (F : Float64 V) (lexer : Lexer) : Parser V :=
  advanceToken F
    { lexer := lexer,
      currentToken :=
        { type := TOKEN_ERROR, lexeme := "InitialCurrent", value := F.zero, line := 0,
          column := 1 },
      previousToken :=
        { type := TOKEN_ERROR, lexeme := "InitialPrevious", value := F.zero, line := 0,
          column := 1 } }

/-- The method `Parser::errorAt`: the exception it throws. -/
def errorAt (token : Token V) (message : String) : ParseError :=
  let full_message := "Parse Error: " ++ message
  let full_message :=
    if token.type = TOKEN_EOF then full_message ++ " at end of file."
    else full_message ++ " near '" ++ token.lexeme ++ "'"
  ParseError.new full_message token.line token.column

/-- The method `Parser::error`: reports at the previously consumed token (it has no caller). -/
def error (p : Parser V) (message : String) : ParseError :=
  errorAt p.previousToken message

def consume (F : Float64 V) (p : Parser V) (expectedType : TokenType)
    (errorMessage : String) : ParseResult V Unit :=
  if p.currentToken.type = expectedType then .ok () (p.advanceToken F)
  else .error (errorAt p.currentToken errorMessage) p

/-- The method `Parser::match`. -/
def matchType (p : Parser V) (type : TokenType) : Bool :=
  if p.currentToken.type = type then true else false

mutual

def parseExpressionFuel (F : Float64 V) : Nat → Parser V → ParseResult V (ExprNode V)
  | 0, _ => .outOfFuel
  | fuel + 1, p =>
    match parseTermFuel F fuel p with
    | .ok left p1 => parseExpressionLoop F fuel left p1
    | .error e p1 => .error e p1
    | .outOfFuel => .outOfFuel

/-- The `while` loop of `parseExpression`, entered with `left` already parsed. -/
def parseExpressionLoop (F : Float64 V) :
    Nat → ExprNode V → Parser V → ParseResult V (ExprNode V)
  | 0, _, _ => .outOfFuel
  | fuel + 1, left, p =>
    if p.matchType TOKEN_PLUS || p.matchType TOKEN_MINUS then
      let operatorToken := p.currentToken
      match parseTermFuel F fuel (p.advanceToken F) with
      | .ok right p2 =>
        parseExpressionLoop F fuel
          (.BinaryOpNode operatorToken.lexeme0 (some left) (some right)) p2
      | .error e p2 => .error e p2
      | .outOfFuel => .outOfFuel
    else .ok left p

def parseTermFuel (F : Float64 V) : Nat → Parser V → ParseResult V (ExprNode V)
  | 0, _ => .outOfFuel
  | fuel + 1, p =>
    match parseFactorFuel F fuel p with
    | .ok left p1 => parseTermLoop F fuel left p1
    | .error e p1 => .error e p1
    | .outOfFuel => .outOfFuel

/-- The `while` loop of `parseTerm`, entered with `left` already parsed. -/
def parseTermLoop (F : Float64 V) :
    Nat → ExprNode V → Parser V → ParseResult V (ExprNode V)
  | 0, _, _ => .outOfFuel
  | fuel + 1, left, p =>
    if p.matchType TOKEN_STAR || p.matchType TOKEN_SLASH then
      let operatorToken := p.currentToken
      match parseFactorFuel F fuel (p.advanceToken F) with
      | .ok right p2 =>
        parseTermLoop F fuel
          (.BinaryOpNode operatorToken.lexeme0 (some left) (some right)) p2
      | .error e p2 => .error e p2
      | .outOfFuel => .outOfFuel
    else .ok left p

def parseFactorFuel (F : Float64 V) : Nat → Parser V → ParseResult V (ExprNode V)
  | 0, _ => .outOfFuel
  | fuel + 1, p =>
    if p.matchType TOKEN_NUMBER then
      let numToken := p.currentToken
      .ok (.NumberNode numToken.value) (p.advanceToken F)
    else if p.matchType TOKEN_LPAREN then
      match parseExpressionFuel F fuel (p.advanceToken F) with
      | .ok expr p1 =>
        match consume F p1 TOKEN_RPAREN "Expected ')' after expression in parentheses." with
        | .ok _ p2 => .ok expr p2
        | .error e p2 => .error e p2
        | .outOfFuel => .outOfFuel
      | .error e p1 => .error e p1
      | .outOfFuel => .outOfFuel
    else .error (errorAt p.currentToken "Expected a number or a parenthesized expression.") p

end

/-- Upper bound on the number of tokens the parser can still consume: the characters
the lexer has not scanned, plus one for a lookahead that is not `EndOfFile`. -/
def potential (p : Parser V) : Nat :=
  p.lexer.remaining + (if p.currentToken.type = TOKEN_EOF then 0 else 1)

def parseFactor (F : Float64 V) (p : Parser V) : ParseResult V (ExprNode V) :=
  parseFactorFuel F (3 * p.potential + 3) p

/-- The `while` loop of `parseTerm` with the fuel it needs. -/
def parseTermRest (F : Float64 V) (left : ExprNode V) (p : Parser V) :
    ParseResult V (ExprNode V) :=
  parseTermLoop F (3 * p.potential + 1) left p

/-- The `while` loop of `parseExpression` with the fuel it needs. -/
def parseExpressionRest (F : Float64 V) (left : ExprNode V) (p : Parser V) :
    ParseResult V (ExprNode V) :=
  parseExpressionLoop F (3 * p.potential + 2) left p

def parseTerm (F : Float64 V) (p : Parser V) : ParseResult V (ExprNode V) :=
  parseTermFuel F (3 * p.potential + 4) p

def parseExpression (F : Float64 V) (p : Parser V) : ParseResult V (ExprNode V) :=
  parseExpressionFuel F (3 * p.potential + 5) p

def parsePrintStatement (F : Float64 V) (p : Parser V) : ParseResult V (StatementNode V) :=
  match consume F p TOKEN_PRINT "Expected 'PRINT' keyword." with
  | .ok _ p1 =>
    match parseExpression F p1 with
    | .ok expr p2 =>
      match consume F p2 TOKEN_SEMICOLON "Expected ';' after PRINT statement's expression." with
      | .ok _ p3 => .ok (.PrintNode (some expr)) p3
      | .error e p3 => .error e p3
      | .outOfFuel => .outOfFuel
    | .error e p2 => .error e p2
    | .outOfFuel => .outOfFuel
  | .error e p1 => .error e p1
  | .outOfFuel => .outOfFuel

def parseStatement (F : Float64 V) (p : Parser V) : ParseResult V (StatementNode V) :=
  if p.matchType TOKEN_PRINT then parsePrintStatement F p
  else .error (errorAt p.currentToken "Expected a statement (e.g., PRINT).") p

/-- The `while` loop of `parseProgram`. -/
def parseProgramLoop (F : Float64 V) :
    Nat → ProgramNode V → Parser V → ParseResult V (ProgramNode V)
  | 0, _, _ => .outOfFuel
  | fuel + 1, programNode, p =>
    if p.currentToken.type ≠ TOKEN_EOF then
      if p.currentToken.type = TOKEN_ERROR then
        .error (errorAt p.currentToken ("Lexical error: " ++ p.currentToken.lexeme)) p
      else
        match parseStatement F p with
        | .ok stmt p1 => parseProgramLoop F fuel (programNode.addStatement (some stmt)) p1
        | .error e p1 => .error e p1
        | .outOfFuel => .outOfFuel
    else .ok programNode p

/-- The `while` loop of `parseProgram` with the fuel it needs. -/
def parseProgramRest (F : Float64 V) (programNode : ProgramNode V) (p : Parser V) :
    ParseResult V (ProgramNode V) :=
  parseProgramLoop F (p.potential + 1) programNode p

def parseProgram (F : Float64 V) (p : Parser V) : ParseResult V (ProgramNode V) :=
  parseProgramRest F { statements := [] } p

end Parser

/-! ## The token stream and the grammar of the specification -/

/-- The tokens `getNextToken` returns from state `l` on, up to and including the first
`EndOfFile` token. -/
def Lexer.tokensFuel {V : Type} (F : Float64 V) : Nat → Lexer → List (Token V)
  | 0, _ => []
  | fuel + 1, l =>
    if (l.getNextToken F).1.type = TOKEN_EOF then [(l.getNextToken F).1]
    else (l.getNextToken F).1 :: Lexer.tokensFuel F fuel (l.getNextToken F).2

def Lexer.tokens {V : Type} (F : Float64 V) (l : Lexer) : List (Token V) :=
  Lexer.tokensFuel F (l.remaining + 1) l

/-- The token stream of a source text, up to and including the first `EndOfFile`. -/
def tokenize {V : Type} (F : Float64 V) (source : List Char) : List (Token V) :=
  (Lexer.new source).tokens F

/-- The tokens the parser has not consumed: its lookahead and what the lexer still holds. -/
def Parser.pending {V : Type} (F : Float64 V) (p : Parser V) : List (Token V) :=
  if p.currentToken.type = TOKEN_EOF then [p.currentToken]
  else p.currentToken :: p.lexer.tokens F

/-- The kinds of a list of tokens. -/
def kinds {V : Type} (ts : List (Token V)) : List TokenType := ts.map (fun t => t.type)

/-- The state `p'` is reached from the state `p` by consuming tokens none of which is an
`Error` token. -/
def Parser.ReachedWithoutError {V : Type} (F : Float64 V) (p' p : Parser V) : Prop :=
  ∃ consumed : List (Token V),
    p.pending F = consumed ++ p'.pending F ∧ ∀ t ∈ consumed, t.type ≠ TOKEN_ERROR

/-- Nonterminals of the grammar; `exprTail` is `(('+'|'-') term)*` and `termTail` is
`(('*'|'/') factor)*`. -/
inductive NonTerminal where
  | program
  | statement
  | expression
  | exprTail
  | term
  | termTail
  | factor
deriving DecidableEq, Repr

/-- The grammar of the specification over token kinds:
`program := statement* EOF`, `statement := PRINT expression ';'`,
`expression := term (('+'|'-') term)*`, `term := factor (('*'|'/') factor)*`,
`factor := NUMBER | '(' expression ')'`. -/
inductive Generates : NonTerminal → List TokenType → Prop where
  | factor_number : Generates .factor [TOKEN_NUMBER]
  | factor_paren {es : List TokenType} :
      Generates .expression es → Generates .factor (TOKEN_LPAREN :: (es ++ [TOKEN_RPAREN]))
  | termTail_nil : Generates .termTail []
  | termTail_cons {op : TokenType} {fs r : List TokenType} :
      (op = TOKEN_STAR ∨ op = TOKEN_SLASH) → Generates .factor fs → Generates .termTail r →
      Generates .termTail (op :: (fs ++ r))
  | term {fs r : List TokenType} :
      Generates .factor fs → Generates .termTail r → Generates .term (fs ++ r)
  | exprTail_nil : Generates .exprTail []
  | exprTail_cons {op : TokenType} {ts r : List TokenType} :
      (op = TOKEN_PLUS ∨ op = TOKEN_MINUS) → Generates .term ts → Generates .exprTail r →
      Generates .exprTail (op :: (ts ++ r))
  | expression {ts r : List TokenType} :
      Generates .term ts → Generates .exprTail r → Generates .expression (ts ++ r)
  | statement {es : List TokenType} :
      Generates .expression es → Generates .statement (TOKEN_PRINT :: (es ++ [TOKEN_SEMICOLON]))
  | program_eof : Generates .program [TOKEN_EOF]
  | program_cons {s r : List TokenType} :
      Generates .statement s → Generates .program r → Generates .program (s ++ r)

/-- The next kind is not a multiplicative operator. -/
def FollowsTerm (rest : List TokenType) : Prop :=
  ∃ k r, rest = k :: r ∧ k ≠ TOKEN_STAR ∧ k ≠ TOKEN_SLASH

/-- The next kind is not a binary operator. -/
def FollowsExpression (rest : List TokenType) : Prop :=
  ∃ k r, rest = k :: r ∧ k ≠ TOKEN_STAR ∧ k ≠ TOKEN_SLASH ∧ k ≠ TOKEN_PLUS ∧ k ≠ TOKEN_MINUS

/-- What the parsing function of a nonterminal does on a stream that starts with a
string of that nonterminal. -/
def Accepts {V : Type} (F : Float64 V) : NonTerminal → List TokenType → Prop
  | .factor, ks => ∀ (p : Parser V) (rest : List TokenType),
      kinds (p.pending F) = ks ++ rest →
      ∃ e p', Parser.parseFactor F p = .ok e p' ∧ kinds (p'.pending F) = rest
  | .termTail, ks => ∀ (p : Parser V) (left : ExprNode V) (rest : List TokenType),
      kinds (p.pending F) = ks ++ rest → FollowsTerm rest →
      ∃ e p', Parser.parseTermRest F left p = .ok e p' ∧ kinds (p'.pending F) = rest
  | .term, ks => ∀ (p : Parser V) (rest : List TokenType),
      kinds (p.pending F) = ks ++ rest → FollowsTerm rest →
      ∃ e p', Parser.parseTerm F p = .ok e p' ∧ kinds (p'.pending F) = rest
  | .exprTail, ks => ∀ (p : Parser V) (left : ExprNode V) (rest : List TokenType),
      kinds (p.pending F) = ks ++ rest → FollowsExpression rest →
      ∃ e p', Parser.parseExpressionRest F left p = .ok e p' ∧ kinds (p'.pending F) = rest
  | .expression, ks => ∀ (p : Parser V) (rest : List TokenType),
      kinds (p.pending F) = ks ++ rest → FollowsExpression rest →
      ∃ e p', Parser.parseExpression F p = .ok e p' ∧ kinds (p'.pending F) = rest
  | .statement, ks => ∀ (p : Parser V) (rest : List TokenType),
      kinds (p.pending F) = ks ++ rest →
      ∃ s p', Parser.parseStatement F p = .ok s p' ∧ kinds (p'.pending F) = rest
  | .program, ks => ∀ (p : Parser V) (prog : ProgramNode V),
      kinds (p.pending F) = ks →
      ∃ prog' p', Parser.parseProgramRest F prog p = .ok prog' p'

/-! ## Text without tokens -/

/-- Text that consists of white space and `//` comments only: a comment runs up to and
including the next newline, or to the end of the text. -/
inductive Blank : List Char → Prop where
  | nil : Blank []
  | space (c : Char) (rest : List Char) : isspace c = true → Blank rest → Blank (c :: rest)
  | comment (body rest : List Char) : (∀ x ∈ body, x ≠ '\n') → Blank rest →
      Blank ('/' :: '/' :: (body ++ '\n' :: rest))
  | comment_end (body : List Char) : (∀ x ∈ body, x ≠ '\n') → Blank ('/' :: '/' :: body)

/-! ## Source positions -/

/-- The 1-based line of the character at index `i`: one plus the newlines before it. -/
def lineOf (source : List Char) (i : Nat) : Int := 1 + ((source.take i).count '\n' : Nat)

/-- The 1-based column of the character at index `i`: its offset from the start of its
line, plus one. -/
def columnOf (source : List Char) (i : Nat) : Int :=
  (((source.take i).reverse.takeWhile (fun c => c ≠ '\n')).length : Nat) + 1

/-- The line counter and the column origin of the lexer agree with the scan position:
`current_line` is the line of the next character and `current_pos -
current_column_start_of_line + 1` is its column. -/
def Lexer.Tracks (l : Lexer) : Prop :=
  l.current_line = lineOf l.source_code l.current_pos ∧
  (l.current_pos : Int) - l.current_column_start_of_line + 1 =
    columnOf l.source_code l.current_pos

/-- What the result of a `getNextToken` call satisfies when the token's first character
is at index `start`: the line is right; the column is right unless the token is an `Error`
token, whose column is too large by the number of characters consumed for it; and the
lexer keeps tracking line and column. -/
def Lexer.Positioned {V : Type} (source : List Char) (start : Nat)
    (result : Token V × Lexer) : Prop :=
  result.1.line = lineOf source start ∧
  (result.1.type ≠ TOKEN_ERROR → result.1.column = columnOf source start) ∧
  (result.1.type = TOKEN_ERROR → start < result.2.current_pos ∧
    result.1.column = columnOf source start + ((result.2.current_pos - start : Nat) : Int)) ∧
  result.2.Tracks ∧ result.2.source_code = source

/-- The lexer state after `k` calls of `getNextToken` on a source text. -/
def Lexer.afterCalls {V : Type} (F : Float64 V) (source : List Char) (k : Nat) : Lexer :=
  (fun l => (l.getNextToken F).2)^[k] (Lexer.new source)

/-- The token returned by call number `k + 1` of `getNextToken` on a source text. -/
def nthToken {V : Type} (F : Float64 V) (source : List Char) (k : Nat) : Token V :=
  ((Lexer.afterCalls F source k).getNextToken F).1

/-- The index in the source of the first character of the token returned by call number
`k + 1`: the scan position once white space and comments have been skipped. -/
def nthTokenStart {V : Type} (F : Float64 V) (source : List Char) (k : Nat) : Nat :=
  (Lexer.afterCalls F source k).skipWhitespaceAndComments.current_pos

/-! ## The lexer in a longer source -/

/-- The lexer state `l` seen in a longer source: `pre` stands in front of the source text,
`lines` lines of it before the current one, and the current line starts after `pre` or
where it started in `l`. -/
def Lexer.shift (pre : List Char) (lines : Int) (l : Lexer) : Lexer :=
  { source_code := pre ++ l.source_code,
    current_pos := l.current_pos + pre.length,
    current_line := l.current_line + lines,
    current_column_start_of_line := l.current_column_start_of_line + pre.length }

/-- The token `t` reported `lines` lines further down. -/
def Token.shiftLine {V : Type} (lines : Int) (t : Token V) : Token V :=
  { t with line := t.line + lines }

/-! ## Numeric literals -/

/-- The longest prefix of `rest` of the form `[0-9]*(\.[0-9]+)?`: the digits at the front
and, when a `.` and a digit follow them, the `.` and the digits after it. -/
def numberLexeme (rest : List Char) : List Char :=
  let ds := rest.takeWhile isdigit
  match rest.dropWhile isdigit with
  | '.' :: f :: after => if isdigit f then ds ++ '.' :: (f :: after).takeWhile isdigit else ds
  | _ => ds

/-- The texts matching `[0-9]+(\.[0-9]+)?`. -/
def IsNumericLiteral (n : List Char) : Prop :=
  ∃ ds fs : List Char, ds ≠ [] ∧ (∀ c ∈ ds, isdigit c = true) ∧ (∀ c ∈ fs, isdigit c = true) ∧
    (n = ds ∨ (fs ≠ [] ∧ n = ds ++ '.' :: fs))

/-- The lexemes of the tokens other than `Error` and `EndOfFile`, each with the kind and
the value of its token: the keyword `PRINT`, the numeric literals that `std::stod`
converts, and the seven punctuation characters. -/
inductive LexemeOf {V : Type} (F : Float64 V) : TokenType → List Char → V → Prop where
  | print : LexemeOf F TOKEN_PRINT "PRINT".toList F.zero
  | number (n : List Char) (v : V) : IsNumericLiteral n → F.stod (String.mk n) = .value v →
      LexemeOf F TOKEN_NUMBER n v
  | lparen : LexemeOf F TOKEN_LPAREN ['('] F.zero
  | rparen : LexemeOf F TOKEN_RPAREN [')'] F.zero
  | semicolon : LexemeOf F TOKEN_SEMICOLON [';'] F.zero
  | plus : LexemeOf F TOKEN_PLUS ['+'] F.zero
  | minus : LexemeOf F TOKEN_MINUS ['-'] F.zero
  | star : LexemeOf F TOKEN_STAR ['*'] F.zero
  | slash : LexemeOf F TOKEN_SLASH ['/'] F.zero

/-- The index in the source after the last character of the token returned by call
number `k + 1`, for a token whose lexeme is the text it was read from. -/
def nthTokenEnd {V : Type} (F : Float64 V) (source : List Char) (k : Nat) : Nat :=
  nthTokenStart F source k + (nthToken F source k).lexeme.length

/-! ## Tokens without their positions -/

/-- The kind, the lexeme and the value of a token, without its position. -/
def Token.content {V : Type} (t : Token V) : TokenType × String × V :=
  (t.type, t.lexeme, t.value)

/-- The text `w0 x1 w1 x2 w2 ... xn wn` for the lexemes `xi`, each with the text `wi` that
follows it. -/
def respace : List Char → List (List Char × List Char) → List Char
  | w0, [] => w0
  | w0, (x, w) :: rest => w0 ++ (x ++ respace w rest)

/-- The texts after the lexemes are white space, and not empty between two lexemes. -/
def Spaced : List (List Char × List Char) → Prop
  | [] => True
  | (_, w) :: rest => (∀ c ∈ w, isspace c = true) ∧ (rest ≠ [] → w ≠ []) ∧ Spaced rest

/-- Two parser states have the same tokens in front of them, positions apart. -/
def Parser.SameInput {V : Type} (F : Float64 V) (p q : Parser V) : Prop :=
  (p.pending F).map Token.content = (q.pending F).map Token.content

/-- Two results agree: both return the same value, in states with the same tokens in front
of them, or both throw, or both run out of fuel. -/
def ParseResult.Agree {V α : Type} (F : Float64 V) : ParseResult V α → ParseResult V α → Prop
  | .ok a p, .ok b q => a = b ∧ Parser.SameInput F p q
  | .error _ _, .error _ _ => True
  | .outOfFuel, .outOfFuel => True
  | _, _ => False

/-! ## Operator chains -/

/-- The operator character of an operator token kind. -/
def opChar : TokenType → Char
  | TOKEN_PLUS => '+'
  | TOKEN_MINUS => '-'
  | TOKEN_STAR => '*'
  | TOKEN_SLASH => '/'
  | _ => '\x00'

def isAdditive (t : TokenType) : Bool := t = TOKEN_PLUS || t = TOKEN_MINUS

def isMultiplicative (t : TokenType) : Bool := t = TOKEN_STAR || t = TOKEN_SLASH

/-- The left-leaning chain `BinaryOp(on, BinaryOp(... BinaryOp(o1, e0, e1) ...), en)`. -/
def leftChain {V : Type} (e0 : ExprNode V) (items : List (Char × ExprNode V)) : ExprNode V :=
  items.foldl (fun acc item => .BinaryOpNode item.1 (some acc) (some item.2)) e0

/-- From state `p` the input reads `o1 e1 ... on en`: each `oi` is an operator token
accepted by `isOp`, each `ei` is what `parseOperand` returns for the tokens after it, and
the token after `en` is not such an operator; `p'` is the state reached. -/
inductive OperandRun {V : Type} (F : Float64 V)
    (parseOperand : Parser V → ParseResult V (ExprNode V)) (isOp : TokenType → Bool) :
    Parser V → List (Char × ExprNode V) → Parser V → Prop where
  | nil (p : Parser V) : isOp p.currentToken.type = false → OperandRun F parseOperand isOp p [] p
  | cons (p p1 p' : Parser V) (e : ExprNode V) (rest : List (Char × ExprNode V)) :
      isOp p.currentToken.type = true →
      parseOperand (p.advanceToken F) = .ok e p1 →
      OperandRun F parseOperand isOp p1 rest p' →
      OperandRun F parseOperand isOp p ((opChar p.currentToken.type, e) :: rest) p'

/-- From state `p` the input reads as the statements `stmts`, in this order, followed by
`EndOfFile`: each is what `parseStatement` returns where the previous one ended; `p'` is
the state reached. -/
inductive StatementRun {V : Type} (F : Float64 V) :
    Parser V → List (StatementNode V) → Parser V → Prop where
  | nil (p : Parser V) : p.currentToken.type = TOKEN_EOF → StatementRun F p [] p
  | cons (p p1 p' : Parser V) (s : StatementNode V) (rest : List (StatementNode V)) :
      p.currentToken.type ≠ TOKEN_EOF → p.currentToken.type ≠ TOKEN_ERROR →
      Parser.parseStatement F p = .ok s p1 →
      StatementRun F p1 rest p' →
      StatementRun F p (s :: rest) p'

/-- The parser's lookahead was read from its lexer. -/
def Parser.Fed {V : Type} (F : Float64 V) (p : Parser V) : Prop :=
  ∃ q : Parser V, p = q.advanceToken F

/-- Lexing and parsing a source text with a fresh lexer and parser. -/
def parseSource {V : Type} (F : Float64 V) (source : List Char) :
    ParseResult V (ProgramNode V) :=
  Parser.parseProgram F (Parser.new F (Lexer.new source))

/-! ## A missing operand -/

def IsBinaryOperator (k : TokenType) : Prop :=
  isAdditive k = true ∨ isMultiplicative k = true

/-- The kinds `ks` can be continued to a program of the grammar. -/
def ViablePrefix (ks : List TokenType) : Prop :=
  ∃ suffix : List TokenType, Generates .program (ks ++ suffix)

/-- The result is the `ParseError` "Expected a number or a parenthesized expression."
thrown with the lookahead at the front of the pending tokens `t :: rest`. -/
def MissingOperand {V α : Type} (F : Float64 V) (result : ParseResult V α) (t : TokenType)
    (rest : List TokenType) : Prop :=
  ∃ p' : Parser V,
    result =
      .error (Parser.errorAt p'.currentToken "Expected a number or a parenthesized expression.")
        p' ∧
    kinds (p'.pending F) = t :: rest

/-- What the parsing function of a nonterminal does on a stream that agrees with a string
of that nonterminal up to a binary operator `op` and continues with a token `t` that
starts no operand. -/
def Rejects {V : Type} (F : Float64 V) : NonTerminal → List TokenType → Prop
  | .factor, ks => ∀ (a b : List TokenType) (op t : TokenType) (rest : List TokenType)
      (p : Parser V), ks = a ++ op :: b → IsBinaryOperator op →
      t ≠ TOKEN_NUMBER → t ≠ TOKEN_LPAREN → kinds (p.pending F) = a ++ op :: t :: rest →
      MissingOperand F (Parser.parseFactor F p) t rest
  | .termTail, ks => ∀ (a b : List TokenType) (op t : TokenType) (rest : List TokenType)
      (p : Parser V) (left : ExprNode V), ks = a ++ op :: b → IsBinaryOperator op →
      t ≠ TOKEN_NUMBER → t ≠ TOKEN_LPAREN → kinds (p.pending F) = a ++ op :: t :: rest →
      MissingOperand F (Parser.parseTermRest F left p) t rest
  | .term, ks => ∀ (a b : List TokenType) (op t : TokenType) (rest : List TokenType)
      (p : Parser V), ks = a ++ op :: b → IsBinaryOperator op →
      t ≠ TOKEN_NUMBER → t ≠ TOKEN_LPAREN → kinds (p.pending F) = a ++ op :: t :: rest →
      MissingOperand F (Parser.parseTerm F p) t rest
  | .exprTail, ks => ∀ (a b : List TokenType) (op t : TokenType) (rest : List TokenType)
      (p : Parser V) (left : ExprNode V), ks = a ++ op :: b → IsBinaryOperator op →
      t ≠ TOKEN_NUMBER → t ≠ TOKEN_LPAREN → kinds (p.pending F) = a ++ op :: t :: rest →
      MissingOperand F (Parser.parseExpressionRest F left p) t rest
  | .expression, ks => ∀ (a b : List TokenType) (op t : TokenType) (rest : List TokenType)
      (p : Parser V), ks = a ++ op :: b → IsBinaryOperator op →
      t ≠ TOKEN_NUMBER → t ≠ TOKEN_LPAREN → kinds (p.pending F) = a ++ op :: t :: rest →
      MissingOperand F (Parser.parseExpression F p) t rest
  | .statement, ks => ∀ (a b : List TokenType) (op t : TokenType) (rest : List TokenType)
      (p : Parser V), ks = a ++ op :: b → IsBinaryOperator op →
      t ≠ TOKEN_NUMBER → t ≠ TOKEN_LPAREN → kinds (p.pending F) = a ++ op :: t :: rest →
      MissingOperand F (Parser.parseStatement F p) t rest
  | .program, ks => ∀ (a b : List TokenType) (op t : TokenType) (rest : List TokenType)
      (p : Parser V) (prog : ProgramNode V), ks = a ++ op :: b → IsBinaryOperator op →
      t ≠ TOKEN_NUMBER → t ≠ TOKEN_LPAREN → kinds (p.pending F) = a ++ op :: t :: rest →
      MissingOperand F (Parser.parseProgramRest F prog p) t rest

/-! ## Trees and the tokens that spell them -/

/-- The fully parenthesised token sequence of a tree, tokens given by kind, lexeme and
value: a `NumberNode` is one `Number` token with its value, and a `BinaryOpNode` is `(`,
the left operand, the operator token, the right operand, `)`. -/
inductive Renders {V : Type} : ExprNode V → List (TokenType × String × V) → Prop where
  | number (x : String) (v : V) : Renders (.NumberNode v) [(TOKEN_NUMBER, x, v)]
  | binary (o : TokenType) (l r : ExprNode V) (tl tr : List (TokenType × String × V))
      (x1 x2 x3 : String) (v1 v2 v3 : V) :
      IsBinaryOperator o → Renders l tl → Renders r tr →
      Renders (.BinaryOpNode (opChar o) (some l) (some r))
        ((TOKEN_LPAREN, x1, v1) :: (tl ++ (o, x2, v2) :: (tr ++ [(TOKEN_RPAREN, x3, v3)])))


/-- Trees without a null child, with operators among `+ - * /`, whose numbers are values
that `std::stod` gives to a numeric literal. -/
inductive ExprNode.Writable {V : Type} (F : Float64 V) : ExprNode V → Prop where
  | number (n : List Char) (v : V) : IsNumericLiteral n → F.stod (String.mk n) = .value v →
      ExprNode.Writable F (.NumberNode v)
  | binary (op : Char) (left right : ExprNode V) :
      (op = '+' ∨ op = '-' ∨ op = '*' ∨ op = '/') →
      ExprNode.Writable F left → ExprNode.Writable F right →
      ExprNode.Writable F (.BinaryOpNode op (some left) (some right))


/-! ## Counting nodes and tokens -/

/-- The values of the `NumberNode`s of a tree, from left to right. -/
def ExprNode.numbers {V : Type} : ExprNode V → List V
  | .NumberNode value => [value]
  | .BinaryOpNode _ (some left) (some right) => left.numbers ++ right.numbers
  | .BinaryOpNode _ (some left) none => left.numbers
  | .BinaryOpNode _ none (some right) => right.numbers
  | .BinaryOpNode _ none none => []

/-- The number of `BinaryOpNode`s of a tree. -/
def ExprNode.operations {V : Type} : ExprNode V → Nat
  | .NumberNode _ => 0
  | .BinaryOpNode _ (some left) (some right) => left.operations + right.operations + 1
  | .BinaryOpNode _ (some left) none => left.operations + 1
  | .BinaryOpNode _ none (some right) => right.operations + 1
  | .BinaryOpNode _ none none => 1

/-- The values of the `NumberNode`s of the statements of a program, in order. -/
def ProgramNode.numbers {V : Type} (prog : ProgramNode V) : List V :=
  (prog.statements.map (fun s =>
    match s with
    | some (.PrintNode (some e)) => e.numbers
    | _ => [])).flatten

/-- The number of `BinaryOpNode`s of the statements of a program. -/
def ProgramNode.operations {V : Type} (prog : ProgramNode V) : Nat :=
  (prog.statements.map (fun s =>
    match s with
    | some (.PrintNode (some e)) => e.operations
    | _ => 0)).sum

/-- The values of the `Number` tokens of a list of tokens, in order. -/
def numberValues {V : Type} (ts : List (Token V)) : List V :=
  ts.filterMap (fun t => if t.type = TOKEN_NUMBER then some t.value else none)

/-- The number of tokens of a list whose kind is accepted by `isKind`. -/
def countKind {V : Type} (isKind : TokenType → Bool) (ts : List (Token V)) : Nat :=
  ts.countP (fun t => isKind t.type)

/-- The kinds `+`, `-`, `*` and `/`. -/
def isOperator (t : TokenType) : Bool := isAdditive t || isMultiplicative t

/-- From the state `p` the parser reaches the state `p'` by consuming tokens that hold the
`Number` values `ns` in this order, `ops` operator tokens, `prints` `PRINT` tokens and
`semis` `;` tokens. -/
def Parser.Consumed {V : Type} (F : Float64 V) (p p' : Parser V) (ns : List V)
    (ops prints semis : Nat) : Prop :=
  ∃ consumed : List (Token V),
    p.pending F = consumed ++ p'.pending F ∧ numberValues consumed = ns ∧
      countKind isOperator consumed = ops ∧
      countKind (fun k => decide (k = TOKEN_PRINT)) consumed = prints ∧
      countKind (fun k => decide (k = TOKEN_SEMICOLON)) consumed = semis

/-! ## Pipeline (`main.cpp`) -/

/-- How a run of the pipeline on a source text ends; `output` lists the values written
by the `PRINT` statements executed. -/
inductive Outcome (V : Type) where
  | emptySource
  | lexicalError (token : Token V)
  | parseError (e : ParseError)
  | runtimeError (message : String) (output : List V)
  | finished (output : List V)
  | outOfFuel
deriving DecidableEq, Repr

/-- The values written to standard output by the `PRINT` statements of a run. -/
def Outcome.output {V : Type} : Outcome V → List V
  | .runtimeError _ output => output
  | .finished output => output
  | _ => []

/-- The token-listing loop of `main`: the first `Error` or `EndOfFile` token. -/
def lastListedToken {V : Type} (F : Float64 V) : Nat → Token V → Lexer → Token V
  | 0, token, _ => token
  | fuel + 1, token, lexer =>
    if token.type ≠ TOKEN_EOF ∧ token.type ≠ TOKEN_ERROR then
      lastListedToken F fuel (lexer.getNextToken F).1 (lexer.getNextToken F).2
    else token

/-- The pipeline of `main` from the source text on: list the tokens, parse, execute. -/
def run {V : Type} (F : Float64 V) (source_code : List Char) : Outcome V :=
  if source_code.isEmpty then .emptySource
  else
    let lexer := Lexer.new source_code
    let token :=
      lastListedToken F (source_code.length + 1) (lexer.getNextToken F).1 (lexer.getNextToken F).2
    if token.type = TOKEN_ERROR then .lexicalError token
    else
      match Parser.parseProgram F (Parser.new F (Lexer.new source_code)) with
      | .error e _ => .parseError e
      | .outOfFuel => .outOfFuel
      | .ok ast_root _ =>
        match ast_root.execute F with
        | { output := out, thrown := some e } => .runtimeError e out
        | { output := out, thrown := none } => .finished out

/-! ## Exact decimal instance -/

/-- Value of a digit string read in base ten. -/
def digitsValue (cs : List Char) : Nat :=
  cs.foldl (fun acc c => 10 * acc + (c.toNat - 48)) 0

/-- Exact value of a literal `[0-9]+(\.[0-9]+)?`. -/
def decimalValue (s : String) : ℚ :=
  let intPart := s.data.takeWhile (fun c => c ≠ '.')
  let fracPart := (s.data.dropWhile (fun c => c ≠ '.')).drop 1
  (digitsValue intPart : ℚ) + (digitsValue fracPart : ℚ) / (10 : ℚ) ^ fracPart.length

/-- Exact rational arithmetic with exact decimal conversion. -/
def exact : Float64 ℚ where
  zero := 0
  add := fun x y => x + y
  sub := fun x y => x - y
  mul := fun x y => x * y
  div := fun x y => x / y
  eqZero := fun x => decide (x = 0)
  stod := fun s => .value (decimalValue s)

/-! ## The lexer only moves forward -/

namespace Lexer

/-- The scan position of `l'` is at or after that of `l`, in the same source. -/
def Reaches (l l' : Lexer) : Prop :=
  l'.source_code = l.source_code ∧ l.current_pos ≤ l'.current_pos

theorem Reaches.refl (l : Lexer) : Reaches l l := ⟨rfl, Nat.le_refl _⟩

theorem Reaches.trans {a b c : Lexer} (h1 : Reaches a b) (h2 : Reaches b c) : Reaches a c :=
  ⟨h2.1.trans h1.1, Nat.le_trans h1.2 h2.2⟩

theorem Reaches.remaining_le {l l' : Lexer} (h : Reaches l l') : l'.remaining ≤ l.remaining := by
  unfold remaining
  rw [h.1]
  have := h.2
  omega

theorem advance_reaches (l : Lexer) : Reaches l l.advance.2 := by
  unfold advance
  split
  · exact Reaches.refl l
  · exact ⟨rfl, Nat.le_succ _⟩

theorem advance_pos_of_not_atEnd (l : Lexer) (h : l.isAtEnd = false) :
    l.advance.2.current_pos = l.current_pos + 1 := by
  simp [advance, h]

theorem skipCommentLoop_reaches (n : Nat) (l : Lexer) : Reaches l (skipCommentLoop n l) := by
  induction n generalizing l with
  | zero => exact Reaches.refl l
  | succ n ih =>
    unfold skipCommentLoop
    split
    · exact (advance_reaches l).trans (ih _)
    · exact Reaches.refl l

theorem skipLoop_reaches (n : Nat) (l : Lexer) : Reaches l (skipLoop n l) := by
  induction n generalizing l with
  | zero => exact Reaches.refl l
  | succ n ih =>
    unfold skipLoop
    split
    · exact Reaches.refl l
    · simp only
      split
      · refine Reaches.trans ?_ (ih _)
        split
        · exact Reaches.trans ⟨rfl, Nat.le_refl _⟩ (advance_reaches _)
        · exact advance_reaches l
      · split
        · refine Reaches.trans ?_ (ih _)
          have h1 := skipCommentLoop_reaches l.remaining l
          split
          · exact h1.trans (Reaches.trans (advance_reaches _) ⟨rfl, Nat.le_refl _⟩)
          · exact h1
        · exact Reaches.refl l

theorem skipWhitespaceAndComments_reaches (l : Lexer) :
    Reaches l l.skipWhitespaceAndComments :=
  skipLoop_reaches _ l

theorem digitLoop_reaches (n : Nat) (l : Lexer) : Reaches l (digitLoop n l) := by
  induction n generalizing l with
  | zero => exact Reaches.refl l
  | succ n ih =>
    unfold digitLoop
    split
    · exact (advance_reaches l).trans (ih _)
    · exact Reaches.refl l

theorem identLoop_reaches (n : Nat) (l : Lexer) : Reaches l (identLoop n l) := by
  induction n generalizing l with
  | zero => exact Reaches.refl l
  | succ n ih =>
    unfold identLoop
    split
    · exact (advance_reaches l).trans (ih _)
    · exact Reaches.refl l

theorem peek_of_not_atEnd (l : Lexer) (h : l.isAtEnd = false) :
    l.peek = l.charAt l.current_pos := by
  simp [peek, h]

theorem advance_fst_of_not_atEnd (l : Lexer) (h : l.isAtEnd = false) :
    l.advance.1 = l.charAt l.current_pos := by
  simp [advance, h]

theorem remaining_pos_of_not_atEnd (l : Lexer) (h : l.isAtEnd = false) : 0 < l.remaining := by
  simp [isAtEnd] at h
  unfold remaining
  omega

theorem digitLoop_advances (l : Lexer) (h : l.isAtEnd = false) (hd : isdigit l.peek = true) :
    l.current_pos + 1 ≤ (digitLoop l.remaining l).current_pos := by
  obtain ⟨n, hn⟩ := Nat.exists_eq_succ_of_ne_zero (Nat.pos_iff_ne_zero.mp
    (remaining_pos_of_not_atEnd l h))
  rw [hn]
  unfold digitLoop
  rw [if_pos hd]
  have := (digitLoop_reaches n l.advance.2).2
  rw [advance_pos_of_not_atEnd l h] at this
  exact this

theorem identLoop_advances (l : Lexer) (h : l.isAtEnd = false)
    (hd : isalnum l.peek = true ∨ l.peek = '_') :
    l.current_pos + 1 ≤ (identLoop l.remaining l).current_pos := by
  obtain ⟨n, hn⟩ := Nat.exists_eq_succ_of_ne_zero (Nat.pos_iff_ne_zero.mp
    (remaining_pos_of_not_atEnd l h))
  rw [hn]
  unfold identLoop
  rw [if_pos hd]
  have := (identLoop_reaches n l.advance.2).2
  rw [advance_pos_of_not_atEnd l h] at this
  exact this

/-- The lexer state left by `number`, whatever the conversion yields. -/
theorem number_snd {V : Type} (F : Float64 V) (l : Lexer) :
    (number F l).2 =
      (if (digitLoop l.remaining l).peek = '.' ∧
          isdigit ((digitLoop l.remaining l).charAt ((digitLoop l.remaining l).current_pos + 1))
        then digitLoop (digitLoop l.remaining l).advance.2.remaining
          (digitLoop l.remaining l).advance.2
        else digitLoop l.remaining l) := by
  unfold number
  simp only
  split <;> rfl

theorem number_reaches {V : Type} (F : Float64 V) (l : Lexer) : Reaches l (number F l).2 := by
  rw [number_snd]
  split
  · exact (digitLoop_reaches _ l).trans ((advance_reaches _).trans (digitLoop_reaches _ _))
  · exact digitLoop_reaches _ l

theorem number_advances {V : Type} (F : Float64 V) (l : Lexer) (h : l.isAtEnd = false)
    (hd : isdigit l.peek = true) : l.current_pos + 1 ≤ (number F l).2.current_pos := by
  have h1 := digitLoop_advances l h hd
  rw [number_snd]
  split
  · have := ((advance_reaches (digitLoop l.remaining l)).trans
      (digitLoop_reaches (digitLoop l.remaining l).advance.2.remaining _)).2
    omega
  · exact h1

theorem number_type {V : Type} (F : Float64 V) (l : Lexer) :
    (number F l).1.type = TOKEN_NUMBER ∨ (number F l).1.type = TOKEN_ERROR := by
  unfold number
  simp only
  split <;> simp [errorToken]

theorem identifierOrKeyword_snd {V : Type} (F : Float64 V) (l : Lexer) :
    (identifierOrKeyword F l).2 = identLoop l.remaining l := by
  unfold identifierOrKeyword
  simp only
  split <;> rfl

theorem identifierOrKeyword_type {V : Type} (F : Float64 V) (l : Lexer) :
    (identifierOrKeyword F l).1.type = TOKEN_PRINT ∨
      (identifierOrKeyword F l).1.type = TOKEN_ERROR := by
  unfold identifierOrKeyword
  simp only
  split
  · rename_i ty h
    unfold keywords at h
    split at h
    · left; simp at h; simp [← h]
    · simp at h
  · right; simp [errorToken]

theorem restore_pos (l : Lexer) (h : l.isAtEnd = false) :
    ({ l.advance.2 with current_pos := l.advance.2.current_pos - 1 } : Lexer) = l := by
  simp [advance, h]

/-- Unfolding of `getNextToken` after the whitespace has been skipped. -/
theorem getNextToken_eq {V : Type} (F : Float64 V) (l0 : Lexer) :
    getNextToken F l0 =
      (let l := l0.skipWhitespaceAndComments
       if l.isAtEnd then (l.makeToken F TOKEN_EOF "", l)
       else
         let c := l.charAt l.current_pos
         let l1 : Lexer := { l with current_pos := l.current_pos + 1 }
         let col : Int := ((l.current_pos : Int) - l.current_column_start_of_line) + 1
         let tok (ty : TokenType) (lex : String) : Token V :=
           { type := ty, lexeme := lex, value := F.zero, line := l.current_line, column := col }
         if isalpha c ∨ c = '_' then identifierOrKeyword F l
         else if isdigit c then number F l
         else if c = '(' then (tok TOKEN_LPAREN "(", l1)
         else if c = ')' then (tok TOKEN_RPAREN ")", l1)
         else if c = ';' then (tok TOKEN_SEMICOLON ";", l1)
         else if c = '+' then (tok TOKEN_PLUS "+", l1)
         else if c = '-' then (tok TOKEN_MINUS "-", l1)
         else if c = '*' then (tok TOKEN_STAR "*", l1)
         else if c = '/' then (tok TOKEN_SLASH "/", l1)
         else (l1.errorToken F ("Unexpected character: " ++ String.singleton c), l1)) := by
  unfold getNextToken
  generalize l0.skipWhitespaceAndComments = l
  dsimp only
  cases h : l.isAtEnd
  · have e1 := restore_pos l h
    have e2 : l.advance = (l.charAt l.current_pos, { l with current_pos := l.current_pos + 1 }) := by
      simp [advance, h]
    rw [e1]
    rw [e2]
    simp only [Bool.false_eq_true, if_false, Nat.cast_add, Nat.cast_one, add_sub_cancel_right]
  · simp only [if_true]

/-- The lexer state after `getNextToken`: one of three shapes. -/
theorem getNextToken_snd_cases {V : Type} (F : Float64 V) (l0 : Lexer) :
    (l0.skipWhitespaceAndComments.isAtEnd = true ∧
        getNextToken F l0 =
          (l0.skipWhitespaceAndComments.makeToken F TOKEN_EOF "", l0.skipWhitespaceAndComments)) ∨
    (l0.skipWhitespaceAndComments.isAtEnd = false ∧
      ((isalpha l0.skipWhitespaceAndComments.peek = true ∨ l0.skipWhitespaceAndComments.peek = '_') ∧
        getNextToken F l0 = identifierOrKeyword F l0.skipWhitespaceAndComments ∨
       isdigit l0.skipWhitespaceAndComments.peek = true ∧
        getNextToken F l0 = number F l0.skipWhitespaceAndComments ∨
       (getNextToken F l0).1.type ≠ TOKEN_EOF ∧
        (getNextToken F l0).2 =
          { l0.skipWhitespaceAndComments with
            current_pos := l0.skipWhitespaceAndComments.current_pos + 1 })) := by
  rw [getNextToken_eq]
  generalize l0.skipWhitespaceAndComments = l
  dsimp only
  cases hend : l.isAtEnd
  · right
    refine ⟨rfl, ?_⟩
    rw [peek_of_not_atEnd l hend]
    simp only [Bool.false_eq_true, if_false]
    by_cases h1 : isalpha (l.charAt l.current_pos) = true ∨ l.charAt l.current_pos = '_'
    · left; exact ⟨h1, by rw [if_pos h1]⟩
    · rw [if_neg h1]
      by_cases h2 : isdigit (l.charAt l.current_pos) = true
      · right; left; exact ⟨h2, by rw [if_pos h2]⟩
      · rw [if_neg h2]
        right; right
        by_cases h3 : l.charAt l.current_pos = '('
        · rw [if_pos h3]; exact ⟨by simp, rfl⟩
        rw [if_neg h3]
        by_cases h4 : l.charAt l.current_pos = ')'
        · rw [if_pos h4]; exact ⟨by simp, rfl⟩
        rw [if_neg h4]
        by_cases h5 : l.charAt l.current_pos = ';'
        · rw [if_pos h5]; exact ⟨by simp, rfl⟩
        rw [if_neg h5]
        by_cases h6 : l.charAt l.current_pos = '+'
        · rw [if_pos h6]; exact ⟨by simp, rfl⟩
        rw [if_neg h6]
        by_cases h7 : l.charAt l.current_pos = '-'
        · rw [if_pos h7]; exact ⟨by simp, rfl⟩
        rw [if_neg h7]
        by_cases h8 : l.charAt l.current_pos = '*'
        · rw [if_pos h8]; exact ⟨by simp, rfl⟩
        rw [if_neg h8]
        by_cases h9 : l.charAt l.current_pos = '/'
        · rw [if_pos h9]; exact ⟨by simp, rfl⟩
        rw [if_neg h9]
        exact ⟨by simp [errorToken], rfl⟩
  · left
    simp

theorem getNextToken_reaches {V : Type} (F : Float64 V) (l : Lexer) :
    Reaches l (getNextToken F l).2 := by
  refine (skipWhitespaceAndComments_reaches l).trans ?_
  rcases getNextToken_snd_cases F l with ⟨_, h⟩ | ⟨_, ⟨_, h⟩ | ⟨_, h⟩ | ⟨_, h⟩⟩
  · rw [h]; exact Reaches.refl _
  · rw [h, identifierOrKeyword_snd]; exact identLoop_reaches _ _
  · rw [h]; exact number_reaches F _
  · rw [h]; exact ⟨rfl, Nat.le_succ _⟩

/-- Every token other than `EndOfFile` consumes at least one character. -/
theorem getNextToken_progress {V : Type} (F : Float64 V) (l : Lexer)
    (h : (getNextToken F l).1.type ≠ TOKEN_EOF) :
    (getNextToken F l).2.remaining < l.remaining := by
  have hs := skipWhitespaceAndComments_reaches l
  have key : ∀ l' : Lexer, l.skipWhitespaceAndComments.isAtEnd = false →
      l'.source_code = l.source_code →
      l.skipWhitespaceAndComments.current_pos + 1 ≤ l'.current_pos →
      l'.remaining < l.remaining := by
    intro l' hend h1 h2
    have hlt : l.skipWhitespaceAndComments.current_pos < l.source_code.length := by
      have := hend
      simp [isAtEnd, hs.1] at this
      exact this
    unfold remaining
    rw [h1]
    have := hs.2
    omega
  rcases getNextToken_snd_cases F l with ⟨_, h'⟩ | ⟨hend, ⟨hc, h'⟩ | ⟨hc, h'⟩ | ⟨_, h'⟩⟩
  · rw [h'] at h
    simp [makeToken] at h
  · rw [h', identifierOrKeyword_snd]
    refine key _ hend ((identLoop_reaches _ _).1.trans hs.1) ?_
    apply identLoop_advances _ hend
    rcases hc with hc | hc
    · left; simp [isalnum, hc]
    · right; exact hc
  · rw [h']
    exact key _ hend ((number_reaches F _).1.trans hs.1) (number_advances F _ hend hc)
  · rw [h']
    exact key _ hend hs.1 (Nat.le_refl _)

end Lexer

/-! ## Fuel of the parsing functions -/

namespace Parser

variable {V : Type} (F : Float64 V)

theorem matchType_iff (p : Parser V) (t : TokenType) :
    p.matchType t = true ↔ p.currentToken.type = t := by
  unfold matchType
  split <;> simp [*]

theorem advanceToken_potential_lt (p : Parser V) (h : p.currentToken.type ≠ TOKEN_EOF) :
    (p.advanceToken F).potential < p.potential := by
  unfold potential advanceToken
  simp only [if_neg h]
  have hr := (Lexer.getNextToken_reaches F p.lexer).remaining_le
  split
  · omega
  · rename_i h2
    have := Lexer.getNextToken_progress F p.lexer h2
    omega

theorem parseExpressionFuel_succ (n : Nat) (p : Parser V) :
    parseExpressionFuel F (n + 1) p =
      (match parseTermFuel F n p with
       | .ok left p1 => parseExpressionLoop F n left p1
       | .error e p1 => .error e p1
       | .outOfFuel => .outOfFuel) := by
  rw [parseExpressionFuel]

theorem parseExpressionLoop_succ (n : Nat) (left : ExprNode V) (p : Parser V) :
    parseExpressionLoop F (n + 1) left p =
      (if p.matchType TOKEN_PLUS || p.matchType TOKEN_MINUS then
        match parseTermFuel F n (p.advanceToken F) with
        | .ok right p2 =>
          parseExpressionLoop F n
            (.BinaryOpNode p.currentToken.lexeme0 (some left) (some right)) p2
        | .error e p2 => .error e p2
        | .outOfFuel => .outOfFuel
      else .ok left p) := by
  rw [parseExpressionLoop]

theorem parseTermFuel_succ (n : Nat) (p : Parser V) :
    parseTermFuel F (n + 1) p =
      (match parseFactorFuel F n p with
       | .ok left p1 => parseTermLoop F n left p1
       | .error e p1 => .error e p1
       | .outOfFuel => .outOfFuel) := by
  rw [parseTermFuel]

theorem parseTermLoop_succ (n : Nat) (left : ExprNode V) (p : Parser V) :
    parseTermLoop F (n + 1) left p =
      (if p.matchType TOKEN_STAR || p.matchType TOKEN_SLASH then
        match parseFactorFuel F n (p.advanceToken F) with
        | .ok right p2 =>
          parseTermLoop F n
            (.BinaryOpNode p.currentToken.lexeme0 (some left) (some right)) p2
        | .error e p2 => .error e p2
        | .outOfFuel => .outOfFuel
      else .ok left p) := by
  rw [parseTermLoop]

theorem parseFactorFuel_succ (n : Nat) (p : Parser V) :
    parseFactorFuel F (n + 1) p =
      (if p.matchType TOKEN_NUMBER then
        .ok (.NumberNode p.currentToken.value) (p.advanceToken F)
      else if p.matchType TOKEN_LPAREN then
        match parseExpressionFuel F n (p.advanceToken F) with
        | .ok expr p1 =>
          match consume F p1 TOKEN_RPAREN "Expected ')' after expression in parentheses." with
          | .ok _ p2 => .ok expr p2
          | .error e p2 => .error e p2
          | .outOfFuel => .outOfFuel
        | .error e p1 => .error e p1
        | .outOfFuel => .outOfFuel
      else .error (errorAt p.currentToken "Expected a number or a parenthesized expression.") p) := by
  rw [parseFactorFuel]

theorem consume_ne_outOfFuel (p : Parser V) (t : TokenType) (msg : String) :
    consume F p t msg ≠ .outOfFuel := by
  unfold consume
  split <;> simp

/-- One more unit of fuel does not change a result that was reached. -/
theorem fuel_stable (n : Nat) :
    (∀ p, parseExpressionFuel F n p ≠ .outOfFuel →
      parseExpressionFuel F (n + 1) p = parseExpressionFuel F n p) ∧
    (∀ left p, parseExpressionLoop F n left p ≠ .outOfFuel →
      parseExpressionLoop F (n + 1) left p = parseExpressionLoop F n left p) ∧
    (∀ p, parseTermFuel F n p ≠ .outOfFuel →
      parseTermFuel F (n + 1) p = parseTermFuel F n p) ∧
    (∀ left p, parseTermLoop F n left p ≠ .outOfFuel →
      parseTermLoop F (n + 1) left p = parseTermLoop F n left p) ∧
    (∀ p, parseFactorFuel F n p ≠ .outOfFuel →
      parseFactorFuel F (n + 1) p = parseFactorFuel F n p) := by
  induction n with
  | zero =>
    refine ⟨?_, ?_, ?_, ?_, ?_⟩
    · intro p h; exact absurd (by rw [parseExpressionFuel]) h
    · intro l p h; exact absurd (by rw [parseExpressionLoop]) h
    · intro p h; exact absurd (by rw [parseTermFuel]) h
    · intro l p h; exact absurd (by rw [parseTermLoop]) h
    · intro p h; exact absurd (by rw [parseFactorFuel]) h
  | succ n ih =>
    obtain ⟨ihE, ihEL, ihT, ihTL, ihF⟩ := ih
    refine ⟨?_, ?_, ?_, ?_, ?_⟩
    · intro p h
      rw [parseExpressionFuel_succ F (n + 1), parseExpressionFuel_succ F n] at *
      cases hT : parseTermFuel F n p with
      | ok left p1 =>
        rw [hT] at h
        rw [ihT p (by rw [hT]; simp), hT]
        exact ihEL left p1 h
      | error e p1 => rw [ihT p (by rw [hT]; simp), hT]
      | outOfFuel => rw [hT] at h; exact absurd rfl h
    · intro left p h
      rw [parseExpressionLoop_succ F (n + 1), parseExpressionLoop_succ F n] at *
      split
      · rename_i hop
        rw [if_pos hop] at h
        cases hT : parseTermFuel F n (p.advanceToken F) with
        | ok right p2 =>
          rw [hT] at h
          rw [ihT _ (by rw [hT]; simp), hT]
          exact ihEL _ p2 h
        | error e p1 => rw [ihT _ (by rw [hT]; simp), hT]
        | outOfFuel => rw [hT] at h; exact absurd rfl h
      · rfl
    · intro p h
      rw [parseTermFuel_succ F (n + 1), parseTermFuel_succ F n] at *
      cases hT : parseFactorFuel F n p with
      | ok left p1 =>
        rw [hT] at h
        rw [ihF p (by rw [hT]; simp), hT]
        exact ihTL left p1 h
      | error e p1 => rw [ihF p (by rw [hT]; simp), hT]
      | outOfFuel => rw [hT] at h; exact absurd rfl h
    · intro left p h
      rw [parseTermLoop_succ F (n + 1), parseTermLoop_succ F n] at *
      split
      · rename_i hop
        rw [if_pos hop] at h
        cases hT : parseFactorFuel F n (p.advanceToken F) with
        | ok right p2 =>
          rw [hT] at h
          rw [ihF _ (by rw [hT]; simp), hT]
          exact ihTL _ p2 h
        | error e p1 => rw [ihF _ (by rw [hT]; simp), hT]
        | outOfFuel => rw [hT] at h; exact absurd rfl h
      · rfl
    · intro p h
      rw [parseFactorFuel_succ F (n + 1), parseFactorFuel_succ F n] at *
      split
      · rfl
      · split
        · rename_i hn hl
          rw [if_neg hn, if_pos hl] at h
          cases hE : parseExpressionFuel F n (p.advanceToken F) with
          | ok expr p1 =>
            rw [ihE _ (by rw [hE]; simp), hE]
          | error e p1 => rw [ihE _ (by rw [hE]; simp), hE]
          | outOfFuel => rw [hE] at h; exact absurd rfl h
        · rfl

/-- More fuel does not change a result that was reached. -/
theorem fuel_stable_le {n m : Nat} (hnm : n ≤ m) :
    (∀ p, parseExpressionFuel F n p ≠ .outOfFuel →
      parseExpressionFuel F m p = parseExpressionFuel F n p) ∧
    (∀ left p, parseExpressionLoop F n left p ≠ .outOfFuel →
      parseExpressionLoop F m left p = parseExpressionLoop F n left p) ∧
    (∀ p, parseTermFuel F n p ≠ .outOfFuel →
      parseTermFuel F m p = parseTermFuel F n p) ∧
    (∀ left p, parseTermLoop F n left p ≠ .outOfFuel →
      parseTermLoop F m left p = parseTermLoop F n left p) ∧
    (∀ p, parseFactorFuel F n p ≠ .outOfFuel →
      parseFactorFuel F m p = parseFactorFuel F n p) := by
  induction hnm with
  | refl => exact ⟨fun _ _ => rfl, fun _ _ _ => rfl, fun _ _ => rfl, fun _ _ _ => rfl, fun _ _ => rfl⟩
  | step _ ih =>
    rename_i k _
    obtain ⟨ihE, ihEL, ihT, ihTL, ihF⟩ := ih
    obtain ⟨sE, sEL, sT, sTL, sF⟩ := fuel_stable F k
    refine ⟨?_, ?_, ?_, ?_, ?_⟩
    · intro p h; rw [sE p (by rw [ihE p h]; exact h), ihE p h]
    · intro l p h; rw [sEL l p (by rw [ihEL l p h]; exact h), ihEL l p h]
    · intro p h; rw [sT p (by rw [ihT p h]; exact h), ihT p h]
    · intro l p h; rw [sTL l p (by rw [ihTL l p h]; exact h), ihTL l p h]
    · intro p h; rw [sF p (by rw [ihF p h]; exact h), ihF p h]

theorem advanceToken_potential_le (p : Parser V) :
    (p.advanceToken F).potential ≤ p.potential := by
  unfold potential advanceToken
  have hr := (Lexer.getNextToken_reaches F p.lexer).remaining_le
  dsimp only
  split
  · omega
  · rename_i h2
    have := Lexer.getNextToken_progress F p.lexer h2
    omega

theorem consume_potential_le (p p' : Parser V) (t : TokenType) (msg : String) (u : Unit)
    (h : consume F p t msg = .ok u p') : p'.potential ≤ p.potential := by
  unfold consume at h
  split at h
  · simp only [ParseResult.ok.injEq, true_and] at h
    rw [← h]
    exact advanceToken_potential_le F p
  · simp at h

theorem ne_EOF_of_or_matchType {p : Parser V} {a b : TokenType}
    (h : (p.matchType a || p.matchType b) = true) (ha : a ≠ TOKEN_EOF) (hb : b ≠ TOKEN_EOF) :
    p.currentToken.type ≠ TOKEN_EOF := by
  rw [Bool.or_eq_true, matchType_iff, matchType_iff] at h
  rcases h with h | h <;> rw [h] <;> assumption

/-- A successful parse never gives tokens back. -/
theorem potential_le (n : Nat) :
    (∀ p e p', parseExpressionFuel F n p = .ok e p' → p'.potential ≤ p.potential) ∧
    (∀ left p e p', parseExpressionLoop F n left p = .ok e p' → p'.potential ≤ p.potential) ∧
    (∀ p e p', parseTermFuel F n p = .ok e p' → p'.potential ≤ p.potential) ∧
    (∀ left p e p', parseTermLoop F n left p = .ok e p' → p'.potential ≤ p.potential) ∧
    (∀ p e p', parseFactorFuel F n p = .ok e p' → p'.potential ≤ p.potential) := by
  induction n with
  | zero =>
    refine ⟨?_, ?_, ?_, ?_, ?_⟩
    · intro p e p' h; rw [parseExpressionFuel] at h; simp at h
    · intro l p e p' h; rw [parseExpressionLoop] at h; simp at h
    · intro p e p' h; rw [parseTermFuel] at h; simp at h
    · intro l p e p' h; rw [parseTermLoop] at h; simp at h
    · intro p e p' h; rw [parseFactorFuel] at h; simp at h
  | succ n ih =>
    obtain ⟨ihE, ihEL, ihT, ihTL, ihF⟩ := ih
    refine ⟨?_, ?_, ?_, ?_, ?_⟩
    · intro p e p' h
      rw [parseExpressionFuel_succ] at h
      cases hT : parseTermFuel F n p with
      | ok left p1 =>
        rw [hT] at h
        exact Nat.le_trans (ihEL _ _ _ _ h) (ihT _ _ _ hT)
      | error e p1 => rw [hT] at h; simp at h
      | outOfFuel => rw [hT] at h; simp at h
    · intro left p e p' h
      rw [parseExpressionLoop_succ] at h
      split at h
      · cases hT : parseTermFuel F n (p.advanceToken F) with
        | ok right p2 =>
          rw [hT] at h
          exact Nat.le_trans (ihEL _ _ _ _ h)
            (Nat.le_trans (ihT _ _ _ hT) (advanceToken_potential_le F p))
        | error e p1 => rw [hT] at h; simp at h
        | outOfFuel => rw [hT] at h; simp at h
      · simp only [ParseResult.ok.injEq] at h
        rw [← h.2]
    · intro p e p' h
      rw [parseTermFuel_succ] at h
      cases hT : parseFactorFuel F n p with
      | ok left p1 =>
        rw [hT] at h
        exact Nat.le_trans (ihTL _ _ _ _ h) (ihF _ _ _ hT)
      | error e p1 => rw [hT] at h; simp at h
      | outOfFuel => rw [hT] at h; simp at h
    · intro left p e p' h
      rw [parseTermLoop_succ] at h
      split at h
      · cases hT : parseFactorFuel F n (p.advanceToken F) with
        | ok right p2 =>
          rw [hT] at h
          exact Nat.le_trans (ihTL _ _ _ _ h)
            (Nat.le_trans (ihF _ _ _ hT) (advanceToken_potential_le F p))
        | error e p1 => rw [hT] at h; simp at h
        | outOfFuel => rw [hT] at h; simp at h
      · simp only [ParseResult.ok.injEq] at h
        rw [← h.2]
    · intro p e p' h
      rw [parseFactorFuel_succ] at h
      split at h
      · simp only [ParseResult.ok.injEq] at h
        rw [← h.2]
        exact advanceToken_potential_le F p
      · split at h
        · cases hE : parseExpressionFuel F n (p.advanceToken F) with
          | ok expr p1 =>
            rw [hE] at h
            dsimp only at h
            cases hC : consume F p1 TOKEN_RPAREN "Expected ')' after expression in parentheses." with
            | ok u p2 =>
              rw [hC] at h
              simp only [ParseResult.ok.injEq] at h
              rw [← h.2]
              exact Nat.le_trans (consume_potential_le F _ _ _ _ _ hC)
                (Nat.le_trans (ihE _ _ _ hE) (advanceToken_potential_le F p))
            | error e p2 => rw [hC] at h; simp at h
            | outOfFuel => rw [hC] at h; simp at h
          | error e p1 => rw [hE] at h; simp at h
          | outOfFuel => rw [hE] at h; simp at h
        · simp at h

/-- The fuel supplied by the fuel-free entry points is enough. -/
theorem fuel_adequate (n : Nat) :
    (∀ p, 3 * p.potential + 5 ≤ n → parseExpressionFuel F n p ≠ .outOfFuel) ∧
    (∀ left p, 3 * p.potential + 2 ≤ n → parseExpressionLoop F n left p ≠ .outOfFuel) ∧
    (∀ p, 3 * p.potential + 4 ≤ n → parseTermFuel F n p ≠ .outOfFuel) ∧
    (∀ left p, 3 * p.potential + 1 ≤ n → parseTermLoop F n left p ≠ .outOfFuel) ∧
    (∀ p, 3 * p.potential + 3 ≤ n → parseFactorFuel F n p ≠ .outOfFuel) := by
  induction n with
  | zero =>
    refine ⟨?_, ?_, ?_, ?_, ?_⟩ <;> intros <;> omega
  | succ n ih =>
    obtain ⟨ihE, ihEL, ihT, ihTL, ihF⟩ := ih
    obtain ⟨pE, pEL, pT, pTL, pF⟩ := potential_le F n
    refine ⟨?_, ?_, ?_, ?_, ?_⟩
    · intro p hn
      rw [parseExpressionFuel_succ]
      cases hT : parseTermFuel F n p with
      | ok left p1 =>
        have := pT _ _ _ hT
        exact ihEL _ _ (by omega)
      | error e p1 => simp
      | outOfFuel => exact absurd hT (ihT p (by omega))
    · intro left p hn
      rw [parseExpressionLoop_succ]
      split
      · rename_i hop
        have hlt := advanceToken_potential_lt F p
          (ne_EOF_of_or_matchType hop (by decide) (by decide))
        cases hT : parseTermFuel F n (p.advanceToken F) with
        | ok right p2 =>
          have := pT _ _ _ hT
          exact ihEL _ _ (by omega)
        | error e p1 => simp
        | outOfFuel => exact absurd hT (ihT _ (by omega))
      · simp
    · intro p hn
      rw [parseTermFuel_succ]
      cases hT : parseFactorFuel F n p with
      | ok left p1 =>
        have := pF _ _ _ hT
        exact ihTL _ _ (by omega)
      | error e p1 => simp
      | outOfFuel => exact absurd hT (ihF p (by omega))
    · intro left p hn
      rw [parseTermLoop_succ]
      split
      · rename_i hop
        have hlt := advanceToken_potential_lt F p
          (ne_EOF_of_or_matchType hop (by decide) (by decide))
        cases hT : parseFactorFuel F n (p.advanceToken F) with
        | ok right p2 =>
          have := pF _ _ _ hT
          exact ihTL _ _ (by omega)
        | error e p1 => simp
        | outOfFuel => exact absurd hT (ihF _ (by omega))
      · simp
    · intro p hn
      rw [parseFactorFuel_succ]
      split
      · simp
      · split
        · rename_i hl
          have hlt := advanceToken_potential_lt F p (by
            rw [(matchType_iff p _).mp hl]; decide)
          cases hE : parseExpressionFuel F n (p.advanceToken F) with
          | ok expr p1 =>
            dsimp only
            cases hC : consume F p1 TOKEN_RPAREN "Expected ')' after expression in parentheses." with
            | ok u p2 => simp
            | error e p2 => simp
            | outOfFuel => exact absurd hC (consume_ne_outOfFuel F _ _ _)
          | error e p1 => simp
          | outOfFuel => exact absurd hE (ihE _ (by omega))
        · simp

end Parser

/-! ## The parsing functions as the source states them -/

namespace Parser

variable {V : Type} (F : Float64 V)

theorem parseFactor_ne_outOfFuel (p : Parser V) : parseFactor F p ≠ .outOfFuel :=
  (fuel_adequate F _).2.2.2.2 p (Nat.le_refl _)

theorem parseTerm_ne_outOfFuel (p : Parser V) : parseTerm F p ≠ .outOfFuel :=
  (fuel_adequate F _).2.2.1 p (Nat.le_refl _)

theorem parseTermRest_ne_outOfFuel (left : ExprNode V) (p : Parser V) :
    parseTermRest F left p ≠ .outOfFuel :=
  (fuel_adequate F _).2.2.2.1 left p (Nat.le_refl _)

theorem parseExpression_ne_outOfFuel (p : Parser V) : parseExpression F p ≠ .outOfFuel :=
  (fuel_adequate F _).1 p (Nat.le_refl _)

theorem parseExpressionRest_ne_outOfFuel (left : ExprNode V) (p : Parser V) :
    parseExpressionRest F left p ≠ .outOfFuel :=
  (fuel_adequate F _).2.1 left p (Nat.le_refl _)

theorem parseFactorFuel_eq {n : Nat} {p : Parser V} (h : 3 * p.potential + 3 ≤ n) :
    parseFactorFuel F n p = parseFactor F p :=
  (fuel_stable_le F h).2.2.2.2 p (parseFactor_ne_outOfFuel F p)

theorem parseTermFuel_eq {n : Nat} {p : Parser V} (h : 3 * p.potential + 4 ≤ n) :
    parseTermFuel F n p = parseTerm F p :=
  (fuel_stable_le F h).2.2.1 p (parseTerm_ne_outOfFuel F p)

theorem parseTermLoop_eq {n : Nat} {left : ExprNode V} {p : Parser V}
    (h : 3 * p.potential + 1 ≤ n) : parseTermLoop F n left p = parseTermRest F left p :=
  (fuel_stable_le F h).2.2.2.1 left p (parseTermRest_ne_outOfFuel F left p)

theorem parseExpressionFuel_eq {n : Nat} {p : Parser V} (h : 3 * p.potential + 5 ≤ n) :
    parseExpressionFuel F n p = parseExpression F p :=
  (fuel_stable_le F h).1 p (parseExpression_ne_outOfFuel F p)

theorem parseExpressionLoop_eq {n : Nat} {left : ExprNode V} {p : Parser V}
    (h : 3 * p.potential + 2 ≤ n) :
    parseExpressionLoop F n left p = parseExpressionRest F left p :=
  (fuel_stable_le F h).2.1 left p (parseExpressionRest_ne_outOfFuel F left p)

theorem parseFactor_potential (p p' : Parser V) (e : ExprNode V)
    (h : parseFactor F p = .ok e p') : p'.potential ≤ p.potential :=
  (potential_le F _).2.2.2.2 p e p' h

theorem parseTerm_potential (p p' : Parser V) (e : ExprNode V)
    (h : parseTerm F p = .ok e p') : p'.potential ≤ p.potential :=
  (potential_le F _).2.2.1 p e p' h

/-- The method `Parser::parseFactor`, as written in the source. -/
theorem parseFactor_eq (p : Parser V) :
    parseFactor F p =
      (if p.matchType TOKEN_NUMBER then
        .ok (.NumberNode p.currentToken.value) (p.advanceToken F)
      else if p.matchType TOKEN_LPAREN then
        match parseExpression F (p.advanceToken F) with
        | .ok expr p1 =>
          match consume F p1 TOKEN_RPAREN "Expected ')' after expression in parentheses." with
          | .ok _ p2 => .ok expr p2
          | .error e p2 => .error e p2
          | .outOfFuel => .outOfFuel
        | .error e p1 => .error e p1
        | .outOfFuel => .outOfFuel
      else .error (errorAt p.currentToken "Expected a number or a parenthesized expression.") p) := by
  unfold parseFactor
  rw [show 3 * p.potential + 3 = (3 * p.potential + 2) + 1 from rfl, parseFactorFuel_succ]
  split
  · rfl
  · split
    · rename_i hl
      have hlt := advanceToken_potential_lt F p (by rw [(matchType_iff p _).mp hl]; decide)
      rw [parseExpressionFuel_eq F (by omega)]
    · rfl

/-- The method `Parser::parseTerm`, as written in the source. -/
theorem parseTerm_eq (p : Parser V) :
    parseTerm F p =
      (match parseFactor F p with
       | .ok left p1 => parseTermRest F left p1
       | .error e p1 => .error e p1
       | .outOfFuel => .outOfFuel) := by
  unfold parseTerm
  rw [show 3 * p.potential + 4 = (3 * p.potential + 3) + 1 from rfl, parseTermFuel_succ]
  rw [parseFactorFuel_eq F (Nat.le_refl _)]
  cases h : parseFactor F p with
  | ok left p1 =>
    have := parseFactor_potential F _ _ _ h
    exact parseTermLoop_eq F (by omega)
  | error e p1 => rfl
  | outOfFuel => rfl

/-- The loop of `Parser::parseTerm`, as written in the source. -/
theorem parseTermRest_eq (left : ExprNode V) (p : Parser V) :
    parseTermRest F left p =
      (if p.matchType TOKEN_STAR || p.matchType TOKEN_SLASH then
        match parseFactor F (p.advanceToken F) with
        | .ok right p2 =>
          parseTermRest F (.BinaryOpNode p.currentToken.lexeme0 (some left) (some right)) p2
        | .error e p2 => .error e p2
        | .outOfFuel => .outOfFuel
      else .ok left p) := by
  unfold parseTermRest
  rw [show 3 * p.potential + 1 = (3 * p.potential) + 1 from rfl, parseTermLoop_succ]
  split
  · rename_i hop
    have hlt := advanceToken_potential_lt F p
      (ne_EOF_of_or_matchType hop (by decide) (by decide))
    rw [parseFactorFuel_eq F (by omega)]
    cases h : parseFactor F (p.advanceToken F) with
    | ok right p2 =>
      have := parseFactor_potential F _ _ _ h
      exact parseTermLoop_eq F (by omega)
    | error e p1 => rfl
    | outOfFuel => rfl
  · rfl

/-- The method `Parser::parseExpression`, as written in the source. -/
theorem parseExpression_eq (p : Parser V) :
    parseExpression F p =
      (match parseTerm F p with
       | .ok left p1 => parseExpressionRest F left p1
       | .error e p1 => .error e p1
       | .outOfFuel => .outOfFuel) := by
  unfold parseExpression
  rw [show 3 * p.potential + 5 = (3 * p.potential + 4) + 1 from rfl, parseExpressionFuel_succ]
  rw [parseTermFuel_eq F (Nat.le_refl _)]
  cases h : parseTerm F p with
  | ok left p1 =>
    have := parseTerm_potential F _ _ _ h
    exact parseExpressionLoop_eq F (by omega)
  | error e p1 => rfl
  | outOfFuel => rfl

/-- The loop of `Parser::parseExpression`, as written in the source. -/
theorem parseExpressionRest_eq (left : ExprNode V) (p : Parser V) :
    parseExpressionRest F left p =
      (if p.matchType TOKEN_PLUS || p.matchType TOKEN_MINUS then
        match parseTerm F (p.advanceToken F) with
        | .ok right p2 =>
          parseExpressionRest F
            (.BinaryOpNode p.currentToken.lexeme0 (some left) (some right)) p2
        | .error e p2 => .error e p2
        | .outOfFuel => .outOfFuel
      else .ok left p) := by
  unfold parseExpressionRest
  rw [show 3 * p.potential + 2 = (3 * p.potential + 1) + 1 from rfl, parseExpressionLoop_succ]
  split
  · rename_i hop
    have hlt := advanceToken_potential_lt F p
      (ne_EOF_of_or_matchType hop (by decide) (by decide))
    rw [parseTermFuel_eq F (by omega)]
    cases h : parseTerm F (p.advanceToken F) with
    | ok right p2 =>
      have := parseTerm_potential F _ _ _ h
      exact parseExpressionLoop_eq F (by omega)
    | error e p1 => rfl
    | outOfFuel => rfl
  · rfl

theorem parseExpression_potential (p p' : Parser V) (e : ExprNode V)
    (h : parseExpression F p = .ok e p') : p'.potential ≤ p.potential :=
  (potential_le F _).1 p e p' h

theorem parsePrintStatement_ne_outOfFuel (p : Parser V) :
    parsePrintStatement F p ≠ .outOfFuel := by
  unfold parsePrintStatement
  cases h1 : consume F p TOKEN_PRINT "Expected 'PRINT' keyword." with
  | ok u p1 =>
    dsimp only
    cases h2 : parseExpression F p1 with
    | ok expr p2 =>
      dsimp only
      cases h3 : consume F p2 TOKEN_SEMICOLON
          "Expected ';' after PRINT statement's expression." with
      | ok u p3 => simp
      | error e p3 => simp
      | outOfFuel => exact absurd h3 (consume_ne_outOfFuel F _ _ _)
    | error e p2 => simp
    | outOfFuel => exact absurd h2 (parseExpression_ne_outOfFuel F _)
  | error e p1 => simp
  | outOfFuel => exact absurd h1 (consume_ne_outOfFuel F _ _ _)

theorem parseStatement_ne_outOfFuel (p : Parser V) : parseStatement F p ≠ .outOfFuel := by
  unfold parseStatement
  split
  · exact parsePrintStatement_ne_outOfFuel F p
  · simp

/-- A statement consumes at least its `PRINT` token. -/
theorem parseStatement_potential (p p' : Parser V) (s : StatementNode V)
    (h : parseStatement F p = .ok s p') : p'.potential < p.potential := by
  unfold parseStatement at h
  split at h
  · rename_i hm
    have hty := (matchType_iff p _).mp hm
    have hlt := advanceToken_potential_lt F p (by rw [hty]; decide)
    have hc : consume F p TOKEN_PRINT "Expected 'PRINT' keyword." =
        .ok () (p.advanceToken F) := by
      unfold consume
      rw [if_pos hty]
    unfold parsePrintStatement at h
    rw [hc] at h
    dsimp only at h
    cases h2 : parseExpression F (p.advanceToken F) with
    | ok expr p2 =>
      rw [h2] at h
      dsimp only at h
      have hp2 := parseExpression_potential F _ _ _ h2
      cases h3 : consume F p2 TOKEN_SEMICOLON
          "Expected ';' after PRINT statement's expression." with
      | ok u p3 =>
        rw [h3] at h
        simp only [ParseResult.ok.injEq] at h
        rw [← h.2]
        have := consume_potential_le F _ _ _ _ _ h3
        omega
      | error e p3 => rw [h3] at h; simp at h
      | outOfFuel => rw [h3] at h; simp at h
    | error e p2 => rw [h2] at h; simp at h
    | outOfFuel => rw [h2] at h; simp at h
  · simp at h

theorem parseProgramLoop_succ (n : Nat) (prog : ProgramNode V) (p : Parser V) :
    parseProgramLoop F (n + 1) prog p =
      (if p.currentToken.type ≠ TOKEN_EOF then
        if p.currentToken.type = TOKEN_ERROR then
          .error (errorAt p.currentToken ("Lexical error: " ++ p.currentToken.lexeme)) p
        else
          match parseStatement F p with
          | .ok stmt p1 => parseProgramLoop F n (prog.addStatement (some stmt)) p1
          | .error e p1 => .error e p1
          | .outOfFuel => .outOfFuel
      else .ok prog p) := by
  rw [parseProgramLoop]

theorem parseProgramLoop_fuel (n : Nat) :
    ∀ (m : Nat) (prog : ProgramNode V) (p : Parser V),
      p.potential + 1 ≤ n → p.potential + 1 ≤ m →
      parseProgramLoop F n prog p = parseProgramLoop F m prog p ∧
        parseProgramLoop F n prog p ≠ .outOfFuel := by
  induction n with
  | zero => intro m prog p h; omega
  | succ n ih =>
    intro m prog p hn hm
    obtain ⟨m', rfl⟩ : ∃ m', m = m' + 1 := ⟨m - 1, by omega⟩
    rw [parseProgramLoop_succ, parseProgramLoop_succ]
    split
    · split
      · simp
      · cases h : parseStatement F p with
        | ok stmt p1 =>
          have := parseStatement_potential F _ _ _ h
          exact ih m' _ p1 (by omega) (by omega)
        | error e p1 => simp
        | outOfFuel => exact absurd h (parseStatement_ne_outOfFuel F p)
    · simp

theorem parseProgramRest_ne_outOfFuel (prog : ProgramNode V) (p : Parser V) :
    parseProgramRest F prog p ≠ .outOfFuel :=
  (parseProgramLoop_fuel F _ _ prog p (Nat.le_refl _) (Nat.le_refl _)).2

/-- The method `Parser::parseProgram` always returns or throws: fuel never runs out. -/
theorem parseProgram_ne_outOfFuel (p : Parser V) : parseProgram F p ≠ .outOfFuel :=
  parseProgramRest_ne_outOfFuel F _ p

/-- The loop of `Parser::parseProgram`, as written in the source. -/
theorem parseProgramRest_eq (prog : ProgramNode V) (p : Parser V) :
    parseProgramRest F prog p =
      (if p.currentToken.type ≠ TOKEN_EOF then
        if p.currentToken.type = TOKEN_ERROR then
          .error (errorAt p.currentToken ("Lexical error: " ++ p.currentToken.lexeme)) p
        else
          match parseStatement F p with
          | .ok stmt p1 => parseProgramRest F (prog.addStatement (some stmt)) p1
          | .error e p1 => .error e p1
          | .outOfFuel => .outOfFuel
      else .ok prog p) := by
  unfold parseProgramRest
  rw [parseProgramLoop_succ]
  split
  · split
    · rfl
    · cases h : parseStatement F p with
      | ok stmt p1 =>
        have := parseStatement_potential F _ _ _ h
        exact (parseProgramLoop_fuel F _ _ _ p1 (by omega) (Nat.le_refl _)).1
      | error e p1 => rfl
      | outOfFuel => rfl
  · rfl

end Parser

/-! ## The pending token stream -/

theorem Lexer.tokensFuel_succ {V : Type} (F : Float64 V) (n : Nat) (l : Lexer) :
    Lexer.tokensFuel F (n + 1) l =
      (if (l.getNextToken F).1.type = TOKEN_EOF then [(l.getNextToken F).1]
       else (l.getNextToken F).1 :: Lexer.tokensFuel F n (l.getNextToken F).2) := by
  rw [Lexer.tokensFuel]

theorem Lexer.tokensFuel_eq {V : Type} (F : Float64 V) (n : Nat) :
    ∀ (m : Nat) (l : Lexer), l.remaining + 1 ≤ n → l.remaining + 1 ≤ m →
      Lexer.tokensFuel F n l = Lexer.tokensFuel F m l := by
  induction n with
  | zero => intro m l h; omega
  | succ n ih =>
    intro m l hn hm
    obtain ⟨m', rfl⟩ : ∃ m', m = m' + 1 := ⟨m - 1, by omega⟩
    rw [Lexer.tokensFuel_succ, Lexer.tokensFuel_succ]
    split
    · rfl
    · rename_i h
      have := Lexer.getNextToken_progress F l h
      rw [ih m' _ (by omega) (by omega)]

/-- The token stream, one `getNextToken` call at a time. -/
theorem Lexer.tokens_eq {V : Type} (F : Float64 V) (l : Lexer) :
    l.tokens F =
      (if (l.getNextToken F).1.type = TOKEN_EOF then [(l.getNextToken F).1]
       else (l.getNextToken F).1 :: (l.getNextToken F).2.tokens F) := by
  unfold Lexer.tokens
  rw [Lexer.tokensFuel_succ]
  split
  · rfl
  · rename_i h
    have := Lexer.getNextToken_progress F l h
    rw [Lexer.tokensFuel_eq F _ ((l.getNextToken F).2.remaining + 1) _ (by omega) (Nat.le_refl _)]

namespace Parser

variable {V : Type} (F : Float64 V)

theorem pending_advanceToken (p : Parser V) :
    (p.advanceToken F).pending F = p.lexer.tokens F := by
  rw [Lexer.tokens_eq]
  rfl

theorem pending_new (l : Lexer) : (Parser.new F l).pending F = l.tokens F :=
  pending_advanceToken F _

theorem pending_of_ne_EOF (p : Parser V) (h : p.currentToken.type ≠ TOKEN_EOF) :
    p.pending F = p.currentToken :: (p.advanceToken F).pending F := by
  rw [pending_advanceToken]
  unfold pending
  rw [if_neg h]

theorem pending_of_EOF (p : Parser V) (h : p.currentToken.type = TOKEN_EOF) :
    p.pending F = [p.currentToken] := by
  unfold pending
  rw [if_pos h]

theorem kinds_pending_head (p : Parser V) (k : TokenType) (rest : List TokenType)
    (h : kinds (p.pending F) = k :: rest) : p.currentToken.type = k := by
  unfold pending at h
  split at h <;> simp [kinds] at h <;> exact h.1

theorem kinds_pending_tail (p : Parser V) (k : TokenType) (rest : List TokenType)
    (h : kinds (p.pending F) = k :: rest) (hk : k ≠ TOKEN_EOF) :
    kinds ((p.advanceToken F).pending F) = rest := by
  have hc := kinds_pending_head F p k rest h
  rw [pending_of_ne_EOF F p (by rw [hc]; exact hk)] at h
  simp [kinds] at h
  exact h.2

theorem consume_ok_iff (p p' : Parser V) (t : TokenType) (msg : String) (u : Unit) :
    consume F p t msg = .ok u p' ↔ p.currentToken.type = t ∧ p' = p.advanceToken F := by
  unfold consume
  split
  · rename_i h
    simp [h, eq_comm]
  · rename_i h
    simp [h]

theorem kinds_pending_step (p : Parser V) (h : p.currentToken.type ≠ TOKEN_EOF) :
    kinds (p.pending F) = p.currentToken.type :: kinds ((p.advanceToken F).pending F) := by
  rw [pending_of_ne_EOF F p h]
  rfl

/-! ## Soundness: what the parser accepts is generated by the grammar -/

theorem sound (n : Nat) :
    (∀ p e p', parseExpressionFuel F n p = .ok e p' →
      ∃ ks, Generates .expression ks ∧ kinds (p.pending F) = ks ++ kinds (p'.pending F)) ∧
    (∀ left p e p', parseExpressionLoop F n left p = .ok e p' →
      ∃ ks, Generates .exprTail ks ∧ kinds (p.pending F) = ks ++ kinds (p'.pending F)) ∧
    (∀ p e p', parseTermFuel F n p = .ok e p' →
      ∃ ks, Generates .term ks ∧ kinds (p.pending F) = ks ++ kinds (p'.pending F)) ∧
    (∀ left p e p', parseTermLoop F n left p = .ok e p' →
      ∃ ks, Generates .termTail ks ∧ kinds (p.pending F) = ks ++ kinds (p'.pending F)) ∧
    (∀ p e p', parseFactorFuel F n p = .ok e p' →
      ∃ ks, Generates .factor ks ∧ kinds (p.pending F) = ks ++ kinds (p'.pending F)) := by
  induction n with
  | zero =>
    refine ⟨?_, ?_, ?_, ?_, ?_⟩
    · intro p e p' h; rw [parseExpressionFuel] at h; simp at h
    · intro l p e p' h; rw [parseExpressionLoop] at h; simp at h
    · intro p e p' h; rw [parseTermFuel] at h; simp at h
    · intro l p e p' h; rw [parseTermLoop] at h; simp at h
    · intro p e p' h; rw [parseFactorFuel] at h; simp at h
  | succ n ih =>
    obtain ⟨ihE, ihEL, ihT, ihTL, ihF⟩ := ih
    refine ⟨?_, ?_, ?_, ?_, ?_⟩
    · intro p e p' h
      rw [parseExpressionFuel_succ] at h
      cases hT : parseTermFuel F n p with
      | ok left p1 =>
        rw [hT] at h
        obtain ⟨ts, g1, e1⟩ := ihT _ _ _ hT
        obtain ⟨r, g2, e2⟩ := ihEL _ _ _ _ h
        exact ⟨ts ++ r, .expression g1 g2, by rw [e1, e2, List.append_assoc]⟩
      | error e p1 => rw [hT] at h; simp at h
      | outOfFuel => rw [hT] at h; simp at h
    · intro left p e p' h
      rw [parseExpressionLoop_succ] at h
      split at h
      · rename_i hop
        have hne := ne_EOF_of_or_matchType hop (by decide) (by decide)
        rw [Bool.or_eq_true, matchType_iff, matchType_iff] at hop
        cases hT : parseTermFuel F n (p.advanceToken F) with
        | ok right p2 =>
          rw [hT] at h
          obtain ⟨ts, g1, e1⟩ := ihT _ _ _ hT
          obtain ⟨r, g2, e2⟩ := ihEL _ _ _ _ h
          refine ⟨p.currentToken.type :: (ts ++ r), .exprTail_cons hop g1 g2, ?_⟩
          rw [kinds_pending_step F p hne, e1, e2]
          simp
        | error e p1 => rw [hT] at h; simp at h
        | outOfFuel => rw [hT] at h; simp at h
      · simp only [ParseResult.ok.injEq] at h
        rw [← h.2]
        exact ⟨[], .exprTail_nil, rfl⟩
    · intro p e p' h
      rw [parseTermFuel_succ] at h
      cases hT : parseFactorFuel F n p with
      | ok left p1 =>
        rw [hT] at h
        obtain ⟨ts, g1, e1⟩ := ihF _ _ _ hT
        obtain ⟨r, g2, e2⟩ := ihTL _ _ _ _ h
        exact ⟨ts ++ r, .term g1 g2, by rw [e1, e2, List.append_assoc]⟩
      | error e p1 => rw [hT] at h; simp at h
      | outOfFuel => rw [hT] at h; simp at h
    · intro left p e p' h
      rw [parseTermLoop_succ] at h
      split at h
      · rename_i hop
        have hne := ne_EOF_of_or_matchType hop (by decide) (by decide)
        rw [Bool.or_eq_true, matchType_iff, matchType_iff] at hop
        cases hT : parseFactorFuel F n (p.advanceToken F) with
        | ok right p2 =>
          rw [hT] at h
          obtain ⟨ts, g1, e1⟩ := ihF _ _ _ hT
          obtain ⟨r, g2, e2⟩ := ihTL _ _ _ _ h
          refine ⟨p.currentToken.type :: (ts ++ r), .termTail_cons hop g1 g2, ?_⟩
          rw [kinds_pending_step F p hne, e1, e2]
          simp
        | error e p1 => rw [hT] at h; simp at h
        | outOfFuel => rw [hT] at h; simp at h
      · simp only [ParseResult.ok.injEq] at h
        rw [← h.2]
        exact ⟨[], .termTail_nil, rfl⟩
    · intro p e p' h
      rw [parseFactorFuel_succ] at h
      split at h
      · rename_i hn
        rw [matchType_iff] at hn
        simp only [ParseResult.ok.injEq] at h
        rw [← h.2]
        refine ⟨[TOKEN_NUMBER], .factor_number, ?_⟩
        rw [kinds_pending_step F p (by rw [hn]; decide), hn]
        rfl
      · split at h
        · rename_i hl
          rw [matchType_iff] at hl
          cases hE : parseExpressionFuel F n (p.advanceToken F) with
          | ok expr p1 =>
            rw [hE] at h
            dsimp only at h
            obtain ⟨es, g1, e1⟩ := ihE _ _ _ hE
            cases hC : consume F p1 TOKEN_RPAREN "Expected ')' after expression in parentheses." with
            | ok u p2 =>
              rw [hC] at h
              simp only [ParseResult.ok.injEq] at h
              rw [consume_ok_iff] at hC
              refine ⟨TOKEN_LPAREN :: (es ++ [TOKEN_RPAREN]), .factor_paren g1, ?_⟩
              rw [kinds_pending_step F p (by rw [hl]; decide), hl, e1,
                kinds_pending_step F p1 (by rw [hC.1]; decide), hC.1, ← hC.2, h.2]
              simp
            | error e p2 => rw [hC] at h; simp at h
            | outOfFuel => rw [hC] at h; simp at h
          | error e p1 => rw [hE] at h; simp at h
          | outOfFuel => rw [hE] at h; simp at h
        · simp at h

theorem parseExpression_sound (p p' : Parser V) (e : ExprNode V)
    (h : parseExpression F p = .ok e p') :
    ∃ ks, Generates .expression ks ∧ kinds (p.pending F) = ks ++ kinds (p'.pending F) :=
  (sound F _).1 p e p' h

theorem parseStatement_sound (p p' : Parser V) (s : StatementNode V)
    (h : parseStatement F p = .ok s p') :
    ∃ ks, Generates .statement ks ∧ kinds (p.pending F) = ks ++ kinds (p'.pending F) := by
  unfold parseStatement at h
  split at h
  · rename_i hm
    have hty := (matchType_iff p _).mp hm
    have hc : consume F p TOKEN_PRINT "Expected 'PRINT' keyword." =
        .ok () (p.advanceToken F) := by
      unfold consume
      rw [if_pos hty]
    unfold parsePrintStatement at h
    rw [hc] at h
    dsimp only at h
    cases h2 : parseExpression F (p.advanceToken F) with
    | ok expr p2 =>
      rw [h2] at h
      dsimp only at h
      obtain ⟨es, g1, e1⟩ := parseExpression_sound F _ _ _ h2
      cases h3 : consume F p2 TOKEN_SEMICOLON
          "Expected ';' after PRINT statement's expression." with
      | ok u p3 =>
        rw [h3] at h
        simp only [ParseResult.ok.injEq] at h
        rw [consume_ok_iff] at h3
        refine ⟨TOKEN_PRINT :: (es ++ [TOKEN_SEMICOLON]), .statement g1, ?_⟩
        rw [kinds_pending_step F p (by rw [hty]; decide), hty, e1,
          kinds_pending_step F p2 (by rw [h3.1]; decide), h3.1, ← h3.2, h.2]
        simp
      | error e p3 => rw [h3] at h; simp at h
      | outOfFuel => rw [h3] at h; simp at h
    | error e p2 => rw [h2] at h; simp at h
    | outOfFuel => rw [h2] at h; simp at h
  · simp at h

theorem parseProgramLoop_sound (n : Nat) :
    ∀ (prog prog' : ProgramNode V) (p p' : Parser V),
      parseProgramLoop F n prog p = .ok prog' p' →
      Generates .program (kinds (p.pending F)) ∧ p'.currentToken.type = TOKEN_EOF := by
  induction n with
  | zero => intro prog prog' p p' h; rw [parseProgramLoop] at h; simp at h
  | succ n ih =>
    intro prog prog' p p' h
    rw [parseProgramLoop_succ] at h
    split at h
    · split at h
      · simp at h
      · cases hS : parseStatement F p with
        | ok stmt p1 =>
          rw [hS] at h
          obtain ⟨ks, g1, e1⟩ := parseStatement_sound F _ _ _ hS
          obtain ⟨g2, hEOF⟩ := ih _ _ _ _ h
          rw [e1]
          exact ⟨.program_cons g1 g2, hEOF⟩
        | error e p1 => rw [hS] at h; simp at h
        | outOfFuel => rw [hS] at h; simp at h
    · rename_i hE
      simp only [ParseResult.ok.injEq] at h
      rw [← h.2]
      have hE' : p.currentToken.type = TOKEN_EOF := by
        by_contra hc; exact hE hc
      rw [pending_of_EOF F p hE']
      simp only [kinds, List.map, hE']
      exact ⟨.program_eof, trivial⟩

end Parser

/-! ## Completeness: what the grammar generates is accepted -/

theorem FollowsExpression.followsTerm {rest : List TokenType} (h : FollowsExpression rest) :
    FollowsTerm rest := by
  obtain ⟨k, r, e, h1, h2, _⟩ := h
  exact ⟨k, r, e, h1, h2⟩

theorem Generates.exprTail_followsTerm {ks rest : List TokenType}
    (g : Generates .exprTail ks) (h : FollowsExpression rest) : FollowsTerm (ks ++ rest) := by
  cases g with
  | exprTail_nil => exact h.followsTerm
  | exprTail_cons hop _ _ =>
    refine ⟨_, _, rfl, ?_, ?_⟩ <;> rcases hop with hop | hop <;> rw [hop] <;> decide

namespace Parser

variable {V : Type} (F : Float64 V)

theorem complete {nt : NonTerminal} {ks : List TokenType} (g : Generates nt ks) :
    Accepts F nt ks := by
  induction g with
  | factor_number =>
    intro p rest h
    have hc := kinds_pending_head F p _ _ h
    refine ⟨.NumberNode p.currentToken.value, p.advanceToken F, ?_,
      kinds_pending_tail F p _ _ h (by decide)⟩
    rw [parseFactor_eq, if_pos ((matchType_iff p _).mpr hc)]
  | @factor_paren es _ ih =>
    intro p rest h
    rw [List.cons_append, List.append_assoc] at h
    have hc := kinds_pending_head F p _ _ h
    have ht := kinds_pending_tail F p _ _ h (by decide)
    obtain ⟨e, p1, h1, k1⟩ := ih (p.advanceToken F) ([TOKEN_RPAREN] ++ rest) ht
      ⟨TOKEN_RPAREN, rest, rfl, by decide, by decide, by decide, by decide⟩
    have hc1 := kinds_pending_head F p1 _ _ k1
    refine ⟨e, p1.advanceToken F, ?_, kinds_pending_tail F p1 _ _ k1 (by decide)⟩
    rw [parseFactor_eq, if_neg (by rw [matchType_iff, hc]; decide),
      if_pos ((matchType_iff p _).mpr hc), h1]
    dsimp only
    rw [(consume_ok_iff F p1 _ _ _ ()).mpr ⟨hc1, rfl⟩]
  | termTail_nil =>
    intro p left rest h hf
    obtain ⟨k, r, rfl, h1, h2⟩ := hf
    have hc := kinds_pending_head F p _ _ h
    refine ⟨left, p, ?_, h⟩
    rw [parseTermRest_eq, if_neg]
    rw [Bool.or_eq_true, matchType_iff, matchType_iff, hc]
    rintro (h | h)
    · exact h1 h
    · exact h2 h
  | @termTail_cons op fs r hop _ _ ihF ihT =>
    intro p left rest h hf
    rw [List.cons_append, List.append_assoc] at h
    have hc := kinds_pending_head F p _ _ h
    have hne : op ≠ TOKEN_EOF := by rcases hop with hop | hop <;> rw [hop] <;> decide
    have ht := kinds_pending_tail F p _ _ h hne
    obtain ⟨right, p2, h1, k1⟩ := ihF (p.advanceToken F) (r ++ rest) ht
    obtain ⟨e, p', h2, k2⟩ :=
      ihT p2 (.BinaryOpNode p.currentToken.lexeme0 (some left) (some right)) rest k1 hf
    refine ⟨e, p', ?_, k2⟩
    rw [parseTermRest_eq, if_pos, h1]
    · exact h2
    · rw [Bool.or_eq_true, matchType_iff, matchType_iff, hc]
      exact hop
  | @term fs r _ _ ihF ihT =>
    intro p rest h hf
    rw [List.append_assoc] at h
    obtain ⟨left, p1, h1, k1⟩ := ihF p (r ++ rest) h
    obtain ⟨e, p', h2, k2⟩ := ihT p1 left rest k1 hf
    refine ⟨e, p', ?_, k2⟩
    rw [parseTerm_eq, h1]
    exact h2
  | exprTail_nil =>
    intro p left rest h hf
    obtain ⟨k, r, rfl, h1, h2, h3, h4⟩ := hf
    have hc := kinds_pending_head F p _ _ h
    refine ⟨left, p, ?_, h⟩
    rw [parseExpressionRest_eq, if_neg]
    rw [Bool.or_eq_true, matchType_iff, matchType_iff, hc]
    rintro (h | h)
    · exact h3 h
    · exact h4 h
  | @exprTail_cons op ts r hop _ gT ihT ihE =>
    intro p left rest h hf
    rw [List.cons_append, List.append_assoc] at h
    have hc := kinds_pending_head F p _ _ h
    have hne : op ≠ TOKEN_EOF := by rcases hop with hop | hop <;> rw [hop] <;> decide
    have ht := kinds_pending_tail F p _ _ h hne
    obtain ⟨right, p2, h1, k1⟩ := ihT (p.advanceToken F) (r ++ rest) ht
      (gT.exprTail_followsTerm hf)
    obtain ⟨e, p', h2, k2⟩ :=
      ihE p2 (.BinaryOpNode p.currentToken.lexeme0 (some left) (some right)) rest k1 hf
    refine ⟨e, p', ?_, k2⟩
    rw [parseExpressionRest_eq, if_pos, h1]
    · exact h2
    · rw [Bool.or_eq_true, matchType_iff, matchType_iff, hc]
      exact hop
  | @expression ts r _ gT ihT ihE =>
    intro p rest h hf
    rw [List.append_assoc] at h
    obtain ⟨left, p1, h1, k1⟩ := ihT p (r ++ rest) h (gT.exprTail_followsTerm hf)
    obtain ⟨e, p', h2, k2⟩ := ihE p1 left rest k1 hf
    refine ⟨e, p', ?_, k2⟩
    rw [parseExpression_eq, h1]
    exact h2
  | @statement es _ ih =>
    intro p rest h
    rw [List.cons_append, List.append_assoc] at h
    have hc := kinds_pending_head F p _ _ h
    have ht := kinds_pending_tail F p _ _ h (by decide)
    obtain ⟨e, p2, h1, k1⟩ := ih (p.advanceToken F) ([TOKEN_SEMICOLON] ++ rest) ht
      ⟨TOKEN_SEMICOLON, rest, rfl, by decide, by decide, by decide, by decide⟩
    have hc2 := kinds_pending_head F p2 _ _ k1
    refine ⟨.PrintNode (some e), p2.advanceToken F, ?_,
      kinds_pending_tail F p2 _ _ k1 (by decide)⟩
    unfold parseStatement parsePrintStatement
    rw [if_pos ((matchType_iff p _).mpr hc), (consume_ok_iff F p _ _ _ ()).mpr ⟨hc, rfl⟩]
    dsimp only
    rw [h1]
    dsimp only
    rw [(consume_ok_iff F p2 _ _ _ ()).mpr ⟨hc2, rfl⟩]
  | program_eof =>
    intro p prog h
    have hc := kinds_pending_head F p _ _ h
    refine ⟨prog, p, ?_⟩
    rw [parseProgramRest_eq, if_neg (by rw [hc]; simp)]
  | @program_cons s r gS _ ihS ihP =>
    intro p prog h
    obtain ⟨stmt, p1, h1, k1⟩ := ihS p r h
    obtain ⟨prog', p', h2⟩ := ihP p1 (prog.addStatement (some stmt)) k1
    have hc : p.currentToken.type = TOKEN_PRINT := by
      cases gS with
      | statement _ => exact kinds_pending_head F p _ _ h
    refine ⟨prog', p', ?_⟩
    rw [parseProgramRest_eq, if_pos (by rw [hc]; decide), if_neg (by rw [hc]; decide), h1]
    exact h2

end Parser

/-! ## Operator tokens and operator chains -/

/-- The token `getNextToken` returns when the next character is neither a letter, an
underscore nor a digit. -/
theorem Lexer.getNextToken_punctuation {V : Type} (F : Float64 V) (l0 : Lexer)
    (hend : l0.skipWhitespaceAndComments.isAtEnd = false)
    (ha : ¬ (isalpha l0.skipWhitespaceAndComments.peek = true ∨
      l0.skipWhitespaceAndComments.peek = '_'))
    (hd : ¬ isdigit l0.skipWhitespaceAndComments.peek = true) :
    Lexer.getNextToken F l0 =
      (let l := l0.skipWhitespaceAndComments
       let c := l.peek
       let l1 : Lexer := { l with current_pos := l.current_pos + 1 }
       let col : Int := ((l.current_pos : Int) - l.current_column_start_of_line) + 1
       let tok (ty : TokenType) (lex : String) : Token V :=
         { type := ty, lexeme := lex, value := F.zero, line := l.current_line, column := col }
       if c = '(' then (tok TOKEN_LPAREN "(", l1)
       else if c = ')' then (tok TOKEN_RPAREN ")", l1)
       else if c = ';' then (tok TOKEN_SEMICOLON ";", l1)
       else if c = '+' then (tok TOKEN_PLUS "+", l1)
       else if c = '-' then (tok TOKEN_MINUS "-", l1)
       else if c = '*' then (tok TOKEN_STAR "*", l1)
       else if c = '/' then (tok TOKEN_SLASH "/", l1)
       else (l1.errorToken F ("Unexpected character: " ++ String.singleton c), l1)) := by
  rw [Lexer.getNextToken_eq]
  dsimp only
  rw [Lexer.peek_of_not_atEnd _ hend] at ha hd ⊢
  rw [hend]
  simp only [Bool.false_eq_true, if_false]
  rw [if_neg ha, if_neg hd]

/-- An operator token returned by the lexer carries its operator character as lexeme. -/
theorem Lexer.getNextToken_opChar {V : Type} (F : Float64 V) (l : Lexer)
    (h : isAdditive (l.getNextToken F).1.type = true ∨
      isMultiplicative (l.getNextToken F).1.type = true) :
    (l.getNextToken F).1.lexeme0 = opChar (l.getNextToken F).1.type := by
  rcases Lexer.getNextToken_snd_cases F l with ⟨_, h'⟩ | ⟨hend, hrest⟩
  · rw [h'] at h
    simp [Lexer.makeToken, isAdditive, isMultiplicative] at h
  · by_cases ha : isalpha l.skipWhitespaceAndComments.peek = true ∨
        l.skipWhitespaceAndComments.peek = '_'
    · have h' : Lexer.getNextToken F l = Lexer.identifierOrKeyword F l.skipWhitespaceAndComments := by
        rcases hrest with ⟨_, h'⟩ | ⟨hd, _⟩ | ⟨_, _⟩
        · exact h'
        · rw [Lexer.getNextToken_eq]
          dsimp only
          rw [hend]
          rw [Lexer.peek_of_not_atEnd _ hend] at ha
          simp only [Bool.false_eq_true, if_false]
          rw [if_pos ha]
        · rw [Lexer.getNextToken_eq]
          dsimp only
          rw [hend]
          rw [Lexer.peek_of_not_atEnd _ hend] at ha
          simp only [Bool.false_eq_true, if_false]
          rw [if_pos ha]
      rw [h'] at h
      rcases Lexer.identifierOrKeyword_type F l.skipWhitespaceAndComments with e | e <;>
        rw [e] at h <;> simp [isAdditive, isMultiplicative] at h
    · by_cases hd : isdigit l.skipWhitespaceAndComments.peek = true
      · have h' : Lexer.getNextToken F l = Lexer.number F l.skipWhitespaceAndComments := by
          rw [Lexer.getNextToken_eq]
          dsimp only
          rw [hend]
          rw [Lexer.peek_of_not_atEnd _ hend] at ha hd
          simp only [Bool.false_eq_true, if_false]
          rw [if_neg ha, if_pos hd]
        rw [h'] at h
        rcases Lexer.number_type F l.skipWhitespaceAndComments with e | e <;>
          rw [e] at h <;> simp [isAdditive, isMultiplicative] at h
      · rw [Lexer.getNextToken_punctuation F l hend ha hd] at h ⊢
        dsimp only at h ⊢
        by_cases h3 : l.skipWhitespaceAndComments.peek = '('
        · rw [if_pos h3] at h; simp [isAdditive, isMultiplicative] at h
        rw [if_neg h3] at h ⊢
        by_cases h4 : l.skipWhitespaceAndComments.peek = ')'
        · rw [if_pos h4] at h; simp [isAdditive, isMultiplicative] at h
        rw [if_neg h4] at h ⊢
        by_cases h5 : l.skipWhitespaceAndComments.peek = ';'
        · rw [if_pos h5] at h; simp [isAdditive, isMultiplicative] at h
        rw [if_neg h5] at h ⊢
        by_cases h6 : l.skipWhitespaceAndComments.peek = '+'
        · rw [if_pos h6]; rfl
        rw [if_neg h6] at h ⊢
        by_cases h7 : l.skipWhitespaceAndComments.peek = '-'
        · rw [if_pos h7]; rfl
        rw [if_neg h7] at h ⊢
        by_cases h8 : l.skipWhitespaceAndComments.peek = '*'
        · rw [if_pos h8]; rfl
        rw [if_neg h8] at h ⊢
        by_cases h9 : l.skipWhitespaceAndComments.peek = '/'
        · rw [if_pos h9]; rfl
        rw [if_neg h9] at h
        simp [Lexer.errorToken, isAdditive, isMultiplicative] at h

namespace Parser

variable {V : Type} (F : Float64 V)

theorem Fed.opChar {p : Parser V} (hf : Fed F p)
    (h : isAdditive p.currentToken.type = true ∨ isMultiplicative p.currentToken.type = true) :
    p.currentToken.lexeme0 = opChar p.currentToken.type := by
  obtain ⟨q, rfl⟩ := hf
  exact Lexer.getNextToken_opChar F q.lexer h

theorem parseFactor_fed (p p' : Parser V) (e : ExprNode V)
    (h : parseFactor F p = .ok e p') : Fed F p' := by
  rw [parseFactor_eq] at h
  split at h
  · simp only [ParseResult.ok.injEq] at h
    exact ⟨p, h.2.symm⟩
  · split at h
    · cases hE : parseExpression F (p.advanceToken F) with
      | ok expr p1 =>
        rw [hE] at h
        dsimp only at h
        cases hC : consume F p1 TOKEN_RPAREN "Expected ')' after expression in parentheses." with
        | ok u p2 =>
          rw [hC] at h
          simp only [ParseResult.ok.injEq] at h
          rw [consume_ok_iff] at hC
          exact ⟨p1, by rw [← h.2, hC.2]⟩
        | error e p2 => rw [hC] at h; simp at h
        | outOfFuel => rw [hC] at h; simp at h
      | error e p1 => rw [hE] at h; simp at h
      | outOfFuel => rw [hE] at h; simp at h
    · simp at h

theorem parseTermLoop_fed (n : Nat) :
    ∀ (left : ExprNode V) (p p' : Parser V) (e : ExprNode V),
      parseTermLoop F n left p = .ok e p' → Fed F p → Fed F p' := by
  induction n with
  | zero => intro left p p' e h; rw [parseTermLoop] at h; simp at h
  | succ n ih =>
    intro left p p' e h hf
    rw [parseTermLoop_succ] at h
    split at h
    · rename_i hop
      have hlt := advanceToken_potential_lt F p
        (ne_EOF_of_or_matchType hop (by decide) (by decide))
      cases hT : parseFactorFuel F n (p.advanceToken F) with
      | ok right p2 =>
        rw [hT] at h
        have hfed : Fed F p2 := by
          by_cases hn : 3 * (p.advanceToken F).potential + 3 ≤ n
          · rw [parseFactorFuel_eq F hn] at hT
            exact parseFactor_fed F _ _ _ hT
          · have hs := (fuel_stable_le F (Nat.le_of_lt (Nat.lt_of_not_le hn))).2.2.2.2
              (p.advanceToken F) (by rw [hT]; simp)
            rw [hT] at hs
            exact parseFactor_fed F _ _ _ hs
        exact ih _ _ _ _ h hfed
      | error e p1 => rw [hT] at h; simp at h
      | outOfFuel => rw [hT] at h; simp at h
    · simp only [ParseResult.ok.injEq] at h
      rw [← h.2]
      exact hf

theorem parseTerm_fed (p p' : Parser V) (e : ExprNode V)
    (h : parseTerm F p = .ok e p') : Fed F p' := by
  rw [parseTerm_eq] at h
  cases hF : parseFactor F p with
  | ok left p1 =>
    rw [hF] at h
    exact parseTermLoop_fed F _ _ _ _ _ h (parseFactor_fed F _ _ _ hF)
  | error e p1 => rw [hF] at h; simp at h
  | outOfFuel => rw [hF] at h; simp at h

/-- The loop of `parseTerm` folds its operands to the left. -/
theorem parseTermRest_chain {p p' : Parser V} {items : List (Char × ExprNode V)}
    (run : OperandRun F (parseFactor F) isMultiplicative p items p') :
    Fed F p → ∀ left : ExprNode V,
      parseTermRest F left p = .ok (leftChain left items) p' := by
  induction run with
  | nil p hno =>
    intro _ left
    rw [parseTermRest_eq, if_neg]
    · rfl
    · rw [Bool.or_eq_true, matchType_iff, matchType_iff]
      simpa [isMultiplicative] using hno
  | cons p p1 p' e rest hop hpar _ ih =>
    intro hf left
    rw [parseTermRest_eq, if_pos, hpar]
    · dsimp only
      rw [hf.opChar F (Or.inr hop), ih (parseFactor_fed F _ _ _ hpar)]
      rfl
    · rw [Bool.or_eq_true, matchType_iff, matchType_iff]
      simpa [isMultiplicative] using hop

/-- The loop of `parseExpression` folds its operands to the left. -/
theorem parseExpressionRest_chain {p p' : Parser V} {items : List (Char × ExprNode V)}
    (run : OperandRun F (parseTerm F) isAdditive p items p') :
    Fed F p → ∀ left : ExprNode V,
      parseExpressionRest F left p = .ok (leftChain left items) p' := by
  induction run with
  | nil p hno =>
    intro _ left
    rw [parseExpressionRest_eq, if_neg]
    · rfl
    · rw [Bool.or_eq_true, matchType_iff, matchType_iff]
      simpa [isAdditive] using hno
  | cons p p1 p' e rest hop hpar _ ih =>
    intro hf left
    rw [parseExpressionRest_eq, if_pos, hpar]
    · dsimp only
      rw [hf.opChar F (Or.inl hop), ih (parseTerm_fed F _ _ _ hpar)]
      rfl
    · rw [Bool.or_eq_true, matchType_iff, matchType_iff]
      simpa [isAdditive] using hop

end Parser

/-! ## Single steps of the parsing functions -/

namespace Parser

variable {V : Type} (F : Float64 V)

theorem pending_head (p : Parser V) (t : Token V) (rest : List (Token V))
    (h : p.pending F = t :: rest) : p.currentToken = t := by
  unfold pending at h
  split at h <;> simp at h <;> exact h.1

theorem pending_tail (p : Parser V) (t : Token V) (rest : List (Token V))
    (h : p.pending F = t :: rest) (ht : t.type ≠ TOKEN_EOF) :
    (p.advanceToken F).pending F = rest := by
  have hc := pending_head F p t rest h
  rw [pending_of_ne_EOF F p (by rw [hc]; exact ht)] at h
  simp at h
  exact h.2

theorem parseFactor_number (p : Parser V) (h : p.currentToken.type = TOKEN_NUMBER) :
    parseFactor F p = .ok (.NumberNode p.currentToken.value) (p.advanceToken F) := by
  rw [parseFactor_eq, if_pos ((matchType_iff p _).mpr h)]

theorem parseFactor_paren (p p1 : Parser V) (e : ExprNode V)
    (h : p.currentToken.type = TOKEN_LPAREN)
    (hE : parseExpression F (p.advanceToken F) = .ok e p1)
    (hr : p1.currentToken.type = TOKEN_RPAREN) :
    parseFactor F p = .ok e (p1.advanceToken F) := by
  rw [parseFactor_eq, if_neg (by rw [matchType_iff, h]; decide),
    if_pos ((matchType_iff p _).mpr h), hE]
  dsimp only
  rw [(consume_ok_iff F p1 _ _ _ ()).mpr ⟨hr, rfl⟩]

theorem parseTermRest_stop (left : ExprNode V) (p : Parser V)
    (h : isMultiplicative p.currentToken.type = false) :
    parseTermRest F left p = .ok left p := by
  rw [parseTermRest_eq, if_neg]
  rw [Bool.or_eq_true, matchType_iff, matchType_iff]
  simpa [isMultiplicative] using h

theorem parseTermRest_step (left right : ExprNode V) (p p2 : Parser V)
    (h : isMultiplicative p.currentToken.type = true) (hf : Fed F p)
    (hF : parseFactor F (p.advanceToken F) = .ok right p2) :
    parseTermRest F left p =
      parseTermRest F (.BinaryOpNode (opChar p.currentToken.type) (some left) (some right)) p2 := by
  rw [parseTermRest_eq, if_pos, hF]
  · dsimp only
    rw [hf.opChar F (Or.inr h)]
  · rw [Bool.or_eq_true, matchType_iff, matchType_iff]
    simpa [isMultiplicative] using h

theorem parseExpressionRest_stop (left : ExprNode V) (p : Parser V)
    (h : isAdditive p.currentToken.type = false) :
    parseExpressionRest F left p = .ok left p := by
  rw [parseExpressionRest_eq, if_neg]
  rw [Bool.or_eq_true, matchType_iff, matchType_iff]
  simpa [isAdditive] using h

theorem parseExpressionRest_step (left right : ExprNode V) (p p2 : Parser V)
    (h : isAdditive p.currentToken.type = true) (hf : Fed F p)
    (hT : parseTerm F (p.advanceToken F) = .ok right p2) :
    parseExpressionRest F left p =
      parseExpressionRest F
        (.BinaryOpNode (opChar p.currentToken.type) (some left) (some right)) p2 := by
  rw [parseExpressionRest_eq, if_pos, hT]
  · dsimp only
    rw [hf.opChar F (Or.inl h)]
  · rw [Bool.or_eq_true, matchType_iff, matchType_iff]
    simpa [isAdditive] using h

theorem followsExpression_head (p : Parser V) (h : FollowsExpression (kinds (p.pending F))) :
    isAdditive p.currentToken.type = false ∧ isMultiplicative p.currentToken.type = false := by
  obtain ⟨k, r, e, h1, h2, h3, h4⟩ := h
  have hc := kinds_pending_head F p k r e
  rw [hc]
  simp [isAdditive, isMultiplicative, h1, h2, h3, h4]

theorem isAdditive_not_multiplicative {t : TokenType} (h : isAdditive t = true) :
    isMultiplicative t = false ∧ t ≠ TOKEN_EOF := by
  cases t <;> simp [isAdditive, isMultiplicative] at h ⊢

theorem isMultiplicative_not_additive {t : TokenType} (h : isMultiplicative t = true) :
    isAdditive t = false ∧ t ≠ TOKEN_EOF := by
  cases t <;> simp [isAdditive, isMultiplicative] at h ⊢

theorem parseTermRest_op (left : ExprNode V) (p : Parser V)
    (h : isMultiplicative p.currentToken.type = true) (hf : Fed F p) :
    parseTermRest F left p =
      (match parseFactor F (p.advanceToken F) with
       | .ok right p2 =>
         parseTermRest F (.BinaryOpNode (opChar p.currentToken.type) (some left) (some right)) p2
       | .error e p2 => .error e p2
       | .outOfFuel => .outOfFuel) := by
  rw [parseTermRest_eq, if_pos, hf.opChar F (Or.inr h)]
  rw [Bool.or_eq_true, matchType_iff, matchType_iff]
  simpa [isMultiplicative] using h

theorem parseExpressionRest_op (left : ExprNode V) (p : Parser V)
    (h : isAdditive p.currentToken.type = true) (hf : Fed F p) :
    parseExpressionRest F left p =
      (match parseTerm F (p.advanceToken F) with
       | .ok right p2 =>
         parseExpressionRest F
           (.BinaryOpNode (opChar p.currentToken.type) (some left) (some right)) p2
       | .error e p2 => .error e p2
       | .outOfFuel => .outOfFuel) := by
  rw [parseExpressionRest_eq, if_pos, hf.opChar F (Or.inl h)]
  rw [Bool.or_eq_true, matchType_iff, matchType_iff]
  simpa [isAdditive] using h

/-- On `a p b m c` the multiplication binds tighter. -/
theorem parse_add_mul (p : Parser V) (ta tp tb tm tc : Token V) (rest : List (Token V))
    (h : p.pending F = ta :: tp :: tb :: tm :: tc :: rest)
    (ha : ta.type = TOKEN_NUMBER) (hp : isAdditive tp.type = true)
    (hb : tb.type = TOKEN_NUMBER) (hm : isMultiplicative tm.type = true)
    (hc : tc.type = TOKEN_NUMBER) (hfol : FollowsExpression (kinds rest)) :
    ∃ p', parseExpression F p =
        .ok (.BinaryOpNode (opChar tp.type) (some (.NumberNode ta.value))
          (some (.BinaryOpNode (opChar tm.type) (some (.NumberNode tb.value))
            (some (.NumberNode tc.value))))) p' ∧
      p'.pending F = rest := by
  have c0 := pending_head F _ _ _ h
  have h1 := pending_tail F _ _ _ h (by rw [ha]; decide)
  have c1 := pending_head F _ _ _ h1
  have h2 := pending_tail F _ _ _ h1 (isAdditive_not_multiplicative hp).2
  have c2 := pending_head F _ _ _ h2
  have h3 := pending_tail F _ _ _ h2 (by rw [hb]; decide)
  have c3 := pending_head F _ _ _ h3
  have h4 := pending_tail F _ _ _ h3 (isMultiplicative_not_additive hm).2
  have c4 := pending_head F _ _ _ h4
  have h5 := pending_tail F _ _ _ h4 (by rw [hc]; decide)
  have hfol' := followsExpression_head F _ (by rw [h5]; exact hfol)
  subst c0 c1 c2 c3 c4
  refine ⟨_, ?_, h5⟩
  rw [parseExpression_eq, parseTerm_eq, parseFactor_number F p ha]
  dsimp only
  rw [parseTermRest_stop F _ _ (isAdditive_not_multiplicative hp).1]
  dsimp only
  rw [parseExpressionRest_op F _ _ hp ⟨_, rfl⟩, parseTerm_eq, parseFactor_number F _ hb]
  dsimp only
  rw [parseTermRest_op F _ _ hm ⟨_, rfl⟩, parseFactor_number F _ hc]
  dsimp only
  rw [parseTermRest_stop F _ _ hfol'.2]
  dsimp only
  rw [parseExpressionRest_stop F _ _ hfol'.1]

/-- On `a m b p c` the multiplication is the left operand of the addition. -/
theorem parse_mul_add (p : Parser V) (ta tm tb tp tc : Token V) (rest : List (Token V))
    (h : p.pending F = ta :: tm :: tb :: tp :: tc :: rest)
    (ha : ta.type = TOKEN_NUMBER) (hm : isMultiplicative tm.type = true)
    (hb : tb.type = TOKEN_NUMBER) (hp : isAdditive tp.type = true)
    (hc : tc.type = TOKEN_NUMBER) (hfol : FollowsExpression (kinds rest)) :
    ∃ p', parseExpression F p =
        .ok (.BinaryOpNode (opChar tp.type)
          (some (.BinaryOpNode (opChar tm.type) (some (.NumberNode ta.value))
            (some (.NumberNode tb.value))))
          (some (.NumberNode tc.value))) p' ∧
      p'.pending F = rest := by
  have c0 := pending_head F _ _ _ h
  have h1 := pending_tail F _ _ _ h (by rw [ha]; decide)
  have c1 := pending_head F _ _ _ h1
  have h2 := pending_tail F _ _ _ h1 (isMultiplicative_not_additive hm).2
  have c2 := pending_head F _ _ _ h2
  have h3 := pending_tail F _ _ _ h2 (by rw [hb]; decide)
  have c3 := pending_head F _ _ _ h3
  have h4 := pending_tail F _ _ _ h3 (isAdditive_not_multiplicative hp).2
  have c4 := pending_head F _ _ _ h4
  have h5 := pending_tail F _ _ _ h4 (by rw [hc]; decide)
  have hfol' := followsExpression_head F _ (by rw [h5]; exact hfol)
  subst c0 c1 c2 c3 c4
  refine ⟨_, ?_, h5⟩
  rw [parseExpression_eq, parseTerm_eq, parseFactor_number F p ha]
  dsimp only
  rw [parseTermRest_op F _ _ hm ⟨_, rfl⟩, parseFactor_number F _ hb]
  dsimp only
  rw [parseTermRest_stop F _ _ (isAdditive_not_multiplicative hp).1]
  dsimp only
  rw [parseExpressionRest_op F _ _ hp ⟨_, rfl⟩, parseTerm_eq, parseFactor_number F _ hc]
  dsimp only
  rw [parseTermRest_stop F _ _ hfol'.2]
  dsimp only
  rw [parseExpressionRest_stop F _ _ hfol'.1]

/-- On `(a p b) m c` the parentheses override precedence. -/
theorem parse_paren_mul (p : Parser V) (tl ta tp tb tr tm tc : Token V)
    (rest : List (Token V))
    (h : p.pending F = tl :: ta :: tp :: tb :: tr :: tm :: tc :: rest)
    (hl : tl.type = TOKEN_LPAREN)
    (ha : ta.type = TOKEN_NUMBER) (hp : isAdditive tp.type = true)
    (hb : tb.type = TOKEN_NUMBER) (hr : tr.type = TOKEN_RPAREN)
    (hm : isMultiplicative tm.type = true)
    (hc : tc.type = TOKEN_NUMBER) (hfol : FollowsExpression (kinds rest)) :
    ∃ p', parseExpression F p =
        .ok (.BinaryOpNode (opChar tm.type)
          (some (.BinaryOpNode (opChar tp.type) (some (.NumberNode ta.value))
            (some (.NumberNode tb.value))))
          (some (.NumberNode tc.value))) p' ∧
      p'.pending F = rest := by
  have c0 := pending_head F _ _ _ h
  have h1 := pending_tail F _ _ _ h (by rw [hl]; decide)
  have c1 := pending_head F _ _ _ h1
  have h2 := pending_tail F _ _ _ h1 (by rw [ha]; decide)
  have c2 := pending_head F _ _ _ h2
  have h3 := pending_tail F _ _ _ h2 (isAdditive_not_multiplicative hp).2
  have c3 := pending_head F _ _ _ h3
  have h4 := pending_tail F _ _ _ h3 (by rw [hb]; decide)
  have c4 := pending_head F _ _ _ h4
  have h5 := pending_tail F _ _ _ h4 (by rw [hr]; decide)
  have c5 := pending_head F _ _ _ h5
  have h6 := pending_tail F _ _ _ h5 (isMultiplicative_not_additive hm).2
  have c6 := pending_head F _ _ _ h6
  have h7 := pending_tail F _ _ _ h6 (by rw [hc]; decide)
  have hfol' := followsExpression_head F _ (by rw [h7]; exact hfol)
  subst c0 c1 c2 c3 c4 c5 c6
  refine ⟨_, ?_, h7⟩
  have inner : parseExpression F (p.advanceToken F) =
      .ok (.BinaryOpNode (opChar ((p.advanceToken F).advanceToken F).currentToken.type)
          (some (.NumberNode (p.advanceToken F).currentToken.value))
          (some (.NumberNode
            (((p.advanceToken F).advanceToken F).advanceToken F).currentToken.value)))
        ((((p.advanceToken F).advanceToken F).advanceToken F).advanceToken F) := by
    rw [parseExpression_eq, parseTerm_eq, parseFactor_number F _ ha]
    dsimp only
    rw [parseTermRest_stop F _ _ (isAdditive_not_multiplicative hp).1]
    dsimp only
    rw [parseExpressionRest_op F _ _ hp ⟨_, rfl⟩, parseTerm_eq, parseFactor_number F _ hb]
    dsimp only
    rw [parseTermRest_stop F _ _ (by rw [hr]; rfl)]
    dsimp only
    rw [parseExpressionRest_stop F _ _ (by rw [hr]; rfl)]
  rw [parseExpression_eq, parseTerm_eq, parseFactor_paren F p _ _ hl inner hr]
  dsimp only
  rw [parseTermRest_op F _ _ hm ⟨_, rfl⟩, parseFactor_number F _ hc]
  dsimp only
  rw [parseTermRest_stop F _ _ hfol'.2]
  dsimp only
  rw [parseExpressionRest_stop F _ _ hfol'.1]

end Parser

/-! ## Execution -/

theorem executeStatements_values {V : Type} (F : Float64 V)
    (stmts : List (Option (StatementNode V))) (vs : List V)
    (h : List.Forall₂
      (fun s v => ∃ e : ExprNode V, s = some (.PrintNode (some e)) ∧ e.evaluate F = .ok v)
      stmts vs) :
    executeStatements F stmts = { output := vs, thrown := none } := by
  induction h with
  | nil => rfl
  | cons hs _ ih =>
    obtain ⟨e, rfl, he⟩ := hs
    simp only [executeStatements, StatementNode.execute, he, ih]
    rfl

theorem executeStatements_append {V : Type} (F : Float64 V)
    (pre post : List (Option (StatementNode V))) (vs : List V)
    (h : executeStatements F pre = { output := vs, thrown := none }) :
    executeStatements F (pre ++ post) =
      { output := vs ++ (executeStatements F post).output,
        thrown := (executeStatements F post).thrown } := by
  induction pre generalizing vs with
  | nil =>
    simp only [executeStatements, Execution.mk.injEq] at h
    simp [← h.1]
  | cons s pre ih =>
    cases s with
    | none =>
      simp only [executeStatements, List.cons_append] at h ⊢
      exact ih vs h
    | some stmt =>
      simp only [executeStatements, List.cons_append] at h ⊢
      cases hs : stmt.execute F with
      | mk out thrown =>
        rw [hs] at h
        cases thrown with
        | some e => simp at h
        | none =>
          simp only [Execution.mk.injEq] at h
          dsimp only
          have hrest : executeStatements F pre =
              { output := (executeStatements F pre).output, thrown := none } := by
            cases hp : executeStatements F pre with
            | mk o t =>
              rw [hp] at h
              simp only at h
              rw [h.2]
          have ih' := ih _ hrest
          rw [show pre.append post = pre ++ post from rfl, ih', ← h.1]
          simp

theorem parseProgramRest_run {V : Type} (F : Float64 V) {p p' : Parser V}
    {stmts : List (StatementNode V)} (run : StatementRun F p stmts p') :
    ∀ prog : ProgramNode V,
      Parser.parseProgramRest F prog p =
        .ok { statements := prog.statements ++ stmts.map some } p' := by
  induction run with
  | nil p h =>
    intro prog
    rw [Parser.parseProgramRest_eq, if_neg (by simp [h])]
    simp
  | cons p p1 p' s rest h1 h2 hs _ ih =>
    intro prog
    rw [Parser.parseProgramRest_eq, if_pos h1, if_neg h2, hs]
    dsimp only
    rw [ih]
    simp [ProgramNode.addStatement]

/-! ## The lexer on the unread part of the source -/

namespace Lexer

theorem rest_new (source : List Char) : (Lexer.new source).rest = source := rfl

theorem remaining_eq_length_rest (l : Lexer) : l.remaining = l.rest.length := by
  simp [remaining, rest]

theorem isAtEnd_iff_rest (l : Lexer) : l.isAtEnd = true ↔ l.rest = [] := by
  simp [isAtEnd, rest]

theorem isAtEnd_of_rest_cons {l : Lexer} {c : Char} {r : List Char} (h : l.rest = c :: r) :
    l.isAtEnd = false := by
  cases hb : l.isAtEnd with
  | false => rfl
  | true => rw [(isAtEnd_iff_rest l).mp hb] at h; cases h

theorem charAt_add (l : Lexer) (i : Nat) : l.charAt (l.current_pos + i) = l.rest.getD i '\x00' := by
  simp [charAt, rest, List.getD_eq_getElem?_getD]

theorem peek_eq_headD (l : Lexer) : l.peek = l.rest.headD '\x00' := by
  unfold peek
  split
  · rename_i h
    rw [(isAtEnd_iff_rest l).mp h]
    rfl
  · have := charAt_add l 0
    simp only [Nat.add_zero] at this
    rw [this]
    cases l.rest <;> rfl

theorem peek_of_rest_cons {l : Lexer} {c : Char} {r : List Char} (h : l.rest = c :: r) :
    l.peek = c := by
  rw [peek_eq_headD, h]
  rfl

theorem rest_set_pos (l : Lexer) (k : Nat) :
    ({ l with current_pos := l.current_pos + k } : Lexer).rest = l.rest.drop k := by
  simp [rest, Nat.add_comm]

theorem advance_of_rest_cons {l : Lexer} {c : Char} {r : List Char} (h : l.rest = c :: r) :
    l.advance = (c, { l with current_pos := l.current_pos + 1 }) := by
  have he := isAtEnd_of_rest_cons h
  have hc : l.charAt l.current_pos = c := by
    rw [← peek_of_not_atEnd l he, peek_of_rest_cons h]
  simp [advance, he, hc]

theorem rest_succ_of_rest_cons {l : Lexer} {c : Char} {r : List Char} (h : l.rest = c :: r) :
    ({ l with current_pos := l.current_pos + 1 } : Lexer).rest = r := by
  rw [rest_set_pos, h]
  rfl

theorem substr_from_pos (l l' : Lexer) (len : Nat) (hs : l'.source_code = l.source_code) :
    l'.substr l.current_pos len = String.mk (l.rest.take len) := by
  simp [substr, rest, hs]

/-- A loop `while (cond(peek())) advance();` stops after the longest run of characters
satisfying the condition. -/
theorem scanLoop_eq (loop : Nat → Lexer → Lexer) (pred : Char → Bool)
    (h0 : ∀ l, loop 0 l = l)
    (hs : ∀ n l, loop (n + 1) l =
      if l.isAtEnd = false ∧ pred l.peek = true then loop n l.advance.2 else l)
    (n : Nat) (l : Lexer) (hn : l.remaining ≤ n) :
    loop n l = { l with current_pos := l.current_pos + (l.rest.takeWhile pred).length } := by
  induction n generalizing l with
  | zero =>
    rw [h0]
    have : l.rest = [] := by
      have := remaining_eq_length_rest l
      apply List.eq_nil_of_length_eq_zero
      omega
    simp [this]
  | succ n ih =>
    rw [hs]
    cases hr : l.rest with
    | nil =>
      have : l.isAtEnd = true := (isAtEnd_iff_rest l).mpr hr
      simp [this]
    | cons c r =>
      rw [isAtEnd_of_rest_cons hr, peek_of_rest_cons hr, advance_of_rest_cons hr]
      by_cases hp : pred c = true
      · rw [if_pos ⟨rfl, hp⟩]
        have hlen : ({ l with current_pos := l.current_pos + 1 } : Lexer).remaining ≤ n := by
          rw [remaining_eq_length_rest, rest_succ_of_rest_cons hr]
          rw [remaining_eq_length_rest, hr] at hn
          simpa using hn
        rw [ih _ hlen, rest_succ_of_rest_cons hr]
        simp [List.takeWhile_cons, hp, Nat.add_assoc, Nat.add_comm 1]
      · rw [if_neg (by simp [hp])]
        simp [List.takeWhile_cons, hp]

theorem digitLoop_eq (n : Nat) (l : Lexer) (hn : l.remaining ≤ n) :
    digitLoop n l =
      { l with current_pos := l.current_pos + (l.rest.takeWhile isdigit).length } := by
  refine scanLoop_eq digitLoop isdigit (fun _ => rfl) ?_ n l hn
  intro n l
  rw [digitLoop]
  cases he : l.isAtEnd with
  | false => simp
  | true =>
    have : l.peek = '\x00' := by simp [peek, he]
    rw [this]
    simp [isdigit]

theorem identLoop_eq (n : Nat) (l : Lexer) (hn : l.remaining ≤ n) :
    identLoop n l =
      { l with current_pos := l.current_pos +
          (l.rest.takeWhile (fun c => isalnum c || decide (c = '_'))).length } := by
  refine scanLoop_eq identLoop (fun c => isalnum c || decide (c = '_')) (fun _ => rfl) ?_ n l hn
  intro n l
  rw [identLoop]
  cases he : l.isAtEnd with
  | false => simp
  | true =>
    have : l.peek = '\x00' := by simp [peek, he]
    rw [this]
    simp [isalnum, isalpha, isdigit]

theorem skipCommentLoop_eq (n : Nat) (l : Lexer) (hn : l.remaining ≤ n) :
    skipCommentLoop n l =
      { l with current_pos := l.current_pos +
          (l.rest.takeWhile (fun c => decide (c ≠ '\n'))).length } := by
  refine scanLoop_eq skipCommentLoop (fun c => decide (c ≠ '\n')) (fun _ => rfl) ?_ n l hn
  intro n l
  rw [skipCommentLoop]
  cases he : l.isAtEnd with
  | false => simp
  | true => simp

end Lexer

/-! ## Tokens in terms of the unread part of the source -/

namespace Lexer

theorem skipLoop_succ (n : Nat) (l : Lexer) :
    skipLoop (n + 1) l =
      (if l.isAtEnd then l
       else
         if isspace l.peek then
           skipLoop n
             (if l.peek = '\n' then
               ({ l with current_line := l.current_line + 1,
                         current_column_start_of_line := (l.current_pos : Int) + 1 } : Lexer)
              else l).advance.2
         else if l.peek = '/' ∧ l.current_pos + 1 < l.source_code.length
             ∧ l.charAt (l.current_pos + 1) = '/' then
           skipLoop n
             (if (skipCommentLoop l.remaining l).peek = '\n' then
               ({ (skipCommentLoop l.remaining l).advance.2 with
                  current_line := (skipCommentLoop l.remaining l).advance.2.current_line + 1,
                  current_column_start_of_line :=
                    ((skipCommentLoop l.remaining l).advance.2.current_pos : Int) } : Lexer)
              else skipCommentLoop l.remaining l)
         else l) := by
  rw [skipLoop]

/-- Nothing is skipped in front of a character that is neither white space nor `/`. -/
theorem skip_of_token_start {l : Lexer} {c : Char} {r : List Char} (h : l.rest = c :: r)
    (hs : isspace c = false) (hc : c ≠ '/') : l.skipWhitespaceAndComments = l := by
  unfold skipWhitespaceAndComments
  rw [remaining_eq_length_rest, h, List.length_cons, skipLoop_succ,
    isAtEnd_of_rest_cons h, peek_of_rest_cons h]
  simp [hs, hc]

/-- Nothing is skipped in front of a `/` that does not start a comment. -/
theorem skip_of_slash {l : Lexer} {r : List Char} (h : l.rest = '/' :: r)
    (hr : r.head? ≠ some '/') : l.skipWhitespaceAndComments = l := by
  unfold skipWhitespaceAndComments
  rw [remaining_eq_length_rest, h, List.length_cons, skipLoop_succ,
    isAtEnd_of_rest_cons h, peek_of_rest_cons h]
  have h1 : l.charAt (l.current_pos + 1) = r.headD '\x00' := by
    rw [charAt_add, h]
    cases r <;> rfl
  have h2 : ¬ (l.current_pos + 1 < l.source_code.length ∧ l.charAt (l.current_pos + 1) = '/') := by
    rintro ⟨hlt, hch⟩
    rw [h1] at hch
    cases r with
    | nil =>
      have hlen := remaining_eq_length_rest l
      rw [h] at hlen
      simp [remaining] at hlen
      omega
    | cons c r' => simp at hr hch; exact hr hch
  simp [isspace, h2]

theorem skip_at_end {l : Lexer} (h : l.rest = []) : l.skipWhitespaceAndComments = l := by
  unfold skipWhitespaceAndComments
  rw [remaining_eq_length_rest, h]
  rfl

/-- A white-space character other than a newline is skipped. -/
theorem skip_space {l : Lexer} {c : Char} {r : List Char} (h : l.rest = c :: r)
    (hs : isspace c = true) (hc : c ≠ '\n') :
    l.skipWhitespaceAndComments =
      ({ l with current_pos := l.current_pos + 1 } : Lexer).skipWhitespaceAndComments := by
  have hrem : ({ l with current_pos := l.current_pos + 1 } : Lexer).remaining = r.length := by
    rw [remaining_eq_length_rest, rest_succ_of_rest_cons h]
  unfold skipWhitespaceAndComments
  rw [hrem, remaining_eq_length_rest, h, List.length_cons, skipLoop_succ,
    isAtEnd_of_rest_cons h, peek_of_rest_cons h]
  simp only [Bool.false_eq_true, if_false, hs, if_true, if_neg hc]
  rw [advance_of_rest_cons h]

/-- The token at the end of the input. -/
theorem getNextToken_at_end {V : Type} (F : Float64 V) {l : Lexer} (h : l.rest = []) :
    getNextToken F l =
      ({ type := TOKEN_EOF, lexeme := "", value := F.zero, line := l.current_line,
         column := (l.current_pos : Int) - l.current_column_start_of_line + 1 }, l) := by
  rw [getNextToken_eq, skip_at_end h]
  dsimp only
  rw [(isAtEnd_iff_rest l).mpr h]
  simp [makeToken]

theorem getNextToken_skip_space {V : Type} (F : Float64 V) {l : Lexer} {c : Char}
    {r : List Char} (h : l.rest = c :: r) (hs : isspace c = true) (hc : c ≠ '\n') :
    getNextToken F l = getNextToken F { l with current_pos := l.current_pos + 1 } := by
  unfold getNextToken
  rw [skip_space h hs hc]

theorem isspace_false_of_isalpha {c : Char} (h : isalpha c = true ∨ c = '_') :
    isspace c = false ∧ c ≠ '/' := by
  rcases h with h | h
  · constructor
    · simp only [isalpha, isspace, Bool.or_eq_true, Bool.and_eq_true, decide_eq_true_eq] at h ⊢
      simp only [Bool.or_eq_false_iff, Bool.and_eq_false_iff, decide_eq_false_iff_not]
      omega
    · rintro rfl
      simp [isalpha] at h
  · subst h
    exact ⟨by decide, by decide⟩

theorem isspace_false_of_isdigit {c : Char} (h : isdigit c = true) :
    isspace c = false ∧ c ≠ '/' ∧ ¬ (isalpha c = true ∨ c = '_') := by
  refine ⟨?_, ?_, ?_⟩
  · simp only [isdigit, isspace, Bool.and_eq_true, decide_eq_true_eq] at h ⊢
    simp only [Bool.or_eq_false_iff, Bool.and_eq_false_iff, decide_eq_false_iff_not]
    omega
  · rintro rfl
    simp [isdigit] at h
  · rintro (h' | rfl)
    · simp only [isdigit, isalpha, Bool.and_eq_true, Bool.or_eq_true, decide_eq_true_eq] at h h'
      omega
    · simp [isdigit] at h

/-- A letter or underscore starts an identifier or keyword. -/
theorem getNextToken_of_isalpha {V : Type} (F : Float64 V) {l : Lexer} {c : Char}
    {r : List Char} (h : l.rest = c :: r) (hc : isalpha c = true ∨ c = '_') :
    getNextToken F l = identifierOrKeyword F l := by
  have hs := isspace_false_of_isalpha hc
  rw [getNextToken_eq, skip_of_token_start h hs.1 hs.2]
  dsimp only
  rw [isAtEnd_of_rest_cons h, ← peek_of_not_atEnd l (isAtEnd_of_rest_cons h),
    peek_of_rest_cons h]
  simp only [Bool.false_eq_true, if_false]
  rw [if_pos hc]

/-- A digit starts a number. -/
theorem getNextToken_of_isdigit {V : Type} (F : Float64 V) {l : Lexer} {c : Char}
    {r : List Char} (h : l.rest = c :: r) (hc : isdigit c = true) :
    getNextToken F l = number F l := by
  have hs := isspace_false_of_isdigit hc
  rw [getNextToken_eq, skip_of_token_start h hs.1 hs.2.1]
  dsimp only
  rw [isAtEnd_of_rest_cons h, ← peek_of_not_atEnd l (isAtEnd_of_rest_cons h),
    peek_of_rest_cons h]
  simp only [Bool.false_eq_true, if_false]
  rw [if_neg hs.2.2, if_pos hc]

/-- The token for `;`. -/
theorem getNextToken_semicolon {V : Type} (F : Float64 V) {l : Lexer} {r : List Char}
    (h : l.rest = ';' :: r) :
    getNextToken F l =
      ({ type := TOKEN_SEMICOLON, lexeme := ";", value := F.zero, line := l.current_line,
         column := (l.current_pos : Int) - l.current_column_start_of_line + 1 },
       { l with current_pos := l.current_pos + 1 }) := by
  rw [getNextToken_eq, skip_of_token_start h (by decide) (by decide)]
  dsimp only
  rw [isAtEnd_of_rest_cons h, ← peek_of_not_atEnd l (isAtEnd_of_rest_cons h),
    peek_of_rest_cons h]
  simp [isalpha, isdigit]

theorem take_length_takeWhile (p : Char → Bool) (xs : List Char) :
    xs.take (xs.takeWhile p).length = xs.takeWhile p := by
  induction xs with
  | nil => rfl
  | cons x xs ih =>
    by_cases h : p x = true
    · simp [List.takeWhile_cons, h, ih]
    · simp [List.takeWhile_cons, h]

/-- The method `identifierOrKeyword` reads the longest run of letters, digits and underscores. -/
theorem identifierOrKeyword_eq {V : Type} (F : Float64 V) (l : Lexer) :
    identifierOrKeyword F l =
      (let word := l.rest.takeWhile (fun c => isalnum c || decide (c = '_'))
       let l1 : Lexer := { l with current_pos := l.current_pos + word.length }
       match keywords (String.mk word) with
       | some ty =>
         ({ type := ty, lexeme := String.mk word, value := F.zero, line := l.current_line,
            column := (l.current_pos : Int) - l.current_column_start_of_line + 1 }, l1)
       | none =>
         (l1.errorToken F ("Unexpected identifier or keyword: " ++ String.mk word), l1)) := by
  unfold identifierOrKeyword
  rw [identLoop_eq _ l (Nat.le_refl _)]
  dsimp only
  simp only [substr, Nat.add_sub_cancel_left]
  rw [show l.source_code.drop l.current_pos = l.rest from rfl, take_length_takeWhile]

theorem drop_length_takeWhile (p : Char → Bool) (xs : List Char) :
    xs.drop (xs.takeWhile p).length = xs.dropWhile p := by
  induction xs with
  | nil => rfl
  | cons x xs ih =>
    by_cases h : p x = true
    · simp [List.takeWhile_cons, List.dropWhile_cons, h, ih]
    · simp [List.takeWhile_cons, List.dropWhile_cons, h]

/-- The lexeme of a number is a prefix of the unread input. -/
theorem take_length_numberLexeme (xs : List Char) :
    xs.take (numberLexeme xs).length = numberLexeme xs := by
  unfold numberLexeme
  dsimp only
  split
  · rename_i f after hd
    split
    · have hx := List.takeWhile_append_dropWhile isdigit xs
      rw [hd] at hx
      have hsplit : '.' :: f :: after =
          ('.' :: (f :: after).takeWhile isdigit) ++ (f :: after).dropWhile isdigit := by
        rw [List.cons_append, List.takeWhile_append_dropWhile]
      rw [hsplit, ← List.append_assoc] at hx
      generalize xs.takeWhile isdigit = ds at hx ⊢
      rw [← hx, List.take_left' rfl]
    · exact take_length_takeWhile isdigit xs
  · exact take_length_takeWhile isdigit xs

/-- The state in which the two digit loops of `number` stop. -/
theorem number_state (l : Lexer) :
    (if (digitLoop l.remaining l).peek = '.' ∧
        isdigit ((digitLoop l.remaining l).charAt ((digitLoop l.remaining l).current_pos + 1))
          = true
      then digitLoop (digitLoop l.remaining l).advance.2.remaining
        (digitLoop l.remaining l).advance.2
      else digitLoop l.remaining l) =
      { l with current_pos := l.current_pos + (numberLexeme l.rest).length } := by
  rw [digitLoop_eq _ l (Nat.le_refl _)]
  have hrest : ({ l with current_pos := l.current_pos + (l.rest.takeWhile isdigit).length }
      : Lexer).rest = l.rest.dropWhile isdigit := by
    rw [rest_set_pos, drop_length_takeWhile]
  rw [peek_eq_headD, charAt_add, hrest]
  unfold numberLexeme
  dsimp only
  cases hd : l.rest.dropWhile isdigit with
  | nil => simp
  | cons c r =>
    by_cases hc : c = '.'
    · subst hc
      cases r with
      | nil => simp [isdigit]
      | cons f after =>
        by_cases hf : isdigit f = true
        · have h1 : (List.headD ('.' :: f :: after) '\x00' = '.' ∧
              isdigit (List.getD ('.' :: f :: after) 1 '\x00') = true) := ⟨rfl, hf⟩
          rw [if_pos h1]
          rw [hd] at hrest
          rw [advance_of_rest_cons hrest]
          dsimp only
          rw [digitLoop_eq _ _ (Nat.le_refl _)]
          dsimp only
          rw [rest_succ_of_rest_cons hrest]
          simp only [hf, if_true, List.length_append, List.length_cons]
          congr 1
          omega
        · have h1 : ¬ (List.headD ('.' :: f :: after) '\x00' = '.' ∧
              isdigit (List.getD ('.' :: f :: after) 1 '\x00') = true) := by
            rintro ⟨_, h2⟩
            exact hf h2
          rw [if_neg h1]
          simp [hf]
    · have h1 : ¬ (List.headD (c :: r) '\x00' = '.' ∧
          isdigit (List.getD (c :: r) 1 '\x00') = true) := by
        rintro ⟨h2, _⟩
        exact hc h2
      rw [if_neg h1]
      split
      · rename_i heq
        simp only [List.cons.injEq] at heq
        exact absurd heq.1 hc
      · rfl

/-- The method `number` reads the longest prefix of the form `[0-9]*(\.[0-9]+)?` and converts it. -/
theorem number_eq {V : Type} (F : Float64 V) (l : Lexer) :
    number F l =
      (let lexeme := String.mk (numberLexeme l.rest)
       let l2 : Lexer := { l with current_pos := l.current_pos + (numberLexeme l.rest).length }
       match F.stod lexeme with
       | .out_of_range => (l2.errorToken F ("Numeric literal out of range: " ++ lexeme), l2)
       | .invalid_argument => (l2.errorToken F ("Invalid numeric literal: " ++ lexeme), l2)
       | .value value =>
         ({ type := TOKEN_NUMBER, lexeme := lexeme, value := value, line := l.current_line,
            column := (l.current_pos : Int) - l.current_column_start_of_line + 1 }, l2)) := by
  unfold number
  dsimp only
  rw [number_state]
  simp only [substr, Nat.add_sub_cancel_left]
  rw [show l.source_code.drop l.current_pos = l.rest from rfl, take_length_numberLexeme]

end Lexer

/-! ## Numeric literals and the pipeline -/

theorem takeWhile_append_of_all (p : Char → Bool) (ds rest : List Char)
    (hds : ∀ c ∈ ds, p c = true) (hrest : ∀ c ∈ rest.head?, p c = false) :
    (ds ++ rest).takeWhile p = ds ∧ (ds ++ rest).dropWhile p = rest := by
  induction ds with
  | nil =>
    cases rest with
    | nil => exact ⟨rfl, rfl⟩
    | cons c r =>
      have hc : p c = false := hrest c (by simp)
      simp [List.takeWhile_cons, List.dropWhile_cons, hc]
  | cons d ds ih =>
    have hd : p d = true := hds d (by simp)
    have ih' := ih (fun c hc => hds c (by simp [hc]))
    simp [List.takeWhile_cons, List.dropWhile_cons, hd, ih'.1, ih'.2]

/-- In front of input that cannot continue a number, a literal `[0-9]+(\.[0-9]+)?` is
read whole. -/
theorem numberLexeme_literal (n rest : List Char) (hn : IsNumericLiteral n)
    (hrest : ∀ c ∈ rest.head?, isdigit c = false ∧ c ≠ '.') :
    numberLexeme (n ++ rest) = n := by
  obtain ⟨ds, fs, hne, hds, hfs, hcase⟩ := hn
  rcases hcase with rfl | ⟨hfne, rfl⟩
  · obtain ⟨h1, h2⟩ := takeWhile_append_of_all isdigit n rest hds (fun c hc => (hrest c hc).1)
    unfold numberLexeme
    dsimp only
    rw [h1, h2]
    split
    · exact absurd rfl (hrest '.' (by simp)).2
    · rfl
  · obtain ⟨f, fs', rfl⟩ := List.exists_cons_of_ne_nil hfne
    have hf : isdigit f = true := hfs f (by simp)
    obtain ⟨h1, h2⟩ := takeWhile_append_of_all isdigit ds ('.' :: (f :: fs') ++ rest) hds
      (by intro c hc; simp at hc; subst hc; decide)
    obtain ⟨h3, _⟩ := takeWhile_append_of_all isdigit (f :: fs') rest hfs
      (fun c hc => (hrest c hc).1)
    unfold numberLexeme
    dsimp only
    rw [List.append_assoc, h1, h2]
    simp only [List.cons_append, hf, if_true]
    rw [show f :: (fs' ++ rest) = (f :: fs') ++ rest from rfl, h3]

theorem IsNumericLiteral.head {n : List Char} (hn : IsNumericLiteral n) :
    ∃ d r, n = d :: r ∧ isdigit d = true := by
  obtain ⟨ds, fs, hne, hds, _, hcase⟩ := hn
  obtain ⟨d, ds', rfl⟩ := List.exists_cons_of_ne_nil hne
  have hd : isdigit d = true := hds d (by simp)
  rcases hcase with rfl | ⟨_, rfl⟩
  · exact ⟨d, ds', rfl, hd⟩
  · exact ⟨d, ds' ++ '.' :: fs, rfl, hd⟩

theorem Lexer.getNextToken_EOF_of_remaining_zero {V : Type} (F : Float64 V) (l : Lexer)
    (h : l.remaining = 0) : (l.getNextToken F).1.type = TOKEN_EOF := by
  by_contra hne
  have := Lexer.getNextToken_progress F l hne
  omega

/-- The token at which the listing loop of `main` stops is the first `EndOfFile` or
`Error` token of the stream. -/
theorem lastListedToken_spec {V : Type} (F : Float64 V) (n : Nat) :
    ∀ l : Lexer, l.remaining ≤ n →
      lastListedToken F n (l.getNextToken F).1 (l.getNextToken F).2 ∈ l.tokens F ∧
      ((lastListedToken F n (l.getNextToken F).1 (l.getNextToken F).2).type = TOKEN_EOF ∨
       (lastListedToken F n (l.getNextToken F).1 (l.getNextToken F).2).type = TOKEN_ERROR) := by
  induction n with
  | zero =>
    intro l hl
    have hE := Lexer.getNextToken_EOF_of_remaining_zero F l (by omega)
    rw [lastListedToken, Lexer.tokens_eq, if_pos hE]
    exact ⟨by simp, Or.inl hE⟩
  | succ n ih =>
    intro l hl
    rw [lastListedToken, Lexer.tokens_eq]
    by_cases hstop : (l.getNextToken F).1.type ≠ TOKEN_EOF ∧ (l.getNextToken F).1.type ≠ TOKEN_ERROR
    · rw [if_pos hstop, if_neg hstop.1]
      have hlt := Lexer.getNextToken_progress F l hstop.1
      obtain ⟨h1, h2⟩ := ih (l.getNextToken F).2 (by omega)
      exact ⟨List.mem_cons_of_mem _ h1, h2⟩
    · rw [if_neg hstop]
      constructor
      · split <;> simp
      · by_cases hE : (l.getNextToken F).1.type = TOKEN_EOF
        · exact Or.inl hE
        · right
          by_contra hR
          exact hstop ⟨hE, hR⟩

/-- The pipeline on a source text without lexical errors: parse, then execute. -/
theorem run_of_no_error {V : Type} (F : Float64 V) (source : List Char) (hne : source ≠ [])
    (hok : ∀ t ∈ tokenize F source, t.type ≠ TOKEN_ERROR) :
    run F source =
      (match parseSource F source with
       | .error e _ => .parseError e
       | .outOfFuel => .outOfFuel
       | .ok ast_root _ =>
         match ast_root.execute F with
         | { output := out, thrown := some e } => .runtimeError e out
         | { output := out, thrown := none } => .finished out) := by
  unfold run
  have h1 : source.isEmpty = false := by
    cases source with
    | nil => exact absurd rfl hne
    | cons c r => rfl
  rw [h1]
  obtain ⟨hmem, hty⟩ := lastListedToken_spec F (source.length + 1) (Lexer.new source)
    (by simp [Lexer.remaining, Lexer.new])
  have h2 : (lastListedToken F (source.length + 1) ((Lexer.new source).getNextToken F).1
      ((Lexer.new source).getNextToken F).2).type ≠ TOKEN_ERROR := hok _ hmem
  simp only [Bool.false_eq_true, if_false]
  rw [if_neg h2]
  rfl

/-- The program of a single statement `PRINT <number> ;`. -/
theorem parseProgram_print_number {V : Type} (F : Float64 V) (p : Parser V)
    (tP tN tS tE : Token V) (h : p.pending F = [tP, tN, tS, tE])
    (hP : tP.type = TOKEN_PRINT) (hN : tN.type = TOKEN_NUMBER)
    (hS : tS.type = TOKEN_SEMICOLON) (hE : tE.type = TOKEN_EOF) :
    (Parser.parseProgram F p).value? =
      some { statements := [some (.PrintNode (some (.NumberNode tN.value)))] } := by
  have c0 := Parser.pending_head F _ _ _ h
  have h1 := Parser.pending_tail F _ _ _ h (by rw [hP]; decide)
  have c1 := Parser.pending_head F _ _ _ h1
  have h2 := Parser.pending_tail F _ _ _ h1 (by rw [hN]; decide)
  have c2 := Parser.pending_head F _ _ _ h2
  have h3 := Parser.pending_tail F _ _ _ h2 (by rw [hS]; decide)
  have c3 := Parser.pending_head F _ _ _ h3
  subst c0 c1 c2 c3
  have hexpr : Parser.parseExpression F (p.advanceToken F) =
      .ok (.NumberNode (p.advanceToken F).currentToken.value)
        ((p.advanceToken F).advanceToken F) := by
    rw [Parser.parseExpression_eq, Parser.parseTerm_eq, Parser.parseFactor_number F _ hN]
    dsimp only
    rw [Parser.parseTermRest_stop F _ _ (by rw [hS]; rfl)]
    dsimp only
    rw [Parser.parseExpressionRest_stop F _ _ (by rw [hS]; rfl)]
  have hstmt : Parser.parseStatement F p =
      .ok (.PrintNode (some (.NumberNode (p.advanceToken F).currentToken.value)))
        (((p.advanceToken F).advanceToken F).advanceToken F) := by
    unfold Parser.parseStatement Parser.parsePrintStatement
    rw [if_pos ((Parser.matchType_iff p _).mpr hP),
      (Parser.consume_ok_iff F p _ _ _ ()).mpr ⟨hP, rfl⟩]
    dsimp only
    rw [hexpr]
    dsimp only
    rw [(Parser.consume_ok_iff F _ _ _ _ ()).mpr ⟨hS, rfl⟩]
  unfold Parser.parseProgram
  rw [Parser.parseProgramRest_eq, if_pos (by rw [hP]; decide), if_neg (by rw [hP]; decide), hstmt]
  dsimp only
  rw [Parser.parseProgramRest_eq, if_neg (by simp [hE])]
  rfl

/-- The source text `PRINT n;`. -/
theorem tokenize_print_literal {V : Type} (F : Float64 V) (n : List Char) (v : V)
    (hn : IsNumericLiteral n) (hv : F.stod (String.mk n) = .value v) :
    tokenize F ("PRINT ".toList ++ n ++ ";".toList) =
      [{ type := TOKEN_PRINT, lexeme := "PRINT", value := F.zero, line := 1, column := 1 },
       { type := TOKEN_NUMBER, lexeme := String.mk n, value := v, line := 1, column := 7 },
       { type := TOKEN_SEMICOLON, lexeme := ";", value := F.zero, line := 1,
         column := 7 + n.length },
       { type := TOKEN_EOF, lexeme := "", value := F.zero, line := 1,
         column := 8 + n.length }] := by
  obtain ⟨d, r, hdr, hd⟩ := hn.head
  have hsrc : "PRINT ".toList ++ n ++ ";".toList =
      'P' :: 'R' :: 'I' :: 'N' :: 'T' :: ' ' :: (n ++ [';']) := rfl
  rw [hsrc]
  generalize hs : 'P' :: 'R' :: 'I' :: 'N' :: 'T' :: ' ' :: (n ++ [';']) = s
  -- the four lexer states
  have r0 : (Lexer.new s).rest = 'P' :: 'R' :: 'I' :: 'N' :: 'T' :: ' ' :: (n ++ [';']) := by
    rw [Lexer.rest_new, hs]
  have r1 : ({ Lexer.new s with current_pos := 5 } : Lexer).rest = ' ' :: (n ++ [';']) := by
    rw [← hs]; rfl
  have r2 : ({ Lexer.new s with current_pos := 6 } : Lexer).rest = n ++ [';'] := by
    rw [← hs]; rfl
  have r3 : ({ Lexer.new s with current_pos := 6 + n.length } : Lexer).rest = [';'] := by
    have := Lexer.rest_set_pos { Lexer.new s with current_pos := 6 } n.length
    rw [r2, List.drop_left] at this
    exact this
  have r4 : ({ Lexer.new s with current_pos := 6 + n.length + 1 } : Lexer).rest = [] :=
    Lexer.rest_succ_of_rest_cons r3
  -- the four tokens
  have t0 : Lexer.getNextToken F (Lexer.new s) =
      ({ type := TOKEN_PRINT, lexeme := "PRINT", value := F.zero, line := 1, column := 1 },
       { Lexer.new s with current_pos := 5 }) := by
    rw [Lexer.getNextToken_of_isalpha F r0 (Or.inl (by decide)), Lexer.identifierOrKeyword_eq, r0]
    have hw : List.takeWhile (fun c => isalnum c || decide (c = '_'))
        ('P' :: 'R' :: 'I' :: 'N' :: 'T' :: ' ' :: (n ++ [';'])) = ['P', 'R', 'I', 'N', 'T'] := by
      simp [List.takeWhile_cons, isalnum, isalpha, isdigit]
    rw [hw]
    rfl
  have t1 : Lexer.getNextToken F { Lexer.new s with current_pos := 5 } =
      ({ type := TOKEN_NUMBER, lexeme := String.mk n, value := v, line := 1, column := 7 },
       { Lexer.new s with current_pos := 6 + n.length }) := by
    rw [Lexer.getNextToken_skip_space F r1 (by decide) (by decide)]
    have r2' : ({ Lexer.new s with current_pos := 6 } : Lexer).rest = d :: (r ++ [';']) := by
      rw [r2, hdr]; rfl
    have e := Lexer.getNextToken_of_isdigit F r2' hd
    rw [show ({ ({ Lexer.new s with current_pos := 5 } : Lexer) with
        current_pos := ({ Lexer.new s with current_pos := 5 } : Lexer).current_pos + 1 } : Lexer)
        = { Lexer.new s with current_pos := 6 } from rfl, e, Lexer.number_eq, r2,
      numberLexeme_literal n [';'] hn (by intro c hc; simp at hc; subst hc; decide)]
    dsimp only
    rw [hv]
    rfl
  have t2 : Lexer.getNextToken F { Lexer.new s with current_pos := 6 + n.length } =
      ({ type := TOKEN_SEMICOLON, lexeme := ";", value := F.zero, line := 1,
         column := 7 + n.length },
       { Lexer.new s with current_pos := 6 + n.length + 1 }) := by
    rw [Lexer.getNextToken_semicolon F r3]
    simp [Lexer.new]
    omega
  have t3 : Lexer.getNextToken F { Lexer.new s with current_pos := 6 + n.length + 1 } =
      ({ type := TOKEN_EOF, lexeme := "", value := F.zero, line := 1,
         column := 8 + n.length },
       { Lexer.new s with current_pos := 6 + n.length + 1 }) := by
    rw [Lexer.getNextToken_at_end F r4]
    simp [Lexer.new]
    omega
  unfold tokenize
  rw [Lexer.tokens_eq, t0]
  dsimp only
  rw [if_neg (by decide), Lexer.tokens_eq, t1]
  dsimp only
  rw [if_neg (by decide), Lexer.tokens_eq, t2]
  dsimp only
  rw [if_neg (by decide), Lexer.tokens_eq, t3]
  dsimp only
  rw [if_pos rfl]

/-! ## Where a parse failure is reported -/

namespace Parser

variable {V : Type} (F : Float64 V)

theorem consume_error_iff (p p' : Parser V) (t : TokenType) (msg : String) (e : ParseError) :
    consume F p t msg = .error e p' ↔
      p.currentToken.type ≠ t ∧ e = errorAt p.currentToken msg ∧ p' = p := by
  unfold consume
  split
  · rename_i h
    simp [h]
  · rename_i h
    simp [h, eq_comm]

/-- Every `ParseError` thrown by the expression parser is built by `errorAt` from the
lookahead of the state in which it is thrown. -/
theorem error_at_lookahead (n : Nat) :
    (∀ p e p', parseExpressionFuel F n p = .error e p' →
      ∃ msg, e = errorAt p'.currentToken msg) ∧
    (∀ left p e p', parseExpressionLoop F n left p = .error e p' →
      ∃ msg, e = errorAt p'.currentToken msg) ∧
    (∀ p e p', parseTermFuel F n p = .error e p' →
      ∃ msg, e = errorAt p'.currentToken msg) ∧
    (∀ left p e p', parseTermLoop F n left p = .error e p' →
      ∃ msg, e = errorAt p'.currentToken msg) ∧
    (∀ p e p', parseFactorFuel F n p = .error e p' →
      ∃ msg, e = errorAt p'.currentToken msg) := by
  induction n with
  | zero =>
    refine ⟨?_, ?_, ?_, ?_, ?_⟩
    · intro p e p' h; rw [parseExpressionFuel] at h; simp at h
    · intro l p e p' h; rw [parseExpressionLoop] at h; simp at h
    · intro p e p' h; rw [parseTermFuel] at h; simp at h
    · intro l p e p' h; rw [parseTermLoop] at h; simp at h
    · intro p e p' h; rw [parseFactorFuel] at h; simp at h
  | succ n ih =>
    obtain ⟨ihE, ihEL, ihT, ihTL, ihF⟩ := ih
    refine ⟨?_, ?_, ?_, ?_, ?_⟩
    · intro p e p' h
      rw [parseExpressionFuel_succ] at h
      cases hT : parseTermFuel F n p with
      | ok left p1 => rw [hT] at h; exact ihEL _ _ _ _ h
      | error e1 p1 =>
        rw [hT] at h
        simp only [ParseResult.error.injEq] at h
        rw [← h.1, ← h.2]
        exact ihT _ _ _ hT
      | outOfFuel => rw [hT] at h; simp at h
    · intro left p e p' h
      rw [parseExpressionLoop_succ] at h
      split at h
      · cases hT : parseTermFuel F n (p.advanceToken F) with
        | ok right p2 => rw [hT] at h; exact ihEL _ _ _ _ h
        | error e1 p1 =>
          rw [hT] at h
          simp only [ParseResult.error.injEq] at h
          rw [← h.1, ← h.2]
          exact ihT _ _ _ hT
        | outOfFuel => rw [hT] at h; simp at h
      · simp at h
    · intro p e p' h
      rw [parseTermFuel_succ] at h
      cases hT : parseFactorFuel F n p with
      | ok left p1 => rw [hT] at h; exact ihTL _ _ _ _ h
      | error e1 p1 =>
        rw [hT] at h
        simp only [ParseResult.error.injEq] at h
        rw [← h.1, ← h.2]
        exact ihF _ _ _ hT
      | outOfFuel => rw [hT] at h; simp at h
    · intro left p e p' h
      rw [parseTermLoop_succ] at h
      split at h
      · cases hT : parseFactorFuel F n (p.advanceToken F) with
        | ok right p2 => rw [hT] at h; exact ihTL _ _ _ _ h
        | error e1 p1 =>
          rw [hT] at h
          simp only [ParseResult.error.injEq] at h
          rw [← h.1, ← h.2]
          exact ihF _ _ _ hT
        | outOfFuel => rw [hT] at h; simp at h
      · simp at h
    · intro p e p' h
      rw [parseFactorFuel_succ] at h
      split at h
      · simp at h
      · split at h
        · cases hE : parseExpressionFuel F n (p.advanceToken F) with
          | ok expr p1 =>
            rw [hE] at h
            dsimp only at h
            cases hC : consume F p1 TOKEN_RPAREN "Expected ')' after expression in parentheses." with
            | ok u p2 => rw [hC] at h; simp at h
            | error e2 p2 =>
              rw [hC] at h
              simp only [ParseResult.error.injEq] at h
              rw [consume_error_iff] at hC
              rw [← h.1, ← h.2, hC.2.2]
              exact ⟨_, hC.2.1⟩
            | outOfFuel => rw [hC] at h; simp at h
          | error e1 p1 =>
            rw [hE] at h
            simp only [ParseResult.error.injEq] at h
            rw [← h.1, ← h.2]
            exact ihE _ _ _ hE
          | outOfFuel => rw [hE] at h; simp at h
        · simp only [ParseResult.error.injEq] at h
          rw [← h.1, ← h.2]
          exact ⟨_, rfl⟩

theorem parseStatement_error_at_lookahead (p p' : Parser V) (e : ParseError)
    (h : parseStatement F p = .error e p') : ∃ msg, e = errorAt p'.currentToken msg := by
  unfold parseStatement at h
  split at h
  · unfold parsePrintStatement at h
    cases h1 : consume F p TOKEN_PRINT "Expected 'PRINT' keyword." with
    | ok u p1 =>
      rw [h1] at h
      dsimp only at h
      cases h2 : parseExpression F p1 with
      | ok expr p2 =>
        rw [h2] at h
        dsimp only at h
        cases h3 : consume F p2 TOKEN_SEMICOLON
            "Expected ';' after PRINT statement's expression." with
        | ok u p3 => rw [h3] at h; simp at h
        | error e3 p3 =>
          rw [h3] at h
          simp only [ParseResult.error.injEq] at h
          rw [consume_error_iff] at h3
          rw [← h.1, ← h.2, h3.2.2]
          exact ⟨_, h3.2.1⟩
        | outOfFuel => rw [h3] at h; simp at h
      | error e2 p2 =>
        rw [h2] at h
        simp only [ParseResult.error.injEq] at h
        rw [← h.1, ← h.2]
        exact (error_at_lookahead F _).1 _ _ _ h2
      | outOfFuel => rw [h2] at h; simp at h
    | error e1 p1 =>
      rw [h1] at h
      simp only [ParseResult.error.injEq] at h
      rw [consume_error_iff] at h1
      rw [← h.1, ← h.2, h1.2.2]
      exact ⟨_, h1.2.1⟩
    | outOfFuel => rw [h1] at h; simp at h
  · simp only [ParseResult.error.injEq] at h
    rw [← h.1, ← h.2]
    exact ⟨_, rfl⟩

theorem parseProgramLoop_error_at_lookahead (n : Nat) :
    ∀ (prog : ProgramNode V) (p p' : Parser V) (e : ParseError),
      parseProgramLoop F n prog p = .error e p' → ∃ msg, e = errorAt p'.currentToken msg := by
  induction n with
  | zero => intro prog p p' e h; rw [parseProgramLoop] at h; simp at h
  | succ n ih =>
    intro prog p p' e h
    rw [parseProgramLoop_succ] at h
    split at h
    · split at h
      · simp only [ParseResult.error.injEq] at h
        rw [← h.1, ← h.2]
        exact ⟨_, rfl⟩
      · cases hS : parseStatement F p with
        | ok stmt p1 => rw [hS] at h; exact ih _ _ _ _ h
        | error e1 p1 =>
          rw [hS] at h
          simp only [ParseResult.error.injEq] at h
          rw [← h.1, ← h.2]
          exact parseStatement_error_at_lookahead F _ _ _ hS
        | outOfFuel => rw [hS] at h; simp at h
    · simp at h

end Parser

/-! ## Tokens are consumed from the front -/

namespace Parser

variable {V : Type} (F : Float64 V)

theorem pending_advance_suffix (p : Parser V) (h : p.currentToken.type ≠ TOKEN_EOF) :
    (p.advanceToken F).pending F <:+ p.pending F := by
  rw [pending_of_ne_EOF F p h]
  exact List.suffix_cons _ _

theorem consume_suffix (p p' : Parser V) (t : TokenType) (msg : String) (ht : t ≠ TOKEN_EOF)
    (h : (consume F p t msg).parser? = some p') : p'.pending F <:+ p.pending F := by
  unfold consume at h
  split at h
  · rename_i hc
    simp only [ParseResult.parser?, Option.some.injEq] at h
    rw [← h]
    exact pending_advance_suffix F p (by rw [hc]; exact ht)
  · simp only [ParseResult.parser?, Option.some.injEq] at h
    rw [← h]

/-- The state in which a parsing function returns or throws has consumed a front part of
the pending tokens. -/
theorem pending_suffix (n : Nat) :
    (∀ p p', (parseExpressionFuel F n p).parser? = some p' → p'.pending F <:+ p.pending F) ∧
    (∀ left p p', (parseExpressionLoop F n left p).parser? = some p' →
      p'.pending F <:+ p.pending F) ∧
    (∀ p p', (parseTermFuel F n p).parser? = some p' → p'.pending F <:+ p.pending F) ∧
    (∀ left p p', (parseTermLoop F n left p).parser? = some p' →
      p'.pending F <:+ p.pending F) ∧
    (∀ p p', (parseFactorFuel F n p).parser? = some p' → p'.pending F <:+ p.pending F) := by
  induction n with
  | zero =>
    refine ⟨?_, ?_, ?_, ?_, ?_⟩
    · intro p p' h; rw [parseExpressionFuel] at h; simp [ParseResult.parser?] at h
    · intro l p p' h; rw [parseExpressionLoop] at h; simp [ParseResult.parser?] at h
    · intro p p' h; rw [parseTermFuel] at h; simp [ParseResult.parser?] at h
    · intro l p p' h; rw [parseTermLoop] at h; simp [ParseResult.parser?] at h
    · intro p p' h; rw [parseFactorFuel] at h; simp [ParseResult.parser?] at h
  | succ n ih =>
    obtain ⟨ihE, ihEL, ihT, ihTL, ihF⟩ := ih
    refine ⟨?_, ?_, ?_, ?_, ?_⟩
    · intro p p' h
      rw [parseExpressionFuel_succ] at h
      cases hT : parseTermFuel F n p with
      | ok left p1 =>
        rw [hT] at h
        exact (ihEL _ _ _ h).trans (ihT p p1 (by rw [hT]; rfl))
      | error e1 p1 =>
        rw [hT] at h
        exact ihT p p' (by rw [hT]; exact h)
      | outOfFuel => rw [hT] at h; simp [ParseResult.parser?] at h
    · intro left p p' h
      rw [parseExpressionLoop_succ] at h
      split at h
      · rename_i hop
        have hadv := pending_advance_suffix F p
          (ne_EOF_of_or_matchType hop (by decide) (by decide))
        cases hT : parseTermFuel F n (p.advanceToken F) with
        | ok right p2 =>
          rw [hT] at h
          exact ((ihEL _ _ _ h).trans (ihT _ p2 (by rw [hT]; rfl))).trans hadv
        | error e1 p1 =>
          rw [hT] at h
          exact (ihT _ p' (by rw [hT]; exact h)).trans hadv
        | outOfFuel => rw [hT] at h; simp [ParseResult.parser?] at h
      · simp only [ParseResult.parser?, Option.some.injEq] at h
        rw [← h]
    · intro p p' h
      rw [parseTermFuel_succ] at h
      cases hT : parseFactorFuel F n p with
      | ok left p1 =>
        rw [hT] at h
        exact (ihTL _ _ _ h).trans (ihF p p1 (by rw [hT]; rfl))
      | error e1 p1 =>
        rw [hT] at h
        exact ihF p p' (by rw [hT]; exact h)
      | outOfFuel => rw [hT] at h; simp [ParseResult.parser?] at h
    · intro left p p' h
      rw [parseTermLoop_succ] at h
      split at h
      · rename_i hop
        have hadv := pending_advance_suffix F p
          (ne_EOF_of_or_matchType hop (by decide) (by decide))
        cases hT : parseFactorFuel F n (p.advanceToken F) with
        | ok right p2 =>
          rw [hT] at h
          exact ((ihTL _ _ _ h).trans (ihF _ p2 (by rw [hT]; rfl))).trans hadv
        | error e1 p1 =>
          rw [hT] at h
          exact (ihF _ p' (by rw [hT]; exact h)).trans hadv
        | outOfFuel => rw [hT] at h; simp [ParseResult.parser?] at h
      · simp only [ParseResult.parser?, Option.some.injEq] at h
        rw [← h]
    · intro p p' h
      rw [parseFactorFuel_succ] at h
      split at h
      · rename_i hn
        rw [matchType_iff] at hn
        simp only [ParseResult.parser?, Option.some.injEq] at h
        rw [← h]
        exact pending_advance_suffix F p (by rw [hn]; decide)
      · split at h
        · rename_i hl
          rw [matchType_iff] at hl
          have hadv := pending_advance_suffix F p (by rw [hl]; decide)
          cases hE : parseExpressionFuel F n (p.advanceToken F) with
          | ok expr p1 =>
            rw [hE] at h
            dsimp only at h
            have h1 := ihE _ p1 (by rw [hE]; rfl)
            have h2 : (consume F p1 TOKEN_RPAREN
                "Expected ')' after expression in parentheses.").parser? = some p' := by
              cases hC : consume F p1 TOKEN_RPAREN
                  "Expected ')' after expression in parentheses." with
              | ok u p2 => rw [hC] at h; exact h
              | error e2 p2 => rw [hC] at h; exact h
              | outOfFuel => rw [hC] at h; simp [ParseResult.parser?] at h
            exact ((consume_suffix F _ _ TOKEN_RPAREN _ (by decide) h2).trans h1).trans hadv
          | error e1 p1 =>
            rw [hE] at h
            exact (ihE _ p' (by rw [hE]; exact h)).trans hadv
          | outOfFuel => rw [hE] at h; simp [ParseResult.parser?] at h
        · simp only [ParseResult.parser?, Option.some.injEq] at h
          rw [← h]

theorem parseStatement_suffix (p p' : Parser V)
    (h : (parseStatement F p).parser? = some p') : p'.pending F <:+ p.pending F := by
  unfold parseStatement at h
  split at h
  · unfold parsePrintStatement at h
    cases h1 : consume F p TOKEN_PRINT "Expected 'PRINT' keyword." with
    | ok u p1 =>
      have s1 := consume_suffix F p p1 TOKEN_PRINT _ (by decide) (by rw [h1]; rfl)
      rw [h1] at h
      dsimp only at h
      cases h2 : parseExpression F p1 with
      | ok expr p2 =>
        have s2 := (pending_suffix F _).1 p1 p2 (by
          show (parseExpression F p1).parser? = some p2
          rw [h2]; rfl)
        rw [h2] at h
        dsimp only at h
        have h3 : (consume F p2 TOKEN_SEMICOLON
            "Expected ';' after PRINT statement's expression.").parser? = some p' := by
          cases hC : consume F p2 TOKEN_SEMICOLON
              "Expected ';' after PRINT statement's expression." with
          | ok u p3 => rw [hC] at h; exact h
          | error e3 p3 => rw [hC] at h; exact h
          | outOfFuel => rw [hC] at h; simp [ParseResult.parser?] at h
        exact ((consume_suffix F _ _ TOKEN_SEMICOLON _ (by decide) h3).trans s2).trans s1
      | error e2 p2 =>
        rw [h2] at h
        have s2 := (pending_suffix F _).1 p1 p' (by
          show (parseExpression F p1).parser? = some p'
          rw [h2]; exact h)
        exact s2.trans s1
      | outOfFuel => rw [h2] at h; simp [ParseResult.parser?] at h
    | error e1 p1 =>
      rw [h1] at h
      exact consume_suffix F p p' TOKEN_PRINT _ (by decide) (by rw [h1]; exact h)
    | outOfFuel => rw [h1] at h; simp [ParseResult.parser?] at h
  · simp only [ParseResult.parser?, Option.some.injEq] at h
    rw [← h]

theorem parseProgramLoop_suffix (n : Nat) :
    ∀ (prog : ProgramNode V) (p p' : Parser V),
      (parseProgramLoop F n prog p).parser? = some p' → p'.pending F <:+ p.pending F := by
  induction n with
  | zero => intro prog p p' h; rw [parseProgramLoop] at h; simp [ParseResult.parser?] at h
  | succ n ih =>
    intro prog p p' h
    rw [parseProgramLoop_succ] at h
    split at h
    · split at h
      · simp only [ParseResult.parser?, Option.some.injEq] at h
        rw [← h]
      · cases hS : parseStatement F p with
        | ok stmt p1 =>
          rw [hS] at h
          exact (ih _ _ _ h).trans (parseStatement_suffix F p p1 (by rw [hS]; rfl))
        | error e1 p1 =>
          rw [hS] at h
          exact parseStatement_suffix F p p' (by rw [hS]; exact h)
        | outOfFuel => rw [hS] at h; simp [ParseResult.parser?] at h
    · simp only [ParseResult.parser?, Option.some.injEq] at h
      rw [← h]

end Parser

/-! ## An operator without its right operand -/

theorem split_append {α : Type} {xs ys a b : List α} {op : α} (h : xs ++ ys = a ++ op :: b) :
    (∃ c, xs = a ++ op :: c ∧ b = c ++ ys) ∨ (∃ a', a = xs ++ a' ∧ ys = a' ++ op :: b) := by
  rcases List.append_eq_append_iff.mp h with ⟨a', ha, hy⟩ | ⟨c', hx, hc⟩
  · exact Or.inr ⟨a', ha, hy⟩
  · cases c' with
    | nil =>
      refine Or.inr ⟨[], by simpa using hx.symm, ?_⟩
      simpa using hc.symm
    | cons x c =>
      simp only [List.cons_append, List.cons.injEq] at hc
      obtain ⟨rfl, rfl⟩ := hc
      exact Or.inl ⟨c, hx, rfl⟩

theorem IsBinaryOperator.ne_EOF {op : TokenType} (h : IsBinaryOperator op) :
    op ≠ TOKEN_EOF := by
  rcases h with h | h
  · exact (Parser.isAdditive_not_multiplicative h).2
  · exact (Parser.isMultiplicative_not_additive h).2

theorem Generates.exprTail_head {k : TokenType} {r : List TokenType}
    (g : Generates .exprTail (k :: r)) : k = TOKEN_PLUS ∨ k = TOKEN_MINUS := by
  cases g with
  | exprTail_cons hop _ _ => exact hop

theorem Generates.termTail_head {k : TokenType} {r : List TokenType}
    (g : Generates .termTail (k :: r)) : k = TOKEN_STAR ∨ k = TOKEN_SLASH := by
  cases g with
  | termTail_cons hop _ _ => exact hop

theorem Generates.exprTail_split_followsTerm {r a b rest : List TokenType} {op t : TokenType}
    (g : Generates .exprTail r) (h : r = a ++ op :: b) :
    FollowsTerm (a ++ op :: t :: rest) := by
  subst h
  cases a with
  | nil =>
    rcases g.exprTail_head with h | h <;> exact ⟨_, _, rfl, by rw [h]; decide, by rw [h]; decide⟩
  | cons x a' =>
    rcases g.exprTail_head with h | h <;> exact ⟨_, _, rfl, by rw [h]; decide, by rw [h]; decide⟩

namespace Parser

variable {V : Type} (F : Float64 V)

theorem parseFactor_missing (p : Parser V) (t : TokenType) (rest : List TokenType)
    (h : kinds (p.pending F) = t :: rest) (h1 : t ≠ TOKEN_NUMBER) (h2 : t ≠ TOKEN_LPAREN) :
    MissingOperand F (parseFactor F p) t rest := by
  have hc := kinds_pending_head F p _ _ h
  refine ⟨p, ?_, h⟩
  rw [parseFactor_eq, if_neg (by rw [matchType_iff, hc]; exact h1),
    if_neg (by rw [matchType_iff, hc]; exact h2)]

theorem reject {nt : NonTerminal} {ks : List TokenType} (g : Generates nt ks) :
    Rejects F nt ks := by
  induction g with
  | factor_number =>
    intro a b op t rest p hks hop _ _ _
    cases a with
    | nil =>
      simp only [List.nil_append, List.cons.injEq] at hks
      rw [← hks.1] at hop
      rcases hop with h | h <;> simp [isAdditive, isMultiplicative] at h
    | cons x a' => simp at hks
  | @factor_paren es gE ih =>
    intro a b op t rest p hks hop ht1 ht2 hp
    cases a with
    | nil =>
      simp only [List.nil_append, List.cons.injEq] at hks
      rw [← hks.1] at hop
      rcases hop with h | h <;> simp [isAdditive, isMultiplicative] at h
    | cons x a' =>
      simp only [List.cons_append, List.cons.injEq] at hks
      obtain ⟨rfl, hks⟩ := hks
      rw [List.cons_append] at hp
      have hc := kinds_pending_head F p _ _ hp
      have htl := kinds_pending_tail F p _ _ hp (by decide)
      rcases split_append hks with ⟨c, hes, _⟩ | ⟨a'', _, hr⟩
      · obtain ⟨p', he, hk⟩ := ih a' c op t rest (p.advanceToken F) hes hop ht1 ht2 htl
        refine ⟨p', ?_, hk⟩
        rw [parseFactor_eq, if_neg (by rw [matchType_iff, hc]; decide),
          if_pos ((matchType_iff p _).mpr hc), he]
      · cases a'' with
        | nil =>
          simp only [List.nil_append, List.cons.injEq] at hr
          rw [← hr.1] at hop
          rcases hop with h | h <;> simp [isAdditive, isMultiplicative] at h
        | cons y a3 => simp at hr
  | termTail_nil =>
    intro a b op t rest p left hks
    simp at hks
  | @termTail_cons op' fs r hop' gF gT ihF ihT =>
    intro a b op t rest p left hks hop ht1 ht2 hp
    cases a with
    | nil =>
      simp only [List.nil_append, List.cons.injEq] at hks
      obtain ⟨rfl, _⟩ := hks
      rw [List.nil_append] at hp
      have hc := kinds_pending_head F p _ _ hp
      have htl := kinds_pending_tail F p _ _ hp hop.ne_EOF
      obtain ⟨p', he, hk⟩ := parseFactor_missing F (p.advanceToken F) t rest htl ht1 ht2
      refine ⟨p', ?_, hk⟩
      rw [parseTermRest_eq, if_pos, he]
      rw [Bool.or_eq_true, matchType_iff, matchType_iff, hc]
      exact hop'
    | cons x a' =>
      simp only [List.cons_append, List.cons.injEq] at hks
      obtain ⟨rfl, hks⟩ := hks
      rw [List.cons_append] at hp
      have hc := kinds_pending_head F p _ _ hp
      have hne : op' ≠ TOKEN_EOF := by rcases hop' with h | h <;> rw [h] <;> decide
      have htl := kinds_pending_tail F p _ _ hp hne
      have hif : (p.matchType TOKEN_STAR || p.matchType TOKEN_SLASH) = true := by
        rw [Bool.or_eq_true, matchType_iff, matchType_iff, hc]
        exact hop'
      rcases split_append hks with ⟨c, hfs, _⟩ | ⟨a'', ha, hr⟩
      · obtain ⟨p', he, hk⟩ := ihF a' c op t rest (p.advanceToken F) hfs hop ht1 ht2 htl
        refine ⟨p', ?_, hk⟩
        rw [parseTermRest_eq, if_pos hif, he]
      · rw [ha, List.append_assoc] at htl
        obtain ⟨right, p2, h1, k1⟩ := complete F gF (p.advanceToken F) _ htl
        obtain ⟨p', he, hk⟩ := ihT a'' b op t rest p2
          (.BinaryOpNode p.currentToken.lexeme0 (some left) (some right)) hr hop ht1 ht2 k1
        refine ⟨p', ?_, hk⟩
        rw [parseTermRest_eq, if_pos hif, h1]
        exact he
  | @term fs r gF gT ihF ihT =>
    intro a b op t rest p hks hop ht1 ht2 hp
    rcases split_append hks with ⟨c, hfs, _⟩ | ⟨a'', ha, hr⟩
    · obtain ⟨p', he, hk⟩ := ihF a c op t rest p hfs hop ht1 ht2 hp
      refine ⟨p', ?_, hk⟩
      rw [parseTerm_eq, he]
    · rw [ha, List.append_assoc] at hp
      obtain ⟨left, p1, h1, k1⟩ := complete F gF p _ hp
      obtain ⟨p', he, hk⟩ := ihT a'' b op t rest p1 left hr hop ht1 ht2 k1
      refine ⟨p', ?_, hk⟩
      rw [parseTerm_eq, h1]
      exact he
  | exprTail_nil =>
    intro a b op t rest p left hks
    simp at hks
  | @exprTail_cons op' ts r hop' gT gE ihT ihE =>
    intro a b op t rest p left hks hop ht1 ht2 hp
    have hne : op' ≠ TOKEN_EOF := by rcases hop' with h | h <;> rw [h] <;> decide
    cases a with
    | nil =>
      simp only [List.nil_append, List.cons.injEq] at hks
      obtain ⟨rfl, _⟩ := hks
      rw [List.nil_append] at hp
      have hc := kinds_pending_head F p _ _ hp
      have htl := kinds_pending_tail F p _ _ hp hne
      obtain ⟨p', he, hk⟩ := parseFactor_missing F (p.advanceToken F) t rest htl ht1 ht2
      refine ⟨p', ?_, hk⟩
      rw [parseExpressionRest_eq, if_pos, parseTerm_eq, he]
      rw [Bool.or_eq_true, matchType_iff, matchType_iff, hc]
      exact hop'
    | cons x a' =>
      simp only [List.cons_append, List.cons.injEq] at hks
      obtain ⟨rfl, hks⟩ := hks
      rw [List.cons_append] at hp
      have hc := kinds_pending_head F p _ _ hp
      have htl := kinds_pending_tail F p _ _ hp hne
      have hif : (p.matchType TOKEN_PLUS || p.matchType TOKEN_MINUS) = true := by
        rw [Bool.or_eq_true, matchType_iff, matchType_iff, hc]
        exact hop'
      rcases split_append hks with ⟨c, hts, _⟩ | ⟨a'', ha, hr⟩
      · obtain ⟨p', he, hk⟩ := ihT a' c op t rest (p.advanceToken F) hts hop ht1 ht2 htl
        refine ⟨p', ?_, hk⟩
        rw [parseExpressionRest_eq, if_pos hif, he]
      · rw [ha, List.append_assoc] at htl
        obtain ⟨right, p2, h1, k1⟩ := complete F gT (p.advanceToken F) _ htl
          (gE.exprTail_split_followsTerm hr)
        obtain ⟨p', he, hk⟩ := ihE a'' b op t rest p2
          (.BinaryOpNode p.currentToken.lexeme0 (some left) (some right)) hr hop ht1 ht2 k1
        refine ⟨p', ?_, hk⟩
        rw [parseExpressionRest_eq, if_pos hif, h1]
        exact he
  | @expression ts r gT gE ihT ihE =>
    intro a b op t rest p hks hop ht1 ht2 hp
    rcases split_append hks with ⟨c, hts, _⟩ | ⟨a'', ha, hr⟩
    · obtain ⟨p', he, hk⟩ := ihT a c op t rest p hts hop ht1 ht2 hp
      refine ⟨p', ?_, hk⟩
      rw [parseExpression_eq, he]
    · rw [ha, List.append_assoc] at hp
      obtain ⟨left, p1, h1, k1⟩ := complete F gT p _ hp (gE.exprTail_split_followsTerm hr)
      obtain ⟨p', he, hk⟩ := ihE a'' b op t rest p1 left hr hop ht1 ht2 k1
      refine ⟨p', ?_, hk⟩
      rw [parseExpression_eq, h1]
      exact he
  | @statement es gE ih =>
    intro a b op t rest p hks hop ht1 ht2 hp
    cases a with
    | nil =>
      simp only [List.nil_append, List.cons.injEq] at hks
      rw [← hks.1] at hop
      rcases hop with h | h <;> simp [isAdditive, isMultiplicative] at h
    | cons x a' =>
      simp only [List.cons_append, List.cons.injEq] at hks
      obtain ⟨rfl, hks⟩ := hks
      rw [List.cons_append] at hp
      have hc := kinds_pending_head F p _ _ hp
      have htl := kinds_pending_tail F p _ _ hp (by decide)
      rcases split_append hks with ⟨c, hes, _⟩ | ⟨a'', _, hr⟩
      · obtain ⟨p', he, hk⟩ := ih a' c op t rest (p.advanceToken F) hes hop ht1 ht2 htl
        refine ⟨p', ?_, hk⟩
        unfold parseStatement parsePrintStatement
        rw [if_pos ((matchType_iff p _).mpr hc), (consume_ok_iff F p _ _ _ ()).mpr ⟨hc, rfl⟩]
        dsimp only
        rw [he]
      · cases a'' with
        | nil =>
          simp only [List.nil_append, List.cons.injEq] at hr
          rw [← hr.1] at hop
          rcases hop with h | h <;> simp [isAdditive, isMultiplicative] at h
        | cons y a3 => simp at hr
  | program_eof =>
    intro a b op t rest p prog hks hop _ _ _
    cases a with
    | nil =>
      simp only [List.nil_append, List.cons.injEq] at hks
      rw [← hks.1] at hop
      rcases hop with h | h <;> simp [isAdditive, isMultiplicative] at h
    | cons x a' => simp at hks
  | @program_cons s r gS gP ihS ihP =>
    intro a b op t rest p prog hks hop ht1 ht2 hp
    have hP : p.currentToken.type = TOKEN_PRINT := by
      cases gS with
      | statement gE =>
        rcases split_append hks with ⟨c, hs, _⟩ | ⟨a'', ha, hr⟩
        · cases a with
          | nil =>
            simp only [List.nil_append, List.cons.injEq] at hs
            rw [← hs.1] at hop
            rcases hop with h | h <;> simp [isAdditive, isMultiplicative] at h
          | cons x a' =>
            simp only [List.cons_append, List.cons.injEq] at hs
            rw [← hs.1, List.cons_append] at hp
            exact kinds_pending_head F p _ _ hp
        · rw [ha, List.cons_append, List.cons_append] at hp
          exact kinds_pending_head F p _ _ hp
    rcases split_append hks with ⟨c, hs, _⟩ | ⟨a'', ha, hr⟩
    · obtain ⟨p', he, hk⟩ := ihS a c op t rest p hs hop ht1 ht2 hp
      refine ⟨p', ?_, hk⟩
      rw [parseProgramRest_eq, if_pos (by rw [hP]; decide), if_neg (by rw [hP]; decide), he]
    · rw [ha, List.append_assoc] at hp
      obtain ⟨stmt, p1, h1, k1⟩ := complete F gS p _ hp
      obtain ⟨p', he, hk⟩ := ihP a'' b op t rest p1 (prog.addStatement (some stmt)) hr hop
        ht1 ht2 k1
      refine ⟨p', ?_, hk⟩
      rw [parseProgramRest_eq, if_pos (by rw [hP]; decide), if_neg (by rw [hP]; decide), h1]
      exact he

end Parser

/-! ## The fuel of `skipWhitespaceAndComments` -/

namespace Lexer

theorem remaining_set_line (l : Lexer) (line col : Int) :
    ({ l with current_line := line, current_column_start_of_line := col } : Lexer).remaining
      = l.remaining := rfl

theorem set_line_isAtEnd (l : Lexer) (line col : Int) (h : l.isAtEnd = false) :
    ({ l with current_line := line, current_column_start_of_line := col } : Lexer).isAtEnd
      = false := h

theorem advance_remaining_le (l : Lexer) : l.advance.2.remaining ≤ l.remaining :=
  (advance_reaches l).remaining_le

theorem advance_remaining_lt (l : Lexer) (h : l.isAtEnd = false) :
    l.advance.2.remaining < l.remaining := by
  have hpos := advance_pos_of_not_atEnd l h
  have hsrc := (advance_reaches l).1
  simp only [isAtEnd, decide_eq_false_iff_not, not_le] at h
  unfold remaining
  rw [hsrc, hpos]
  omega

/-- The comment loop consumes at least the `/` it starts at. -/
theorem skipCommentLoop_remaining_lt (l : Lexer) (h : l.isAtEnd = false)
    (hp : l.peek = '/') : (skipCommentLoop l.remaining l).remaining < l.remaining := by
  obtain ⟨n, hn⟩ := Nat.exists_eq_succ_of_ne_zero (Nat.pos_iff_ne_zero.mp
    (remaining_pos_of_not_atEnd l h))
  rw [hn, skipCommentLoop, if_pos ⟨by rw [hp]; decide, by simp [h]⟩]
  have h1 := (skipCommentLoop_reaches n l.advance.2).remaining_le
  have h2 := advance_remaining_lt l h
  omega

/-- One more unit of fuel does not change what `skipLoop` returns: with as much fuel as
there are unread characters the loop ends because its condition fails. -/
theorem skipLoop_fuel (n : Nat) : ∀ l : Lexer, l.remaining ≤ n →
    skipLoop (n + 1) l = skipLoop n l := by
  induction n with
  | zero =>
    intro l hl
    have : l.isAtEnd = true := by
      simp only [isAtEnd, decide_eq_true_eq]
      unfold remaining at hl
      omega
    rw [skipLoop_succ, this]
    rfl
  | succ n ih =>
    intro l hl
    rw [skipLoop_succ (n + 1) l, skipLoop_succ n l]
    cases hend : l.isAtEnd with
    | true => rfl
    | false =>
      simp only [Bool.false_eq_true, if_false]
      split
      · apply ih
        split
        · have := advance_remaining_lt _ (set_line_isAtEnd l (l.current_line + 1)
            ((l.current_pos : Int) + 1) hend)
          have hr := remaining_set_line l (l.current_line + 1) ((l.current_pos : Int) + 1)
          omega
        · have := advance_remaining_lt l hend
          omega
      · split
        · rename_i hc
          apply ih
          have h1 := skipCommentLoop_remaining_lt l hend hc.1
          split
          · have h2 := advance_remaining_le (skipCommentLoop l.remaining l)
            rw [remaining_set_line]
            omega
          · omega
        · rfl

/-- Any fuel from the number of unread characters on gives the same result. -/
theorem skipLoop_fuel_le (l : Lexer) (n : Nat) (h : l.remaining ≤ n) :
    skipLoop n l = l.skipWhitespaceAndComments := by
  unfold skipWhitespaceAndComments
  induction h with
  | refl => rfl
  | step hle ih => rw [skipLoop_fuel _ l hle, ih]

end Lexer

/-! ## Line and column tracking -/

namespace Lexer

theorem take_succ_of_rest_cons {l : Lexer} {c : Char} {r : List Char} (h : l.rest = c :: r) :
    l.source_code.take (l.current_pos + 1) = l.source_code.take l.current_pos ++ [c] := by
  have hget : l.source_code[l.current_pos]? = some c := by
    have h0 : (l.source_code.drop l.current_pos)[0]? = some c := by
      rw [show l.source_code.drop l.current_pos = l.rest from rfl, h]
      simp
    simpa using h0
  rw [List.take_succ, hget]
  rfl

theorem lineOf_succ {l : Lexer} {c : Char} {r : List Char} (h : l.rest = c :: r) :
    lineOf l.source_code (l.current_pos + 1) =
      lineOf l.source_code l.current_pos + (if c = '\n' then 1 else 0) := by
  unfold lineOf
  rw [take_succ_of_rest_cons h, List.count_append]
  by_cases hc : c = '\n'
  · subst hc
    simp
    omega
  · have : List.count '\n' [c] = 0 := by
      simp [List.count_cons, hc]
    rw [this, if_neg hc]
    simp

theorem columnOf_succ {l : Lexer} {c : Char} {r : List Char} (h : l.rest = c :: r) :
    columnOf l.source_code (l.current_pos + 1) =
      (if c = '\n' then 1 else columnOf l.source_code l.current_pos + 1) := by
  unfold columnOf
  rw [take_succ_of_rest_cons h, List.reverse_append]
  by_cases hc : c = '\n'
  · subst hc
    simp
  · rw [if_neg hc]
    simp [List.takeWhile_cons, hc]

theorem set_line_rest (l : Lexer) (line col : Int) :
    ({ l with current_line := line, current_column_start_of_line := col } : Lexer).rest
      = l.rest := rfl

theorem Tracks.new (source : List Char) : (Lexer.new source).Tracks := by
  simp [Tracks, Lexer.new, lineOf, columnOf]

/-- Consuming a character other than a newline keeps the tracking. -/
theorem Tracks.step {l : Lexer} {c : Char} {r : List Char} (ht : l.Tracks)
    (h : l.rest = c :: r) (hc : c ≠ '\n') :
    ({ l with current_pos := l.current_pos + 1 } : Lexer).Tracks := by
  obtain ⟨h1, h2⟩ := ht
  constructor
  · show l.current_line = lineOf l.source_code (l.current_pos + 1)
    rw [lineOf_succ h, if_neg hc, h1]
    simp
  · show ((l.current_pos + 1 : Nat) : Int) - l.current_column_start_of_line + 1 =
      columnOf l.source_code (l.current_pos + 1)
    rw [columnOf_succ h, if_neg hc, ← h2]
    push_cast
    omega

/-- Consuming a newline with the bookkeeping of `skipWhitespaceAndComments` keeps the
tracking. -/
theorem Tracks.newline {l : Lexer} {r : List Char} (ht : l.Tracks) (h : l.rest = '\n' :: r)
    (line col : Int) (hline : line = l.current_line + 1)
    (hcol : col = (l.current_pos : Int) + 1) :
    ({ l with current_pos := l.current_pos + 1, current_line := line,
              current_column_start_of_line := col } : Lexer).Tracks := by
  obtain ⟨h1, h2⟩ := ht
  constructor
  · show line = lineOf l.source_code (l.current_pos + 1)
    rw [lineOf_succ h, if_pos rfl, hline, h1]
  · show ((l.current_pos + 1 : Nat) : Int) - col + 1 = columnOf l.source_code (l.current_pos + 1)
    rw [columnOf_succ h, if_pos rfl, hcol]
    push_cast
    omega

/-- Consuming a run of characters without a newline keeps the tracking. -/
theorem Tracks.run (w : List Char) : ∀ {l : Lexer} {r : List Char}, l.Tracks →
    l.rest = w ++ r → (∀ c ∈ w, c ≠ '\n') →
    ({ l with current_pos := l.current_pos + w.length } : Lexer).Tracks := by
  induction w with
  | nil => intro l r ht _ _; exact ht
  | cons c w ih =>
    intro l r ht h hw
    have h' : l.rest = c :: (w ++ r) := h
    have hstep := ht.step h' (hw c (by simp))
    have := ih hstep (rest_succ_of_rest_cons h') (fun x hx => hw x (by simp [hx]))
    simpa [Nat.add_assoc, Nat.add_comm 1] using this

theorem takeWhile_prefix_rest (p : Char → Bool) (xs : List Char) :
    xs = xs.takeWhile p ++ xs.dropWhile p := (List.takeWhile_append_dropWhile p xs).symm

theorem Tracks.skipLoop (n : Nat) : ∀ l : Lexer, l.Tracks → (Lexer.skipLoop n l).Tracks := by
  induction n with
  | zero => intro l ht; exact ht
  | succ n ih =>
    intro l ht
    rw [skipLoop_succ]
    cases hr : l.rest with
    | nil =>
      rw [(isAtEnd_iff_rest l).mpr hr]
      exact ht
    | cons c r =>
      rw [isAtEnd_of_rest_cons hr, peek_of_rest_cons hr]
      simp only [Bool.false_eq_true, if_false]
      split
      · apply ih
        by_cases hc : c = '\n'
        · subst hc
          rw [if_pos rfl]
          rw [advance_of_rest_cons ((set_line_rest l _ _).trans hr)]
          exact ht.newline hr _ _ rfl rfl
        · rw [if_neg hc, advance_of_rest_cons hr]
          exact ht.step hr hc
      · split
        · apply ih
          rw [skipCommentLoop_eq _ l (Nat.le_refl _)]
          have hrun : ({ l with current_pos := l.current_pos +
              (l.rest.takeWhile (fun c => decide (c ≠ '\n'))).length } : Lexer).Tracks :=
            ht.run _ (takeWhile_prefix_rest _ l.rest)
              (fun x hx => by simpa using List.mem_takeWhile_imp hx)
          have hrest : ({ l with current_pos := l.current_pos +
              (l.rest.takeWhile (fun c => decide (c ≠ '\n'))).length } : Lexer).rest =
              l.rest.dropWhile (fun c => decide (c ≠ '\n')) := by
            rw [rest_set_pos, drop_length_takeWhile]
          generalize hl1 : ({ l with current_pos := l.current_pos +
              (l.rest.takeWhile (fun c => decide (c ≠ '\n'))).length } : Lexer) = l1
            at hrun hrest ⊢
          split
          · rename_i hp
            cases hd : l1.rest with
            | nil =>
              rw [peek_eq_headD, hd] at hp
              exact absurd hp (by decide)
            | cons d r' =>
              rw [peek_of_rest_cons hd] at hp
              subst hp
              rw [advance_of_rest_cons hd]
              exact hrun.newline hd _ _ rfl (by push_cast; rfl)
          · exact hrun
        · exact ht

theorem Tracks.skip {l : Lexer} (ht : l.Tracks) : l.skipWhitespaceAndComments.Tracks :=
  Tracks.skipLoop _ l ht

/-- Where `skipWhitespaceAndComments` stops there is no white space. -/
theorem skipLoop_exit (n : Nat) : ∀ l : Lexer, l.remaining ≤ n →
    (skipLoop n l).isAtEnd = true ∨ isspace (skipLoop n l).peek = false := by
  induction n with
  | zero =>
    intro l hl
    left
    simp only [skipLoop, isAtEnd, decide_eq_true_eq]
    unfold remaining at hl
    omega
  | succ n ih =>
    intro l hl
    rw [skipLoop_succ]
    cases hend : l.isAtEnd with
    | true => left; simpa using hend
    | false =>
      simp only [Bool.false_eq_true, if_false]
      split
      · apply ih
        split
        · have := advance_remaining_lt _ (set_line_isAtEnd l (l.current_line + 1)
            ((l.current_pos : Int) + 1) hend)
          have hr := remaining_set_line l (l.current_line + 1) ((l.current_pos : Int) + 1)
          omega
        · have := advance_remaining_lt l hend
          omega
      · rename_i hsp
        split
        · rename_i hc
          apply ih
          have h1 := skipCommentLoop_remaining_lt l hend hc.1
          split
          · have h2 := advance_remaining_le (skipCommentLoop l.remaining l)
            rw [remaining_set_line]
            omega
          · omega
        · right
          simpa using hsp

theorem skip_exit (l : Lexer) :
    l.skipWhitespaceAndComments.isAtEnd = true ∨
      isspace l.skipWhitespaceAndComments.peek = false :=
  skipLoop_exit _ l (Nat.le_refl _)

end Lexer

/-! ## Token positions -/

namespace Lexer

theorem ne_newline_of_not_isspace {c : Char} (h : isspace c = false) : c ≠ '\n' := by
  rintro rfl
  exact absurd h (by decide)

theorem ne_newline_of_identChar {c : Char} (h : (isalnum c || decide (c = '_')) = true) :
    c ≠ '\n' := by
  rintro rfl
  exact absurd h (by decide)

theorem mem_numberLexeme {xs : List Char} {c : Char} (h : c ∈ numberLexeme xs) :
    isdigit c = true ∨ c = '.' := by
  unfold numberLexeme at h
  dsimp only at h
  split at h
  · split at h
    · rw [List.mem_append, List.mem_cons] at h
      rcases h with h | h | h
      · exact Or.inl (List.mem_takeWhile_imp h)
      · exact Or.inr h
      · exact Or.inl (List.mem_takeWhile_imp h)
    · exact Or.inl (List.mem_takeWhile_imp h)
  · exact Or.inl (List.mem_takeWhile_imp h)

theorem ne_newline_of_mem_numberLexeme {xs : List Char} {c : Char}
    (h : c ∈ numberLexeme xs) : c ≠ '\n' := by
  rintro rfl
  rcases mem_numberLexeme h with h | h
  · exact absurd h (by decide)
  · exact absurd h (by decide)

theorem length_numberLexeme_pos {c : Char} {r : List Char} (h : isdigit c = true) :
    0 < (numberLexeme (c :: r)).length := by
  unfold numberLexeme
  dsimp only
  have hpos : 0 < ((c :: r).takeWhile isdigit).length := by
    simp [List.takeWhile_cons, h]
  split
  · split
    · rw [List.length_append]
      omega
    · exact hpos
  · exact hpos

theorem numberLexeme_append_drop (xs : List Char) :
    xs = numberLexeme xs ++ xs.drop (numberLexeme xs).length := by
  conv_lhs => rw [← List.take_append_drop (numberLexeme xs).length xs]
  rw [take_length_numberLexeme]

/-- The result of a token that is not an `Error` token and starts at the scan position. -/
theorem Positioned.simple {V : Type} {l l1 : Lexer} {tok : Token V} (ht : l.Tracks)
    (hline : tok.line = l.current_line)
    (hcol : tok.column = (l.current_pos : Int) - l.current_column_start_of_line + 1)
    (hty : tok.type ≠ TOKEN_ERROR) (ht1 : l1.Tracks) (hsrc : l1.source_code = l.source_code) :
    Positioned l.source_code l.current_pos (tok, l1) :=
  ⟨by rw [hline]; exact ht.1, fun _ => by rw [hcol]; exact ht.2,
    fun h => absurd h hty, ht1, hsrc⟩

/-- The result of `errorToken` after `k` characters have been consumed. -/
theorem Positioned.error {V : Type} (F : Float64 V) {l : Lexer} (k : Nat) (msg : String)
    (ht : l.Tracks) (hk : 0 < k)
    (ht1 : ({ l with current_pos := l.current_pos + k } : Lexer).Tracks) :
    Positioned l.source_code l.current_pos
      (({ l with current_pos := l.current_pos + k } : Lexer).errorToken F msg,
        ({ l with current_pos := l.current_pos + k } : Lexer)) := by
  refine ⟨ht.1, fun h => absurd rfl h, fun _ => ⟨?_, ?_⟩, ht1, rfl⟩
  · show l.current_pos < l.current_pos + k
    omega
  · show ((l.current_pos + k : Nat) : Int) - l.current_column_start_of_line + 1 =
      columnOf l.source_code l.current_pos + ((l.current_pos + k - l.current_pos : Nat) : Int)
    rw [← ht.2, Nat.add_sub_cancel_left]
    push_cast
    omega

theorem identifierOrKeyword_positioned {V : Type} (F : Float64 V) {l : Lexer} {c : Char}
    {r : List Char} (ht : l.Tracks) (h : l.rest = c :: r)
    (hc : isalpha c = true ∨ c = '_') :
    Positioned l.source_code l.current_pos (identifierOrKeyword F l) := by
  rw [identifierOrKeyword_eq]
  dsimp only
  have hrun : ({ l with current_pos := l.current_pos +
      (l.rest.takeWhile (fun c => isalnum c || decide (c = '_'))).length } : Lexer).Tracks :=
    ht.run _ (takeWhile_prefix_rest _ l.rest)
      (fun x hx => by
        have hx2 := List.mem_takeWhile_imp hx
        exact ne_newline_of_identChar hx2)
  have hpos : 0 < (l.rest.takeWhile (fun c => isalnum c || decide (c = '_'))).length := by
    have hic : (isalnum c || decide (c = '_')) = true := by
      rcases hc with hc | hc
      · simp [isalnum, hc]
      · simp [hc]
    rw [h, List.takeWhile_cons, hic]
    simp
  split
  · rename_i ty hk
    refine Positioned.simple ht rfl rfl ?_ hrun rfl
    unfold keywords at hk
    split at hk
    · simp only [Option.some.injEq] at hk
      show ty ≠ TOKEN_ERROR
      rw [← hk]
      decide
    · simp at hk
  · exact Positioned.error F _ _ ht hpos hrun

theorem number_positioned {V : Type} (F : Float64 V) {l : Lexer} {c : Char}
    {r : List Char} (ht : l.Tracks) (h : l.rest = c :: r) (hc : isdigit c = true) :
    Positioned l.source_code l.current_pos (number F l) := by
  rw [number_eq]
  dsimp only
  have hrun : ({ l with current_pos := l.current_pos + (numberLexeme l.rest).length }
      : Lexer).Tracks :=
    ht.run _ (numberLexeme_append_drop l.rest) (fun x hx => ne_newline_of_mem_numberLexeme hx)
  have hpos : 0 < (numberLexeme l.rest).length := by
    rw [h]
    exact length_numberLexeme_pos hc
  split
  · exact Positioned.error F _ _ ht hpos hrun
  · exact Positioned.error F _ _ ht hpos hrun
  · exact Positioned.simple ht rfl rfl (by intro h; cases h) hrun rfl

/-- Every token carries the line of its first character; every token other than an
`Error` token carries the column of its first character; an `Error` token carries that
column plus the number of characters consumed for it. -/
theorem getNextToken_positioned {V : Type} (F : Float64 V) (l0 : Lexer) (ht0 : l0.Tracks) :
    Positioned l0.source_code l0.skipWhitespaceAndComments.current_pos (getNextToken F l0) := by
  have ht := ht0.skip
  have hsrc := (skipWhitespaceAndComments_reaches l0).1
  have hexit := skip_exit l0
  rw [getNextToken_eq, ← hsrc]
  generalize l0.skipWhitespaceAndComments = l at ht hexit
  dsimp only
  cases hr : l.rest with
  | nil =>
    rw [(isAtEnd_iff_rest l).mpr hr, if_pos rfl]
    exact Positioned.simple ht rfl (by simp [makeToken]) (by simp [makeToken]) ht rfl
  | cons c r =>
    have hend := isAtEnd_of_rest_cons hr
    have hpk := peek_of_rest_cons hr
    have hch : l.charAt l.current_pos = c := by rw [← peek_of_not_atEnd l hend, hpk]
    have hsp : isspace c = false := by
      rcases hexit with h | h
      · rw [hend] at h; cases h
      · rw [hpk] at h; exact h
    have hstep : ({ l with current_pos := l.current_pos + 1 } : Lexer).Tracks :=
      ht.step hr (ne_newline_of_not_isspace hsp)
    rw [hend, hch]
    simp only [Bool.false_eq_true, if_false]
    by_cases h1 : isalpha c = true ∨ c = '_'
    · rw [if_pos h1]
      exact identifierOrKeyword_positioned F ht hr h1
    rw [if_neg h1]
    by_cases h2 : isdigit c = true
    · rw [if_pos h2]
      exact number_positioned F ht hr h2
    rw [if_neg h2]
    by_cases h3 : c = '('
    · rw [if_pos h3]; exact Positioned.simple ht rfl rfl (by intro h; cases h) hstep rfl
    rw [if_neg h3]
    by_cases h4 : c = ')'
    · rw [if_pos h4]; exact Positioned.simple ht rfl rfl (by intro h; cases h) hstep rfl
    rw [if_neg h4]
    by_cases h5 : c = ';'
    · rw [if_pos h5]; exact Positioned.simple ht rfl rfl (by intro h; cases h) hstep rfl
    rw [if_neg h5]
    by_cases h6 : c = '+'
    · rw [if_pos h6]; exact Positioned.simple ht rfl rfl (by intro h; cases h) hstep rfl
    rw [if_neg h6]
    by_cases h7 : c = '-'
    · rw [if_pos h7]; exact Positioned.simple ht rfl rfl (by intro h; cases h) hstep rfl
    rw [if_neg h7]
    by_cases h8 : c = '*'
    · rw [if_pos h8]; exact Positioned.simple ht rfl rfl (by intro h; cases h) hstep rfl
    rw [if_neg h8]
    by_cases h9 : c = '/'
    · rw [if_pos h9]; exact Positioned.simple ht rfl rfl (by intro h; cases h) hstep rfl
    rw [if_neg h9]
    exact Positioned.error F 1 _ ht (by decide) hstep

theorem afterCalls_succ {V : Type} (F : Float64 V) (source : List Char) (k : Nat) :
    afterCalls F source (k + 1) = ((afterCalls F source k).getNextToken F).2 := by
  unfold afterCalls
  rw [Function.iterate_succ_apply']

/-- Across all calls of `getNextToken` the lexer tracks line and column. -/
theorem afterCalls_tracks {V : Type} (F : Float64 V) (source : List Char) (k : Nat) :
    (afterCalls F source k).Tracks ∧ (afterCalls F source k).source_code = source := by
  induction k with
  | zero => exact ⟨Tracks.new source, rfl⟩
  | succ k ih =>
    rw [afterCalls_succ]
    have := getNextToken_positioned F _ ih.1
    exact ⟨this.2.2.2.1, this.2.2.2.2.trans ih.2⟩

end Lexer

/-- The token returned by any call of `getNextToken` on any source text: line and column
relative to the index of its first character. The column of an `Error` token is too large
by the number of characters consumed for the token. -/
theorem nthToken_positioned {V : Type} (F : Float64 V) (source : List Char) (k : Nat) :
    (nthToken F source k).line = lineOf source (nthTokenStart F source k) ∧
    ((nthToken F source k).type ≠ TOKEN_ERROR →
      (nthToken F source k).column = columnOf source (nthTokenStart F source k)) ∧
    ((nthToken F source k).type = TOKEN_ERROR →
      nthTokenStart F source k < (Lexer.afterCalls F source (k + 1)).current_pos ∧
      (nthToken F source k).column = columnOf source (nthTokenStart F source k) +
        (((Lexer.afterCalls F source (k + 1)).current_pos - nthTokenStart F source k : Nat)
          : Int)) := by
  obtain ⟨ht, hsrc⟩ := Lexer.afterCalls_tracks F source k
  have h := Lexer.getNextToken_positioned F _ ht
  rw [hsrc] at h
  rw [Lexer.afterCalls_succ]
  exact ⟨h.1, h.2.1, h.2.2.1⟩

/-! ## Statements in front of a failure -/

theorem Generates.program_ends {nt : NonTerminal} {ks : List TokenType} (g : Generates nt ks) :
    nt = .program → ∃ ss, ks = ss ++ [TOKEN_EOF] := by
  induction g with
  | program_eof => exact fun _ => ⟨[], rfl⟩
  | @program_cons s r _ _ _ ih =>
    intro _
    obtain ⟨rs, hrs⟩ := ih rfl
    exact ⟨s ++ rs, by rw [hrs, List.append_assoc]⟩
  | _ => intro h; cases h

theorem Generates.statement_form {s : List TokenType} (g : Generates .statement s) :
    ∃ es, Generates .expression es ∧ s = TOKEN_PRINT :: (es ++ [TOKEN_SEMICOLON]) := by
  cases g with
  | statement ge => exact ⟨_, ge, rfl⟩

/-- No string of the grammar holds an `Error` token. -/
theorem Generates.no_error {nt : NonTerminal} {ks : List TokenType} (g : Generates nt ks) :
    TOKEN_ERROR ∉ ks := by
  induction g with
  | factor_number => decide
  | factor_paren _ ih => simpa using ih
  | termTail_nil => simp
  | termTail_cons hop _ _ ih1 ih2 =>
    rcases hop with hop | hop <;> subst hop <;> simp [ih1, ih2]
  | term _ _ ih1 ih2 => simp [ih1, ih2]
  | exprTail_nil => simp
  | exprTail_cons hop _ _ ih1 ih2 =>
    rcases hop with hop | hop <;> subst hop <;> simp [ih1, ih2]
  | expression _ _ ih1 ih2 => simp [ih1, ih2]
  | statement _ ih => simpa using ih
  | program_eof => decide
  | program_cons _ _ ih1 ih2 => simp [ih1, ih2]

namespace Parser

variable {V : Type} (F : Float64 V)

/-- The loop of `parseProgram` parses the well-formed statements at the front of the
input and goes on with what follows them. -/
theorem statements_first {nt : NonTerminal} {ks : List TokenType} (g : Generates nt ks) :
    nt = .program → ∀ (ss tail : List TokenType) (p : Parser V) (prog : ProgramNode V),
      ks = ss ++ [TOKEN_EOF] → kinds (p.pending F) = ss ++ tail →
      ∃ prog' p1, parseProgramRest F prog p = parseProgramRest F prog' p1 ∧
        kinds (p1.pending F) = tail ∧ p1.pending F <:+ p.pending F := by
  induction g with
  | program_eof =>
    intro _ ss tail p prog hks hp
    have hss : ss = [] := by
      have := congrArg List.length hks
      simp at this
      exact this
    subst hss
    exact ⟨prog, p, rfl, hp, List.suffix_refl _⟩
  | @program_cons s r gs gr _ ih =>
    intro _ ss tail p prog hks hp
    obtain ⟨rs, hrs⟩ := gr.program_ends rfl
    have hss : ss = s ++ rs := by
      rw [hrs, ← List.append_assoc] at hks
      exact (List.append_cancel_right hks).symm
    subst hss
    rw [List.append_assoc] at hp
    obtain ⟨es, _, hs⟩ := gs.statement_form
    obtain ⟨st, p1, h1, k1⟩ := complete F gs p (rs ++ tail) hp
    have hc : p.currentToken.type = TOKEN_PRINT := by
      rw [hs] at hp
      exact kinds_pending_head F p _ _ hp
    obtain ⟨prog', p2, h2, k2, s2⟩ := ih rfl rs tail p1 (prog.addStatement (some st)) hrs k1
    refine ⟨prog', p2, ?_, k2, s2.trans (parseStatement_suffix F p p1 (by rw [h1]; rfl))⟩
    rw [parseProgramRest_eq, if_pos (by rw [hc]; decide), if_neg (by rw [hc]; decide), h1]
    exact h2
  | _ => intro h; cases h

/-- A `PRINT` and a well-formed expression with the end of input after it: the statement
fails where the `;` is expected, at the `EndOfFile` token. -/
theorem parseStatement_unterminated {es : List TokenType} (g : Generates .expression es)
    (p : Parser V) (h : kinds (p.pending F) = TOKEN_PRINT :: (es ++ [TOKEN_EOF])) :
    ∃ p', parseStatement F p =
        .error (errorAt p'.currentToken "Expected ';' after PRINT statement's expression.") p' ∧
      p'.currentToken.type = TOKEN_EOF := by
  have hc := kinds_pending_head F p _ _ h
  have ht := kinds_pending_tail F p _ _ h (by decide)
  obtain ⟨e, p2, h2, k2⟩ := complete F g (p.advanceToken F) [TOKEN_EOF] ht
    ⟨TOKEN_EOF, [], rfl, by decide, by decide, by decide, by decide⟩
  have hc2 := kinds_pending_head F p2 _ _ k2
  refine ⟨p2, ?_, hc2⟩
  unfold parseStatement parsePrintStatement
  rw [if_pos ((matchType_iff p _).mpr hc), (consume_ok_iff F p _ _ _ ()).mpr ⟨hc, rfl⟩]
  dsimp only
  rw [h2]
  dsimp only
  rw [(consume_error_iff F p2 p2 _ _ _).mpr ⟨by rw [hc2]; decide, rfl, rfl⟩]

/-- The only pending token of a parser that stopped at `EndOfFile` is the last token of the
stream it started from. -/
theorem getLast_of_stopped_at_EOF (p p' : Parser V) (hs : p'.pending F <:+ p.pending F)
    (he : p'.currentToken.type = TOKEN_EOF) :
    (p.pending F).getLast? = some p'.currentToken := by
  rw [pending_of_EOF F p' he] at hs
  obtain ⟨t, ht⟩ := hs
  rw [← ht]
  simp

/-- The text of a `ParseError` built by `errorAt` from an `EndOfFile` token. -/
theorem errorAt_EOF (token : Token V) (message : String) (h : token.type = TOKEN_EOF) :
    errorAt token message =
      { what := "Parse Error: " ++ message ++ " at end of file." ++ " at line " ++
          toString token.line ++ ", column " ++ toString token.column,
        error_line := token.line, error_column := token.column } := by
  unfold errorAt ParseError.new
  dsimp only
  rw [if_pos h]

/-- The text of a `ParseError` built by `errorAt` from a token other than `EndOfFile`. -/
theorem errorAt_near (token : Token V) (message : String) (h : token.type ≠ TOKEN_EOF) :
    errorAt token message =
      { what := "Parse Error: " ++ message ++ " near '" ++ token.lexeme ++ "'" ++ " at line " ++
          toString token.line ++ ", column " ++ toString token.column,
        error_line := token.line, error_column := token.column } := by
  unfold errorAt ParseError.new
  dsimp only
  rw [if_neg h]

/-- An unterminated `PRINT` statement after well-formed statements. -/
theorem parseProgramRest_unterminated {ss es : List TokenType}
    (gss : Generates .program (ss ++ [TOKEN_EOF])) (ges : Generates .expression es)
    (p : Parser V) (prog : ProgramNode V)
    (h : kinds (p.pending F) = ss ++ TOKEN_PRINT :: (es ++ [TOKEN_EOF])) :
    ∃ p', parseProgramRest F prog p =
        .error (errorAt p'.currentToken "Expected ';' after PRINT statement's expression.") p' ∧
      p'.currentToken.type = TOKEN_EOF ∧ (p.pending F).getLast? = some p'.currentToken := by
  obtain ⟨prog', p1, h1, k1, s1⟩ := statements_first F gss rfl ss _ p prog rfl h
  obtain ⟨p', h2, he⟩ := parseStatement_unterminated F ges p1 k1
  have hc := kinds_pending_head F p1 _ _ k1
  have hres : parseProgramRest F prog p =
      .error (errorAt p'.currentToken "Expected ';' after PRINT statement's expression.") p' := by
    rw [h1, parseProgramRest_eq, if_pos (by rw [hc]; decide), if_neg (by rw [hc]; decide), h2]
  refine ⟨p', hres, he, ?_⟩
  refine getLast_of_stopped_at_EOF F p p' ?_ he
  exact parseProgramLoop_suffix F _ prog p p' (by
    show (parseProgramRest F prog p).parser? = some p'
    rw [hres]
    rfl)

end Parser

/-! ## No `Error` token is consumed -/

namespace Parser

theorem ReachedWithoutError.same {V : Type} (F : Float64 V) (p : Parser V) :
    ReachedWithoutError F p p :=
  ⟨[], rfl, by simp⟩

theorem ReachedWithoutError.after {V : Type} {F : Float64 V} {p p1 p2 : Parser V}
    (h2 : ReachedWithoutError F p2 p1) (h1 : ReachedWithoutError F p1 p) :
    ReachedWithoutError F p2 p := by
  obtain ⟨c2, e2, n2⟩ := h2
  obtain ⟨c1, e1, n1⟩ := h1
  refine ⟨c1 ++ c2, by rw [e1, e2, List.append_assoc], ?_⟩
  intro t ht
  rcases List.mem_append.mp ht with ht | ht
  · exact n1 t ht
  · exact n2 t ht

theorem ReachedWithoutError.suffix {V : Type} {F : Float64 V} {p p' : Parser V}
    (h : ReachedWithoutError F p' p) : p'.pending F <:+ p.pending F := by
  obtain ⟨c, e, _⟩ := h
  exact ⟨c, e.symm⟩

variable {V : Type} (F : Float64 V)

theorem advance_withoutError (p : Parser V) (h : p.currentToken.type ≠ TOKEN_EOF)
    (he : p.currentToken.type ≠ TOKEN_ERROR) :
    ReachedWithoutError F (p.advanceToken F) p := by
  refine ⟨[p.currentToken], ?_, ?_⟩
  · rw [pending_of_ne_EOF F p h]
    rfl
  · intro t ht
    rw [List.mem_singleton] at ht
    rw [ht]
    exact he

theorem ne_of_or_matchType {p : Parser V} {a b x : TokenType}
    (h : (p.matchType a || p.matchType b) = true) (ha : a ≠ x) (hb : b ≠ x) :
    p.currentToken.type ≠ x := by
  rw [Bool.or_eq_true, matchType_iff, matchType_iff] at h
  rcases h with h | h <;> rw [h]
  · exact ha
  · exact hb

theorem consume_withoutError (p p' : Parser V) (t : TokenType) (msg : String)
    (ht : t ≠ TOKEN_EOF) (hte : t ≠ TOKEN_ERROR)
    (h : (consume F p t msg).parser? = some p') : ReachedWithoutError F p' p := by
  unfold consume at h
  split at h
  · rename_i hc
    simp only [ParseResult.parser?, Option.some.injEq] at h
    rw [← h]
    exact advance_withoutError F p (by rw [hc]; exact ht) (by rw [hc]; exact hte)
  · simp only [ParseResult.parser?, Option.some.injEq] at h
    rw [← h]
    exact ReachedWithoutError.same F p

/-- In the state in which a parsing function returns or throws, the tokens consumed hold
no `Error` token. -/
theorem withoutError (n : Nat) :
    (∀ p p', (parseExpressionFuel F n p).parser? = some p' → ReachedWithoutError F p' p) ∧
    (∀ left p p', (parseExpressionLoop F n left p).parser? = some p' →
      ReachedWithoutError F p' p) ∧
    (∀ p p', (parseTermFuel F n p).parser? = some p' → ReachedWithoutError F p' p) ∧
    (∀ left p p', (parseTermLoop F n left p).parser? = some p' →
      ReachedWithoutError F p' p) ∧
    (∀ p p', (parseFactorFuel F n p).parser? = some p' → ReachedWithoutError F p' p) := by
  induction n with
  | zero =>
    refine ⟨?_, ?_, ?_, ?_, ?_⟩
    · intro p p' h; rw [parseExpressionFuel] at h; simp [ParseResult.parser?] at h
    · intro l p p' h; rw [parseExpressionLoop] at h; simp [ParseResult.parser?] at h
    · intro p p' h; rw [parseTermFuel] at h; simp [ParseResult.parser?] at h
    · intro l p p' h; rw [parseTermLoop] at h; simp [ParseResult.parser?] at h
    · intro p p' h; rw [parseFactorFuel] at h; simp [ParseResult.parser?] at h
  | succ n ih =>
    obtain ⟨ihE, ihEL, ihT, ihTL, ihF⟩ := ih
    refine ⟨?_, ?_, ?_, ?_, ?_⟩
    · intro p p' h
      rw [parseExpressionFuel_succ] at h
      cases hT : parseTermFuel F n p with
      | ok left p1 =>
        rw [hT] at h
        exact (ihEL _ _ _ h).after (ihT p p1 (by rw [hT]; rfl))
      | error e1 p1 =>
        rw [hT] at h
        exact ihT p p' (by rw [hT]; exact h)
      | outOfFuel => rw [hT] at h; simp [ParseResult.parser?] at h
    · intro left p p' h
      rw [parseExpressionLoop_succ] at h
      split at h
      · rename_i hop
        have hadv := advance_withoutError F p
          (ne_of_or_matchType hop (by decide) (by decide))
          (ne_of_or_matchType hop (by decide) (by decide))
        cases hT : parseTermFuel F n (p.advanceToken F) with
        | ok right p2 =>
          rw [hT] at h
          exact ((ihEL _ _ _ h).after (ihT _ p2 (by rw [hT]; rfl))).after hadv
        | error e1 p1 =>
          rw [hT] at h
          exact (ihT _ p' (by rw [hT]; exact h)).after hadv
        | outOfFuel => rw [hT] at h; simp [ParseResult.parser?] at h
      · simp only [ParseResult.parser?, Option.some.injEq] at h
        rw [← h]
        exact ReachedWithoutError.same F p
    · intro p p' h
      rw [parseTermFuel_succ] at h
      cases hT : parseFactorFuel F n p with
      | ok left p1 =>
        rw [hT] at h
        exact (ihTL _ _ _ h).after (ihF p p1 (by rw [hT]; rfl))
      | error e1 p1 =>
        rw [hT] at h
        exact ihF p p' (by rw [hT]; exact h)
      | outOfFuel => rw [hT] at h; simp [ParseResult.parser?] at h
    · intro left p p' h
      rw [parseTermLoop_succ] at h
      split at h
      · rename_i hop
        have hadv := advance_withoutError F p
          (ne_of_or_matchType hop (by decide) (by decide))
          (ne_of_or_matchType hop (by decide) (by decide))
        cases hT : parseFactorFuel F n (p.advanceToken F) with
        | ok right p2 =>
          rw [hT] at h
          exact ((ihTL _ _ _ h).after (ihF _ p2 (by rw [hT]; rfl))).after hadv
        | error e1 p1 =>
          rw [hT] at h
          exact (ihF _ p' (by rw [hT]; exact h)).after hadv
        | outOfFuel => rw [hT] at h; simp [ParseResult.parser?] at h
      · simp only [ParseResult.parser?, Option.some.injEq] at h
        rw [← h]
        exact ReachedWithoutError.same F p
    · intro p p' h
      rw [parseFactorFuel_succ] at h
      split at h
      · rename_i hn
        rw [matchType_iff] at hn
        simp only [ParseResult.parser?, Option.some.injEq] at h
        rw [← h]
        exact advance_withoutError F p (by rw [hn]; decide) (by rw [hn]; decide)
      · split at h
        · rename_i hl
          rw [matchType_iff] at hl
          have hadv := advance_withoutError F p (by rw [hl]; decide) (by rw [hl]; decide)
          cases hE : parseExpressionFuel F n (p.advanceToken F) with
          | ok expr p1 =>
            rw [hE] at h
            dsimp only at h
            have h1 := ihE _ p1 (by rw [hE]; rfl)
            have h2 : (consume F p1 TOKEN_RPAREN
                "Expected ')' after expression in parentheses.").parser? = some p' := by
              cases hC : consume F p1 TOKEN_RPAREN
                  "Expected ')' after expression in parentheses." with
              | ok u p2 => rw [hC] at h; exact h
              | error e2 p2 => rw [hC] at h; exact h
              | outOfFuel => rw [hC] at h; simp [ParseResult.parser?] at h
            exact ((consume_withoutError F _ _ TOKEN_RPAREN _ (by decide) (by decide) h2).after
              h1).after hadv
          | error e1 p1 =>
            rw [hE] at h
            exact (ihE _ p' (by rw [hE]; exact h)).after hadv
          | outOfFuel => rw [hE] at h; simp [ParseResult.parser?] at h
        · simp only [ParseResult.parser?, Option.some.injEq] at h
          rw [← h]
          exact ReachedWithoutError.same F p

theorem parseStatement_withoutError (p p' : Parser V)
    (h : (parseStatement F p).parser? = some p') : ReachedWithoutError F p' p := by
  unfold parseStatement at h
  split at h
  · unfold parsePrintStatement at h
    cases h1 : consume F p TOKEN_PRINT "Expected 'PRINT' keyword." with
    | ok u p1 =>
      have s1 := consume_withoutError F p p1 TOKEN_PRINT _ (by decide) (by decide)
        (by rw [h1]; rfl)
      rw [h1] at h
      dsimp only at h
      cases h2 : parseExpression F p1 with
      | ok expr p2 =>
        have s2 := (withoutError F _).1 p1 p2 (by
          show (parseExpression F p1).parser? = some p2
          rw [h2]; rfl)
        rw [h2] at h
        dsimp only at h
        have h3 : (consume F p2 TOKEN_SEMICOLON
            "Expected ';' after PRINT statement's expression.").parser? = some p' := by
          cases hC : consume F p2 TOKEN_SEMICOLON
              "Expected ';' after PRINT statement's expression." with
          | ok u p3 => rw [hC] at h; exact h
          | error e3 p3 => rw [hC] at h; exact h
          | outOfFuel => rw [hC] at h; simp [ParseResult.parser?] at h
        exact ((consume_withoutError F _ _ TOKEN_SEMICOLON _ (by decide) (by decide) h3).after
          s2).after s1
      | error e2 p2 =>
        rw [h2] at h
        have s2 := (withoutError F _).1 p1 p' (by
          show (parseExpression F p1).parser? = some p'
          rw [h2]; exact h)
        exact s2.after s1
      | outOfFuel => rw [h2] at h; simp [ParseResult.parser?] at h
    | error e1 p1 =>
      rw [h1] at h
      exact consume_withoutError F p p' TOKEN_PRINT _ (by decide) (by decide)
        (by rw [h1]; exact h)
    | outOfFuel => rw [h1] at h; simp [ParseResult.parser?] at h
  · simp only [ParseResult.parser?, Option.some.injEq] at h
    rw [← h]
    exact ReachedWithoutError.same F p

theorem parseProgramLoop_withoutError (n : Nat) :
    ∀ (prog : ProgramNode V) (p p' : Parser V),
      (parseProgramLoop F n prog p).parser? = some p' → ReachedWithoutError F p' p := by
  induction n with
  | zero => intro prog p p' h; rw [parseProgramLoop] at h; simp [ParseResult.parser?] at h
  | succ n ih =>
    intro prog p p' h
    rw [parseProgramLoop_succ] at h
    split at h
    · split at h
      · simp only [ParseResult.parser?, Option.some.injEq] at h
        rw [← h]
        exact ReachedWithoutError.same F p
      · cases hS : parseStatement F p with
        | ok stmt p1 =>
          rw [hS] at h
          exact (ih _ _ _ h).after (parseStatement_withoutError F p p1 (by rw [hS]; rfl))
        | error e1 p1 =>
          rw [hS] at h
          exact parseStatement_withoutError F p p' (by rw [hS]; exact h)
        | outOfFuel => rw [hS] at h; simp [ParseResult.parser?] at h
    · simp only [ParseResult.parser?, Option.some.injEq] at h
      rw [← h]
      exact ReachedWithoutError.same F p

end Parser

/-! ## Parse failures in the pipeline -/

/-- The empty source parses to the empty program. -/
theorem parseSource_nil {V : Type} (F : Float64 V) :
    ∃ p', parseSource F [] = .ok { statements := [] } p' := by
  have h : (Parser.new F (Lexer.new [])).currentToken.type = TOKEN_EOF := by
    show ((Lexer.new []).getNextToken F).1.type = TOKEN_EOF
    rw [Lexer.getNextToken_at_end F (Lexer.rest_new [])]
  refine ⟨Parser.new F (Lexer.new []), ?_⟩
  unfold parseSource Parser.parseProgram
  rw [Parser.parseProgramRest_eq, if_neg (by rw [h]; decide)]

/-- The pipeline on a source text that does not parse ends before any statement is
executed. -/
theorem run_of_parse_error {V : Type} (F : Float64 V) (source : List Char) (e : ParseError)
    (p' : Parser V) (h : parseSource F source = .error e p') :
    (∃ t, run F source = .lexicalError t) ∨ run F source = .parseError e := by
  have hne : source.isEmpty = false := by
    cases source with
    | nil =>
      obtain ⟨q, hq⟩ := parseSource_nil F
      rw [hq] at h
      cases h
    | cons c r => rfl
  unfold run
  rw [hne]
  simp only [Bool.false_eq_true, if_false]
  split
  · exact Or.inl ⟨_, rfl⟩
  · right
    unfold parseSource at h
    rw [h]

/-! ## The lexer in a longer source -/

namespace Lexer

theorem shift_rest (pre : List Char) (d : Int) (l : Lexer) : (l.shift pre d).rest = l.rest := by
  unfold rest shift
  dsimp only
  rw [Nat.add_comm, ← List.drop_drop, List.drop_left]

theorem shift_isAtEnd (pre : List Char) (d : Int) (l : Lexer) :
    (l.shift pre d).isAtEnd = l.isAtEnd := by
  cases h : l.isAtEnd with
  | true => exact (isAtEnd_iff_rest _).mpr (by rw [shift_rest]; exact (isAtEnd_iff_rest l).mp h)
  | false =>
    cases h2 : (l.shift pre d).isAtEnd with
    | false => rfl
    | true =>
      have := (isAtEnd_iff_rest _).mp h2
      rw [shift_rest] at this
      rw [(isAtEnd_iff_rest l).mpr this] at h
      cases h

theorem shift_remaining (pre : List Char) (d : Int) (l : Lexer) :
    (l.shift pre d).remaining = l.remaining := by
  rw [remaining_eq_length_rest, remaining_eq_length_rest, shift_rest]

theorem shift_peek (pre : List Char) (d : Int) (l : Lexer) : (l.shift pre d).peek = l.peek := by
  rw [peek_eq_headD, peek_eq_headD, shift_rest]

theorem shift_charAt (pre : List Char) (d : Int) (l : Lexer) (i : Nat) :
    (l.shift pre d).charAt ((l.shift pre d).current_pos + i) = l.charAt (l.current_pos + i) := by
  rw [charAt_add, charAt_add, shift_rest]

theorem shift_set_pos (pre : List Char) (d : Int) (l : Lexer) (k : Nat) :
    ({ l.shift pre d with current_pos := (l.shift pre d).current_pos + k } : Lexer) =
      ({ l with current_pos := l.current_pos + k } : Lexer).shift pre d := by
  simp only [shift, Nat.add_right_comm]

theorem shift_advance (pre : List Char) (d : Int) (l : Lexer) :
    (l.shift pre d).advance = (l.advance.1, l.advance.2.shift pre d) := by
  cases h : l.rest with
  | nil =>
    have h1 := (isAtEnd_iff_rest l).mpr h
    have h2 : (l.shift pre d).isAtEnd = true := by rw [shift_isAtEnd]; exact h1
    simp [advance, h1, h2]
  | cons c r =>
    have h' : (l.shift pre d).rest = c :: r := by rw [shift_rest]; exact h
    rw [advance_of_rest_cons h, advance_of_rest_cons h', shift_set_pos]

theorem shift_newline (pre : List Char) (d : Int) (l : Lexer) :
    ({ l.shift pre d with
        current_line := (l.shift pre d).current_line + 1,
        current_column_start_of_line := ((l.shift pre d).current_pos : Int) + 1 } : Lexer) =
      ({ l with current_line := l.current_line + 1,
                current_column_start_of_line := (l.current_pos : Int) + 1 } : Lexer).shift pre d := by
  simp only [shift, Lexer.mk.injEq, true_and]
  constructor
  · omega
  · push_cast
    omega

theorem shift_comment_newline (pre : List Char) (d : Int) (l : Lexer) :
    ({ l.shift pre d with
        current_line := (l.shift pre d).current_line + 1,
        current_column_start_of_line := ((l.shift pre d).current_pos : Int) } : Lexer) =
      ({ l with current_line := l.current_line + 1,
                current_column_start_of_line := (l.current_pos : Int) } : Lexer).shift pre d := by
  simp only [shift, Lexer.mk.injEq, true_and]
  constructor
  · omega
  · push_cast
    omega

theorem shift_skipCommentLoop (pre : List Char) (d : Int) (l : Lexer) :
    skipCommentLoop (l.shift pre d).remaining (l.shift pre d) =
      (skipCommentLoop l.remaining l).shift pre d := by
  rw [skipCommentLoop_eq _ _ (Nat.le_refl _), skipCommentLoop_eq _ _ (Nat.le_refl _),
    shift_rest, shift_set_pos]

theorem shift_skipLoop (pre : List Char) (d : Int) (n : Nat) :
    ∀ l : Lexer, skipLoop n (l.shift pre d) = (skipLoop n l).shift pre d := by
  induction n with
  | zero => intro l; rfl
  | succ n ih =>
    intro l
    rw [skipLoop_succ, skipLoop_succ, shift_isAtEnd, shift_peek, shift_skipCommentLoop,
      shift_peek, shift_advance, shift_comment_newline, shift_newline]
    have hlen : ((l.shift pre d).current_pos + 1 < (l.shift pre d).source_code.length) ↔
        (l.current_pos + 1 < l.source_code.length) := by
      simp only [shift, List.length_append]
      omega
    rw [shift_charAt]
    by_cases h1 : l.isAtEnd = true
    · rw [if_pos h1, if_pos h1]
    rw [if_neg h1, if_neg h1]
    by_cases h2 : isspace l.peek = true
    · rw [if_pos h2, if_pos h2]
      by_cases h3 : l.peek = '\n'
      · rw [if_pos h3, if_pos h3, shift_advance, ih]
      · rw [if_neg h3, if_neg h3, shift_advance, ih]
    rw [if_neg h2, if_neg h2]
    by_cases h4 : l.peek = '/' ∧ l.current_pos + 1 < l.source_code.length ∧
        l.charAt (l.current_pos + 1) = '/'
    · rw [if_pos h4, if_pos ⟨h4.1, hlen.mpr h4.2.1, h4.2.2⟩]
      by_cases h5 : (skipCommentLoop l.remaining l).peek = '\n'
      · rw [if_pos h5, if_pos h5, ih]
      · rw [if_neg h5, if_neg h5, ih]
    · rw [if_neg h4, if_neg (fun h => h4 ⟨h.1, hlen.mp h.2.1, h.2.2⟩)]

theorem shift_skip (pre : List Char) (d : Int) (l : Lexer) :
    (l.shift pre d).skipWhitespaceAndComments = l.skipWhitespaceAndComments.shift pre d := by
  unfold skipWhitespaceAndComments
  rw [shift_remaining, shift_skipLoop]

end Lexer
namespace Lexer

theorem shift_column (pre : List Char) (d : Int) (l : Lexer) :
    ((l.shift pre d).current_pos : Int) - (l.shift pre d).current_column_start_of_line + 1 =
      (l.current_pos : Int) - l.current_column_start_of_line + 1 := by
  simp only [shift]
  push_cast
  omega

theorem shift_errorToken {V : Type} (F : Float64 V) (pre : List Char) (d : Int) (l : Lexer)
    (msg : String) : (l.shift pre d).errorToken F msg = (l.errorToken F msg).shiftLine d := by
  unfold errorToken Token.shiftLine
  dsimp only
  rw [shift_column]
  rfl

theorem shift_identifierOrKeyword {V : Type} (F : Float64 V) (pre : List Char) (d : Int)
    (l : Lexer) :
    identifierOrKeyword F (l.shift pre d) =
      ((identifierOrKeyword F l).1.shiftLine d, (identifierOrKeyword F l).2.shift pre d) := by
  rw [identifierOrKeyword_eq, identifierOrKeyword_eq, shift_rest]
  dsimp only
  rw [shift_set_pos, shift_errorToken, shift_column]
  cases keywords (String.mk (l.rest.takeWhile (fun c => isalnum c || decide (c = '_')))) with
  | none => rfl
  | some ty => rfl

theorem shift_number {V : Type} (F : Float64 V) (pre : List Char) (d : Int) (l : Lexer) :
    number F (l.shift pre d) = ((number F l).1.shiftLine d, (number F l).2.shift pre d) := by
  rw [number_eq, number_eq, shift_rest]
  dsimp only
  rw [shift_set_pos, shift_errorToken, shift_errorToken, shift_column]
  cases F.stod (String.mk (numberLexeme l.rest)) with
  | value v => rfl
  | out_of_range => rfl
  | invalid_argument => rfl

theorem shift_makeToken_EOF {V : Type} (F : Float64 V) (pre : List Char) (d : Int) (l : Lexer) :
    (l.shift pre d).makeToken F TOKEN_EOF "" = (l.makeToken F TOKEN_EOF "").shiftLine d := by
  simp only [makeToken, Token.shiftLine, String.length, List.length_nil, ne_eq,
    not_true_eq_false, false_and, if_false, if_true]
  have := shift_column pre d l
  rw [Token.mk.injEq]
  refine ⟨rfl, rfl, rfl, rfl, ?_⟩
  omega

/-- A call of `getNextToken` in the longer source returns the same token, `lines` lines
further down, and moves the lexer in the same way. -/
theorem shift_getNextToken {V : Type} (F : Float64 V) (pre : List Char) (d : Int) (l0 : Lexer) :
    getNextToken F (l0.shift pre d) =
      ((getNextToken F l0).1.shiftLine d, (getNextToken F l0).2.shift pre d) := by
  rw [getNextToken_eq, getNextToken_eq, shift_skip]
  generalize l0.skipWhitespaceAndComments = l
  dsimp only
  rw [shift_isAtEnd]
  have hc := shift_charAt pre d l 0
  rw [Nat.add_zero, Nat.add_zero] at hc
  rw [hc, shift_set_pos, shift_errorToken, shift_column, shift_makeToken_EOF,
    shift_identifierOrKeyword, shift_number]
  by_cases h0 : l.isAtEnd = true
  · rw [if_pos h0, if_pos h0]
  rw [if_neg h0, if_neg h0]
  by_cases h1 : isalpha (l.charAt l.current_pos) = true ∨ l.charAt l.current_pos = '_'
  · rw [if_pos h1, if_pos h1]
  rw [if_neg h1, if_neg h1]
  by_cases h2 : isdigit (l.charAt l.current_pos) = true
  · rw [if_pos h2, if_pos h2]
  rw [if_neg h2, if_neg h2]
  by_cases h3 : l.charAt l.current_pos = '('
  · rw [if_pos h3, if_pos h3]; rfl
  rw [if_neg h3, if_neg h3]
  by_cases h4 : l.charAt l.current_pos = ')'
  · rw [if_pos h4, if_pos h4]; rfl
  rw [if_neg h4, if_neg h4]
  by_cases h5 : l.charAt l.current_pos = ';'
  · rw [if_pos h5, if_pos h5]; rfl
  rw [if_neg h5, if_neg h5]
  by_cases h6 : l.charAt l.current_pos = '+'
  · rw [if_pos h6, if_pos h6]; rfl
  rw [if_neg h6, if_neg h6]
  by_cases h7 : l.charAt l.current_pos = '-'
  · rw [if_pos h7, if_pos h7]; rfl
  rw [if_neg h7, if_neg h7]
  by_cases h8 : l.charAt l.current_pos = '*'
  · rw [if_pos h8, if_pos h8]; rfl
  rw [if_neg h8, if_neg h8]
  by_cases h9 : l.charAt l.current_pos = '/'
  · rw [if_pos h9, if_pos h9]; rfl
  rw [if_neg h9, if_neg h9]

theorem shiftLine_type {V : Type} (d : Int) (t : Token V) : (t.shiftLine d).type = t.type := rfl

theorem shift_tokensFuel {V : Type} (F : Float64 V) (pre : List Char) (d : Int) (n : Nat) :
    ∀ l : Lexer, tokensFuel F n (l.shift pre d) =
      (tokensFuel F n l).map (Token.shiftLine d) := by
  induction n with
  | zero => intro l; rfl
  | succ n ih =>
    intro l
    rw [tokensFuel_succ, tokensFuel_succ, shift_getNextToken]
    dsimp only
    rw [shiftLine_type, ih]
    by_cases h : (getNextToken F l).1.type = TOKEN_EOF
    · rw [if_pos h, if_pos h]; rfl
    · rw [if_neg h, if_neg h]; rfl

/-- The tokens of the lexer in the longer source are those of the lexer in the shorter
one, `lines` lines further down. -/
theorem shift_tokens {V : Type} (F : Float64 V) (pre : List Char) (d : Int) (l : Lexer) :
    (l.shift pre d).tokens F = (l.tokens F).map (Token.shiftLine d) := by
  unfold tokens
  rw [shift_remaining, shift_tokensFuel]

/-- The token stream depends on the state only through what `getNextToken` returns. -/
theorem tokens_congr {V : Type} (F : Float64 V) {l l' : Lexer}
    (h : getNextToken F l = getNextToken F l') : l.tokens F = l'.tokens F := by
  rw [tokens_eq F l, tokens_eq F l', h]

theorem getNextToken_congr_skip {V : Type} (F : Float64 V) {l l' : Lexer}
    (h : l.skipWhitespaceAndComments = l'.skipWhitespaceAndComments) :
    getNextToken F l = getNextToken F l' := by
  rw [getNextToken_eq, getNextToken_eq, h]

end Lexer
namespace Lexer

/-- The state after the comment loop at the start of a `//` comment: the scan position is
on the newline that ends the comment, or at the end of the input. -/
theorem skipCommentLoop_comment {l : Lexer} {c r : List Char} (h : l.rest = c ++ r)
    (hc : ∀ x ∈ c, x ≠ '\n') (hr : ∀ x ∈ r.head?, x = '\n') :
    skipCommentLoop l.remaining l = { l with current_pos := l.current_pos + c.length } := by
  rw [skipCommentLoop_eq _ _ (Nat.le_refl _), h,
    (takeWhile_append_of_all (fun x => decide (x ≠ '\n')) c r
      (fun x hx => by simpa using hc x hx) (fun x hx => by simpa using hr x hx)).1]

/-- The first step of the skipping loop at the start of a `//` comment. -/
theorem skipLoop_comment (n : Nat) {l : Lexer} {r : List Char} (h : l.rest = '/' :: '/' :: r) :
    skipLoop (n + 1) l =
      skipLoop n
        (if (skipCommentLoop l.remaining l).peek = '\n' then
          ({ (skipCommentLoop l.remaining l).advance.2 with
             current_line := (skipCommentLoop l.remaining l).advance.2.current_line + 1,
             current_column_start_of_line :=
               ((skipCommentLoop l.remaining l).advance.2.current_pos : Int) } : Lexer)
         else skipCommentLoop l.remaining l) := by
  rw [skipLoop_succ, isAtEnd_of_rest_cons h, peek_of_rest_cons h]
  have h1 : l.charAt (l.current_pos + 1) = '/' := by
    rw [charAt_add, h]
    rfl
  have h2 : l.current_pos + 1 < l.source_code.length := by
    have hlen := remaining_eq_length_rest l
    rw [h] at hlen
    simp [remaining] at hlen
    omega
  have h3 : isspace '/' = false := by decide
  rw [h3]
  simp only [Bool.false_eq_true, if_false]
  rw [if_pos (show True ∧ l.current_pos + 1 < l.source_code.length ∧
    l.charAt (l.current_pos + 1) = '/' from ⟨trivial, h2, h1⟩)]

/-- A `//` comment and the newline that ends it are skipped; the next line starts after
the newline. -/
theorem skip_comment_line {l : Lexer} {c r : List Char}
    (h : l.rest = '/' :: '/' :: (c ++ '\n' :: r)) (hc : ∀ x ∈ c, x ≠ '\n') :
    l.skipWhitespaceAndComments =
      (Lexer.mk l.source_code (l.current_pos + (c.length + 3)) (l.current_line + 1)
        ((l.current_pos + (c.length + 3) : Nat) : Int)).skipWhitespaceAndComments := by
  have hloop : skipCommentLoop l.remaining l =
      { l with current_pos := l.current_pos + (c.length + 2) } := by
    have := @skipCommentLoop_comment l ('/' :: '/' :: c) ('\n' :: r) (by rw [h]; simp)
      (by
        intro x hx
        simp only [List.mem_cons] at hx
        rcases hx with hx | hx | hx
        · rw [hx]; decide
        · rw [hx]; decide
        · exact hc x hx)
      (by simp)
    rw [this]
    simp
  have hrest : ({ l with current_pos := l.current_pos + (c.length + 2) } : Lexer).rest =
      '\n' :: r := by
    rw [rest_set_pos, h]
    simp
  have hn : l.remaining = (c.length + r.length + 2) + 1 := by
    rw [remaining_eq_length_rest, h]
    simp
    omega
  have hskip : l.skipWhitespaceAndComments = skipLoop (c.length + r.length + 2 + 1) l := by
    unfold skipWhitespaceAndComments
    rw [hn]
  rw [hskip, skipLoop_comment _ (by rw [h]), hloop, peek_of_rest_cons hrest, if_pos rfl,
    advance_of_rest_cons hrest]
  refine (skipLoop_fuel_le _ _ ?_).trans ?_
  · simp only [remaining]
    have hlen := remaining_eq_length_rest l
    rw [h] at hlen
    simp [remaining] at hlen
    omega
  · simp only [Nat.add_assoc]

/-- A `//` comment that runs to the end of the input is skipped. -/
theorem skip_comment_end {l : Lexer} {c : List Char} (h : l.rest = '/' :: '/' :: c)
    (hc : ∀ x ∈ c, x ≠ '\n') :
    l.skipWhitespaceAndComments = { l with current_pos := l.current_pos + (c.length + 2) } := by
  have hloop : skipCommentLoop l.remaining l =
      { l with current_pos := l.current_pos + (c.length + 2) } := by
    have := @skipCommentLoop_comment l ('/' :: '/' :: c) [] (by rw [h]; simp)
      (by
        intro x hx
        simp only [List.mem_cons] at hx
        rcases hx with hx | hx | hx
        · rw [hx]; decide
        · rw [hx]; decide
        · exact hc x hx)
      (by simp)
    rw [this]
    simp
  have hrest : ({ l with current_pos := l.current_pos + (c.length + 2) } : Lexer).rest = [] := by
    rw [rest_set_pos, h]
    simp
  have hn : l.remaining = (c.length + 1) + 1 := by
    rw [remaining_eq_length_rest, h]
    simp
  have hskip : l.skipWhitespaceAndComments = skipLoop (c.length + 1 + 1) l := by
    unfold skipWhitespaceAndComments
    rw [hn]
  have hpeek : ({ l with current_pos := l.current_pos + (c.length + 2) } : Lexer).peek ≠ '\n' := by
    rw [peek_eq_headD, hrest]
    decide
  rw [hskip, skipLoop_comment _ (by rw [h]), hloop, if_neg hpeek]
  refine (skipLoop_fuel_le _ _ ?_).trans (skip_at_end hrest)
  rw [remaining_eq_length_rest, hrest]
  exact Nat.zero_le _

/-- Lexing a source that starts with a comment line: the tokens are those of the rest of
the source, one line further down. -/
theorem tokens_comment_line {V : Type} (F : Float64 V) (c b : List Char)
    (hc : ∀ x ∈ c, x ≠ '\n') :
    (Lexer.new ('/' :: '/' :: (c ++ '\n' :: b))).tokens F =
      ((Lexer.new b).tokens F).map (Token.shiftLine 1) := by
  rw [← shift_tokens F ('/' :: '/' :: (c ++ ['\n'])) 1 (Lexer.new b)]
  refine tokens_congr F (getNextToken_congr_skip F ?_)
  rw [skip_comment_line (rest_new _) hc]
  have : (Lexer.mk (Lexer.new ('/' :: '/' :: (c ++ '\n' :: b))).source_code
      ((Lexer.new ('/' :: '/' :: (c ++ '\n' :: b))).current_pos + (c.length + 3))
      ((Lexer.new ('/' :: '/' :: (c ++ '\n' :: b))).current_line + 1)
      (((Lexer.new ('/' :: '/' :: (c ++ '\n' :: b))).current_pos + (c.length + 3) : Nat) : Int)) =
      (Lexer.new b).shift ('/' :: '/' :: (c ++ ['\n'])) 1 := by
    simp only [Lexer.new, shift, Lexer.mk.injEq]
    refine ⟨by simp, by simp, by norm_num, by simp; omega⟩
  rw [this]

/-- Lexing a source that is one comment without a newline: only `EndOfFile`. -/
theorem tokens_comment_only {V : Type} (F : Float64 V) (c : List Char)
    (hc : ∀ x ∈ c, x ≠ '\n') :
    (Lexer.new ('/' :: '/' :: c)).tokens F =
      [{ type := TOKEN_EOF, lexeme := "", value := F.zero, line := 1,
         column := (c.length : Int) + 3 }] := by
  have hskip := skip_comment_end (rest_new ('/' :: '/' :: c)) hc
  have hrest : ({ Lexer.new ('/' :: '/' :: c) with
      current_pos := (Lexer.new ('/' :: '/' :: c)).current_pos + (c.length + 2) } : Lexer).rest
      = [] := by
    rw [rest_set_pos, rest_new]
    simp
  have hg : getNextToken F (Lexer.new ('/' :: '/' :: c)) =
      getNextToken F ({ Lexer.new ('/' :: '/' :: c) with
        current_pos := (Lexer.new ('/' :: '/' :: c)).current_pos + (c.length + 2) } : Lexer) :=
    getNextToken_congr_skip F (by rw [hskip, skip_at_end hrest])
  rw [tokens_eq, hg, getNextToken_at_end F hrest]
  simp only [if_true]
  simp only [Lexer.new]
  rw [List.cons.injEq, Token.mk.injEq]
  refine ⟨⟨rfl, rfl, rfl, rfl, ?_⟩, rfl⟩
  push_cast
  omega

end Lexer
/-! ## Words and numbers at the scan position -/

namespace Lexer

/-- A letter or `_` after the skipped text: the token is that of `identifierOrKeyword`. -/
theorem getNextToken_word {V : Type} (F : Float64 V) (l0 : Lexer) {c : Char} {r : List Char}
    (h : l0.skipWhitespaceAndComments.rest = c :: r) (hc : isalpha c = true ∨ c = '_') :
    getNextToken F l0 = identifierOrKeyword F l0.skipWhitespaceAndComments := by
  rw [getNextToken_eq]
  dsimp only
  have hch : l0.skipWhitespaceAndComments.charAt l0.skipWhitespaceAndComments.current_pos = c := by
    rw [← peek_of_not_atEnd _ (isAtEnd_of_rest_cons h), peek_of_rest_cons h]
  rw [isAtEnd_of_rest_cons h, hch]
  simp only [Bool.false_eq_true, if_false]
  rw [if_pos hc]

/-- A digit after the skipped text: the token is that of `number`. -/
theorem getNextToken_digit {V : Type} (F : Float64 V) (l0 : Lexer) {c : Char} {r : List Char}
    (h : l0.skipWhitespaceAndComments.rest = c :: r) (hc : isdigit c = true) :
    getNextToken F l0 = number F l0.skipWhitespaceAndComments := by
  rw [getNextToken_eq]
  dsimp only
  have hch : l0.skipWhitespaceAndComments.charAt l0.skipWhitespaceAndComments.current_pos = c := by
    rw [← peek_of_not_atEnd _ (isAtEnd_of_rest_cons h), peek_of_rest_cons h]
  rw [isAtEnd_of_rest_cons h, hch]
  simp only [Bool.false_eq_true, if_false]
  rw [if_neg (isspace_false_of_isdigit hc).2.2, if_pos hc]

theorem keywords_eq_some (word : List Char) (ty : TokenType) :
    keywords (String.mk word) = some ty ↔ word = "PRINT".toList ∧ ty = TOKEN_PRINT := by
  unfold keywords
  have hiff : String.mk word = "PRINT" ↔ word = "PRINT".toList :=
    ⟨fun h => congrArg String.data h, fun h => congrArg String.mk h⟩
  by_cases h : String.mk word = "PRINT"
  · rw [if_pos h]
    simp only [Option.some.injEq]
    exact ⟨fun e => ⟨hiff.mp h, e.symm⟩, fun e => e.2.symm⟩
  · rw [if_neg h]
    constructor
    · intro e
      cases e
    · intro e
      exact absurd (hiff.mpr e.1) h

theorem keywords_eq_none (word : List Char) :
    keywords (String.mk word) = none ↔ word ≠ "PRINT".toList := by
  cases hk : keywords (String.mk word) with
  | none =>
    simp only [true_iff]
    intro e
    have := (keywords_eq_some word TOKEN_PRINT).mpr ⟨e, rfl⟩
    rw [hk] at this
    cases this
  | some ty =>
    constructor
    · intro e
      cases e
    · intro e
      exact absurd ((keywords_eq_some word ty).mp hk).1 e

/-- The maximal run of characters accepted by `p` at the front of `xs`. -/
theorem takeWhile_maximal (p : Char → Bool) (xs : List Char) :
    xs = xs.takeWhile p ++ xs.dropWhile p ∧ (∀ x ∈ xs.takeWhile p, p x = true) ∧
      (∀ x ∈ (xs.dropWhile p).head?, p x = false) := by
  refine ⟨(List.takeWhile_append_dropWhile p xs).symm, fun x hx => List.mem_takeWhile_imp hx, ?_⟩
  intro x hx
  cases hd : xs.dropWhile p with
  | nil => rw [hd] at hx; simp at hx
  | cons y ys =>
    rw [hd] at hx
    simp only [List.head?_cons, Option.mem_def, Option.some.injEq] at hx
    have := List.head_dropWhile_not p xs (by rw [hd]; simp)
    simp only [hd, List.head_cons] at this
    rw [← hx]
    simpa using this

end Lexer
/-! ## The token sequence ends -/

namespace Lexer

/-- A call that does not return `EndOfFile` moves the scan position forward. -/
theorem getNextToken_advances {V : Type} (F : Float64 V) (l : Lexer)
    (h : (getNextToken F l).1.type ≠ TOKEN_EOF) :
    l.current_pos < (getNextToken F l).2.current_pos := by
  have h1 := getNextToken_progress F l h
  have h2 := (getNextToken_reaches F l).1
  unfold remaining at h1
  rw [h2] at h1
  omega

/-- No call moves the scan position backwards. -/
theorem getNextToken_monotone {V : Type} (F : Float64 V) (l : Lexer) :
    l.current_pos ≤ (getNextToken F l).2.current_pos :=
  (getNextToken_reaches F l).2

/-- The stream of a lexer: at most as many tokens as there are unread characters, none of
them `EndOfFile`, and then one `EndOfFile` token. -/
theorem tokensFuel_shape {V : Type} (F : Float64 V) (n : Nat) :
    ∀ l : Lexer, l.remaining + 1 ≤ n →
      ∃ (front : List (Token V)) (eof : Token V), tokensFuel F n l = front ++ [eof] ∧
        eof.type = TOKEN_EOF ∧ (∀ t ∈ front, t.type ≠ TOKEN_EOF) ∧
        front.length ≤ l.remaining := by
  induction n with
  | zero => intro l h; omega
  | succ n ih =>
    intro l h
    rw [tokensFuel_succ]
    by_cases he : (getNextToken F l).1.type = TOKEN_EOF
    · rw [if_pos he]
      exact ⟨[], _, rfl, he, by simp, Nat.zero_le _⟩
    · rw [if_neg he]
      have hlt := getNextToken_progress F l he
      obtain ⟨front, eof, hf, hE, hne, hlen⟩ := ih (getNextToken F l).2 (by omega)
      refine ⟨(getNextToken F l).1 :: front, eof, by rw [hf]; rfl, hE, ?_, ?_⟩
      · intro t ht
        rcases List.mem_cons.mp ht with ht | ht
        · rw [ht]; exact he
        · exact hne t ht
      · rw [List.length_cons]
        omega

theorem tokens_shape {V : Type} (F : Float64 V) (l : Lexer) :
    ∃ (front : List (Token V)) (eof : Token V), l.tokens F = front ++ [eof] ∧
      eof.type = TOKEN_EOF ∧ (∀ t ∈ front, t.type ≠ TOKEN_EOF) ∧
      front.length ≤ l.remaining :=
  tokensFuel_shape F _ l (Nat.le_refl _)

/-- As long as no `EndOfFile` was returned, every call has used up a character. -/
theorem afterCalls_remaining {V : Type} (F : Float64 V) (source : List Char) (k : Nat) :
    (∀ j < k, (nthToken F source j).type ≠ TOKEN_EOF) →
      (afterCalls F source k).remaining + k ≤ source.length := by
  induction k with
  | zero => intro _; exact Nat.le_refl _
  | succ k ih =>
    intro h
    have h1 := ih (fun j hj => h j (Nat.lt_succ_of_lt hj))
    have h2 := getNextToken_progress F (afterCalls F source k) (h k (Nat.lt_succ_self k))
    rw [afterCalls_succ]
    omega

/-- The first `EndOfFile` comes within `source.length + 1` calls. -/
theorem first_EOF {V : Type} (F : Float64 V) (source : List Char) :
    ∃ k, k ≤ source.length ∧ (nthToken F source k).type = TOKEN_EOF ∧
      ∀ j < k, (nthToken F source j).type ≠ TOKEN_EOF := by
  have hex : ∃ k, (nthToken F source k).type = TOKEN_EOF := by
    by_contra hno
    have h := afterCalls_remaining F source (source.length + 1)
      (fun j _ hj => hno ⟨j, hj⟩)
    omega
  refine ⟨Nat.find hex, ?_, Nat.find_spec hex, fun j hj => Nat.find_min hex hj⟩
  by_contra hgt
  have h := afterCalls_remaining F source (source.length + 1)
    (fun j hj => Nat.find_min hex (by omega))
  omega

end Lexer
/-! ## After `EndOfFile` -/

namespace Lexer

/-- The token is `EndOfFile` only when the input is exhausted once the white space and the
comments have been skipped. -/
theorem getNextToken_EOF {V : Type} (F : Float64 V) (l : Lexer)
    (h : (getNextToken F l).1.type = TOKEN_EOF) :
    l.skipWhitespaceAndComments.rest = [] ∧
      getNextToken F l =
        (l.skipWhitespaceAndComments.makeToken F TOKEN_EOF "", l.skipWhitespaceAndComments) := by
  rcases getNextToken_snd_cases F l with ⟨he, hg⟩ | ⟨_, ⟨_, hg⟩ | ⟨_, hg⟩ | ⟨hne, _⟩⟩
  · exact ⟨(isAtEnd_iff_rest _).mp he, hg⟩
  · rw [hg] at h
    rcases identifierOrKeyword_type F l.skipWhitespaceAndComments with h1 | h1 <;>
      rw [h1] at h <;> cases h
  · rw [hg] at h
    rcases number_type F l.skipWhitespaceAndComments with h1 | h1 <;>
      rw [h1] at h <;> cases h
  · exact absurd h hne

/-- Once `EndOfFile` was returned, the next call returns the same token and leaves the
state as it is. -/
theorem getNextToken_after_EOF {V : Type} (F : Float64 V) (l : Lexer)
    (h : (getNextToken F l).1.type = TOKEN_EOF) :
    getNextToken F (getNextToken F l).2 = getNextToken F l := by
  obtain ⟨hrest, hg⟩ := getNextToken_EOF F l h
  rw [hg]
  dsimp only
  rw [getNextToken_eq, skip_at_end hrest]
  dsimp only
  rw [(isAtEnd_iff_rest _).mpr hrest, if_pos rfl]

/-- Once `EndOfFile` was returned, all later calls return the same token and leave the
state as it is. -/
theorem iterate_after_EOF {V : Type} (F : Float64 V) (l : Lexer)
    (h : (getNextToken F l).1.type = TOKEN_EOF) (m : Nat) :
    (fun s => (getNextToken F s).2)^[m] (getNextToken F l).2 = (getNextToken F l).2 := by
  induction m with
  | zero => rfl
  | succ m ih =>
    rw [Function.iterate_succ_apply', ih, getNextToken_after_EOF F l h]

end Lexer
/-! ## Parsed trees are well formed -/

namespace Parser

variable {V : Type} (F : Float64 V)

theorem opChar_of_or_matchType_additive {p : Parser V} (hf : Fed F p)
    (h : (p.matchType TOKEN_PLUS || p.matchType TOKEN_MINUS) = true) :
    p.currentToken.lexeme0 = '+' ∨ p.currentToken.lexeme0 = '-' ∨
      p.currentToken.lexeme0 = '*' ∨ p.currentToken.lexeme0 = '/' := by
  rw [Bool.or_eq_true, matchType_iff, matchType_iff] at h
  have ho := Fed.opChar F hf (Or.inl (by rcases h with h | h <;> rw [h] <;> rfl))
  rw [ho]
  rcases h with h | h <;> rw [h]
  · exact Or.inl rfl
  · exact Or.inr (Or.inl rfl)

theorem opChar_of_or_matchType_multiplicative {p : Parser V} (hf : Fed F p)
    (h : (p.matchType TOKEN_STAR || p.matchType TOKEN_SLASH) = true) :
    p.currentToken.lexeme0 = '+' ∨ p.currentToken.lexeme0 = '-' ∨
      p.currentToken.lexeme0 = '*' ∨ p.currentToken.lexeme0 = '/' := by
  rw [Bool.or_eq_true, matchType_iff, matchType_iff] at h
  have ho := Fed.opChar F hf (Or.inr (by rcases h with h | h <;> rw [h] <;> rfl))
  rw [ho]
  rcases h with h | h <;> rw [h]
  · exact Or.inr (Or.inr (Or.inl rfl))
  · exact Or.inr (Or.inr (Or.inr rfl))

/-- The trees returned by the expression parsers have no null child and only the four
operators, when the lookahead was read from the lexer. -/
theorem wellFormed (n : Nat) :
    (∀ p e p', Fed F p → parseExpressionFuel F n p = .ok e p' → e.WellFormed ∧ Fed F p') ∧
    (∀ left p e p', Fed F p → left.WellFormed → parseExpressionLoop F n left p = .ok e p' →
      e.WellFormed ∧ Fed F p') ∧
    (∀ p e p', Fed F p → parseTermFuel F n p = .ok e p' → e.WellFormed ∧ Fed F p') ∧
    (∀ left p e p', Fed F p → left.WellFormed → parseTermLoop F n left p = .ok e p' →
      e.WellFormed ∧ Fed F p') ∧
    (∀ p e p', Fed F p → parseFactorFuel F n p = .ok e p' → e.WellFormed ∧ Fed F p') := by
  induction n with
  | zero =>
    refine ⟨?_, ?_, ?_, ?_, ?_⟩
    · intro p e p' _ h; rw [parseExpressionFuel] at h; simp at h
    · intro l p e p' _ _ h; rw [parseExpressionLoop] at h; simp at h
    · intro p e p' _ h; rw [parseTermFuel] at h; simp at h
    · intro l p e p' _ _ h; rw [parseTermLoop] at h; simp at h
    · intro p e p' _ h; rw [parseFactorFuel] at h; simp at h
  | succ n ih =>
    obtain ⟨ihE, ihEL, ihT, ihTL, ihF⟩ := ih
    refine ⟨?_, ?_, ?_, ?_, ?_⟩
    · intro p e p' hf h
      rw [parseExpressionFuel_succ] at h
      cases hT : parseTermFuel F n p with
      | ok left p1 =>
        rw [hT] at h
        obtain ⟨w1, f1⟩ := ihT p left p1 hf hT
        exact ihEL left p1 e p' f1 w1 h
      | error e1 p1 => rw [hT] at h; simp at h
      | outOfFuel => rw [hT] at h; simp at h
    · intro left p e p' hf hw h
      rw [parseExpressionLoop_succ] at h
      split at h
      · rename_i hop
        cases hT : parseTermFuel F n (p.advanceToken F) with
        | ok right p2 =>
          rw [hT] at h
          obtain ⟨w2, f2⟩ := ihT _ right p2 ⟨p, rfl⟩ hT
          exact ihEL _ p2 e p' f2
            (.binary _ left right (opChar_of_or_matchType_additive F hf hop) hw w2) h
        | error e1 p1 => rw [hT] at h; simp at h
        | outOfFuel => rw [hT] at h; simp at h
      · simp only [ParseResult.ok.injEq] at h
        rw [← h.1, ← h.2]
        exact ⟨hw, hf⟩
    · intro p e p' hf h
      rw [parseTermFuel_succ] at h
      cases hT : parseFactorFuel F n p with
      | ok left p1 =>
        rw [hT] at h
        obtain ⟨w1, f1⟩ := ihF p left p1 hf hT
        exact ihTL left p1 e p' f1 w1 h
      | error e1 p1 => rw [hT] at h; simp at h
      | outOfFuel => rw [hT] at h; simp at h
    · intro left p e p' hf hw h
      rw [parseTermLoop_succ] at h
      split at h
      · rename_i hop
        cases hT : parseFactorFuel F n (p.advanceToken F) with
        | ok right p2 =>
          rw [hT] at h
          obtain ⟨w2, f2⟩ := ihF _ right p2 ⟨p, rfl⟩ hT
          exact ihTL _ p2 e p' f2
            (.binary _ left right (opChar_of_or_matchType_multiplicative F hf hop) hw w2) h
        | error e1 p1 => rw [hT] at h; simp at h
        | outOfFuel => rw [hT] at h; simp at h
      · simp only [ParseResult.ok.injEq] at h
        rw [← h.1, ← h.2]
        exact ⟨hw, hf⟩
    · intro p e p' hf h
      rw [parseFactorFuel_succ] at h
      split at h
      · simp only [ParseResult.ok.injEq] at h
        rw [← h.1, ← h.2]
        exact ⟨.number _, ⟨p, rfl⟩⟩
      · split at h
        · cases hE : parseExpressionFuel F n (p.advanceToken F) with
          | ok expr p1 =>
            rw [hE] at h
            dsimp only at h
            obtain ⟨w1, _⟩ := ihE _ expr p1 ⟨p, rfl⟩ hE
            cases hC : consume F p1 TOKEN_RPAREN
                "Expected ')' after expression in parentheses." with
            | ok u p2 =>
              rw [hC] at h
              simp only [ParseResult.ok.injEq] at h
              rw [consume_ok_iff] at hC
              rw [← h.1, ← h.2, hC.2]
              exact ⟨w1, ⟨p1, rfl⟩⟩
            | error e2 p2 => rw [hC] at h; simp at h
            | outOfFuel => rw [hC] at h; simp at h
          | error e1 p1 => rw [hE] at h; simp at h
          | outOfFuel => rw [hE] at h; simp at h
        · simp at h

theorem parseStatement_wellFormed (p p' : Parser V) (s : StatementNode V)
    (h : parseStatement F p = .ok s p') :
    (∃ e : ExprNode V, s = .PrintNode (some e) ∧ e.WellFormed) ∧ Fed F p' := by
  unfold parseStatement at h
  split at h
  · unfold parsePrintStatement at h
    cases h1 : consume F p TOKEN_PRINT "Expected 'PRINT' keyword." with
    | ok u p1 =>
      rw [h1] at h
      dsimp only at h
      rw [consume_ok_iff] at h1
      cases h2 : parseExpression F p1 with
      | ok expr p2 =>
        rw [h2] at h
        dsimp only at h
        obtain ⟨w, _⟩ := (wellFormed F _).1 p1 expr p2 ⟨p, h1.2⟩ h2
        cases h3 : consume F p2 TOKEN_SEMICOLON
            "Expected ';' after PRINT statement's expression." with
        | ok u p3 =>
          rw [h3] at h
          simp only [ParseResult.ok.injEq] at h
          rw [consume_ok_iff] at h3
          rw [← h.1, ← h.2, h3.2]
          exact ⟨⟨expr, rfl, w⟩, ⟨p2, rfl⟩⟩
        | error e3 p3 => rw [h3] at h; simp at h
        | outOfFuel => rw [h3] at h; simp at h
      | error e2 p2 => rw [h2] at h; simp at h
      | outOfFuel => rw [h2] at h; simp at h
    | error e1 p1 => rw [h1] at h; simp at h
    | outOfFuel => rw [h1] at h; simp at h
  · simp at h

theorem parseProgramLoop_wellFormed (n : Nat) :
    ∀ (prog prog' : ProgramNode V) (p p' : Parser V), prog.WellFormed →
      parseProgramLoop F n prog p = .ok prog' p' → prog'.WellFormed := by
  induction n with
  | zero => intro prog prog' p p' _ h; rw [parseProgramLoop] at h; simp at h
  | succ n ih =>
    intro prog prog' p p' hw h
    rw [parseProgramLoop_succ] at h
    split at h
    · split at h
      · simp at h
      · cases hS : parseStatement F p with
        | ok stmt p1 =>
          rw [hS] at h
          obtain ⟨⟨e, he, we⟩, _⟩ := parseStatement_wellFormed F p p1 stmt hS
          refine ih _ prog' p1 p' ?_ h
          intro s hs
          unfold ProgramNode.addStatement at hs
          rcases List.mem_append.mp hs with hs | hs
          · exact hw s hs
          · rw [List.mem_singleton] at hs
            exact ⟨e, by rw [hs, he], we⟩
        | error e1 p1 => rw [hS] at h; simp at h
        | outOfFuel => rw [hS] at h; simp at h
    · simp only [ParseResult.ok.injEq] at h
      rw [← h.1]
      exact hw

end Parser

/-- The program returned for a source text is well formed. -/
theorem parseSource_wellFormed {V : Type} (F : Float64 V) (source : List Char)
    (prog : ProgramNode V) (p' : Parser V) (h : parseSource F source = .ok prog p') :
    prog.WellFormed :=
  Parser.parseProgramLoop_wellFormed F _ { statements := [] } prog _ p'
    (fun s hs => by simp at hs) h

/-- A well-formed tree evaluates to a value or fails with a division by zero. -/
theorem ExprNode.WellFormed.evaluate {V : Type} (F : Float64 V) {e : ExprNode V}
    (h : e.WellFormed) :
    (∃ v, e.evaluate F = .ok v) ∨ e.evaluate F = .error "Runtime Error: Division by zero" := by
  induction h with
  | number v => exact Or.inl ⟨v, by simp [ExprNode.evaluate]⟩
  | binary op l r hop _ _ ihl ihr =>
    rcases ihl with ⟨x, hx⟩ | hx
    · rcases ihr with ⟨y, hy⟩ | hy
      · rcases hop with rfl | rfl | rfl | rfl
        · exact Or.inl ⟨F.add x y, by simp [ExprNode.evaluate, hx, hy]⟩
        · exact Or.inl ⟨F.sub x y, by simp [ExprNode.evaluate, hx, hy]⟩
        · exact Or.inl ⟨F.mul x y, by simp [ExprNode.evaluate, hx, hy]⟩
        · cases hz : F.eqZero y with
          | true => exact Or.inr (by simp [ExprNode.evaluate, hx, hy, hz])
          | false => exact Or.inl ⟨F.div x y, by simp [ExprNode.evaluate, hx, hy, hz]⟩
      · exact Or.inr (by simp [ExprNode.evaluate, hx, hy])
    · exact Or.inr (by simp [ExprNode.evaluate, hx])

/-- Executing well-formed statements ends normally or with a division by zero. -/
theorem executeStatements_wellFormed {V : Type} (F : Float64 V) :
    ∀ stmts : List (Option (StatementNode V)),
      (∀ s ∈ stmts, ∃ e : ExprNode V, s = some (.PrintNode (some e)) ∧ e.WellFormed) →
      (executeStatements F stmts).thrown = none ∨
        (executeStatements F stmts).thrown = some "Runtime Error: Division by zero" := by
  intro stmts
  induction stmts with
  | nil => intro _; exact Or.inl rfl
  | cons s rest ih =>
    intro hw
    obtain ⟨e, he, we⟩ := hw s (by simp)
    have ih' := ih (fun t ht => hw t (by simp [ht]))
    subst he
    rcases we.evaluate F with ⟨v, hv⟩ | hv
    · simp only [executeStatements, StatementNode.execute, hv]
      exact ih'
    · simp only [executeStatements, StatementNode.execute, hv]
      exact Or.inr trivial


/-- The message of a division by zero is none of the messages of the internal errors. -/
theorem division_message_ne (op : Char) :
    "Runtime Error: Division by zero" ≠ "Runtime Error: Null operand in binary operation" ∧
    "Runtime Error: Division by zero" ≠
      "Runtime Error: PrintNode has null expression to execute" ∧
    "Runtime Error: Division by zero" ≠
      "Runtime Error: Unknown binary operator '" ++ String.singleton op ++ "'" := by
  refine ⟨by decide, by decide, ?_⟩
  intro h
  have h2 := congrArg (fun s : String => s.data.take 16) h
  simp only [String.data_append] at h2
  rw [List.append_assoc, List.take_append_of_le_length (by decide)] at h2
  exact absurd h2 (by decide)

/-! ## The lexeme of a number is the longest literal -/

theorem length_takeWhile_le_numberLexeme (xs : List Char) :
    (xs.takeWhile isdigit).length ≤ (numberLexeme xs).length := by
  unfold numberLexeme
  dsimp only
  split
  · split
    · rw [List.length_append]
      omega
    · exact Nat.le_refl _
  · exact Nat.le_refl _

/-- After a digit the lexeme of `Lexer::number` matches `[0-9]+(\.[0-9]+)?`. -/
theorem numberLexeme_isLiteral {c : Char} {r : List Char} (h : isdigit c = true) :
    IsNumericLiteral (numberLexeme (c :: r)) := by
  have hne : (c :: r).takeWhile isdigit ≠ [] := by
    rw [List.takeWhile_cons, h]
    simp
  have hall : ∀ x ∈ (c :: r).takeWhile isdigit, isdigit x = true :=
    fun x hx => List.mem_takeWhile_imp hx
  unfold numberLexeme
  dsimp only
  split
  · rename_i f after _
    split
    · rename_i hf
      refine ⟨_, (f :: after).takeWhile isdigit, hne, hall,
        fun x hx => List.mem_takeWhile_imp hx, Or.inr ⟨?_, rfl⟩⟩
      rw [List.takeWhile_cons, hf]
      simp
    · exact ⟨_, [], hne, hall, by simp, Or.inl rfl⟩
  · exact ⟨_, [], hne, hall, by simp, Or.inl rfl⟩

/-- No literal at the front of the input is longer than the lexeme of `Lexer::number`. -/
theorem numberLexeme_maximal (xs n : List Char) (hn : IsNumericLiteral n) (hp : n <+: xs) :
    n.length ≤ (numberLexeme xs).length := by
  obtain ⟨t, rfl⟩ := hp
  obtain ⟨ds, fs, _, hds, hfs, hcase⟩ := hn
  rcases hcase with h | ⟨hfne, h⟩
  · rw [h]
    have h1 : (ds ++ t).takeWhile isdigit = ds ++ t.takeWhile isdigit :=
      List.takeWhile_append_of_pos hds
    have h2 := length_takeWhile_le_numberLexeme (ds ++ t)
    rw [h1, List.length_append] at h2
    omega
  · rw [h]
    cases fs with
    | nil => exact absurd rfl hfne
    | cons f fs' =>
      have hf : isdigit f = true := hfs f (by simp)
      have hsplit := takeWhile_append_of_all isdigit ds ('.' :: (f :: fs' ++ t)) hds
        (by intro x hx; simp at hx; rw [← hx]; decide)
      have hfrac : (f :: (fs' ++ t)).takeWhile isdigit =
          (f :: fs') ++ t.takeWhile isdigit :=
        @List.takeWhile_append_of_pos Char isdigit (f :: fs') t hfs
      have hx : ds ++ '.' :: f :: fs' ++ t = ds ++ '.' :: (f :: fs' ++ t) := by simp
      rw [hx]
      unfold numberLexeme
      dsimp only
      rw [hsplit.1, hsplit.2]
      simp only [List.cons_append, hf, if_true, hfrac, List.length_append, List.length_cons]
      omega

/-- A literal ends with a digit: it holds a `.` only in front of a digit. -/
theorem IsNumericLiteral.last_isdigit {n : List Char} (hn : IsNumericLiteral n) :
    ∀ x ∈ n.getLast?, isdigit x = true := by
  obtain ⟨ds, fs, hne, hds, hfs, hcase⟩ := hn
  intro x hx
  rcases hcase with h | ⟨hfne, h⟩
  · rw [h] at hx
    exact hds x (List.mem_of_mem_getLast? hx)
  · rw [h, show ds ++ '.' :: fs = (ds ++ ['.']) ++ fs by simp,
      List.getLast?_append_of_ne_nil _ hfne] at hx
    exact hfs x (List.mem_of_mem_getLast? hx)

/-! ## What `skipWhitespaceAndComments` skips -/

namespace Lexer

/-- A white-space character is skipped, whatever it is. -/
theorem skip_white {l : Lexer} {c : Char} {r : List Char} (h : l.rest = c :: r)
    (hs : isspace c = true) :
    ∃ l' : Lexer, l'.rest = r ∧ l'.source_code = l.source_code ∧
      l'.current_pos = l.current_pos + 1 ∧
      l.skipWhitespaceAndComments = l'.skipWhitespaceAndComments := by
  by_cases hc : c = '\n'
  · refine ⟨Lexer.mk l.source_code (l.current_pos + 1) (l.current_line + 1)
      ((l.current_pos : Int) + 1), rest_succ_of_rest_cons h, rfl, rfl, ?_⟩
    have hrem : (Lexer.mk l.source_code (l.current_pos + 1) (l.current_line + 1)
        ((l.current_pos : Int) + 1)).remaining = r.length := by
      rw [remaining_eq_length_rest]
      exact congrArg List.length (rest_succ_of_rest_cons h)
    unfold skipWhitespaceAndComments
    rw [hrem, remaining_eq_length_rest, h, List.length_cons, skipLoop_succ,
      isAtEnd_of_rest_cons h, peek_of_rest_cons h]
    simp only [Bool.false_eq_true, if_false, hs, if_true, if_pos hc]
    rw [advance_of_rest_cons ((set_line_rest l _ _).trans h)]
  · exact ⟨_, rest_succ_of_rest_cons h, rfl, rfl, skip_space h hs hc⟩

theorem rest_mk_add (l : Lexer) (k : Nat) (line col : Int) :
    (Lexer.mk l.source_code (l.current_pos + k) line col).rest = l.rest.drop k := by
  simp [rest, Nat.add_comm]

/-- On text that is white space and comments only, everything is skipped. -/
theorem skip_blank {xs : List Char} (hb : Blank xs) :
    ∀ l : Lexer, l.rest = xs → l.skipWhitespaceAndComments.rest = [] := by
  induction hb with
  | nil => intro l h; rw [skip_at_end h]; exact h
  | space c rest hs _ ih =>
    intro l h
    obtain ⟨l', hr, _, _, he⟩ := skip_white h hs
    rw [he]
    exact ih l' hr
  | comment body rest hbody _ ih =>
    intro l h
    rw [skip_comment_line h hbody]
    refine ih _ ?_
    rw [rest_mk_add, h]
    simp
  | comment_end body hbody =>
    intro l h
    rw [skip_comment_end h hbody, rest_set_pos, h]
    simp

/-- What is skipped is white space and comments. -/
theorem skipLoop_blank (n : Nat) :
    ∀ l : Lexer, ∃ seg : List Char, Blank seg ∧ l.rest = seg ++ (skipLoop n l).rest ∧
      (skipLoop n l).current_pos = l.current_pos + seg.length := by
  induction n with
  | zero => intro l; exact ⟨[], Blank.nil, rfl, rfl⟩
  | succ n ih =>
    intro l
    rw [skipLoop_succ]
    cases hr : l.rest with
    | nil =>
      rw [(isAtEnd_iff_rest l).mpr hr, if_pos rfl, hr]
      exact ⟨[], Blank.nil, rfl, rfl⟩
    | cons c r =>
      rw [isAtEnd_of_rest_cons hr, peek_of_rest_cons hr]
      simp only [Bool.false_eq_true, if_false]
      split
      · rename_i hs
        have hstep : ∀ l1 : Lexer, l1.rest = r → l1.current_pos = l.current_pos + 1 →
            ∃ seg : List Char, Blank seg ∧ c :: r = seg ++ (skipLoop n l1).rest ∧
              (skipLoop n l1).current_pos = l.current_pos + seg.length := by
          intro l1 h1 hp1
          obtain ⟨seg, hb, he, hp⟩ := ih l1
          rw [h1] at he
          refine ⟨c :: seg, Blank.space c seg hs hb, by rw [List.cons_append, ← he], ?_⟩
          rw [hp, hp1, List.length_cons]
          omega
        by_cases hc : c = '\n'
        · rw [if_pos hc, advance_of_rest_cons ((set_line_rest l _ _).trans hr)]
          exact hstep _ (rest_succ_of_rest_cons ((set_line_rest l _ _).trans hr)) rfl
        · rw [if_neg hc, advance_of_rest_cons hr]
          exact hstep _ (rest_succ_of_rest_cons hr) rfl
      · split
        · rename_i hcom
          obtain ⟨hc1, hlen, hc2⟩ := hcom
          subst hc1
          have hr2 : ∃ r2, r = '/' :: r2 := by
            rw [charAt_add, hr] at hc2
            cases r with
            | nil =>
              have hl := remaining_eq_length_rest l
              rw [hr] at hl
              simp [remaining] at hl
              omega
            | cons d r2 => exact ⟨r2, by simp at hc2; rw [hc2]⟩
          obtain ⟨r2, rfl⟩ := hr2
          rw [skipCommentLoop_eq _ l (Nat.le_refl _), hr]
          have htw : (('/' :: '/' :: r2).takeWhile (fun c => decide (c ≠ '\n'))).length =
              (r2.takeWhile (fun c => decide (c ≠ '\n'))).length + 2 := by
            simp [List.takeWhile_cons]
          have hbody : ∀ x ∈ r2.takeWhile (fun c => decide (c ≠ '\n')), x ≠ '\n' :=
            fun x hx => by simpa using List.mem_takeWhile_imp hx
          have hrest : ({ l with current_pos := l.current_pos +
              (('/' :: '/' :: r2).takeWhile (fun c => decide (c ≠ '\n'))).length } : Lexer).rest =
              r2.dropWhile (fun c => decide (c ≠ '\n')) := by
            rw [rest_set_pos, hr, drop_length_takeWhile]
            simp [List.dropWhile_cons]
          have hpos : ({ l with current_pos := l.current_pos +
              (('/' :: '/' :: r2).takeWhile (fun c => decide (c ≠ '\n'))).length }
              : Lexer).current_pos =
              l.current_pos + ((r2.takeWhile (fun c => decide (c ≠ '\n'))).length + 2) := by
            rw [← htw]
          generalize hl1 : ({ l with current_pos := l.current_pos +
              (('/' :: '/' :: r2).takeWhile (fun c => decide (c ≠ '\n'))).length } : Lexer) = l1
            at hrest hpos ⊢
          have hsplit := takeWhile_prefix_rest (fun c => decide (c ≠ '\n')) r2
          split
          · rename_i hp
            cases hd : l1.rest with
            | nil =>
              rw [peek_eq_headD, hd] at hp
              exact absurd hp (by decide)
            | cons d r' =>
              rw [peek_of_rest_cons hd] at hp
              subst hp
              rw [advance_of_rest_cons hd]
              obtain ⟨seg, hb, he, hps⟩ := ih (Lexer.mk l1.source_code (l1.current_pos + 1)
                (l1.current_line + 1) ((l1.current_pos + 1 : Nat) : Int))
              have hr' : (Lexer.mk l1.source_code (l1.current_pos + 1)
                  (l1.current_line + 1) ((l1.current_pos + 1 : Nat) : Int)).rest = r' :=
                rest_succ_of_rest_cons hd
              rw [hr'] at he
              refine ⟨'/' :: '/' :: (r2.takeWhile (fun c => decide (c ≠ '\n')) ++ '\n' :: seg),
                Blank.comment _ seg hbody hb, ?_, ?_⟩
              · rw [hrest] at hd
                conv_lhs => rw [hsplit, hd, he]
                simp
              · rw [hps]
                show l1.current_pos + 1 + seg.length = _
                rw [hpos]
                simp only [List.length_cons, List.length_append]
                omega
          · rename_i hp
            have hd : l1.rest = [] := by
              cases hd : l1.rest with
              | nil => rfl
              | cons d r' =>
                exfalso
                have h1 := List.head_dropWhile_not (fun c => decide (c ≠ '\n')) r2
                  (by rw [← hrest, hd]; simp)
                simp only [← hrest, hd, List.head_cons] at h1
                rw [peek_of_rest_cons hd] at hp
                simp at h1
                exact hp h1
            have hstop : skipLoop n l1 = l1 := by
              cases n with
              | zero => rfl
              | succ m => rw [skipLoop_succ, (isAtEnd_iff_rest l1).mpr hd, if_pos rfl]
            rw [hstop, hd]
            refine ⟨'/' :: '/' :: r2.takeWhile (fun c => decide (c ≠ '\n')),
              Blank.comment_end _ hbody, ?_, ?_⟩
            · rw [hrest] at hd
              conv_lhs => rw [hsplit, hd]
              simp
            · rw [hpos]
              simp only [List.length_cons]
        · exact ⟨[], Blank.nil, by rw [hr]; rfl, rfl⟩

/-- Between the scan position and the next token there are only white space and
comments. -/
theorem skip_blank_segment (l : Lexer) :
    ∃ seg : List Char, Blank seg ∧ l.rest = seg ++ l.skipWhitespaceAndComments.rest ∧
      l.skipWhitespaceAndComments.current_pos = l.current_pos + seg.length :=
  skipLoop_blank l.remaining l

end Lexer
/-! ## The lexeme of a token is the text it was read from -/

namespace Lexer

/-- A token that is neither `Error` nor `EndOfFile` carries as lexeme the text consumed
for it, which stands right after the skipped white space and comments. -/
theorem getNextToken_lexeme {V : Type} (F : Float64 V) (l0 : Lexer)
    (h1 : (getNextToken F l0).1.type ≠ TOKEN_ERROR)
    (h2 : (getNextToken F l0).1.type ≠ TOKEN_EOF) :
    LexemeOf F (getNextToken F l0).1.type (getNextToken F l0).1.lexeme.data
      (getNextToken F l0).1.value ∧
    l0.skipWhitespaceAndComments.rest =
      (getNextToken F l0).1.lexeme.data ++ (getNextToken F l0).2.rest ∧
    (getNextToken F l0).2.current_pos =
      l0.skipWhitespaceAndComments.current_pos + (getNextToken F l0).1.lexeme.data.length := by
  cases hr : l0.skipWhitespaceAndComments.rest with
  | nil =>
    exfalso
    apply h2
    rw [getNextToken_eq]
    dsimp only
    rw [(isAtEnd_iff_rest _).mpr hr, if_pos rfl]
    rfl
  | cons c r =>
    have hend := isAtEnd_of_rest_cons hr
    have hpk := peek_of_rest_cons hr
    by_cases ha : isalpha c = true ∨ c = '_'
    · have hg := getNextToken_word F l0 hr ha
      rw [identifierOrKeyword_eq, hr] at hg
      dsimp only at hg
      cases hk : keywords (String.mk ((c :: r).takeWhile
          (fun x => isalnum x || decide (x = '_')))) with
      | none =>
        rw [hk] at hg
        rw [hg] at h1
        exact absurd rfl h1
      | some ty =>
        rw [hk] at hg
        obtain ⟨hw, hty⟩ := (keywords_eq_some _ ty).mp hk
        subst hty
        rw [hg]
        dsimp only
        refine ⟨?_, ?_, rfl⟩
        · rw [hw]
          exact LexemeOf.print
        · rw [rest_set_pos, hr, drop_length_takeWhile]
          exact (List.takeWhile_append_dropWhile _ _).symm
    by_cases hd : isdigit c = true
    · have hg := getNextToken_digit F l0 hr hd
      rw [number_eq, hr] at hg
      dsimp only at hg
      cases hs : F.stod (String.mk (numberLexeme (c :: r))) with
      | value v =>
        rw [hs] at hg
        rw [hg]
        dsimp only
        refine ⟨LexemeOf.number _ v (numberLexeme_isLiteral hd) hs, ?_, rfl⟩
        rw [rest_set_pos, hr]
        exact numberLexeme_append_drop (c :: r)
      | out_of_range =>
        rw [hs] at hg
        rw [hg] at h1
        exact absurd rfl h1
      | invalid_argument =>
        rw [hs] at hg
        rw [hg] at h1
        exact absurd rfl h1
    have hg := getNextToken_punctuation F l0 hend (by rw [hpk]; exact ha) (by rw [hpk]; exact hd)
    dsimp only at hg
    rw [hpk] at hg
    have hrest1 : ({ l0.skipWhitespaceAndComments with
        current_pos := l0.skipWhitespaceAndComments.current_pos + 1 } : Lexer).rest = r :=
      rest_succ_of_rest_cons hr
    by_cases c1 : c = '('
    · rw [if_pos c1] at hg
      rw [hg]
      exact ⟨LexemeOf.lparen, by rw [hrest1, c1]; rfl, rfl⟩
    rw [if_neg c1] at hg
    by_cases c2 : c = ')'
    · rw [if_pos c2] at hg
      rw [hg]
      exact ⟨LexemeOf.rparen, by rw [hrest1, c2]; rfl, rfl⟩
    rw [if_neg c2] at hg
    by_cases c3 : c = ';'
    · rw [if_pos c3] at hg
      rw [hg]
      exact ⟨LexemeOf.semicolon, by rw [hrest1, c3]; rfl, rfl⟩
    rw [if_neg c3] at hg
    by_cases c4 : c = '+'
    · rw [if_pos c4] at hg
      rw [hg]
      exact ⟨LexemeOf.plus, by rw [hrest1, c4]; rfl, rfl⟩
    rw [if_neg c4] at hg
    by_cases c5 : c = '-'
    · rw [if_pos c5] at hg
      rw [hg]
      exact ⟨LexemeOf.minus, by rw [hrest1, c5]; rfl, rfl⟩
    rw [if_neg c5] at hg
    by_cases c6 : c = '*'
    · rw [if_pos c6] at hg
      rw [hg]
      exact ⟨LexemeOf.star, by rw [hrest1, c6]; rfl, rfl⟩
    rw [if_neg c6] at hg
    by_cases c7 : c = '/'
    · rw [if_pos c7] at hg
      rw [hg]
      exact ⟨LexemeOf.slash, by rw [hrest1, c7]; rfl, rfl⟩
    rw [if_neg c7] at hg
    rw [hg] at h1
    exact absurd rfl h1

theorem LexemeOf.ne_nil {V : Type} {F : Float64 V} {k : TokenType} {x : List Char} {v : V}
    (h : LexemeOf F k x v) : x ≠ [] := by
  cases h with
  | number n v hn _ =>
    obtain ⟨d, r, hd, _⟩ := hn.head
    rw [hd]
    exact List.cons_ne_nil _ _
  | _ => exact List.cons_ne_nil _ _

end Lexer
/-! ## Line and column determine the position -/

theorem take_eq_take_append_mid (source : List Char) {i j : Nat} (h : i ≤ j) :
    source.take j = source.take i ++ (source.drop i).take (j - i) := by
  have hj : j = i + (j - i) := by omega
  conv_lhs => rw [hj, List.take_add]

/-- Positions later on the same line have a larger column. -/
theorem columnOf_of_same_line (source : List Char) {i j : Nat} (hij : i ≤ j)
    (hj : j ≤ source.length) (hline : lineOf source i = lineOf source j) :
    columnOf source j = columnOf source i + ((j - i : Nat) : Int) := by
  have hsplit := take_eq_take_append_mid source hij
  have hlen : ((source.drop i).take (j - i)).length = j - i := by
    rw [List.length_take, List.length_drop]
    omega
  have hno : ∀ x ∈ (source.drop i).take (j - i), x ≠ '\n' := by
    unfold lineOf at hline
    rw [hsplit, List.count_append] at hline
    have hz : ((source.drop i).take (j - i)).count '\n' = 0 := by
      push_cast at hline
      omega
    intro x hx hxe
    rw [hxe] at hx
    exact absurd hz (by
      have := List.count_pos_iff.mpr hx
      omega)
  unfold columnOf
  rw [hsplit, List.reverse_append,
    List.takeWhile_append_of_pos (fun x hx => by
      simpa using hno x (List.mem_reverse.mp hx)),
    List.length_append, List.length_reverse, hlen]
  push_cast
  omega

/-- A position within the source is determined by its line and column. -/
theorem position_unique (source : List Char) {i j : Nat} (hi : i ≤ source.length)
    (hj : j ≤ source.length) (hline : lineOf source i = lineOf source j)
    (hcol : columnOf source i = columnOf source j) : i = j := by
  rcases Nat.le_total i j with h | h
  · have := columnOf_of_same_line source h hj hline
    omega
  · have := columnOf_of_same_line source h hi hline.symm
    omega

namespace Lexer

/-- The scan position after white space and comments is within the source, when the
scan position before is. -/
theorem skip_pos_le {l : Lexer} (h : l.current_pos ≤ l.source_code.length) :
    l.skipWhitespaceAndComments.current_pos ≤ l.source_code.length := by
  obtain ⟨seg, _, he, hp⟩ := skip_blank_segment l
  have h1 := congrArg List.length he
  rw [List.length_append] at h1
  have h2 := remaining_eq_length_rest l
  unfold remaining at h2
  omega

end Lexer
/-! ## A lexeme followed by white space -/

theorem isspace_not_token_char {c : Char} (h : isspace c = true) :
    (isalnum c || decide (c = '_')) = false ∧ isdigit c = false ∧ c ≠ '.' ∧ c ≠ '/' := by
  have hn : c.toNat = 32 ∨ (9 ≤ c.toNat ∧ c.toNat ≤ 13) := by
    simpa [isspace] using h
  have h95 : c ≠ '_' := by
    rintro rfl
    revert hn
    decide
  refine ⟨?_, ?_, ?_, ?_⟩
  · simp only [isalnum, isalpha, isdigit, Bool.or_eq_false_iff, decide_eq_false_iff_not]
    refine ⟨⟨⟨?_, ?_⟩, ?_⟩, h95⟩
    · simp only [Bool.and_eq_false_imp, decide_eq_true_eq, decide_eq_false_iff_not]
      omega
    · simp only [Bool.and_eq_false_imp, decide_eq_true_eq, decide_eq_false_iff_not]
      omega
    · simp only [Bool.and_eq_false_imp, decide_eq_true_eq, decide_eq_false_iff_not]
      omega
  · simp only [isdigit, Bool.and_eq_false_imp, decide_eq_true_eq, decide_eq_false_iff_not]
    omega
  · rintro rfl
    revert hn
    decide
  · rintro rfl
    revert hn
    decide

namespace Lexer

/-- White space in front of the input does not change what `skipWhitespaceAndComments`
reaches. -/
theorem skip_white_run (w : List Char) :
    ∀ (l : Lexer) (r : List Char), l.rest = w ++ r → (∀ c ∈ w, isspace c = true) →
      ∃ l' : Lexer, l'.rest = r ∧ l.skipWhitespaceAndComments = l'.skipWhitespaceAndComments := by
  induction w with
  | nil => intro l r h _; exact ⟨l, h, rfl⟩
  | cons c w ih =>
    intro l r h hw
    obtain ⟨l1, h1, _, _, e1⟩ := skip_white (by rw [h]; rfl) (hw c (by simp))
    obtain ⟨l2, h2, e2⟩ := ih l1 r h1 (fun x hx => hw x (by simp [hx]))
    exact ⟨l2, h2, e1.trans e2⟩

/-- The token for a punctuation character in front of white space or of the end of the
input. -/
theorem getNextToken_punct {V : Type} (F : Float64 V) {l : Lexer} {c : Char} {r : List Char}
    (h : l.rest = c :: r) (hr : ∀ x ∈ r.head?, isspace x = true)
    (hs : isspace c = false) (ha : ¬ (isalpha c = true ∨ c = '_')) (hd : ¬ isdigit c = true) :
    getNextToken F l =
      (let l1 : Lexer := { l with current_pos := l.current_pos + 1 }
       let col : Int := ((l.current_pos : Int) - l.current_column_start_of_line) + 1
       let tok (ty : TokenType) (lex : String) : Token V :=
         { type := ty, lexeme := lex, value := F.zero, line := l.current_line, column := col }
       if c = '(' then (tok TOKEN_LPAREN "(", l1)
       else if c = ')' then (tok TOKEN_RPAREN ")", l1)
       else if c = ';' then (tok TOKEN_SEMICOLON ";", l1)
       else if c = '+' then (tok TOKEN_PLUS "+", l1)
       else if c = '-' then (tok TOKEN_MINUS "-", l1)
       else if c = '*' then (tok TOKEN_STAR "*", l1)
       else if c = '/' then (tok TOKEN_SLASH "/", l1)
       else (l1.errorToken F ("Unexpected character: " ++ String.singleton c), l1)) := by
  have hskip : l.skipWhitespaceAndComments = l := by
    by_cases hc : c = '/'
    · subst hc
      refine skip_of_slash h ?_
      intro hh
      have := hr '/' hh
      exact absurd this (by decide)
    · exact skip_of_token_start h hs hc
  have hg := getNextToken_punctuation F l (by rw [hskip]; exact isAtEnd_of_rest_cons h)
    (by rw [hskip, peek_of_rest_cons h]; exact ha) (by rw [hskip, peek_of_rest_cons h]; exact hd)
  rw [hg, hskip]
  dsimp only
  rw [peek_of_rest_cons h]

end Lexer

/-- A lexeme in front of white space or of the end of the input is read as its token. -/
theorem LexemeOf.alone {V : Type} {F : Float64 V} {k : TokenType} {x : List Char} {v : V}
    (h : LexemeOf F k x v) (m : Lexer) (tail : List Char) (hm : m.rest = x ++ tail)
    (ht : ∀ c ∈ tail.head?, isspace c = true) :
    (m.getNextToken F).1.type = k ∧ (m.getNextToken F).1.lexeme = String.mk x ∧
      (m.getNextToken F).1.value = v ∧ (m.getNextToken F).2.rest = tail := by
  have hpunct : ∀ c : Char, x = [c] → isspace c = false →
      ¬ (isalpha c = true ∨ c = '_') → ¬ isdigit c = true →
      m.getNextToken F =
        (let l1 : Lexer := { m with current_pos := m.current_pos + 1 }
         let col : Int := ((m.current_pos : Int) - m.current_column_start_of_line) + 1
         let tok (ty : TokenType) (lex : String) : Token V :=
           { type := ty, lexeme := lex, value := F.zero, line := m.current_line, column := col }
         if c = '(' then (tok TOKEN_LPAREN "(", l1)
         else if c = ')' then (tok TOKEN_RPAREN ")", l1)
         else if c = ';' then (tok TOKEN_SEMICOLON ";", l1)
         else if c = '+' then (tok TOKEN_PLUS "+", l1)
         else if c = '-' then (tok TOKEN_MINUS "-", l1)
         else if c = '*' then (tok TOKEN_STAR "*", l1)
         else if c = '/' then (tok TOKEN_SLASH "/", l1)
         else (l1.errorToken F ("Unexpected character: " ++ String.singleton c), l1)) ∧
      ({ m with current_pos := m.current_pos + 1 } : Lexer).rest = tail := by
    intro c hx hs ha hd
    have hm' : m.rest = c :: tail := by rw [hm, hx]; rfl
    exact ⟨Lexer.getNextToken_punct F hm' ht hs ha hd, Lexer.rest_succ_of_rest_cons hm'⟩
  cases h with
  | print =>
    have hm' : m.rest = 'P' :: ("RINT".toList ++ tail) := by rw [hm]; rfl
    have htw := takeWhile_append_of_all (fun c => isalnum c || decide (c = '_')) "PRINT".toList
      tail (by decide) (fun c hc => (isspace_not_token_char (ht c hc)).1)
    rw [Lexer.getNextToken_of_isalpha F hm' (Or.inl (by decide)), Lexer.identifierOrKeyword_eq,
      hm]
    dsimp only
    rw [htw.1]
    refine ⟨rfl, rfl, rfl, ?_⟩
    show ({ m with current_pos := m.current_pos + "PRINT".toList.length } : Lexer).rest = tail
    rw [Lexer.rest_set_pos, hm]
    exact List.drop_left _ _
  | number n v hn hv =>
    obtain ⟨d, r, hd, hdig⟩ := hn.head
    have hm' : m.rest = d :: (r ++ tail) := by rw [hm, hd]; rfl
    have hlex := numberLexeme_literal x tail hn
      (fun c hc => ⟨(isspace_not_token_char (ht c hc)).2.1, (isspace_not_token_char (ht c hc)).2.2.1⟩)
    rw [Lexer.getNextToken_of_isdigit F hm' hdig, Lexer.number_eq, hm]
    dsimp only
    rw [hlex, hv]
    refine ⟨rfl, rfl, rfl, ?_⟩
    show ({ m with current_pos := m.current_pos + x.length } : Lexer).rest = tail
    rw [Lexer.rest_set_pos, hm]
    exact List.drop_left _ _
  | lparen =>
    obtain ⟨hg, hr⟩ := hpunct '(' rfl (by decide) (by decide) (by decide)
    rw [hg]
    exact ⟨rfl, rfl, rfl, hr⟩
  | rparen =>
    obtain ⟨hg, hr⟩ := hpunct ')' rfl (by decide) (by decide) (by decide)
    rw [hg]
    exact ⟨rfl, rfl, rfl, hr⟩
  | semicolon =>
    obtain ⟨hg, hr⟩ := hpunct ';' rfl (by decide) (by decide) (by decide)
    rw [hg]
    exact ⟨rfl, rfl, rfl, hr⟩
  | plus =>
    obtain ⟨hg, hr⟩ := hpunct '+' rfl (by decide) (by decide) (by decide)
    rw [hg]
    exact ⟨rfl, rfl, rfl, hr⟩
  | minus =>
    obtain ⟨hg, hr⟩ := hpunct '-' rfl (by decide) (by decide) (by decide)
    rw [hg]
    exact ⟨rfl, rfl, rfl, hr⟩
  | star =>
    obtain ⟨hg, hr⟩ := hpunct '*' rfl (by decide) (by decide) (by decide)
    rw [hg]
    exact ⟨rfl, rfl, rfl, hr⟩
  | slash =>
    obtain ⟨hg, hr⟩ := hpunct '/' rfl (by decide) (by decide) (by decide)
    rw [hg]
    exact ⟨rfl, rfl, rfl, hr⟩

/-! ## Lexing respaced lexemes -/

theorem respace_head (w : List Char) (items : List (List Char × List Char))
    (hw : ∀ c ∈ w, isspace c = true) (hne : items ≠ [] → w ≠ []) (hsp : Spaced items)
    (rest : List (List Char × List Char)) (hrest : rest = items) :
    ∀ c ∈ (respace w rest).head?, isspace c = true := by
  subst hrest
  intro c hc
  cases w with
  | nil =>
    cases rest with
    | nil => simp [respace] at hc
    | cons it rest' => exact absurd rfl (hne (List.cons_ne_nil _ _))
  | cons d w' =>
    have : respace (d :: w') rest = d :: (respace w' rest) := by
      cases rest with
      | nil => rfl
      | cons it rest' => rfl
    rw [this] at hc
    simp only [List.head?_cons, Option.mem_def, Option.some.injEq] at hc
    rw [← hc]
    exact hw d (by simp)

theorem blank_of_isspace (w : List Char) (hw : ∀ c ∈ w, isspace c = true) : Blank w := by
  induction w with
  | nil => exact Blank.nil
  | cons c w ih => exact Blank.space c w (hw c (by simp)) (ih (fun x hx => hw x (by simp [hx])))

theorem LexemeOf.isNotEOF {V : Type} {F : Float64 V} {k : TokenType} {x : List Char} {v : V}
    (h : LexemeOf F k x v) : k ≠ TOKEN_EOF := by
  cases h <;> decide

namespace Lexer

/-- The content of the `EndOfFile` token. -/
theorem tokens_of_blank {V : Type} (F : Float64 V) (m : Lexer) (h : Blank m.rest) :
    (m.tokens F).map Token.content = [(TOKEN_EOF, "", F.zero)] := by
  have hrest := skip_blank h m rfl
  have hg : getNextToken F m =
      (m.skipWhitespaceAndComments.makeToken F TOKEN_EOF "", m.skipWhitespaceAndComments) := by
    rw [getNextToken_eq]
    dsimp only
    rw [(isAtEnd_iff_rest _).mpr hrest, if_pos rfl]
  rw [tokens_eq, hg]
  dsimp only
  rw [if_pos (show (m.skipWhitespaceAndComments.makeToken F TOKEN_EOF "").type = TOKEN_EOF
    from rfl)]
  rfl

/-- Lexing the lexemes of tokens, with white space between them, gives tokens with the
same kinds, lexemes and values. -/
theorem tokens_respace {V : Type} (F : Float64 V) (toks : List (Token V))
    (items : List (List Char × List Char))
    (hall : List.Forall₂
      (fun (t : Token V) (it : List Char × List Char) =>
        LexemeOf F t.type it.1 t.value ∧ t.lexeme = String.mk it.1) toks items) :
    ∀ (m : Lexer) (w0 : List Char), (∀ c ∈ w0, isspace c = true) → Spaced items →
      m.rest = respace w0 items →
      (m.tokens F).map Token.content = toks.map Token.content ++ [(TOKEN_EOF, "", F.zero)] := by
  induction hall with
  | nil =>
    intro m w0 hw0 _ hm
    rw [tokens_of_blank F m (by rw [hm]; exact blank_of_isspace w0 hw0)]
    rfl
  | @cons t it toks' items' hhead _ ih =>
    intro m w0 hw0 hsp hm
    obtain ⟨x, w⟩ := it
    obtain ⟨hlex, hlexeme⟩ := hhead
    obtain ⟨hw, hne, hsp'⟩ := hsp
    obtain ⟨m', hm', hskip⟩ := skip_white_run w0 m (x ++ respace w items') hm hw0
    have hg : getNextToken F m = getNextToken F m' := getNextToken_congr_skip F hskip
    obtain ⟨h1, h2, h3, h4⟩ := hlex.alone m' (respace w items') hm'
      (respace_head w items' hw hne hsp' items' rfl)
    rw [tokens_eq, hg, if_neg (by rw [h1]; exact hlex.isNotEOF), List.map_cons, List.map_cons,
      ih (getNextToken F m').2 w hw hsp' h4]
    simp only [Token.content, h1, h2, h3, hlexeme, List.cons_append]

/-- Every token of the stream other than `Error` and `EndOfFile` carries a lexeme of its
kind and value. -/
theorem tokensFuel_lexemes {V : Type} (F : Float64 V) (n : Nat) :
    ∀ l : Lexer, ∀ t ∈ tokensFuel F n l, t.type ≠ TOKEN_ERROR → t.type ≠ TOKEN_EOF →
      LexemeOf F t.type t.lexeme.data t.value := by
  induction n with
  | zero => intro l t ht; simp [tokensFuel] at ht
  | succ n ih =>
    intro l t ht h1 h2
    rw [tokensFuel_succ] at ht
    split at ht
    · rw [List.mem_singleton] at ht
      subst ht
      rename_i he
      exact absurd he h2
    · rcases List.mem_cons.mp ht with ht | ht
      · subst ht
        exact (getNextToken_lexeme F l h1 h2).1
      · exact ih _ t ht h1 h2

end Lexer
/-! ## The parser looks at kinds, lexemes and values only -/

namespace Parser

variable {V : Type} (F : Float64 V)

theorem pending_head? (p : Parser V) : (p.pending F).head? = some p.currentToken := by
  unfold pending
  split <;> rfl

theorem SameInput.current {p q : Parser V} (h : SameInput F p q) :
    p.currentToken.type = q.currentToken.type ∧ p.currentToken.lexeme = q.currentToken.lexeme ∧
      p.currentToken.value = q.currentToken.value := by
  have h1 := congrArg List.head? h
  rw [List.head?_map, List.head?_map, pending_head?, pending_head?] at h1
  simp only [Option.map_some', Option.some.injEq, Token.content, Prod.mk.injEq] at h1
  exact h1

theorem SameInput.advance {p q : Parser V} (h : SameInput F p q)
    (hne : p.currentToken.type ≠ TOKEN_EOF) :
    SameInput F (p.advanceToken F) (q.advanceToken F) := by
  have hq : q.currentToken.type ≠ TOKEN_EOF := by rw [← (h.current F).1]; exact hne
  unfold SameInput at h ⊢
  rw [pending_of_ne_EOF F p hne, pending_of_ne_EOF F q hq, List.map_cons, List.map_cons] at h
  exact (List.cons.inj h).2

theorem SameInput.matchType {p q : Parser V} (h : SameInput F p q) (t : TokenType) :
    p.matchType t = q.matchType t := by
  unfold Parser.matchType
  rw [(h.current F).1]

theorem SameInput.lexeme0 {p q : Parser V} (h : SameInput F p q) :
    p.currentToken.lexeme0 = q.currentToken.lexeme0 := by
  unfold Token.lexeme0
  rw [(h.current F).2.1]

theorem consume_agree {p q : Parser V} (h : SameInput F p q) (t : TokenType) (msg : String)
    (ht : t ≠ TOKEN_EOF) : (consume F p t msg).Agree F (consume F q t msg) := by
  unfold consume
  rw [← (h.current F).1]
  split
  · rename_i hc
    exact ⟨rfl, h.advance F (by rw [hc]; exact ht)⟩
  · trivial

/-- On the same tokens the expression parsers return the same trees. -/
theorem agree (n : Nat) :
    (∀ p q, SameInput F p q → (parseExpressionFuel F n p).Agree F (parseExpressionFuel F n q)) ∧
    (∀ left p q, SameInput F p q →
      (parseExpressionLoop F n left p).Agree F (parseExpressionLoop F n left q)) ∧
    (∀ p q, SameInput F p q → (parseTermFuel F n p).Agree F (parseTermFuel F n q)) ∧
    (∀ left p q, SameInput F p q →
      (parseTermLoop F n left p).Agree F (parseTermLoop F n left q)) ∧
    (∀ p q, SameInput F p q → (parseFactorFuel F n p).Agree F (parseFactorFuel F n q)) := by
  induction n with
  | zero =>
    refine ⟨?_, ?_, ?_, ?_, ?_⟩
    · intro p q _; rw [parseExpressionFuel, parseExpressionFuel]; trivial
    · intro l p q _; rw [parseExpressionLoop, parseExpressionLoop]; trivial
    · intro p q _; rw [parseTermFuel, parseTermFuel]; trivial
    · intro l p q _; rw [parseTermLoop, parseTermLoop]; trivial
    · intro p q _; rw [parseFactorFuel, parseFactorFuel]; trivial
  | succ n ih =>
    obtain ⟨ihE, ihEL, ihT, ihTL, ihF⟩ := ih
    refine ⟨?_, ?_, ?_, ?_, ?_⟩
    · intro p q h
      rw [parseExpressionFuel_succ, parseExpressionFuel_succ]
      have hA := ihT p q h
      cases hp : parseTermFuel F n p <;> cases hq : parseTermFuel F n q <;>
        rw [hp, hq] at hA <;> try exact hA.elim
      · obtain ⟨rfl, hs⟩ := hA
        exact ihEL _ _ _ hs
      · trivial
      · trivial
    · intro left p q h
      rw [parseExpressionLoop_succ, parseExpressionLoop_succ, ← h.matchType F, ← h.matchType F,
        ← h.lexeme0 F]
      split
      · rename_i hop
        have hA := ihT _ _ (h.advance F (ne_EOF_of_or_matchType hop (by decide) (by decide)))
        cases hp : parseTermFuel F n (p.advanceToken F) <;>
          cases hq : parseTermFuel F n (q.advanceToken F) <;>
          rw [hp, hq] at hA <;> try exact hA.elim
        · obtain ⟨rfl, hs⟩ := hA
          exact ihEL _ _ _ hs
        · trivial
        · trivial
      · exact ⟨rfl, h⟩
    · intro p q h
      rw [parseTermFuel_succ, parseTermFuel_succ]
      have hA := ihF p q h
      cases hp : parseFactorFuel F n p <;> cases hq : parseFactorFuel F n q <;>
        rw [hp, hq] at hA <;> try exact hA.elim
      · obtain ⟨rfl, hs⟩ := hA
        exact ihTL _ _ _ hs
      · trivial
      · trivial
    · intro left p q h
      rw [parseTermLoop_succ, parseTermLoop_succ, ← h.matchType F, ← h.matchType F,
        ← h.lexeme0 F]
      split
      · rename_i hop
        have hA := ihF _ _ (h.advance F (ne_EOF_of_or_matchType hop (by decide) (by decide)))
        cases hp : parseFactorFuel F n (p.advanceToken F) <;>
          cases hq : parseFactorFuel F n (q.advanceToken F) <;>
          rw [hp, hq] at hA <;> try exact hA.elim
        · obtain ⟨rfl, hs⟩ := hA
          exact ihTL _ _ _ hs
        · trivial
        · trivial
      · exact ⟨rfl, h⟩
    · intro p q h
      rw [parseFactorFuel_succ, parseFactorFuel_succ, ← h.matchType F, ← h.matchType F,
        ← (h.current F).2.2]
      split
      · rename_i hn
        rw [matchType_iff] at hn
        exact ⟨rfl, h.advance F (by rw [hn]; decide)⟩
      · split
        · rename_i hl
          rw [matchType_iff] at hl
          have hA := ihE _ _ (h.advance F (by rw [hl]; decide))
          cases hp : parseExpressionFuel F n (p.advanceToken F) with
          | ok e1 p1 =>
            cases hq : parseExpressionFuel F n (q.advanceToken F) with
            | ok e2 q1 =>
              rw [hp, hq] at hA
              obtain ⟨rfl, hs⟩ := hA
              dsimp only
              have hC := consume_agree F hs TOKEN_RPAREN
                "Expected ')' after expression in parentheses." (by decide)
              cases hcp : consume F p1 TOKEN_RPAREN
                  "Expected ')' after expression in parentheses." <;>
                cases hcq : consume F q1 TOKEN_RPAREN
                  "Expected ')' after expression in parentheses." <;>
                rw [hcp, hcq] at hC <;> try exact hC.elim
              · exact ⟨rfl, hC.2⟩
              · trivial
              · trivial
            | error e2 q1 => rw [hp, hq] at hA; exact hA.elim
            | outOfFuel => rw [hp, hq] at hA; exact hA.elim
          | error e1 p1 =>
            cases hq : parseExpressionFuel F n (q.advanceToken F) with
            | ok e2 q1 => rw [hp, hq] at hA; exact hA.elim
            | error e2 q1 => trivial
            | outOfFuel => rw [hp, hq] at hA; exact hA.elim
          | outOfFuel =>
            cases hq : parseExpressionFuel F n (q.advanceToken F) with
            | ok e2 q1 => rw [hp, hq] at hA; exact hA.elim
            | error e2 q1 => rw [hp, hq] at hA; exact hA.elim
            | outOfFuel => trivial
        · trivial

end Parser
namespace Parser

variable {V : Type} (F : Float64 V)

theorem parseExpression_agree {p q : Parser V} (h : SameInput F p q) :
    (parseExpression F p).Agree F (parseExpression F q) := by
  have hp : parseExpressionFuel F (max (3 * p.potential + 5) (3 * q.potential + 5)) p =
      parseExpression F p := parseExpressionFuel_eq F (Nat.le_max_left _ _)
  have hq : parseExpressionFuel F (max (3 * p.potential + 5) (3 * q.potential + 5)) q =
      parseExpression F q := parseExpressionFuel_eq F (Nat.le_max_right _ _)
  rw [← hp, ← hq]
  exact (agree F _).1 p q h

theorem parseStatement_agree {p q : Parser V} (h : SameInput F p q) :
    (parseStatement F p).Agree F (parseStatement F q) := by
  unfold parseStatement
  rw [← h.matchType F]
  split
  · unfold parsePrintStatement
    have h1 := consume_agree F h TOKEN_PRINT "Expected 'PRINT' keyword." (by decide)
    cases hp1 : consume F p TOKEN_PRINT "Expected 'PRINT' keyword." with
    | ok u p1 =>
      cases hq1 : consume F q TOKEN_PRINT "Expected 'PRINT' keyword." with
      | ok u' q1 =>
        rw [hp1, hq1] at h1
        dsimp only
        have h2 := parseExpression_agree F h1.2
        cases hp2 : parseExpression F p1 with
        | ok e p2 =>
          cases hq2 : parseExpression F q1 with
          | ok e' q2 =>
            rw [hp2, hq2] at h2
            obtain ⟨rfl, hs2⟩ := h2
            dsimp only
            have h3 := consume_agree F hs2 TOKEN_SEMICOLON
              "Expected ';' after PRINT statement's expression." (by decide)
            cases hp3 : consume F p2 TOKEN_SEMICOLON
                "Expected ';' after PRINT statement's expression." <;>
              cases hq3 : consume F q2 TOKEN_SEMICOLON
                "Expected ';' after PRINT statement's expression." <;>
              rw [hp3, hq3] at h3 <;> try exact h3.elim
            · exact ⟨rfl, h3.2⟩
            · trivial
            · trivial
          | error e' q2 => rw [hp2, hq2] at h2; exact h2.elim
          | outOfFuel => rw [hp2, hq2] at h2; exact h2.elim
        | error e p2 =>
          cases hq2 : parseExpression F q1 with
          | ok e' q2 => rw [hp2, hq2] at h2; exact h2.elim
          | error e' q2 => trivial
          | outOfFuel => rw [hp2, hq2] at h2; exact h2.elim
        | outOfFuel =>
          cases hq2 : parseExpression F q1 with
          | ok e' q2 => rw [hp2, hq2] at h2; exact h2.elim
          | error e' q2 => rw [hp2, hq2] at h2; exact h2.elim
          | outOfFuel => trivial
      | error e' q1 => rw [hp1, hq1] at h1; exact h1.elim
      | outOfFuel => rw [hp1, hq1] at h1; exact h1.elim
    | error e p1 =>
      cases hq1 : consume F q TOKEN_PRINT "Expected 'PRINT' keyword." with
      | ok u' q1 => rw [hp1, hq1] at h1; exact h1.elim
      | error e' q1 => trivial
      | outOfFuel => rw [hp1, hq1] at h1; exact h1.elim
    | outOfFuel => exact absurd hp1 (consume_ne_outOfFuel F _ _ _)
  · trivial

theorem parseProgramLoop_agree (n : Nat) :
    ∀ (prog : ProgramNode V) (p q : Parser V), SameInput F p q →
      (parseProgramLoop F n prog p).Agree F (parseProgramLoop F n prog q) := by
  induction n with
  | zero => intro prog p q _; rw [parseProgramLoop, parseProgramLoop]; trivial
  | succ n ih =>
    intro prog p q h
    rw [parseProgramLoop_succ, parseProgramLoop_succ, ← (h.current F).1]
    split
    · split
      · trivial
      · have hA := parseStatement_agree F h
        cases hp : parseStatement F p <;> cases hq : parseStatement F q <;>
          rw [hp, hq] at hA <;> try exact hA.elim
        · obtain ⟨rfl, hs⟩ := hA
          exact ih _ _ _ hs
        · trivial
        · trivial
    · exact ⟨rfl, h⟩

theorem parseProgram_agree {p q : Parser V} (h : SameInput F p q) :
    (parseProgram F p).Agree F (parseProgram F q) := by
  have hp := (parseProgramLoop_fuel F (max (p.potential + 1) (q.potential + 1)))
    (p.potential + 1) { statements := [] } p (Nat.le_max_left _ _) (Nat.le_refl _)
  have hq := (parseProgramLoop_fuel F (max (p.potential + 1) (q.potential + 1)))
    (q.potential + 1) { statements := [] } q (Nat.le_max_right _ _) (Nat.le_refl _)
  unfold parseProgram parseProgramRest
  rw [← hp.1, ← hq.1]
  exact parseProgramLoop_agree F _ _ p q h

end Parser

theorem ParseResult.Agree.value_eq {V α : Type} {F : Float64 V} {r r' : ParseResult V α}
    (h : r.Agree F r') : r.value? = r'.value? := by
  cases r <;> cases r' <;> first | exact h.elim | rfl | skip
  exact congrArg some h.1

/-- Sources with the same kinds, lexemes and values of tokens parse to the same tree. -/
theorem parseSource_congr {V : Type} (F : Float64 V) (s s' : List Char)
    (h : (tokenize F s).map Token.content = (tokenize F s').map Token.content) :
    (parseSource F s).value? = (parseSource F s').value? := by
  refine (Parser.parseProgram_agree F ?_).value_eq
  unfold Parser.SameInput
  rw [Parser.pending_new, Parser.pending_new]
  exact h

/-- The output of the pipeline on a source without lexical errors is the output of
executing the parsed program, and empty when the source does not parse. -/
theorem run_output {V : Type} (F : Float64 V) (source : List Char)
    (hok : ∀ t ∈ tokenize F source, t.type ≠ TOKEN_ERROR) :
    (run F source).output =
      (match (parseSource F source).value? with
       | some prog => (prog.execute F).output
       | none => []) := by
  cases source with
  | nil =>
    obtain ⟨p', hp⟩ := parseSource_nil F
    rw [hp]
    rfl
  | cons c r =>
    rw [run_of_no_error F (c :: r) (List.cons_ne_nil _ _) hok]
    cases hp : parseSource F (c :: r) with
    | ok prog p' =>
      dsimp only [ParseResult.value?]
      cases he : prog.execute F with
      | mk out thrown =>
        cases thrown <;> rfl
    | error e p' => rfl
    | outOfFuel => rfl

namespace Lexer

/-- An `EndOfFile` token of the stream has the empty lexeme and the value `0.0`. -/
theorem tokensFuel_EOF_content {V : Type} (F : Float64 V) (n : Nat) :
    ∀ l : Lexer, ∀ t ∈ tokensFuel F n l, t.type = TOKEN_EOF →
      t.content = (TOKEN_EOF, "", F.zero) := by
  induction n with
  | zero => intro l t ht; simp [tokensFuel] at ht
  | succ n ih =>
    intro l t ht he
    rw [tokensFuel_succ] at ht
    have hthis : ∀ t', t' = (getNextToken F l).1 → t'.type = TOKEN_EOF →
        t'.content = (TOKEN_EOF, "", F.zero) := by
      intro t' ht' he'
      rw [ht'] at he' ⊢
      rw [(getNextToken_EOF F l he').2]
      rfl
    split at ht
    · rw [List.mem_singleton] at ht
      exact hthis t ht he
    · rcases List.mem_cons.mp ht with ht | ht
      · exact hthis t ht he
      · exact ih _ t ht he

end Lexer

theorem forall₂_of_map_eq {V : Type} (F : Float64 V) :
    ∀ (front : List (Token V)) (items : List (List Char × List Char)),
      items.map Prod.fst = front.map (fun t => t.lexeme.data) →
      (∀ t ∈ front, LexemeOf F t.type t.lexeme.data t.value) →
      List.Forall₂
        (fun (t : Token V) (it : List Char × List Char) =>
          LexemeOf F t.type it.1 t.value ∧ t.lexeme = String.mk it.1) front items := by
  intro front
  induction front with
  | nil =>
    intro items h _
    cases items with
    | nil => exact List.Forall₂.nil
    | cons it items' => simp at h
  | cons t front' ih =>
    intro items h hall
    cases items with
    | nil => simp at h
    | cons it items' =>
      simp only [List.map_cons, List.cons.injEq] at h
      refine List.Forall₂.cons ⟨?_, ?_⟩ (ih items' h.2 (fun t' ht' => hall t' (by simp [ht'])))
      · rw [h.1]
        exact hall t (by simp)
      · rw [h.1]

/-- The tokens of a source without lexical errors, respaced. -/
theorem tokenize_respace {V : Type} (F : Float64 V) (source : List Char)
    (hok : ∀ t ∈ tokenize F source, t.type ≠ TOKEN_ERROR) (w0 : List Char)
    (items : List (List Char × List Char)) (hw0 : ∀ c ∈ w0, isspace c = true)
    (hitems : items.map Prod.fst = (tokenize F source).dropLast.map (fun t => t.lexeme.data))
    (hsp : Spaced items) :
    (tokenize F (respace w0 items)).map Token.content =
      (tokenize F source).map Token.content := by
  obtain ⟨front, eof, hshape, heof, hfront, _⟩ := Lexer.tokens_shape F (Lexer.new source)
  have hshape' : tokenize F source = front ++ [eof] := hshape
  rw [hshape', List.dropLast_concat] at hitems
  have hlex : ∀ t ∈ front, LexemeOf F t.type t.lexeme.data t.value := by
    intro t ht
    have hmem : t ∈ tokenize F source := by rw [hshape']; simp [ht]
    exact Lexer.tokensFuel_lexemes F _ _ t hmem (hok t hmem) (hfront t ht)
  have hE : eof.content = (TOKEN_EOF, "", F.zero) :=
    Lexer.tokensFuel_EOF_content F _ (Lexer.new source) eof
      (by rw [show Lexer.tokensFuel F _ (Lexer.new source) = tokenize F source from rfl, hshape']
          simp) heof
  have := Lexer.tokens_respace F front items (forall₂_of_map_eq F front items hitems hlex)
    (Lexer.new (respace w0 items)) w0 hw0 hsp (Lexer.rest_new _)
  rw [hshape', List.map_append, List.map_singleton, hE]
  exact this

/-! ## Parsing a fully parenthesised expression -/

namespace Parser

variable {V : Type} (F : Float64 V)

theorem content_pending_head (p : Parser V) (c : TokenType × String × V)
    (rest : List (TokenType × String × V))
    (h : (p.pending F).map Token.content = c :: rest) : p.currentToken.content = c := by
  have h1 := congrArg List.head? h
  rw [List.head?_map, pending_head?] at h1
  simpa using h1

theorem content_pending_tail (p : Parser V) (c : TokenType × String × V)
    (rest : List (TokenType × String × V))
    (h : (p.pending F).map Token.content = c :: rest) (hc : c.1 ≠ TOKEN_EOF) :
    ((p.advanceToken F).pending F).map Token.content = rest := by
  have h0 := content_pending_head F p c rest h
  have hne : p.currentToken.type ≠ TOKEN_EOF := by
    have : p.currentToken.type = c.1 := congrArg Prod.fst h0
    rw [this]
    exact hc
  rw [pending_of_ne_EOF F p hne, List.map_cons] at h
  exact (List.cons.inj h).2

theorem isBinaryOperator_cases {o : TokenType} (h : IsBinaryOperator o) :
    (isAdditive o = true ∧ isMultiplicative o = false) ∨
      (isMultiplicative o = true ∧ isAdditive o = false) := by
  rcases h with h | h
  · exact Or.inl ⟨h, (isAdditive_not_multiplicative h).1⟩
  · exact Or.inr ⟨h, (isMultiplicative_not_additive h).1⟩

/-- The method `parseFactor` returns the tree whose fully parenthesised token sequence
stands in front of the parser. -/
theorem parseFactor_renders {e : ExprNode V} {cs : List (TokenType × String × V)}
    (hr : Renders e cs) :
    ∀ (p : Parser V) (rest : List (TokenType × String × V)),
      (p.pending F).map Token.content = cs ++ rest →
      ∃ p', parseFactor F p = .ok e p' ∧ (p'.pending F).map Token.content = rest := by
  induction hr with
  | number x v =>
    intro p rest h
    have hc := content_pending_head F p _ _ h
    have ht : p.currentToken.type = TOKEN_NUMBER := congrArg Prod.fst hc
    have hv : p.currentToken.value = v := congrArg (fun c => c.2.2) hc
    refine ⟨p.advanceToken F, ?_, content_pending_tail F p _ _ h (by intro hh; cases hh)⟩
    rw [parseFactor_number F p ht, hv]
  | binary o l r tl tr x1 x2 x3 v1 v2 v3 hop _ _ ihl ihr =>
    intro p rest h
    have h' : (p.pending F).map Token.content =
        (TOKEN_LPAREN, x1, v1) :: (tl ++ ((o, x2, v2) :: (tr ++ ((TOKEN_RPAREN, x3, v3) :: rest)))) := by
      rw [h]
      simp
    have hc := content_pending_head F p _ _ h'
    have ht : p.currentToken.type = TOKEN_LPAREN := congrArg Prod.fst hc
    have h1 := content_pending_tail F p _ _ h' (by intro hh; cases hh)
    obtain ⟨pa, hpa, hka⟩ := ihl (p.advanceToken F) _ h1
    have hfa : Fed F pa := parseFactor_fed F _ _ _ hpa
    have hca := content_pending_head F pa _ _ hka
    have hta : pa.currentToken.type = o := congrArg Prod.fst hca
    have hoe : o ≠ TOKEN_EOF := IsBinaryOperator.ne_EOF hop
    have h2 := content_pending_tail F pa _ _ hka hoe
    obtain ⟨pb, hpb, hkb⟩ := ihr (pa.advanceToken F) _ h2
    have hcb := content_pending_head F pb _ _ hkb
    have htb : pb.currentToken.type = TOKEN_RPAREN := congrArg Prod.fst hcb
    have hexpr : parseExpression F (p.advanceToken F) =
        .ok (.BinaryOpNode (opChar o) (some l) (some r)) pb := by
      rw [parseExpression_eq, parseTerm_eq, hpa]
      dsimp only
      rcases isBinaryOperator_cases hop with ⟨ha, hm⟩ | ⟨hm, ha⟩
      · rw [parseTermRest_stop F l pa (by rw [hta]; exact hm)]
        dsimp only
        have hterm : parseTerm F (pa.advanceToken F) = .ok r pb := by
          rw [parseTerm_eq, hpb]
          dsimp only
          rw [parseTermRest_stop F r pb (by rw [htb]; rfl)]
        rw [parseExpressionRest_step F l r pa pb (by rw [hta]; exact ha) hfa hterm, hta,
          parseExpressionRest_stop F _ pb (by rw [htb]; rfl)]
      · rw [parseTermRest_step F l r pa pb (by rw [hta]; exact hm) hfa hpb, hta,
          parseTermRest_stop F _ pb (by rw [htb]; rfl)]
        dsimp only
        rw [parseExpressionRest_stop F _ pb (by rw [htb]; rfl)]
    exact ⟨pb.advanceToken F, parseFactor_paren F p pb _ ht hexpr htb,
      content_pending_tail F pb _ _ hkb (by intro hh; cases hh)⟩

/-- The statement `PRINT`, a fully parenthesised expression, `;` at the end of the input
parses to the program of that one statement. -/
theorem parseProgram_renders {e : ExprNode V} {cs : List (TokenType × String × V)}
    (hr : Renders e cs) (p : Parser V) (x1 x2 x3 : String) (v1 v2 v3 : V)
    (h : (p.pending F).map Token.content =
      (TOKEN_PRINT, x1, v1) :: (cs ++ [(TOKEN_SEMICOLON, x2, v2), (TOKEN_EOF, x3, v3)])) :
    ∃ p', parseProgram F p = .ok { statements := [some (.PrintNode (some e))] } p' := by
  have hc := content_pending_head F p _ _ h
  have hP : p.currentToken.type = TOKEN_PRINT := congrArg Prod.fst hc
  have h1 := content_pending_tail F p _ _ h (by intro hh; cases hh)
  obtain ⟨p2, hp2, hk2⟩ := parseFactor_renders F hr (p.advanceToken F) _ h1
  have hc2 := content_pending_head F p2 _ _ hk2
  have hS : p2.currentToken.type = TOKEN_SEMICOLON := congrArg Prod.fst hc2
  have h3 := content_pending_tail F p2 _ _ hk2 (by intro hh; cases hh)
  have hc3 := content_pending_head F (p2.advanceToken F) _ _ h3
  have hE : (p2.advanceToken F).currentToken.type = TOKEN_EOF := congrArg Prod.fst hc3
  have hexpr : parseExpression F (p.advanceToken F) = .ok e p2 := by
    rw [parseExpression_eq, parseTerm_eq, hp2]
    dsimp only
    rw [parseTermRest_stop F _ _ (by rw [hS]; rfl)]
    dsimp only
    rw [parseExpressionRest_stop F _ _ (by rw [hS]; rfl)]
  have hstmt : parseStatement F p = .ok (.PrintNode (some e)) (p2.advanceToken F) := by
    unfold parseStatement parsePrintStatement
    rw [if_pos ((matchType_iff p _).mpr hP), (consume_ok_iff F p _ _ _ ()).mpr ⟨hP, rfl⟩]
    dsimp only
    rw [hexpr]
    dsimp only
    rw [(consume_ok_iff F _ _ _ _ ()).mpr ⟨hS, rfl⟩]
  refine ⟨p2.advanceToken F, ?_⟩
  unfold parseProgram
  rw [parseProgramRest_eq, if_pos (by rw [hP]; decide), if_neg (by rw [hP]; decide), hstmt]
  dsimp only
  rw [parseProgramRest_eq, if_neg (by simp [hE])]
  rfl

end Parser

/-- Every tree without a null child and with operators among `+ - * /` has a fully
parenthesised token sequence. -/
theorem ExprNode.WellFormed.renders {V : Type} (F : Float64 V) {e : ExprNode V}
    (h : e.WellFormed) : ∃ cs : List (TokenType × String × V), Renders e cs := by
  induction h with
  | number v => exact ⟨_, Renders.number "0" v⟩
  | binary op l r hop _ _ ihl ihr =>
    obtain ⟨tl, hl⟩ := ihl
    obtain ⟨tr, hr⟩ := ihr
    rcases hop with rfl | rfl | rfl | rfl
    · exact ⟨_, Renders.binary TOKEN_PLUS l r tl tr "(" "+" ")" F.zero F.zero F.zero
        (Or.inl rfl) hl hr⟩
    · exact ⟨_, Renders.binary TOKEN_MINUS l r tl tr "(" "-" ")" F.zero F.zero F.zero
        (Or.inl rfl) hl hr⟩
    · exact ⟨_, Renders.binary TOKEN_STAR l r tl tr "(" "*" ")" F.zero F.zero F.zero
        (Or.inr rfl) hl hr⟩
    · exact ⟨_, Renders.binary TOKEN_SLASH l r tl tr "(" "/" ")" F.zero F.zero F.zero
        (Or.inr rfl) hl hr⟩

/-- A tree with a fully parenthesised token sequence has no null child and only the four
operators. -/
theorem Renders.isWellFormed {V : Type} {e : ExprNode V} {cs : List (TokenType × String × V)}
    (h : Renders e cs) : e.WellFormed := by
  induction h with
  | number x v => exact .number v
  | binary o l r tl tr x1 x2 x3 v1 v2 v3 hop _ _ ihl ihr =>
    refine .binary _ l r ?_ ihl ihr
    rcases hop with h | h
    · have : o = TOKEN_PLUS ∨ o = TOKEN_MINUS := by
        cases o <;> simp [isAdditive] at h ⊢
      rcases this with rfl | rfl
      · exact Or.inl rfl
      · exact Or.inr (Or.inl rfl)
    · have : o = TOKEN_STAR ∨ o = TOKEN_SLASH := by
        cases o <;> simp [isMultiplicative] at h ⊢
      rcases this with rfl | rfl
      · exact Or.inr (Or.inr (Or.inl rfl))
      · exact Or.inr (Or.inr (Or.inr rfl))

/-! ## A source text for a tree -/

theorem forall₂_append {α β : Type} {R : α → β → Prop} {a1 a2 : List α} {b1 b2 : List β}
    (h1 : List.Forall₂ R a1 b1) (h2 : List.Forall₂ R a2 b2) :
    List.Forall₂ R (a1 ++ a2) (b1 ++ b2) := by
  induction h1 with
  | nil => exact h2
  | cons h _ ih => exact List.Forall₂.cons h ih

theorem spaced_of_single_spaces :
    ∀ items : List (List Char × List Char), (∀ it ∈ items, it.2 = [' ']) → Spaced items := by
  intro items
  induction items with
  | nil => intro _; trivial
  | cons it items ih =>
    intro h
    obtain ⟨x, w⟩ := it
    have hw : w = [' '] := h (x, w) (by simp)
    subst hw
    exact ⟨by decide, fun _ => by simp, ih (fun it' hit' => h it' (by simp [hit']))⟩

/-- The tokens and lexemes of the fully parenthesised text of a tree whose numbers are
values of literals. -/
theorem ExprNode.Writable.spelling {V : Type} {F : Float64 V} {e : ExprNode V}
    (h : e.Writable F) :
    ∃ (toks : List (Token V)) (items : List (List Char × List Char)),
      Renders e (toks.map Token.content) ∧
      List.Forall₂
        (fun (t : Token V) (it : List Char × List Char) =>
          LexemeOf F t.type it.1 t.value ∧ t.lexeme = String.mk it.1) toks items ∧
      (∀ it ∈ items, it.2 = [' ']) := by
  induction h with
  | number n v hn hv =>
    refine ⟨[Token.mk TOKEN_NUMBER (String.mk n) v 0 0], [(n, [' '])], Renders.number _ v,
      List.Forall₂.cons ⟨LexemeOf.number n v hn hv, rfl⟩ List.Forall₂.nil, by simp⟩
  | binary op l r hop _ _ ihl ihr =>
    obtain ⟨tl, il, rl, fl, sl⟩ := ihl
    obtain ⟨tr, ir, rr, fr, sr⟩ := ihr
    have hbuild : ∀ (o : TokenType) (c : Char), IsBinaryOperator o → opChar o = op →
        LexemeOf F o [c] F.zero →
        ∃ (toks : List (Token V)) (items : List (List Char × List Char)),
          Renders (.BinaryOpNode op (some l) (some r)) (toks.map Token.content) ∧
          List.Forall₂
            (fun (t : Token V) (it : List Char × List Char) =>
              LexemeOf F t.type it.1 t.value ∧ t.lexeme = String.mk it.1) toks items ∧
          (∀ it ∈ items, it.2 = [' ']) := by
      intro o c hio hoc hlex
      refine ⟨Token.mk TOKEN_LPAREN "(" F.zero 0 0 ::
          (tl ++ Token.mk o (String.mk [c]) F.zero 0 0 ::
            (tr ++ [Token.mk TOKEN_RPAREN ")" F.zero 0 0])),
        (['('], [' ']) :: (il ++ ([c], [' ']) :: (ir ++ [([')'], [' '])])), ?_, ?_, ?_⟩
      · rw [← hoc]
        simp only [List.map_cons, List.map_append, List.map_nil]
        exact Renders.binary o l r _ _ _ _ _ _ _ _ hio rl rr
      · refine List.Forall₂.cons ⟨LexemeOf.lparen, rfl⟩ (forall₂_append fl
          (List.Forall₂.cons ⟨hlex, rfl⟩ (forall₂_append fr
            (List.Forall₂.cons ⟨LexemeOf.rparen, rfl⟩ List.Forall₂.nil))))
      · intro it hit
        simp only [List.mem_cons, List.mem_append, List.mem_singleton] at hit
        rcases hit with rfl | hit | rfl | hit | rfl | hit
        · rfl
        · exact sl it hit
        · rfl
        · exact sr it hit
        · rfl
        · simp at hit
    rcases hop with rfl | rfl | rfl | rfl
    · exact hbuild TOKEN_PLUS '+' (Or.inl rfl) rfl LexemeOf.plus
    · exact hbuild TOKEN_MINUS '-' (Or.inl rfl) rfl LexemeOf.minus
    · exact hbuild TOKEN_STAR '*' (Or.inr rfl) rfl LexemeOf.star
    · exact hbuild TOKEN_SLASH '/' (Or.inr rfl) rfl LexemeOf.slash

/-- Every tree whose numbers are values of literals is the parse of a source text. -/
theorem ExprNode.Writable.source {V : Type} {F : Float64 V} {e : ExprNode V}
    (h : e.Writable F) :
    ∃ (source : List Char) (p' : Parser V),
      parseSource F source = .ok { statements := [some (.PrintNode (some e))] } p' := by
  obtain ⟨toks, items, hr, hf, hs⟩ := h.spelling
  have hf' : List.Forall₂
      (fun (t : Token V) (it : List Char × List Char) =>
        LexemeOf F t.type it.1 t.value ∧ t.lexeme = String.mk it.1)
      (Token.mk TOKEN_PRINT "PRINT" F.zero 0 0 ::
        (toks ++ [Token.mk TOKEN_SEMICOLON ";" F.zero 0 0]))
      (("PRINT".toList, [' ']) :: (items ++ [([';'], [' '])])) :=
    List.Forall₂.cons ⟨LexemeOf.print, rfl⟩
      (forall₂_append hf (List.Forall₂.cons ⟨LexemeOf.semicolon, rfl⟩ List.Forall₂.nil))
  have hsp : Spaced (("PRINT".toList, [' ']) :: (items ++ [([';'], [' '])])) := by
    refine spaced_of_single_spaces _ ?_
    intro it hit
    simp only [List.mem_cons, List.mem_append, List.mem_singleton] at hit
    rcases hit with rfl | hit | rfl | hit
    · rfl
    · exact hs it hit
    · rfl
    · simp at hit
  have ht := Lexer.tokens_respace F _ _ hf'
    (Lexer.new (respace [] (("PRINT".toList, [' ']) :: (items ++ [([';'], [' '])])))) []
    (by simp) hsp (Lexer.rest_new _)
  refine ⟨respace [] (("PRINT".toList, [' ']) :: (items ++ [([';'], [' '])])), ?_⟩
  refine Parser.parseProgram_renders F hr _ "PRINT" ";" "" F.zero F.zero F.zero ?_
  rw [Parser.pending_new]
  show (Lexer.tokens F _).map Token.content = _
  rw [ht]
  simp [Token.content]

/-! ## What the parser consumes and what the tree holds -/

namespace Parser

variable {V : Type} (F : Float64 V)

theorem Consumed.none (p : Parser V) : Consumed F p p [] 0 0 0 :=
  ⟨[], rfl, rfl, rfl, rfl, rfl⟩

theorem Consumed.then {F : Float64 V} {p p1 p2 : Parser V} {ns1 ns2 : List V}
    {a1 a2 b1 b2 c1 c2 : Nat}
    (h1 : Consumed F p p1 ns1 a1 b1 c1) (h2 : Consumed F p1 p2 ns2 a2 b2 c2) :
    Consumed F p p2 (ns1 ++ ns2) (a1 + a2) (b1 + b2) (c1 + c2) := by
  obtain ⟨x, ex, hn1, ha1, hb1, hc1⟩ := h1
  obtain ⟨y, ey, hn2, ha2, hb2, hc2⟩ := h2
  refine ⟨x ++ y, by rw [ex, ey, List.append_assoc], ?_, ?_, ?_, ?_⟩
  · rw [← hn1, ← hn2]; simp [numberValues]
  · rw [← ha1, ← ha2]; simp [countKind]
  · rw [← hb1, ← hb2]; simp [countKind]
  · rw [← hc1, ← hc2]; simp [countKind]

theorem Consumed.token (p : Parser V) (h : p.currentToken.type ≠ TOKEN_EOF) :
    Consumed F p (p.advanceToken F)
      (if p.currentToken.type = TOKEN_NUMBER then [p.currentToken.value] else [])
      (if isOperator p.currentToken.type = true then 1 else 0)
      (if p.currentToken.type = TOKEN_PRINT then 1 else 0)
      (if p.currentToken.type = TOKEN_SEMICOLON then 1 else 0) := by
  refine ⟨[p.currentToken], ?_, ?_, ?_, ?_, ?_⟩
  · rw [pending_of_ne_EOF F p h]; rfl
  · unfold numberValues
    by_cases hc : p.currentToken.type = TOKEN_NUMBER <;> simp [hc]
  · unfold countKind
    by_cases hc : isOperator p.currentToken.type = true <;> simp [hc]
  · unfold countKind
    by_cases hc : p.currentToken.type = TOKEN_PRINT <;> simp [hc]
  · unfold countKind
    by_cases hc : p.currentToken.type = TOKEN_SEMICOLON <;> simp [hc]

theorem Consumed.kind (p : Parser V) (k : TokenType) (hk : p.currentToken.type = k)
    (h : k ≠ TOKEN_EOF) :
    Consumed F p (p.advanceToken F)
      (if k = TOKEN_NUMBER then [p.currentToken.value] else [])
      (if isOperator k = true then 1 else 0)
      (if k = TOKEN_PRINT then 1 else 0) (if k = TOKEN_SEMICOLON then 1 else 0) := by
  subst hk
  exact Consumed.token F p h

theorem Consumed.operator (p : Parser V) (h : isOperator p.currentToken.type = true) :
    Consumed F p (p.advanceToken F) [] 1 0 0 := by
  have hk := Consumed.token F p (by intro hc; rw [hc] at h; exact absurd h (by decide))
  rw [if_pos h, if_neg (by intro hc; rw [hc] at h; exact absurd h (by decide)),
    if_neg (by intro hc; rw [hc] at h; exact absurd h (by decide)),
    if_neg (by intro hc; rw [hc] at h; exact absurd h (by decide))] at hk
  exact hk

theorem isOperator_of_additive {p : Parser V}
    (h : (p.matchType TOKEN_PLUS || p.matchType TOKEN_MINUS) = true) :
    isOperator p.currentToken.type = true := by
  rw [Bool.or_eq_true, matchType_iff, matchType_iff] at h
  rcases h with h | h <;> rw [h] <;> rfl

theorem isOperator_of_multiplicative {p : Parser V}
    (h : (p.matchType TOKEN_STAR || p.matchType TOKEN_SLASH) = true) :
    isOperator p.currentToken.type = true := by
  rw [Bool.or_eq_true, matchType_iff, matchType_iff] at h
  rcases h with h | h <;> rw [h] <;> rfl

/-- The tokens an expression parser consumes hold the `Number` values of the tree it
returns, in order, one operator token for each `BinaryOpNode`, and no `PRINT` or `;`. -/
theorem consumed (n : Nat) :
    (∀ p e p', parseExpressionFuel F n p = .ok e p' →
      Consumed F p p' e.numbers e.operations 0 0) ∧
    (∀ left p e p', parseExpressionLoop F n left p = .ok e p' →
      ∃ ns k, Consumed F p p' ns k 0 0 ∧ e.numbers = left.numbers ++ ns ∧
        e.operations = left.operations + k) ∧
    (∀ p e p', parseTermFuel F n p = .ok e p' →
      Consumed F p p' e.numbers e.operations 0 0) ∧
    (∀ left p e p', parseTermLoop F n left p = .ok e p' →
      ∃ ns k, Consumed F p p' ns k 0 0 ∧ e.numbers = left.numbers ++ ns ∧
        e.operations = left.operations + k) ∧
    (∀ p e p', parseFactorFuel F n p = .ok e p' →
      Consumed F p p' e.numbers e.operations 0 0) := by
  induction n with
  | zero =>
    refine ⟨?_, ?_, ?_, ?_, ?_⟩
    · intro p e p' h; rw [parseExpressionFuel] at h; cases h
    · intro l p e p' h; rw [parseExpressionLoop] at h; cases h
    · intro p e p' h; rw [parseTermFuel] at h; cases h
    · intro l p e p' h; rw [parseTermLoop] at h; cases h
    · intro p e p' h; rw [parseFactorFuel] at h; cases h
  | succ n ih =>
    obtain ⟨ihE, ihEL, ihT, ihTL, ihF⟩ := ih
    refine ⟨?_, ?_, ?_, ?_, ?_⟩
    · intro p e p' h
      rw [parseExpressionFuel_succ] at h
      cases hT : parseTermFuel F n p with
      | ok left p1 =>
        rw [hT] at h
        obtain ⟨ns, k, hc, hn, ho⟩ := ihEL _ _ _ _ h
        have h1 := (ihT _ _ _ hT).then hc
        rw [hn, ho]
        exact h1
      | error e1 p1 => rw [hT] at h; cases h
      | outOfFuel => rw [hT] at h; cases h
    · intro left p e p' h
      rw [parseExpressionLoop_succ] at h
      split at h
      · rename_i hop
        have hadv := Consumed.operator F p (isOperator_of_additive hop)
        cases hT : parseTermFuel F n (p.advanceToken F) with
        | ok right p2 =>
          rw [hT] at h
          obtain ⟨ns, k, hc, hn, ho⟩ := ihEL _ _ _ _ h
          have h1 := (hadv.then (ihT _ _ _ hT)).then hc
          refine ⟨_, _, h1, ?_, ?_⟩
          · rw [hn]; simp [ExprNode.numbers]
          · rw [ho]; simp only [ExprNode.operations]; omega
        | error e1 p1 => rw [hT] at h; cases h
        | outOfFuel => rw [hT] at h; cases h
      · simp only [ParseResult.ok.injEq] at h
        rw [← h.1, ← h.2]
        exact ⟨[], 0, Consumed.none F p, by simp, by simp⟩
    · intro p e p' h
      rw [parseTermFuel_succ] at h
      cases hT : parseFactorFuel F n p with
      | ok left p1 =>
        rw [hT] at h
        obtain ⟨ns, k, hc, hn, ho⟩ := ihTL _ _ _ _ h
        have h1 := (ihF _ _ _ hT).then hc
        rw [hn, ho]
        exact h1
      | error e1 p1 => rw [hT] at h; cases h
      | outOfFuel => rw [hT] at h; cases h
    · intro left p e p' h
      rw [parseTermLoop_succ] at h
      split at h
      · rename_i hop
        have hadv := Consumed.operator F p (isOperator_of_multiplicative hop)
        cases hT : parseFactorFuel F n (p.advanceToken F) with
        | ok right p2 =>
          rw [hT] at h
          obtain ⟨ns, k, hc, hn, ho⟩ := ihTL _ _ _ _ h
          have h1 := (hadv.then (ihF _ _ _ hT)).then hc
          refine ⟨_, _, h1, ?_, ?_⟩
          · rw [hn]; simp [ExprNode.numbers]
          · rw [ho]; simp only [ExprNode.operations]; omega
        | error e1 p1 => rw [hT] at h; cases h
        | outOfFuel => rw [hT] at h; cases h
      · simp only [ParseResult.ok.injEq] at h
        rw [← h.1, ← h.2]
        exact ⟨[], 0, Consumed.none F p, by simp, by simp⟩
    · intro p e p' h
      rw [parseFactorFuel_succ] at h
      split at h
      · rename_i hn
        rw [matchType_iff] at hn
        simp only [ParseResult.ok.injEq] at h
        rw [← h.1, ← h.2]
        have hk := Consumed.kind F p TOKEN_NUMBER hn (by decide)
        exact hk
      · split at h
        · rename_i hl
          rw [matchType_iff] at hl
          have hadv := Consumed.kind F p TOKEN_LPAREN hl (by decide)
          cases hE : parseExpressionFuel F n (p.advanceToken F) with
          | ok expr p1 =>
            rw [hE] at h
            dsimp only at h
            cases hC : consume F p1 TOKEN_RPAREN
                "Expected ')' after expression in parentheses." with
            | ok u p2 =>
              rw [hC] at h
              simp only [ParseResult.ok.injEq] at h
              rw [consume_ok_iff] at hC
              have hr := Consumed.kind F p1 TOKEN_RPAREN hC.1 (by decide)
              rw [← hC.2, h.2] at hr
              have h1 := (hadv.then (ihE _ _ _ hE)).then hr
              rw [h.1] at h1
              simpa [show isOperator TOKEN_LPAREN = false from rfl,
                show isOperator TOKEN_RPAREN = false from rfl] using h1
            | error e2 p2 => rw [hC] at h; cases h
            | outOfFuel => rw [hC] at h; cases h
          | error e1 p1 => rw [hE] at h; cases h
          | outOfFuel => rw [hE] at h; cases h
        · cases h

end Parser
namespace Parser

variable {V : Type} (F : Float64 V)

theorem parseExpression_consumed (p p' : Parser V) (e : ExprNode V)
    (h : parseExpression F p = .ok e p') : Consumed F p p' e.numbers e.operations 0 0 :=
  (consumed F _).1 p e p' h

theorem parseStatement_consumed (p p' : Parser V) (s : StatementNode V)
    (h : parseStatement F p = .ok s p') :
    ∃ e, s = .PrintNode (some e) ∧ Consumed F p p' e.numbers e.operations 1 1 := by
  unfold parseStatement at h
  split at h
  · unfold parsePrintStatement at h
    cases h1 : consume F p TOKEN_PRINT "Expected 'PRINT' keyword." with
    | ok u p1 =>
      rw [h1] at h
      dsimp only at h
      rw [consume_ok_iff] at h1
      have s1 := Consumed.kind F p TOKEN_PRINT h1.1 (by decide)
      rw [← h1.2] at s1
      cases h2 : parseExpression F p1 with
      | ok expr p2 =>
        rw [h2] at h
        dsimp only at h
        have s2 := parseExpression_consumed F p1 p2 expr h2
        cases h3 : consume F p2 TOKEN_SEMICOLON
            "Expected ';' after PRINT statement's expression." with
        | ok u p3 =>
          rw [h3] at h
          simp only [ParseResult.ok.injEq] at h
          rw [consume_ok_iff] at h3
          have s3 := Consumed.kind F p2 TOKEN_SEMICOLON h3.1 (by decide)
          rw [← h3.2, h.2] at s3
          refine ⟨expr, h.1.symm, ?_⟩
          have h4 := (s1.then s2).then s3
          simpa [show isOperator TOKEN_PRINT = false from rfl,
            show isOperator TOKEN_SEMICOLON = false from rfl] using h4
        | error e3 p3 => rw [h3] at h; cases h
        | outOfFuel => rw [h3] at h; cases h
      | error e2 p2 => rw [h2] at h; cases h
      | outOfFuel => rw [h2] at h; cases h
    | error e1 p1 => rw [h1] at h; cases h
    | outOfFuel => rw [h1] at h; cases h
  · cases h

theorem numbers_addStatement (prog : ProgramNode V) (e : ExprNode V) :
    (prog.addStatement (some (.PrintNode (some e)))).numbers = prog.numbers ++ e.numbers := by
  simp [ProgramNode.numbers, ProgramNode.addStatement]

theorem operations_addStatement (prog : ProgramNode V) (e : ExprNode V) :
    (prog.addStatement (some (.PrintNode (some e)))).operations =
      prog.operations + e.operations := by
  simp [ProgramNode.operations, ProgramNode.addStatement]

theorem parseProgramLoop_consumed (n : Nat) :
    ∀ (prog prog' : ProgramNode V) (p p' : Parser V),
      parseProgramLoop F n prog p = .ok prog' p' →
      ∃ ns a b, Consumed F p p' ns a b b ∧ prog'.numbers = prog.numbers ++ ns ∧
        prog'.operations = prog.operations + a ∧
        prog'.statements.length = prog.statements.length + b ∧
        p'.currentToken.type = TOKEN_EOF := by
  induction n with
  | zero => intro prog prog' p p' h; rw [parseProgramLoop] at h; cases h
  | succ n ih =>
    intro prog prog' p p' h
    rw [parseProgramLoop_succ] at h
    split at h
    · split at h
      · cases h
      · cases hS : parseStatement F p with
        | ok stmt p1 =>
          rw [hS] at h
          obtain ⟨e, rfl, s1⟩ := parseStatement_consumed F _ _ _ hS
          obtain ⟨ns, a, b, s2, hn, ho, hl, hE⟩ := ih _ _ _ _ h
          refine ⟨_, _, _, s1.then s2, ?_, ?_, ?_, hE⟩
          · rw [hn, numbers_addStatement, List.append_assoc]
          · rw [ho, operations_addStatement, Nat.add_assoc]
          · rw [hl]
            simp only [ProgramNode.addStatement, List.length_append, List.length_singleton]
            omega
        | error e p1 => rw [hS] at h; cases h
        | outOfFuel => rw [hS] at h; cases h
    · rename_i hE
      simp only [ParseResult.ok.injEq] at h
      rw [← h.1, ← h.2]
      exact ⟨[], 0, 0, Consumed.none F p, by simp, by simp, by simp,
        by by_contra hc; exact hE hc⟩

end Parser

/-- The tokens of a source that parses hold the `Number` values of the trees in order, one
operator token for each `BinaryOpNode`, and one `PRINT` and one `;` for each statement. -/
theorem parseSource_consumed {V : Type} (F : Float64 V) (source : List Char)
    (prog : ProgramNode V) (p' : Parser V) (h : parseSource F source = .ok prog p') :
    prog.numbers = numberValues (tokenize F source) ∧
      prog.operations = countKind isOperator (tokenize F source) ∧
      prog.statements.length =
        countKind (fun k => decide (k = TOKEN_PRINT)) (tokenize F source) ∧
      prog.statements.length =
        countKind (fun k => decide (k = TOKEN_SEMICOLON)) (tokenize F source) := by
  unfold parseSource Parser.parseProgram Parser.parseProgramRest at h
  obtain ⟨ns, a, b, ⟨c, hc, hn, ha, hb, hs⟩, h1, h2, h3, hE⟩ :=
    Parser.parseProgramLoop_consumed F _ _ _ _ _ h
  have ht : tokenize F source = c ++ [p'.currentToken] := by
    rw [← Parser.pending_of_EOF F p' hE, ← hc, Parser.pending_new]
    rfl
  rw [ht]
  refine ⟨?_, ?_, ?_, ?_⟩
  · rw [h1]
    simp [numberValues, ProgramNode.numbers, hE] at hn ⊢
    exact hn.symm
  · rw [h2]
    simp [countKind, ProgramNode.operations, hE, isOperator, isAdditive, isMultiplicative]
      at ha ⊢
    exact ha.symm
  · rw [h3]
    simp [countKind, hE] at hb ⊢
    exact hb.symm
  · rw [h3]
    simp [countKind, hE] at hs ⊢
    exact hs.symm
/-! ## The numbers of a parsed tree are values of numeric literals -/

theorem numberValues_literal {V : Type} (F : Float64 V) (source : List Char) :
    ∀ v ∈ numberValues (tokenize F source),
      ∃ n : List Char, IsNumericLiteral n ∧ F.stod (String.mk n) = .value v := by
  intro v hv
  unfold numberValues at hv
  obtain ⟨t, ht, he⟩ := List.mem_filterMap.mp hv
  by_cases hk : t.type = TOKEN_NUMBER
  · rw [if_pos hk] at he
    have hval : t.value = v := Option.some.inj he
    have hl := Lexer.tokensFuel_lexemes F _ _ t ht (by rw [hk]; decide) (by rw [hk]; decide)
    rw [hk, hval] at hl
    cases hl with
    | number n v hlit hstod => exact ⟨_, hlit, hstod⟩
  · rw [if_neg hk] at he
    cases he

theorem ExprNode.WellFormed.writable {V : Type} (F : Float64 V) {e : ExprNode V}
    (h : e.WellFormed)
    (hn : ∀ v ∈ e.numbers,
      ∃ n : List Char, IsNumericLiteral n ∧ F.stod (String.mk n) = .value v) :
    e.Writable F := by
  induction h with
  | number v =>
    obtain ⟨n, hlit, hstod⟩ := hn v (by simp [ExprNode.numbers])
    exact .number n v hlit hstod
  | binary op l r hop _ _ ihl ihr =>
    refine .binary op l r hop (ihl ?_) (ihr ?_)
    · intro v hv
      exact hn v (by simp [ExprNode.numbers, hv])
    · intro v hv
      exact hn v (by simp [ExprNode.numbers, hv])

theorem ExprNode.Writable.numbers_literal {V : Type} {F : Float64 V} {e : ExprNode V}
    (h : e.Writable F) :
    ∀ v ∈ e.numbers,
      ∃ n : List Char, IsNumericLiteral n ∧ F.stod (String.mk n) = .value v := by
  induction h with
  | number n v hlit hstod =>
    intro w hw
    simp only [ExprNode.numbers, List.mem_singleton] at hw
    rw [hw]
    exact ⟨n, hlit, hstod⟩
  | binary op l r _ _ _ ihl ihr =>
    intro w hw
    simp only [ExprNode.numbers, List.mem_append] at hw
    rcases hw with hw | hw
    · exact ihl w hw
    · exact ihr w hw

/-- The tree of a source with one statement is writable. -/
theorem parseSource_writable {V : Type} (F : Float64 V) (source : List Char) (e : ExprNode V)
    (p' : Parser V)
    (h : parseSource F source = .ok { statements := [some (.PrintNode (some e))] } p') :
    e.Writable F := by
  have hw := parseSource_wellFormed F source _ p' h
  obtain ⟨e', he', hwf⟩ := hw (some (.PrintNode (some e))) (by simp)
  have hee : e' = e := by
    simp only [Option.some.injEq, StatementNode.PrintNode.injEq] at he'
    exact he'.symm
  rw [hee] at hwf
  have hc := (parseSource_consumed F source _ p' h).1
  refine hwf.writable F ?_
  intro v hv
  apply numberValues_literal F source v
  rw [← hc]
  simpa [ProgramNode.numbers] using hv

theorem decimalValue_nonneg (s : String) : 0 ≤ decimalValue s := by
  unfold decimalValue
  positivity

theorem not_writable_negative : ¬ (ExprNode.NumberNode (-1 : ℚ)).Writable exact := by
  intro h
  obtain ⟨n, _, hstod⟩ := h.numbers_literal (-1) (by simp [ExprNode.numbers])
  have hv : decimalValue (String.mk n) = -1 := by
    have : StodResult.value (decimalValue (String.mk n)) = StodResult.value (-1 : ℚ) := hstod
    exact StodResult.value.inj this
  have := decimalValue_nonneg (String.mk n)
  rw [hv] at this
  norm_num at this

theorem ExprNode.Writable.toWellFormed {V : Type} {F : Float64 V} {e : ExprNode V}
    (h : e.Writable F) : e.WellFormed := by
  induction h with
  | number n v _ _ => exact .number v
  | binary op l r hop _ _ ihl ihr => exact .binary op l r hop ihl ihr
/-! ## The token sequences the lexer delivers -/

/-- Every number of a tree stands in its fully parenthesised token sequence as the value
of a `Number` token. -/
theorem Renders.number_mem {V : Type} {e : ExprNode V} {cs : List (TokenType × String × V)}
    (h : Renders e cs) : ∀ v ∈ e.numbers, ∃ x : String, (TOKEN_NUMBER, x, v) ∈ cs := by
  induction h with
  | number x v =>
    intro w hw
    simp only [ExprNode.numbers, List.mem_singleton] at hw
    rw [hw]
    exact ⟨x, by simp⟩
  | binary o l r tl tr x1 x2 x3 v1 v2 v3 _ _ _ ihl ihr =>
    intro w hw
    simp only [ExprNode.numbers, List.mem_append] at hw
    rcases hw with hw | hw
    · obtain ⟨x, hx⟩ := ihl w hw
      exact ⟨x, by simp [hx]⟩
    · obtain ⟨x, hx⟩ := ihr w hw
      exact ⟨x, by simp [hx]⟩

/-- A tree whose token sequence stands in front of the parser, after `PRINT`, has numbers
that are values of numeric literals: the tokens after the lookahead come from the lexer. -/
theorem Parser.writable_of_pending {V : Type} (F : Float64 V) {e : ExprNode V}
    {cs : List (TokenType × String × V)} (hr : Renders e cs) (p : Parser V)
    (x1 : String) (v1 : V) (rest : List (TokenType × String × V))
    (h : (p.pending F).map Token.content = (TOKEN_PRINT, x1, v1) :: (cs ++ rest)) :
    e.Writable F := by
  refine hr.isWellFormed.writable F ?_
  intro v hv
  obtain ⟨x, hx⟩ := hr.number_mem v hv
  have hc := Parser.content_pending_head F p _ _ h
  have hP : p.currentToken.type = TOKEN_PRINT := congrArg Prod.fst hc
  have h1 := Parser.content_pending_tail F p _ _ h (by intro hh; cases hh)
  rw [Parser.pending_advanceToken] at h1
  have hmem : (TOKEN_NUMBER, x, v) ∈ (p.lexer.tokens F).map Token.content := by
    rw [h1]
    exact List.mem_append_left _ hx
  obtain ⟨t, ht, hte⟩ := List.mem_map.mp hmem
  have hk : t.type = TOKEN_NUMBER := congrArg Prod.fst hte
  have hval : t.value = v := congrArg (fun c => c.2.2) hte
  have hl := Lexer.tokensFuel_lexemes F _ _ t ht (by rw [hk]; decide) (by rw [hk]; decide)
  rw [hk, hval] at hl
  cases hl with
  | number n v hlit hstod => exact ⟨_, hlit, hstod⟩

/-- A tree whose numbers are values of literals has a source text whose tokens are
`PRINT`, the fully parenthesised token sequence of the tree, `;` and `EndOfFile`, and
whose parse is the tree. -/
theorem ExprNode.Writable.tokens {V : Type} {F : Float64 V} {e : ExprNode V}
    (h : e.Writable F) :
    ∃ (source : List Char) (cs : List (TokenType × String × V)) (p' : Parser V),
      Renders e cs ∧
      (tokenize F source).map Token.content =
        (TOKEN_PRINT, "PRINT", F.zero) ::
          (cs ++ [(TOKEN_SEMICOLON, ";", F.zero), (TOKEN_EOF, "", F.zero)]) ∧
      parseSource F source = .ok { statements := [some (.PrintNode (some e))] } p' := by
  obtain ⟨toks, items, hr, hf, hs⟩ := h.spelling
  have hf' : List.Forall₂
      (fun (t : Token V) (it : List Char × List Char) =>
        LexemeOf F t.type it.1 t.value ∧ t.lexeme = String.mk it.1)
      (Token.mk TOKEN_PRINT "PRINT" F.zero 0 0 ::
        (toks ++ [Token.mk TOKEN_SEMICOLON ";" F.zero 0 0]))
      (("PRINT".toList, [' ']) :: (items ++ [([';'], [' '])])) :=
    List.Forall₂.cons ⟨LexemeOf.print, rfl⟩
      (forall₂_append hf (List.Forall₂.cons ⟨LexemeOf.semicolon, rfl⟩ List.Forall₂.nil))
  have hsp : Spaced (("PRINT".toList, [' ']) :: (items ++ [([';'], [' '])])) := by
    refine spaced_of_single_spaces _ ?_
    intro it hit
    simp only [List.mem_cons, List.mem_append, List.mem_singleton] at hit
    rcases hit with rfl | hit | rfl | hit
    · rfl
    · exact hs it hit
    · rfl
    · simp at hit
  have ht := Lexer.tokens_respace F _ _ hf'
    (Lexer.new (respace [] (("PRINT".toList, [' ']) :: (items ++ [([';'], [' '])])))) []
    (by simp) hsp (Lexer.rest_new _)
  have htok : (tokenize F
      (respace [] (("PRINT".toList, [' ']) :: (items ++ [([';'], [' '])])))).map
        Token.content =
      (TOKEN_PRINT, "PRINT", F.zero) ::
        (toks.map Token.content ++
          [(TOKEN_SEMICOLON, ";", F.zero), (TOKEN_EOF, "", F.zero)]) := by
    show (Lexer.tokens F _).map Token.content = _
    rw [ht]
    simp [Token.content]
  have hparse := Parser.parseProgram_renders F hr
    (Parser.new F (Lexer.new
      (respace [] (("PRINT".toList, [' ']) :: (items ++ [([';'], [' '])])))))
    "PRINT" ";" "" F.zero F.zero F.zero (by
      rw [Parser.pending_new]
      exact htok)
  obtain ⟨p', hp'⟩ := hparse
  exact ⟨_, _, p', hr, htok, hp'⟩
/-! ## Claims -/

/-- C1 (grammar acceptance). For every source text, `parseProgram` on a fresh parser
returns a `Program` exactly when the kinds of the tokens up to and including the first
`EndOfFile` are generated by the grammar `program := statement* EOF`, ...; otherwise it
throws a `ParseError`; and on success the parser's current token is `EndOfFile`. -/
theorem grammar_acceptance {V : Type} (F : Float64 V) (source : List Char) :
    ((∃ prog p', Parser.parseProgram F (Parser.new F (Lexer.new source)) = .ok prog p') ↔
        Generates .program (kinds (tokenize F source))) ∧
    (¬ Generates .program (kinds (tokenize F source)) →
        ∃ e p', Parser.parseProgram F (Parser.new F (Lexer.new source)) = .error e p') ∧
    (∀ prog p', Parser.parseProgram F (Parser.new F (Lexer.new source)) = .ok prog p' →
        p'.currentToken.type = TOKEN_EOF) := by
  have hp : kinds ((Parser.new F (Lexer.new source)).pending F) = kinds (tokenize F source) := by
    rw [Parser.pending_new]; rfl
  have hiff : (∃ prog p', Parser.parseProgram F (Parser.new F (Lexer.new source)) = .ok prog p') ↔
      Generates .program (kinds (tokenize F source)) := by
    constructor
    · rintro ⟨prog, p', h⟩
      rw [← hp]
      exact (Parser.parseProgramLoop_sound F _ _ _ _ _ h).1
    · intro g
      exact Parser.complete F g _ _ hp
  refine ⟨hiff, ?_, ?_⟩
  · intro hg
    cases h : Parser.parseProgram F (Parser.new F (Lexer.new source)) with
    | ok prog p' => exact absurd (hiff.mp ⟨prog, p', h⟩) hg
    | error e p' => exact ⟨e, p', rfl⟩
    | outOfFuel => exact absurd h (Parser.parseProgram_ne_outOfFuel F _)
  · intro prog p' h
    exact (Parser.parseProgramLoop_sound F _ _ _ _ _ h).2

/-- C2 (left-associativity). If the input reads `f0 o1 f1 ... on fn` with multiplicative
operators between factors, `parseTerm` returns the left-leaning chain
`BinaryOp(on, BinaryOp(... BinaryOp(o1, f0, f1) ...), fn)`; likewise `parseExpression` for
additive operators between terms. In particular `1-2-3` parses as `(1-2)-3` and running
`PRINT 10-2-3;` emits 5. -/
theorem left_associativity {V : Type} (F : Float64 V) :
    (∀ (p p1 p' : Parser V) (f0 : ExprNode V) (items : List (Char × ExprNode V)),
      Parser.parseFactor F p = .ok f0 p1 →
      OperandRun F (Parser.parseFactor F) isMultiplicative p1 items p' →
      Parser.parseTerm F p = .ok (leftChain f0 items) p') ∧
    (∀ (p p1 p' : Parser V) (t0 : ExprNode V) (items : List (Char × ExprNode V)),
      Parser.parseTerm F p = .ok t0 p1 →
      OperandRun F (Parser.parseTerm F) isAdditive p1 items p' →
      Parser.parseExpression F p = .ok (leftChain t0 items) p') ∧
    (Parser.parseExpression exact (Parser.new exact (Lexer.new "1-2-3".toList))).value? =
      some (.BinaryOpNode '-'
        (some (.BinaryOpNode '-' (some (.NumberNode 1)) (some (.NumberNode 2))))
        (some (.NumberNode 3))) ∧
    run exact "PRINT 10-2-3;".toList = .finished [5] := by
  refine ⟨?_, ?_, ?_, ?_⟩
  · intro p p1 p' f0 items h0 hrun
    rw [Parser.parseTerm_eq, h0]
    exact Parser.parseTermRest_chain F hrun (Parser.parseFactor_fed F _ _ _ h0) f0
  · intro p p1 p' t0 items h0 hrun
    rw [Parser.parseExpression_eq, h0]
    exact Parser.parseExpressionRest_chain F hrun (Parser.parseTerm_fed F _ _ _ h0) t0
  · decide!
  · decide!

/-- C3 (precedence). On a token stream `a p b m c` (numbers `a b c`, `p` additive, `m`
multiplicative, followed by a token that is no operator) `parseExpression` returns
`BinaryOp(p, a, BinaryOp(m, b, c))`; on `a m b p c` it returns
`BinaryOp(p, BinaryOp(m, a, b), c)`; on `(a p b) m c` it returns
`BinaryOp(m, BinaryOp(p, a, b), c)`. Running `PRINT 2+3*4;` emits 14 and running
`PRINT (2+3)*4;` emits 20. -/
theorem precedence {V : Type} (F : Float64 V) :
    (∀ (p : Parser V) (ta tp tb tm tc : Token V) (rest : List (Token V)),
      p.pending F = ta :: tp :: tb :: tm :: tc :: rest →
      ta.type = TOKEN_NUMBER → isAdditive tp.type = true → tb.type = TOKEN_NUMBER →
      isMultiplicative tm.type = true → tc.type = TOKEN_NUMBER →
      FollowsExpression (kinds rest) →
      ∃ p', Parser.parseExpression F p =
          .ok (.BinaryOpNode (opChar tp.type) (some (.NumberNode ta.value))
            (some (.BinaryOpNode (opChar tm.type) (some (.NumberNode tb.value))
              (some (.NumberNode tc.value))))) p' ∧
        p'.pending F = rest) ∧
    (∀ (p : Parser V) (ta tm tb tp tc : Token V) (rest : List (Token V)),
      p.pending F = ta :: tm :: tb :: tp :: tc :: rest →
      ta.type = TOKEN_NUMBER → isMultiplicative tm.type = true → tb.type = TOKEN_NUMBER →
      isAdditive tp.type = true → tc.type = TOKEN_NUMBER →
      FollowsExpression (kinds rest) →
      ∃ p', Parser.parseExpression F p =
          .ok (.BinaryOpNode (opChar tp.type)
            (some (.BinaryOpNode (opChar tm.type) (some (.NumberNode ta.value))
              (some (.NumberNode tb.value))))
            (some (.NumberNode tc.value))) p' ∧
        p'.pending F = rest) ∧
    (∀ (p : Parser V) (tl ta tp tb tr tm tc : Token V) (rest : List (Token V)),
      p.pending F = tl :: ta :: tp :: tb :: tr :: tm :: tc :: rest →
      tl.type = TOKEN_LPAREN → ta.type = TOKEN_NUMBER → isAdditive tp.type = true →
      tb.type = TOKEN_NUMBER → tr.type = TOKEN_RPAREN → isMultiplicative tm.type = true →
      tc.type = TOKEN_NUMBER → FollowsExpression (kinds rest) →
      ∃ p', Parser.parseExpression F p =
          .ok (.BinaryOpNode (opChar tm.type)
            (some (.BinaryOpNode (opChar tp.type) (some (.NumberNode ta.value))
              (some (.NumberNode tb.value))))
            (some (.NumberNode tc.value))) p' ∧
        p'.pending F = rest) ∧
    run exact "PRINT 2+3*4;".toList = .finished [14] ∧
    run exact "PRINT (2+3)*4;".toList = .finished [20] := by
  refine ⟨?_, ?_, ?_, ?_, ?_⟩
  · intro p ta tp tb tm tc rest h ha hp hb hm hc hfol
    exact Parser.parse_add_mul F p ta tp tb tm tc rest h ha hp hb hm hc hfol
  · intro p ta tm tb tp tc rest h ha hm hb hp hc hfol
    exact Parser.parse_mul_add F p ta tm tb tp tc rest h ha hm hb hp hc hfol
  · intro p tl ta tp tb tr tm tc rest h hl ha hp hb hr hm hc hfol
    exact Parser.parse_paren_mul F p tl ta tp tb tr tm tc rest h hl ha hp hb hr hm hc hfol
  · decide!
  · decide!

/-- C4 (division by zero). If `r` evaluates to a value that compares equal to zero, then
evaluating `BinaryOp('/', l, r)` throws a runtime error and returns no value (the error is
`Division by zero` when `l` evaluates), and `PrintNode::execute` on it emits nothing. The
source `PRINT 1/0;` parses to a program and running it ends in the runtime error
`Division by zero` with empty output. -/
theorem division_by_zero {V : Type} (F : Float64 V) :
    (∀ (l r : ExprNode V) (v : V), r.evaluate F = .ok v → F.eqZero v = true →
      (∃ msg, (ExprNode.BinaryOpNode '/' (some l) (some r)).evaluate F = .error msg) ∧
      (∀ x, l.evaluate F = .ok x →
        (ExprNode.BinaryOpNode '/' (some l) (some r)).evaluate F =
          .error "Runtime Error: Division by zero") ∧
      ((StatementNode.PrintNode (some (.BinaryOpNode '/' (some l) (some r)))).execute F).output
        = [] ∧
      ((StatementNode.PrintNode (some (.BinaryOpNode '/' (some l) (some r)))).execute F).thrown
        ≠ none) ∧
    (parseSource exact "PRINT 1/0;".toList).value? =
      some { statements := [some (.PrintNode (some
        (.BinaryOpNode '/' (some (.NumberNode 1)) (some (.NumberNode 0)))))] } ∧
    run exact "PRINT 1/0;".toList = .runtimeError "Runtime Error: Division by zero" [] := by
  refine ⟨?_, ?_, ?_⟩
  · intro l r v hr hz
    have key : ∀ x, l.evaluate F = .ok x →
        (ExprNode.BinaryOpNode '/' (some l) (some r)).evaluate F =
          .error "Runtime Error: Division by zero" := by
      intro x hl
      simp [ExprNode.evaluate, hl, hr, hz]
    have hex : ∃ msg, (ExprNode.BinaryOpNode '/' (some l) (some r)).evaluate F = .error msg := by
      cases hl : l.evaluate F with
      | error e => exact ⟨e, by simp [ExprNode.evaluate, hl]⟩
      | ok x => exact ⟨_, key x hl⟩
    obtain ⟨msg, hmsg⟩ := hex
    refine ⟨⟨msg, hmsg⟩, key, ?_, ?_⟩
    · simp [StatementNode.execute, hmsg]
    · simp [StatementNode.execute, hmsg]
  · decide!
  · decide!

/-- C5 (execution order). A program whose statements are `PRINT` statements with
expressions that all evaluate emits exactly the values of those expressions, one per
statement, in the order of the statement list; `parseProgram` appends the statements it
parses in the order in which they occur in the input. Running `PRINT 1+1; PRINT 2+2;`
emits 2 then 4. -/
theorem execution_order {V : Type} (F : Float64 V) :
    (∀ (prog : ProgramNode V) (vs : List V),
      List.Forall₂
        (fun s v => ∃ e : ExprNode V, s = some (.PrintNode (some e)) ∧ e.evaluate F = .ok v)
        prog.statements vs →
      prog.execute F = { output := vs, thrown := none } ∧
        vs.length = prog.statements.length) ∧
    (∀ (p p' : Parser V) (stmts : List (StatementNode V)), StatementRun F p stmts p' →
      Parser.parseProgram F p = .ok { statements := stmts.map some } p') ∧
    run exact "PRINT 1+1; PRINT 2+2;".toList = .finished [2, 4] := by
  refine ⟨?_, ?_, ?_⟩
  · intro prog vs h
    exact ⟨executeStatements_values F _ _ h, h.length_eq.symm⟩
  · intro p p' stmts hrun
    exact parseProgramRest_run F hrun { statements := [] }
  · decide!

/-- C6 (a runtime failure halts the program). If the statements before statement `k`
evaluate to `vs` and the expression of statement `k` fails with `msg`, then
`ProgramNode::execute` throws `msg` and the output is exactly `vs`, whatever statements
follow. Running `PRINT 1; PRINT 1/0; PRINT 2;` emits only 1 and then fails. -/
theorem runtime_failure_halts {V : Type} (F : Float64 V) :
    (∀ (pre post : List (Option (StatementNode V))) (e : ExprNode V) (vs : List V)
      (msg : String),
      List.Forall₂
        (fun s v => ∃ e' : ExprNode V, s = some (.PrintNode (some e')) ∧ e'.evaluate F = .ok v)
        pre vs →
      e.evaluate F = .error msg →
      ProgramNode.execute F { statements := pre ++ some (.PrintNode (some e)) :: post } =
        { output := vs, thrown := some msg }) ∧
    run exact "PRINT 1; PRINT 1/0; PRINT 2;".toList =
      .runtimeError "Runtime Error: Division by zero" [1] := by
  refine ⟨?_, ?_⟩
  · intro pre post e vs msg hpre he
    unfold ProgramNode.execute
    rw [executeStatements_append F _ _ _ (executeStatements_values F _ _ hpre)]
    simp [executeStatements, StatementNode.execute, he]
  · decide!

/-- C2 at the source `1-2-3`: after the term `1` the input reads `- 2 - 3`, and
`parseExpression` returns `(1-2)-3`. -/
theorem left_associativity_witness :
    Parser.parseExpression exact (Parser.new exact (Lexer.new "1-2-3".toList)) =
      .ok (leftChain (.NumberNode 1) [('-', .NumberNode 2), ('-', .NumberNode 3)])
        ((Parser.advanceToken exact)^[5] (Parser.new exact (Lexer.new "1-2-3".toList))) :=
  (left_associativity exact).2.1
    (Parser.new exact (Lexer.new "1-2-3".toList))
    ((Parser.advanceToken exact)^[1] (Parser.new exact (Lexer.new "1-2-3".toList)))
    _ (.NumberNode 1) [('-', .NumberNode 2), ('-', .NumberNode 3)]
    (by decide!)
    (OperandRun.cons _
      ((Parser.advanceToken exact)^[3] (Parser.new exact (Lexer.new "1-2-3".toList)))
      _ (.NumberNode 2) [('-', .NumberNode 3)]
      (by decide!) (by decide!)
      (OperandRun.cons _ _ _ (.NumberNode 3) [] (by decide!) (by decide!)
        (OperandRun.nil _ (by decide!))))

/-- C3 at the source `2+3*4;`. -/
theorem precedence_witness :
    ∃ p', Parser.parseExpression exact (Parser.new exact (Lexer.new "2+3*4;".toList)) =
        .ok (.BinaryOpNode '+' (some (.NumberNode 2))
          (some (.BinaryOpNode '*' (some (.NumberNode 3)) (some (.NumberNode 4))))) p' ∧
      p'.pending exact =
        [{ type := TOKEN_SEMICOLON, lexeme := ";", value := 0, line := 1, column := 6 },
         { type := TOKEN_EOF, lexeme := "", value := 0, line := 1, column := 7 }] :=
  (precedence exact).1 (Parser.new exact (Lexer.new "2+3*4;".toList))
    { type := TOKEN_NUMBER, lexeme := "2", value := 2, line := 1, column := 1 }
    { type := TOKEN_PLUS, lexeme := "+", value := 0, line := 1, column := 2 }
    { type := TOKEN_NUMBER, lexeme := "3", value := 3, line := 1, column := 3 }
    { type := TOKEN_STAR, lexeme := "*", value := 0, line := 1, column := 4 }
    { type := TOKEN_NUMBER, lexeme := "4", value := 4, line := 1, column := 5 }
    [{ type := TOKEN_SEMICOLON, lexeme := ";", value := 0, line := 1, column := 6 },
     { type := TOKEN_EOF, lexeme := "", value := 0, line := 1, column := 7 }]
    (by decide!) rfl rfl rfl rfl rfl
    ⟨TOKEN_SEMICOLON, [TOKEN_EOF], rfl, by decide, by decide, by decide, by decide⟩

/-- C4 at the expression `1/0`. -/
theorem division_by_zero_witness :
    (ExprNode.BinaryOpNode '/' (some (.NumberNode 1)) (some (.NumberNode 0))).evaluate exact =
      .error "Runtime Error: Division by zero" :=
  ((division_by_zero exact).1 (.NumberNode 1) (.NumberNode 0) 0 rfl (by decide!)).2.1 1 rfl

/-- C5 at the program of the statements `PRINT 2;` and `PRINT 4;`. -/
theorem execution_order_witness :
    ProgramNode.execute exact
        { statements := [some (.PrintNode (some (.NumberNode 2))),
                         some (.PrintNode (some (.NumberNode 4)))] } =
      { output := [2, 4], thrown := none } :=
  ((execution_order exact).1
    { statements := [some (.PrintNode (some (.NumberNode 2))),
                     some (.PrintNode (some (.NumberNode 4)))] }
    [2, 4]
    (.cons ⟨_, rfl, rfl⟩ (.cons ⟨_, rfl, rfl⟩ .nil))).1

/-- C6 at the program `PRINT 1; PRINT 1/0; PRINT 2;`. -/
theorem runtime_failure_halts_witness :
    ProgramNode.execute exact
        { statements := [some (.PrintNode (some (.NumberNode 1)))] ++
            some (.PrintNode (some
              (.BinaryOpNode '/' (some (.NumberNode 1)) (some (.NumberNode 0))))) ::
            [some (.PrintNode (some (.NumberNode 2)))] } =
      { output := [1], thrown := some "Runtime Error: Division by zero" } :=
  (runtime_failure_halts exact).1
    [some (.PrintNode (some (.NumberNode 1)))]
    [some (.PrintNode (some (.NumberNode 2)))]
    (.BinaryOpNode '/' (some (.NumberNode 1)) (some (.NumberNode 0))) [1]
    "Runtime Error: Division by zero"
    (.cons ⟨_, rfl, rfl⟩ .nil)
    (by simp [ExprNode.evaluate, exact])

/-- C7 (literal round trip). For every text `n` matching `[0-9]+(\.[0-9]+)?` that
`std::stod` converts to `v`, the source `PRINT n;` lexes to `PRINT`, `Number n` with value
`v`, `;`, `EndOfFile`; parses to `Program[PrintStatement(NumberLiteral v)]`; the literal
evaluates to `v`; and the run emits exactly `v`. -/
theorem literal_round_trip {V : Type} (F : Float64 V) (n : List Char) (v : V)
    (hn : IsNumericLiteral n) (hv : F.stod (String.mk n) = .value v) :
    (tokenize F ("PRINT ".toList ++ n ++ ";".toList)).map (fun t => (t.type, t.lexeme, t.value)) =
      [(TOKEN_PRINT, "PRINT", F.zero), (TOKEN_NUMBER, String.mk n, v),
       (TOKEN_SEMICOLON, ";", F.zero), (TOKEN_EOF, "", F.zero)] ∧
    (parseSource F ("PRINT ".toList ++ n ++ ";".toList)).value? =
      some { statements := [some (.PrintNode (some (.NumberNode v)))] } ∧
    (ExprNode.NumberNode v).evaluate F = .ok v ∧
    run F ("PRINT ".toList ++ n ++ ";".toList) = .finished [v] := by
  have htok := tokenize_print_literal F n v hn hv
  have hparse : (parseSource F ("PRINT ".toList ++ n ++ ";".toList)).value? =
      some { statements := [some (.PrintNode (some (.NumberNode v)))] } := by
    unfold parseSource
    exact parseProgram_print_number F _ _ _ _ _
      (by rw [Parser.pending_new]; exact htok) rfl rfl rfl rfl
  refine ⟨by rw [htok]; rfl, hparse, rfl, ?_⟩
  rw [run_of_no_error F _ (by simp) (by rw [htok]; simp)]
  cases hres : parseSource F ("PRINT ".toList ++ n ++ ";".toList) with
  | ok prog p' =>
    rw [hres] at hparse
    simp only [ParseResult.value?, Option.some.injEq] at hparse
    subst hparse
    rfl
  | error e p' => rw [hres] at hparse; simp [ParseResult.value?] at hparse
  | outOfFuel => rw [hres] at hparse; simp [ParseResult.value?] at hparse

/-- C7 at the literal `3.14` in the exact-decimal instance. -/
theorem literal_round_trip_witness :
    IsNumericLiteral "3.14".toList ∧
    exact.stod (String.mk "3.14".toList) = .value (157 / 50) ∧
    run exact ("PRINT ".toList ++ "3.14".toList ++ ";".toList) = .finished [157 / 50] :=
  have hlit : IsNumericLiteral "3.14".toList :=
    ⟨['3'], ['1', '4'], by decide, by decide, by decide, Or.inr ⟨by decide, rfl⟩⟩
  have hstod : exact.stod (String.mk "3.14".toList) = .value (157 / 50) := by decide!
  ⟨hlit, hstod, (literal_round_trip exact "3.14".toList (157 / 50) hlit hstod).2.2.2⟩

/-- C8 (token positions). For every source and every call of `getNextToken` the token's
line is that of its first character, and the column of every token other than an `Error`
token is that of its first character. The claim fails for `Error` tokens, whose column is
always that of the first character plus the (positive) number of characters consumed for
the token: the `Error` token for the unexpected character `@` at column 1 of the source
`@` carries column 2; the `Error` token for the identifier `abc` at column 1 carries
column 4; and when `std::stod` fails on the number `12` at column 1 the `Error` token
carries column 3. -/
theorem error_token_column :
    (∀ (V : Type) (F : Float64 V) (source : List Char) (k : Nat),
      (nthToken F source k).line = lineOf source (nthTokenStart F source k) ∧
      ((nthToken F source k).type ≠ TOKEN_ERROR →
        (nthToken F source k).column = columnOf source (nthTokenStart F source k)) ∧
      ((nthToken F source k).type = TOKEN_ERROR →
        nthTokenStart F source k < (Lexer.afterCalls F source (k + 1)).current_pos ∧
        (nthToken F source k).column = columnOf source (nthTokenStart F source k) +
          (((Lexer.afterCalls F source (k + 1)).current_pos - nthTokenStart F source k : Nat)
            : Int))) ∧
    nthToken exact "@".toList 0 =
      { type := TOKEN_ERROR, lexeme := "Unexpected character: @", value := 0, line := 1,
        column := 2 } ∧
    nthTokenStart exact "@".toList 0 = 0 ∧ columnOf "@".toList 0 = 1 ∧
    nthToken exact "abc".toList 0 =
      { type := TOKEN_ERROR, lexeme := "Unexpected identifier or keyword: abc", value := 0,
        line := 1, column := 4 } ∧
    nthTokenStart exact "abc".toList 0 = 0 ∧ columnOf "abc".toList 0 = 1 ∧
    nthToken { exact with stod := fun _ => .out_of_range } "12".toList 0 =
      { type := TOKEN_ERROR, lexeme := "Numeric literal out of range: 12", value := 0,
        line := 1, column := 3 } ∧
    nthTokenStart exact "12".toList 0 = 0 ∧ columnOf "12".toList 0 = 1 ∧
    nthToken exact "PRINT".toList 0 =
      { type := TOKEN_PRINT, lexeme := "PRINT", value := 0, line := 1, column := 1 } := by
  refine ⟨fun V F source k => nthToken_positioned F source k, ?_, ?_, ?_, ?_, ?_, ?_, ?_, ?_,
    ?_, ?_⟩ <;> decide!

/-- C9 (parse-failure position). When `parseProgram` fails, the `ParseError` was built by
`errorAt` from the parser's lookahead at that moment: its line and column are those of
the current token, not of the previously consumed one. -/
theorem parse_failure_position {V : Type} (F : Float64 V) (source : List Char)
    (e : ParseError) (p' : Parser V) (h : parseSource F source = .error e p') :
    e.error_line = p'.currentToken.line ∧ e.error_column = p'.currentToken.column ∧
      ∃ msg, e = Parser.errorAt p'.currentToken msg := by
  obtain ⟨msg, hmsg⟩ := Parser.parseProgramLoop_error_at_lookahead F _ _ _ _ _ h
  rw [hmsg]
  exact ⟨rfl, rfl, msg, rfl⟩

/-- C9 at the source `PRINT 1 2;`: the failure is reported at the `2` (column 9), the
lookahead, and not at the `1` (column 7), the token consumed before it. -/
theorem parse_failure_position_witness :
    ∃ (e : ParseError) (p' : Parser ℚ),
      parseSource exact "PRINT 1 2;".toList = .error e p' ∧
      e.error_line = p'.currentToken.line ∧ e.error_column = p'.currentToken.column ∧
      e.error_column = 9 ∧ p'.previousToken.column = 7 :=
  have h : parseSource exact "PRINT 1 2;".toList =
      .error
        { what := "Parse Error: Expected ';' after PRINT statement's expression. near '2' at line 1, column 9",
          error_line := 1, error_column := 9 }
        { lexer := { source_code := "PRINT 1 2;".toList, current_pos := 9, current_line := 1,
                     current_column_start_of_line := 0 },
          currentToken :=
            { type := TOKEN_NUMBER, lexeme := "2", value := 2, line := 1, column := 9 },
          previousToken :=
            { type := TOKEN_NUMBER, lexeme := "1", value := 1, line := 1, column := 7 } } := by
    decide!
  ⟨_, _, h, (parse_failure_position exact _ _ _ h).1,
    (parse_failure_position exact _ _ _ h).2.1, rfl, rfl⟩

theorem suffix_eq_of_length {α : Type} {l xs ys : List α} (h : l <:+ xs ++ ys)
    (hlen : l.length = ys.length) : l = ys := by
  obtain ⟨t, ht⟩ := h
  exact (List.append_inj' ht hlen).2

/-- The text of a `ParseError` built by `errorAt` starts with `Parse Error: ` and the
message passed in. -/
theorem errorAt_what {V : Type} (token : Token V) (message : String) :
    ∃ location : String,
      (Parser.errorAt token message).what = ("Parse Error: " ++ message) ++ location := by
  unfold Parser.errorAt ParseError.new
  dsimp only
  split
  · exact ⟨" at end of file." ++ (" at line " ++ (toString token.line ++
      (", column " ++ toString token.column))), by simp only [String.append_assoc]⟩
  · exact ⟨" near '" ++ (token.lexeme ++ ("'" ++ (" at line " ++ (toString token.line ++
      (", column " ++ toString token.column))))), by simp only [String.append_assoc]⟩

/-- The kinds `PRINT NUMBER +` can be continued to the program `PRINT NUMBER + NUMBER ;`. -/
theorem viablePrefix_print_number_plus :
    ViablePrefix [TOKEN_PRINT, TOKEN_NUMBER, TOKEN_PLUS] :=
  have t : Generates .term [TOKEN_NUMBER] :=
    @Generates.term [TOKEN_NUMBER] [] .factor_number .termTail_nil
  have e : Generates .expression [TOKEN_NUMBER, TOKEN_PLUS, TOKEN_NUMBER] :=
    @Generates.expression [TOKEN_NUMBER] [TOKEN_PLUS, TOKEN_NUMBER] t
      (@Generates.exprTail_cons TOKEN_PLUS [TOKEN_NUMBER] [] (Or.inl rfl) t .exprTail_nil)
  ⟨[TOKEN_NUMBER, TOKEN_SEMICOLON, TOKEN_EOF],
    @Generates.program_cons
      [TOKEN_PRINT, TOKEN_NUMBER, TOKEN_PLUS, TOKEN_NUMBER, TOKEN_SEMICOLON] [TOKEN_EOF]
      (@Generates.statement [TOKEN_NUMBER, TOKEN_PLUS, TOKEN_NUMBER] e) .program_eof⟩

/-- C10 (missing operand). If the tokens up to and including a binary operator can be
continued to a program of the grammar, and the token after the operator is neither a
`Number` nor `(`, then `parseProgram` throws the `ParseError` "Expected a number or a
parenthesized expression." built from that token: its line and column are those of the
token following the operator, which is the parser's lookahead when it fails. In
particular `PRINT 1+;` fails with this parse error at line 1, column 9, and the run ends
in a parse error. -/
theorem missing_operand {V : Type} (F : Float64 V) (p : Parser V) (pre : List (Token V))
    (opTok tTok : Token V) (rest : List (Token V))
    (hp : p.pending F = pre ++ opTok :: tTok :: rest)
    (hviable : ViablePrefix (kinds pre ++ [opTok.type]))
    (hop : IsBinaryOperator opTok.type)
    (h1 : tTok.type ≠ TOKEN_NUMBER) (h2 : tTok.type ≠ TOKEN_LPAREN) :
    (∃ p', Parser.parseProgram F p =
        .error (Parser.errorAt tTok "Expected a number or a parenthesized expression.") p' ∧
      p'.currentToken = tTok) ∧
    (Parser.errorAt tTok "Expected a number or a parenthesized expression.").error_line
      = tTok.line ∧
    (Parser.errorAt tTok "Expected a number or a parenthesized expression.").error_column
      = tTok.column ∧
    (∃ location : String,
      (Parser.errorAt tTok "Expected a number or a parenthesized expression.").what =
        "Parse Error: Expected a number or a parenthesized expression." ++ location) ∧
    (parseSource exact "PRINT 1+;".toList).error? =
      some { what := "Parse Error: Expected a number or a parenthesized expression. near ';' at line 1, column 9",
             error_line := 1, error_column := 9 } ∧
    run exact "PRINT 1+;".toList =
      .parseError { what := "Parse Error: Expected a number or a parenthesized expression. near ';' at line 1, column 9",
                    error_line := 1, error_column := 9 } := by
  refine ⟨?_, rfl, rfl, errorAt_what tTok _, by decide!, by decide!⟩
  obtain ⟨suffix, g⟩ := hviable
  rw [List.append_assoc, List.singleton_append] at g
  have hk : kinds (p.pending F) = kinds pre ++ opTok.type :: tTok.type :: kinds rest := by
    rw [hp]
    simp [kinds]
  obtain ⟨p', he, hk'⟩ := Parser.reject F g (kinds pre) suffix opTok.type tTok.type (kinds rest) p
    { statements := [] } rfl hop h1 h2 hk
  have hsuf : p'.pending F <:+ p.pending F :=
    Parser.parseProgramLoop_suffix F _ _ p p' (by
      show (Parser.parseProgram F p).parser? = some p'
      unfold Parser.parseProgram
      rw [he]
      rfl)
  have hlen : (p'.pending F).length = (tTok :: rest).length := by
    have := congrArg List.length hk'
    simpa [kinds] using this
  rw [hp, show pre ++ opTok :: tTok :: rest = (pre ++ [opTok]) ++ tTok :: rest by simp] at hsuf
  have hpend := suffix_eq_of_length hsuf hlen
  have hcur := Parser.pending_head F p' _ _ hpend
  refine ⟨p', ?_, hcur⟩
  unfold Parser.parseProgram
  rw [he, hcur]

/-- C10 at the source `PRINT 1+;`: the prefix `PRINT 1 +` can be continued (by `1 ;`) and
the `;` at column 9 starts no operand. -/
theorem missing_operand_witness :
    ∃ p', parseSource exact "PRINT 1+;".toList =
        .error (Parser.errorAt
          { type := TOKEN_SEMICOLON, lexeme := ";", value := (0 : ℚ), line := 1, column := 9 }
          "Expected a number or a parenthesized expression.") p' ∧
      p'.currentToken =
        { type := TOKEN_SEMICOLON, lexeme := ";", value := 0, line := 1, column := 9 } :=
  (missing_operand exact (Parser.new exact (Lexer.new "PRINT 1+;".toList))
    [{ type := TOKEN_PRINT, lexeme := "PRINT", value := 0, line := 1, column := 1 },
     { type := TOKEN_NUMBER, lexeme := "1", value := 1, line := 1, column := 7 }]
    { type := TOKEN_PLUS, lexeme := "+", value := 0, line := 1, column := 8 }
    { type := TOKEN_SEMICOLON, lexeme := ";", value := 0, line := 1, column := 9 }
    [{ type := TOKEN_EOF, lexeme := "", value := 0, line := 1, column := 10 }]
    (by decide!)
    viablePrefix_print_number_plus
    (Or.inl rfl) (by decide) (by decide)).1

/-- C11 (unterminated statement). If the tokens of a source are those of well-formed
statements, then `PRINT` and a well-formed expression, then `EndOfFile`, `parseProgram`
throws the `ParseError` "Expected ';' after PRINT statement's expression." built from the
`EndOfFile` token, the last token of the stream: its line and column are those of that
token and its text locates the failure with `at end of file.` and not with `near '...'`.
In particular `PRINT 5` fails with this error at line 1, column 8. -/
theorem unterminated_statement {V : Type} (F : Float64 V) :
    (∀ (source : List Char) (ss es : List TokenType),
      Generates .program (ss ++ [TOKEN_EOF]) → Generates .expression es →
      kinds (tokenize F source) = ss ++ TOKEN_PRINT :: (es ++ [TOKEN_EOF]) →
      ∃ (eof : Token V) (p' : Parser V),
        (tokenize F source).getLast? = some eof ∧ eof.type = TOKEN_EOF ∧
        p'.currentToken = eof ∧
        parseSource F source =
          .error (Parser.errorAt eof "Expected ';' after PRINT statement's expression.") p' ∧
        Parser.errorAt eof "Expected ';' after PRINT statement's expression." =
          { what := "Parse Error: Expected ';' after PRINT statement's expression." ++
              " at end of file." ++ " at line " ++ toString eof.line ++ ", column " ++
              toString eof.column,
            error_line := eof.line, error_column := eof.column }) ∧
    (parseSource exact "PRINT 5".toList).error? =
      some { what := "Parse Error: Expected ';' after PRINT statement's expression. at end of file. at line 1, column 8",
             error_line := 1, error_column := 8 } := by
  refine ⟨?_, by decide!⟩
  intro source ss es gss ges hk
  have hp : kinds ((Parser.new F (Lexer.new source)).pending F) =
      ss ++ TOKEN_PRINT :: (es ++ [TOKEN_EOF]) := by
    rw [Parser.pending_new]
    exact hk
  obtain ⟨p', hres, he, hlast⟩ :=
    Parser.parseProgramRest_unterminated F gss ges _ { statements := [] } hp
  rw [Parser.pending_new] at hlast
  exact ⟨p'.currentToken, p', hlast, he, rfl, hres, Parser.errorAt_EOF _ _ he⟩

/-- C11 at the source `PRINT 1; PRINT 5`: a well-formed statement, then an unterminated
one; the failure is reported at the `EndOfFile` token at line 1, column 17. -/
theorem unterminated_statement_witness :
    ∃ (eof : Token ℚ) (p' : Parser ℚ),
      (tokenize exact "PRINT 1; PRINT 5".toList).getLast? = some eof ∧
      eof.type = TOKEN_EOF ∧ p'.currentToken = eof ∧
      parseSource exact "PRINT 1; PRINT 5".toList =
        .error (Parser.errorAt eof "Expected ';' after PRINT statement's expression.") p' ∧
      Parser.errorAt eof "Expected ';' after PRINT statement's expression." =
        { what := "Parse Error: Expected ';' after PRINT statement's expression." ++
            " at end of file." ++ " at line " ++ toString eof.line ++ ", column " ++
            toString eof.column,
          error_line := eof.line, error_column := eof.column } :=
  have e : Generates .expression [TOKEN_NUMBER] :=
    @Generates.expression [TOKEN_NUMBER] []
      (@Generates.term [TOKEN_NUMBER] [] .factor_number .termTail_nil) .exprTail_nil
  (unterminated_statement exact).1 "PRINT 1; PRINT 5".toList
    [TOKEN_PRINT, TOKEN_NUMBER, TOKEN_SEMICOLON] [TOKEN_NUMBER]
    (@Generates.program_cons [TOKEN_PRINT, TOKEN_NUMBER, TOKEN_SEMICOLON] [TOKEN_EOF]
      (@Generates.statement [TOKEN_NUMBER] e) .program_eof)
    e (by decide!)

/-- C12 (lexical errors surface as parse failures). In whatever state `parseProgram`
returns or throws, the tokens it has consumed hold no `Error` token. So for a source whose
token stream holds an `Error` token, `parseProgram` throws a `ParseError` and returns no
`Program`. When the token at which it stops is an `Error` token, the `ParseError` carries
that token's line and column, and its text quotes the token's lexeme, the diagnostic of
the lexer. This is so for `@` at the start of a statement (`PRINT 1; @`) and inside an
expression (`PRINT 1 + @;`). -/
theorem lexical_errors_surface {V : Type} (F : Float64 V) :
    (∀ (source : List Char) (p' : Parser V), (parseSource F source).parser? = some p' →
      ∃ consumed : List (Token V), tokenize F source = consumed ++ p'.pending F ∧
        ∀ t ∈ consumed, t.type ≠ TOKEN_ERROR) ∧
    (∀ (source : List Char), (∃ t ∈ tokenize F source, t.type = TOKEN_ERROR) →
      (∃ e p', parseSource F source = .error e p') ∧ (parseSource F source).value? = none) ∧
    (∀ (source : List Char) (e : ParseError) (p' : Parser V),
      parseSource F source = .error e p' → p'.currentToken.type = TOKEN_ERROR →
      e.error_line = p'.currentToken.line ∧ e.error_column = p'.currentToken.column ∧
      ∃ msg : String, e.what = "Parse Error: " ++ msg ++ " near '" ++ p'.currentToken.lexeme ++
        "'" ++ " at line " ++ toString p'.currentToken.line ++ ", column " ++
        toString p'.currentToken.column) ∧
    (tokenize exact "PRINT 1; @".toList).map (fun t => (t.type, t.lexeme, t.line, t.column)) =
      [(TOKEN_PRINT, "PRINT", 1, 1), (TOKEN_NUMBER, "1", 1, 7), (TOKEN_SEMICOLON, ";", 1, 8),
       (TOKEN_ERROR, "Unexpected character: @", 1, 11), (TOKEN_EOF, "", 1, 11)] ∧
    (parseSource exact "PRINT 1; @".toList).error? =
      some { what := "Parse Error: Lexical error: Unexpected character: @ near 'Unexpected character: @' at line 1, column 11",
             error_line := 1, error_column := 11 } ∧
    (tokenize exact "PRINT 1 + @;".toList).map (fun t => (t.type, t.lexeme, t.line, t.column)) =
      [(TOKEN_PRINT, "PRINT", 1, 1), (TOKEN_NUMBER, "1", 1, 7), (TOKEN_PLUS, "+", 1, 9),
       (TOKEN_ERROR, "Unexpected character: @", 1, 12), (TOKEN_SEMICOLON, ";", 1, 12),
       (TOKEN_EOF, "", 1, 13)] ∧
    (parseSource exact "PRINT 1 + @;".toList).error? =
      some { what := "Parse Error: Expected a number or a parenthesized expression. near 'Unexpected character: @' at line 1, column 12",
             error_line := 1, error_column := 12 } := by
  have hclean : ∀ (source : List Char) (p' : Parser V),
      (parseSource F source).parser? = some p' →
      ∃ consumed : List (Token V), tokenize F source = consumed ++ p'.pending F ∧
        ∀ t ∈ consumed, t.type ≠ TOKEN_ERROR := by
    intro source p' h
    have := Parser.parseProgramLoop_withoutError F _ _ _ p' h
    rw [Parser.ReachedWithoutError, Parser.pending_new] at this
    exact this
  refine ⟨hclean, ?_, ?_, by decide!, by decide!, by decide!, by decide!⟩
  · rintro source ⟨t, ht, hte⟩
    cases h : parseSource F source with
    | ok prog p' =>
      exfalso
      have heof : p'.currentToken.type = TOKEN_EOF :=
        (Parser.parseProgramLoop_sound F _ _ _ _ _ h).2
      obtain ⟨consumed, hc, hn⟩ := hclean source p' (by rw [h]; rfl)
      rw [hc, Parser.pending_of_EOF F p' heof, List.mem_append, List.mem_singleton] at ht
      rcases ht with ht | ht
      · exact hn t ht hte
      · rw [ht, heof] at hte
        cases hte
    | error e p' => exact ⟨⟨e, p', rfl⟩, rfl⟩
    | outOfFuel => exact absurd h (Parser.parseProgram_ne_outOfFuel F _)
  · intro source e p' h hte
    obtain ⟨msg, hmsg⟩ := Parser.parseProgramLoop_error_at_lookahead F _ _ _ _ _ h
    rw [hmsg, Parser.errorAt_near _ _ (by rw [hte]; decide)]
    exact ⟨rfl, rfl, msg, rfl⟩

/-- C12 at the source `PRINT 1 + @;`: the token stream holds an `Error` token, so
`parseProgram` fails and returns no `Program`. -/
theorem lexical_errors_surface_witness :
    (∃ (e : ParseError) (p' : Parser ℚ), parseSource exact "PRINT 1 + @;".toList = .error e p') ∧
    (parseSource exact "PRINT 1 + @;".toList).value? = none :=
  (lexical_errors_surface exact).2.1 "PRINT 1 + @;".toList
    ⟨{ type := TOKEN_ERROR, lexeme := "Unexpected character: @", value := 0, line := 1,
       column := 12 }, by decide!, rfl⟩

/-- C13 (parse failure is atomic). When `parseProgram` throws, it returns no `Program`,
and the pipeline ends without executing a statement: the run ends in the lexical error
found by the token listing or in that parse error, and its output is empty. Running
`PRINT 1; PRINT 2+;` ends in a parse error and emits nothing, whereas
`PRINT 1; PRINT 2/0;`, which fails at run time in its second statement, emits 1. -/
theorem parse_failure_atomic {V : Type} (F : Float64 V) :
    (∀ (source : List Char) (e : ParseError) (p' : Parser V),
      parseSource F source = .error e p' →
      (parseSource F source).value? = none ∧
      ((∃ t, run F source = .lexicalError t) ∨ run F source = .parseError e) ∧
      (run F source).output = []) ∧
    (parseSource exact "PRINT 1; PRINT 2+;".toList).value? = none ∧
    run exact "PRINT 1; PRINT 2+;".toList =
      .parseError { what := "Parse Error: Expected a number or a parenthesized expression. near ';' at line 1, column 18",
                    error_line := 1, error_column := 18 } ∧
    (run exact "PRINT 1; PRINT 2+;".toList).output = [] ∧
    run exact "PRINT 1; PRINT 2/0;".toList =
      .runtimeError "Runtime Error: Division by zero" [1] ∧
    (run exact "PRINT 1; PRINT 2/0;".toList).output = [1] := by
  refine ⟨?_, by decide!, by decide!, by decide!, by decide!, by decide!⟩
  intro source e p' h
  have hrun := run_of_parse_error F source e p' h
  refine ⟨by rw [h]; rfl, hrun, ?_⟩
  rcases hrun with ⟨t, ht⟩ | ht <;> rw [ht] <;> rfl

/-- C13 at the source `PRINT 1; PRINT 2+;`: the first statement is well-formed, the parse
fails in the second, and nothing is emitted. -/
theorem parse_failure_atomic_witness :
    (parseSource exact "PRINT 1; PRINT 2+;".toList).value? = none ∧
    ((∃ t, run exact "PRINT 1; PRINT 2+;".toList = .lexicalError t) ∨
      run exact "PRINT 1; PRINT 2+;".toList =
        .parseError { what := "Parse Error: Expected a number or a parenthesized expression. near ';' at line 1, column 18",
                      error_line := 1, error_column := 18 }) ∧
    (run exact "PRINT 1; PRINT 2+;".toList).output = [] :=
  have h : parseSource exact "PRINT 1; PRINT 2+;".toList =
      .error
        { what := "Parse Error: Expected a number or a parenthesized expression. near ';' at line 1, column 18",
          error_line := 1, error_column := 18 }
        { lexer := { source_code := "PRINT 1; PRINT 2+;".toList, current_pos := 18,
                     current_line := 1, current_column_start_of_line := 0 },
          currentToken :=
            { type := TOKEN_SEMICOLON, lexeme := ";", value := 0, line := 1, column := 18 },
          previousToken :=
            { type := TOKEN_PLUS, lexeme := "+", value := 0, line := 1, column := 17 } } := by
    decide!
  (parse_failure_atomic exact).1 _ _ _ h

/-- C14 (comment lines produce no tokens). For every text `c` without a newline and every
source `b`, the tokens of `//` + `c` + newline + `b` are the tokens of `b` with the same
kinds, lexemes, values and columns, each on the line after its line in `b`; the only token
of `//` + `c` is `EndOfFile`. Running `// PRINT 99;`, newline, `PRINT 1;` emits only 1. -/
theorem comment_lines_produce_no_tokens {V : Type} (F : Float64 V) :
    (∀ (c b : List Char), (∀ x ∈ c, x ≠ '\n') →
      (tokenize F ("//".toList ++ c ++ "\n".toList ++ b)).map
          (fun t => (t.type, t.lexeme, t.value, t.column, t.line)) =
        (tokenize F b).map (fun t => (t.type, t.lexeme, t.value, t.column, t.line + 1))) ∧
    (∀ (c : List Char), (∀ x ∈ c, x ≠ '\n') →
      tokenize F ("//".toList ++ c) =
        [{ type := TOKEN_EOF, lexeme := "", value := F.zero, line := 1,
           column := (c.length : Int) + 3 }]) ∧
    run exact "// PRINT 99;\nPRINT 1;".toList = .finished [1] := by
  refine ⟨?_, ?_, by decide!⟩
  · intro c b hc
    have h : tokenize F ("//".toList ++ c ++ "\n".toList ++ b) =
        (tokenize F b).map (Token.shiftLine 1) := by
      have hs : "//".toList ++ c ++ "\n".toList ++ b = '/' :: '/' :: (c ++ '\n' :: b) := by
        show ['/', '/'] ++ c ++ ['\n'] ++ b = _
        simp
      rw [hs]
      exact Lexer.tokens_comment_line F c b hc
    rw [h, List.map_map]
    rfl
  · intro c hc
    exact Lexer.tokens_comment_only F c hc

/-- C14 at the comment ` PRINT 99;` in front of the source `PRINT 1;`. -/
theorem comment_lines_produce_no_tokens_witness :
    (tokenize exact ("//".toList ++ " PRINT 99;".toList ++ "\n".toList ++ "PRINT 1;".toList)).map
        (fun t => (t.type, t.lexeme, t.value, t.column, t.line)) =
      (tokenize exact "PRINT 1;".toList).map
        (fun t => (t.type, t.lexeme, t.value, t.column, t.line + 1)) :=
  (comment_lines_produce_no_tokens exact).1 " PRINT 99;".toList "PRINT 1;".toList (by decide)

/-- C15 (keyword recognition). When the character after the skipped white space and
comments is a letter or `_`, `getNextToken` consumes the maximal run `word` of letters,
digits and `_` that starts there; the token is a `Print` token exactly when `word` is
`PRINT`, and for every other `word` it is an `Error` token whose lexeme names the word;
it is never an `Identifier` token. So `PRINT5;` is a lexical error, while `PRINT 5;` and
`PRINT(5);` start with a `Print` token; `print`, `PRINTx`, `PRINT5`, `_PRINT` and `x` all
give `Error` tokens. -/
theorem keyword_recognition {V : Type} (F : Float64 V) :
    (∀ (l0 : Lexer) (c : Char) (r : List Char),
      l0.skipWhitespaceAndComments.rest = c :: r → (isalpha c = true ∨ c = '_') →
      ∃ word after : List Char,
        c :: r = word ++ after ∧ word ≠ [] ∧
        (∀ x ∈ word, isalnum x = true ∨ x = '_') ∧
        (∀ x ∈ after.head?, ¬ (isalnum x = true ∨ x = '_')) ∧
        (l0.getNextToken F).2 =
          { l0.skipWhitespaceAndComments with
            current_pos := l0.skipWhitespaceAndComments.current_pos + word.length } ∧
        ((l0.getNextToken F).1.type = TOKEN_PRINT ↔ word = "PRINT".toList) ∧
        (word = "PRINT".toList → (l0.getNextToken F).1.lexeme = "PRINT") ∧
        (word ≠ "PRINT".toList → (l0.getNextToken F).1.type = TOKEN_ERROR ∧
          (l0.getNextToken F).1.lexeme =
            "Unexpected identifier or keyword: " ++ String.mk word) ∧
        (l0.getNextToken F).1.type ≠ TOKEN_IDENTIFIER) ∧
    (tokenize exact "PRINT5;".toList).map (fun t => (t.type, t.lexeme)) =
      [(TOKEN_ERROR, "Unexpected identifier or keyword: PRINT5"), (TOKEN_SEMICOLON, ";"),
       (TOKEN_EOF, "")] ∧
    run exact "PRINT5;".toList =
      .lexicalError { type := TOKEN_ERROR, lexeme := "Unexpected identifier or keyword: PRINT5",
                      value := 0, line := 1, column := 7 } ∧
    (tokenize exact "PRINT 5;".toList).map (fun t => (t.type, t.lexeme)) =
      [(TOKEN_PRINT, "PRINT"), (TOKEN_NUMBER, "5"), (TOKEN_SEMICOLON, ";"), (TOKEN_EOF, "")] ∧
    (tokenize exact "PRINT(5);".toList).map (fun t => (t.type, t.lexeme)) =
      [(TOKEN_PRINT, "PRINT"), (TOKEN_LPAREN, "("), (TOKEN_NUMBER, "5"), (TOKEN_RPAREN, ")"),
       (TOKEN_SEMICOLON, ";"), (TOKEN_EOF, "")] ∧
    (tokenize exact "print PRINTx PRINT5 _PRINT x".toList).map (fun t => (t.type, t.lexeme)) =
      [(TOKEN_ERROR, "Unexpected identifier or keyword: print"),
       (TOKEN_ERROR, "Unexpected identifier or keyword: PRINTx"),
       (TOKEN_ERROR, "Unexpected identifier or keyword: PRINT5"),
       (TOKEN_ERROR, "Unexpected identifier or keyword: _PRINT"),
       (TOKEN_ERROR, "Unexpected identifier or keyword: x"), (TOKEN_EOF, "")] := by
  refine ⟨?_, by decide!, by decide!, by decide!, by decide!, by decide!⟩
  intro l0 c r h hc
  obtain ⟨hsplit, hall, hstop⟩ :=
    Lexer.takeWhile_maximal (fun x => isalnum x || decide (x = '_')) (c :: r)
  have hic : (isalnum c || decide (c = '_')) = true := by
    rcases hc with hc | hc
    · simp [isalnum, hc]
    · simp [hc]
  have hne : (c :: r).takeWhile (fun x => isalnum x || decide (x = '_')) ≠ [] := by
    rw [List.takeWhile_cons, hic]
    simp
  refine ⟨(c :: r).takeWhile (fun x => isalnum x || decide (x = '_')),
    (c :: r).dropWhile (fun x => isalnum x || decide (x = '_')), hsplit, hne, ?_, ?_, ?_⟩
  · intro x hx
    simpa using hall x hx
  · intro x hx
    simpa using hstop x hx
  rw [Lexer.getNextToken_word F l0 h hc, Lexer.identifierOrKeyword_eq, h]
  dsimp only
  cases hk : Lexer.keywords
      (String.mk ((c :: r).takeWhile (fun x => isalnum x || decide (x = '_')))) with
  | none =>
    have hw := (Lexer.keywords_eq_none _).mp hk
    refine ⟨rfl, ?_, fun e => absurd e hw, fun _ => ⟨rfl, rfl⟩, by intro e; cases e⟩
    constructor
    · intro e
      cases e
    · intro e
      exact absurd e hw
  | some ty =>
    obtain ⟨hw, hty⟩ := (Lexer.keywords_eq_some _ ty).mp hk
    subst hty
    refine ⟨rfl, ⟨fun _ => hw, fun _ => rfl⟩, ?_, fun e => absurd hw e, by intro e; cases e⟩
    intro _
    show String.mk _ = "PRINT"
    rw [hw]
    rfl

/-- C15 on the source `PRINTx;`: the word is `PRINTx`, the token an `Error` token. -/
theorem keyword_recognition_witness :
    ∃ word after : List Char,
      'P' :: "RINTx;".toList = word ++ after ∧ word ≠ [] ∧
      (∀ x ∈ word, isalnum x = true ∨ x = '_') ∧
      (∀ x ∈ after.head?, ¬ (isalnum x = true ∨ x = '_')) ∧
      ((Lexer.new "PRINTx;".toList).getNextToken exact).2 =
        { (Lexer.new "PRINTx;".toList).skipWhitespaceAndComments with
          current_pos :=
            (Lexer.new "PRINTx;".toList).skipWhitespaceAndComments.current_pos + word.length } ∧
      (((Lexer.new "PRINTx;".toList).getNextToken exact).1.type = TOKEN_PRINT ↔
        word = "PRINT".toList) ∧
      (word = "PRINT".toList →
        ((Lexer.new "PRINTx;".toList).getNextToken exact).1.lexeme = "PRINT") ∧
      (word ≠ "PRINT".toList →
        ((Lexer.new "PRINTx;".toList).getNextToken exact).1.type = TOKEN_ERROR ∧
        ((Lexer.new "PRINTx;".toList).getNextToken exact).1.lexeme =
          "Unexpected identifier or keyword: " ++ String.mk word) ∧
      ((Lexer.new "PRINTx;".toList).getNextToken exact).1.type ≠ TOKEN_IDENTIFIER :=
  (keyword_recognition exact).1 (Lexer.new "PRINTx;".toList) 'P' "RINTx;".toList
    (by decide) (by decide)

/-- C16 (the token sequence is finite). A call of `getNextToken` that does not return
`EndOfFile`, an `Error` token included, moves the scan position strictly forward; no call
moves it backwards or changes the source. So on a source of length `n` the first
`EndOfFile` token is returned by one of the first `n + 1` calls, after at most `n` other
tokens. The bound is attained by the source `@@`: two `Error` tokens, then `EndOfFile`. -/
theorem token_sequence_finite {V : Type} (F : Float64 V) (source : List Char) :
    (∀ l : Lexer, (l.getNextToken F).1.type ≠ TOKEN_EOF →
      l.current_pos < (l.getNextToken F).2.current_pos) ∧
    (∀ l : Lexer, l.current_pos ≤ (l.getNextToken F).2.current_pos ∧
      (l.getNextToken F).2.source_code = l.source_code) ∧
    (∀ k : Nat, (Lexer.afterCalls F source k).current_pos ≤
      (Lexer.afterCalls F source (k + 1)).current_pos) ∧
    (∃ k : Nat, k ≤ source.length ∧ (nthToken F source k).type = TOKEN_EOF ∧
      ∀ j < k, (nthToken F source j).type ≠ TOKEN_EOF) ∧
    (∃ (front : List (Token V)) (eof : Token V), tokenize F source = front ++ [eof] ∧
      eof.type = TOKEN_EOF ∧ (∀ t ∈ front, t.type ≠ TOKEN_EOF) ∧
      front.length ≤ source.length) ∧
    kinds (tokenize exact "@@".toList) = [TOKEN_ERROR, TOKEN_ERROR, TOKEN_EOF] := by
  refine ⟨Lexer.getNextToken_advances F,
    fun l => ⟨Lexer.getNextToken_monotone F l, (Lexer.getNextToken_reaches F l).1⟩, ?_,
    Lexer.first_EOF F source, Lexer.tokens_shape F (Lexer.new source), by decide!⟩
  intro k
  rw [Lexer.afterCalls_succ]
  exact Lexer.getNextToken_monotone F _

/-- C17 (`EndOfFile` is absorbing). If a call of `getNextToken` returns an `EndOfFile`
token, then after any number of further calls the lexer state (position, line counter,
column origin) is the one that call left, and the next call returns the same token once
more: an `EndOfFile` token with the same line and column. -/
theorem eof_absorbing {V : Type} (F : Float64 V) (l : Lexer)
    (h : (l.getNextToken F).1.type = TOKEN_EOF) (m : Nat) :
    (fun s => (Lexer.getNextToken F s).2)^[m] (l.getNextToken F).2 = (l.getNextToken F).2 ∧
    Lexer.getNextToken F ((fun s => (Lexer.getNextToken F s).2)^[m] (l.getNextToken F).2) =
      ((l.getNextToken F).1, (l.getNextToken F).2) ∧
    (Lexer.getNextToken F
      ((fun s => (Lexer.getNextToken F s).2)^[m] (l.getNextToken F).2)).1.type = TOKEN_EOF := by
  have h1 := Lexer.iterate_after_EOF F l h m
  have h2 := Lexer.getNextToken_after_EOF F l h
  refine ⟨h1, ?_, ?_⟩
  · rw [h1, h2]
  · rw [h1, h2]
    exact h

/-- C17 on the source `PRINT 1;` with a newline after it: the fourth call returns
`EndOfFile` at line 2, column 1, and so does the seventh, in the same state. -/
theorem eof_absorbing_witness :
    ((Lexer.afterCalls exact "PRINT 1;\n".toList 3).getNextToken exact).1 =
      { type := TOKEN_EOF, lexeme := "", value := 0, line := 2, column := 1 } ∧
    (fun s => (Lexer.getNextToken exact s).2)^[3]
        ((Lexer.afterCalls exact "PRINT 1;\n".toList 3).getNextToken exact).2 =
      ((Lexer.afterCalls exact "PRINT 1;\n".toList 3).getNextToken exact).2 ∧
    Lexer.getNextToken exact ((fun s => (Lexer.getNextToken exact s).2)^[3]
        ((Lexer.afterCalls exact "PRINT 1;\n".toList 3).getNextToken exact).2) =
      (((Lexer.afterCalls exact "PRINT 1;\n".toList 3).getNextToken exact).1,
        ((Lexer.afterCalls exact "PRINT 1;\n".toList 3).getNextToken exact).2) ∧
    (Lexer.getNextToken exact ((fun s => (Lexer.getNextToken exact s).2)^[3]
        ((Lexer.afterCalls exact "PRINT 1;\n".toList 3).getNextToken exact).2)).1.type =
      TOKEN_EOF :=
  ⟨by decide!,
    eof_absorbing exact (Lexer.afterCalls exact "PRINT 1;\n".toList 3) (by decide!) 3⟩

/-- C18 (evaluator semantics). A `NumberNode` evaluates to its value. When the operands
of a `BinaryOpNode` evaluate to `x` and `y`, the node evaluates to `x + y`, `x - y`,
`x * y` for `+`, `-`, `*`, and to `x / y` for `/` when `y == 0` is false. When the left
operand fails, the node fails with the left operand's error, whatever the right operand
does; when the left one evaluates and the right one fails, it fails with the right
operand's error. -/
theorem evaluator_semantics {V : Type} (F : Float64 V) :
    (∀ v : V, (ExprNode.NumberNode v).evaluate F = .ok v) ∧
    (∀ (l r : ExprNode V) (x y : V), l.evaluate F = .ok x → r.evaluate F = .ok y →
      (ExprNode.BinaryOpNode '+' (some l) (some r)).evaluate F = .ok (F.add x y) ∧
      (ExprNode.BinaryOpNode '-' (some l) (some r)).evaluate F = .ok (F.sub x y) ∧
      (ExprNode.BinaryOpNode '*' (some l) (some r)).evaluate F = .ok (F.mul x y) ∧
      (F.eqZero y = false →
        (ExprNode.BinaryOpNode '/' (some l) (some r)).evaluate F = .ok (F.div x y))) ∧
    (∀ (op : Char) (l r : ExprNode V) (e : String), l.evaluate F = .error e →
      (ExprNode.BinaryOpNode op (some l) (some r)).evaluate F = .error e) ∧
    (∀ (op : Char) (l r : ExprNode V) (x : V) (e : String), l.evaluate F = .ok x →
      r.evaluate F = .error e →
      (ExprNode.BinaryOpNode op (some l) (some r)).evaluate F = .error e) ∧
    (ExprNode.BinaryOpNode '-' (some (.NumberNode 7)) (some (.NumberNode 2))).evaluate exact =
      .ok 5 ∧
    (ExprNode.BinaryOpNode '+'
        (some (.BinaryOpNode '/' (some (.NumberNode 1)) (some (.NumberNode 0))))
        (some (.BinaryOpNode '%' (some (.NumberNode 1)) (some (.NumberNode 2))))).evaluate exact =
      .error "Runtime Error: Division by zero" := by
  refine ⟨fun v => by simp [ExprNode.evaluate], ?_, ?_, ?_, ?_, ?_⟩
  · intro l r x y hl hr
    refine ⟨?_, ?_, ?_, ?_⟩
    · simp [ExprNode.evaluate, hl, hr]
    · simp [ExprNode.evaluate, hl, hr]
    · simp [ExprNode.evaluate, hl, hr]
    · intro hz
      simp [ExprNode.evaluate, hl, hr, hz]
  · intro op l r e hl
    simp [ExprNode.evaluate, hl]
  · intro op l r x e hl hr
    simp [ExprNode.evaluate, hl, hr]
  · simp [ExprNode.evaluate, exact]
    norm_num
  · simp [ExprNode.evaluate, exact]

/-- C18 at `6 / 3` in exact arithmetic: the operands evaluate to 6 and 3, and 3 is not
zero. -/
theorem evaluator_semantics_witness :
    (ExprNode.BinaryOpNode '/' (some (.NumberNode 6)) (some (.NumberNode 3))).evaluate exact =
      .ok (exact.div 6 3) :=
  ((evaluator_semantics exact).2.1 (.NumberNode 6) (.NumberNode 3) 6 3 rfl rfl).2.2.2
    (by decide!)

/-- C19 (internal-invariant errors are unreachable on parsed trees). When `parseProgram`
succeeds, the `Program` holds no null statement, every statement is a `PrintNode` with a
non-null expression, and every `BinaryOpNode` of these expressions has an operator among
`+`, `-`, `*`, `/` and two non-null children. Executing the `Program` therefore ends
normally or throws `Division by zero`; it throws none of `Null operand in binary
operation`, `Unknown binary operator` and `PrintNode has null expression to execute`. -/
theorem parsed_trees_well_formed {V : Type} (F : Float64 V) :
    (∀ (source : List Char) (prog : ProgramNode V) (p' : Parser V),
      parseSource F source = .ok prog p' →
      (∀ s ∈ prog.statements,
        ∃ e : ExprNode V, s = some (.PrintNode (some e)) ∧ e.WellFormed) ∧
      ((prog.execute F).thrown = none ∨
        (prog.execute F).thrown = some "Runtime Error: Division by zero") ∧
      (prog.execute F).thrown ≠ some "Runtime Error: Null operand in binary operation" ∧
      (prog.execute F).thrown ≠
        some "Runtime Error: PrintNode has null expression to execute" ∧
      (∀ op : Char, (prog.execute F).thrown ≠
        some ("Runtime Error: Unknown binary operator '" ++ String.singleton op ++ "'"))) ∧
    (∀ (op : Char) (l r : Option (ExprNode V)), (ExprNode.BinaryOpNode op l r).WellFormed →
      (op = '+' ∨ op = '-' ∨ op = '*' ∨ op = '/') ∧
      ∃ l' r', l = some l' ∧ r = some r' ∧ l'.WellFormed ∧ r'.WellFormed) ∧
    (parseSource exact "PRINT (1+2)*3/0;".toList).value? =
      some { statements := [some (.PrintNode (some
        (.BinaryOpNode '/'
          (some (.BinaryOpNode '*'
            (some (.BinaryOpNode '+' (some (.NumberNode 1)) (some (.NumberNode 2))))
            (some (.NumberNode 3))))
          (some (.NumberNode 0)))))] } ∧
    run exact "PRINT (1+2)*3/0;".toList =
      .runtimeError "Runtime Error: Division by zero" [] := by
  refine ⟨?_, ?_, by decide!, by decide!⟩
  · intro source prog p' h
    have hw := parseSource_wellFormed F source prog p' h
    have hex := executeStatements_wellFormed F prog.statements hw
    refine ⟨hw, hex, ?_, ?_, ?_⟩
    · intro hc
      rcases hex with hn | hd
      · rw [ProgramNode.execute, hn] at hc; cases hc
      · rw [ProgramNode.execute, hd] at hc
        exact (division_message_ne 'x').1 (Option.some.inj hc)
    · intro hc
      rcases hex with hn | hd
      · rw [ProgramNode.execute, hn] at hc; cases hc
      · rw [ProgramNode.execute, hd] at hc
        exact (division_message_ne 'x').2.1 (Option.some.inj hc)
    · intro op hc
      rcases hex with hn | hd
      · rw [ProgramNode.execute, hn] at hc; cases hc
      · rw [ProgramNode.execute, hd] at hc
        exact (division_message_ne op).2.2 (Option.some.inj hc)
  · intro op l r h
    cases h with
    | binary _ l' r' hop hl hr => exact ⟨hop, l', r', rfl, rfl, hl, hr⟩

/-- C19 at the source `PRINT 1+2;`: the statement holds a well-formed tree and executing
the program throws nothing or a division by zero. -/
theorem parsed_trees_well_formed_witness :
    (∀ s ∈ [some (StatementNode.PrintNode (some
        (ExprNode.BinaryOpNode '+' (some (.NumberNode (1 : ℚ))) (some (.NumberNode 2)))))],
      ∃ e : ExprNode ℚ, s = some (.PrintNode (some e)) ∧ e.WellFormed) ∧
    ((ProgramNode.execute exact { statements := [some (.PrintNode (some
        (.BinaryOpNode '+' (some (.NumberNode 1)) (some (.NumberNode 2)))))] }).thrown = none ∨
      (ProgramNode.execute exact { statements := [some (.PrintNode (some
        (.BinaryOpNode '+' (some (.NumberNode 1)) (some (.NumberNode 2)))))] }).thrown =
        some "Runtime Error: Division by zero") :=
  have h : parseSource exact "PRINT 1+2;".toList =
      .ok { statements := [some (.PrintNode (some
          (.BinaryOpNode '+' (some (.NumberNode 1)) (some (.NumberNode 2)))))] }
        { lexer := { source_code := "PRINT 1+2;".toList, current_pos := 10, current_line := 1,
                     current_column_start_of_line := 0 },
          currentToken :=
            { type := TOKEN_EOF, lexeme := "", value := 0, line := 1, column := 11 },
          previousToken :=
            { type := TOKEN_SEMICOLON, lexeme := ";", value := 0, line := 1, column := 10 } } := by
    decide!
  ⟨((parsed_trees_well_formed exact).1 _ _ _ h).1, ((parsed_trees_well_formed exact).1 _ _ _ h).2.1⟩

/-- C20 (number tokens are maximal). When the character after the skipped white space and
comments is a digit, `getNextToken` consumes exactly `lex`, a prefix of the input that
matches `[0-9]+(\.[0-9]+)?`, so ends with a digit, and is at least as long as every such
prefix; when `std::stod` converts `lex` to `v`, the token is the `Number` token with
lexeme `lex` and value `v`, at the position where `lex` starts.
In exact arithmetic `1.` gives `Number` 1 and an `Error` token for `.`; `1.2.3` gives
`Number` 1.2 and an `Error` token; `12abc` gives `Number` 12 and an `Error` token for
`abc`. -/
theorem number_tokens_maximal {V : Type} (F : Float64 V) :
    (∀ (l0 : Lexer) (c : Char) (r : List Char),
      l0.skipWhitespaceAndComments.rest = c :: r → isdigit c = true →
      ∃ lex after : List Char,
        c :: r = lex ++ after ∧ IsNumericLiteral lex ∧
        (∀ x ∈ lex.getLast?, isdigit x = true) ∧
        (∀ n : List Char, IsNumericLiteral n → n <+: c :: r → n.length ≤ lex.length) ∧
        (l0.getNextToken F).2 =
          { l0.skipWhitespaceAndComments with
            current_pos := l0.skipWhitespaceAndComments.current_pos + lex.length } ∧
        (∀ v : V, F.stod (String.mk lex) = .value v →
          (l0.getNextToken F).1 =
            { type := TOKEN_NUMBER, lexeme := String.mk lex, value := v,
              line := l0.skipWhitespaceAndComments.current_line,
              column := (l0.skipWhitespaceAndComments.current_pos : Int) -
                l0.skipWhitespaceAndComments.current_column_start_of_line + 1 }) ∧
        ((∀ v : V, F.stod (String.mk lex) ≠ .value v) →
          (l0.getNextToken F).1.type = TOKEN_ERROR)) ∧
    (∀ s : String, exact.stod s = .value (decimalValue s)) ∧
    (tokenize exact "1.".toList).map (fun t => (t.type, t.lexeme, t.value)) =
      [(TOKEN_NUMBER, "1", 1), (TOKEN_ERROR, "Unexpected character: .", 0),
       (TOKEN_EOF, "", 0)] ∧
    (tokenize exact "1.2.3".toList).map (fun t => (t.type, t.lexeme, t.value)) =
      [(TOKEN_NUMBER, "1.2", 6 / 5), (TOKEN_ERROR, "Unexpected character: .", 0),
       (TOKEN_NUMBER, "3", 3), (TOKEN_EOF, "", 0)] ∧
    (tokenize exact "12abc".toList).map (fun t => (t.type, t.lexeme, t.value)) =
      [(TOKEN_NUMBER, "12", 12), (TOKEN_ERROR, "Unexpected identifier or keyword: abc", 0),
       (TOKEN_EOF, "", 0)] := by
  refine ⟨?_, fun _ => rfl, by decide!, by decide!, by decide!⟩
  intro l0 c r h hc
  refine ⟨numberLexeme (c :: r), (c :: r).drop (numberLexeme (c :: r)).length,
    Lexer.numberLexeme_append_drop (c :: r), numberLexeme_isLiteral hc,
    (numberLexeme_isLiteral hc).last_isdigit, fun n hn hp => numberLexeme_maximal (c :: r) n hn hp, ?_, ?_, ?_⟩
  · rw [Lexer.getNextToken_digit F l0 h hc, Lexer.number_eq, h]
    dsimp only
    cases F.stod (String.mk (numberLexeme (c :: r))) <;> rfl
  · intro v hv
    rw [Lexer.getNextToken_digit F l0 h hc, Lexer.number_eq, h]
    dsimp only
    rw [hv]
  · intro hv
    rw [Lexer.getNextToken_digit F l0 h hc, Lexer.number_eq, h]
    dsimp only
    cases hs : F.stod (String.mk (numberLexeme (c :: r))) with
    | value v => exact absurd hs (hv v)
    | out_of_range => rfl
    | invalid_argument => rfl

/-- C20 on the source `12.5.`: the lexeme is a literal at the front of the input, and the
token is the `Number` token for it whenever the conversion gives a value. -/
theorem number_tokens_maximal_witness :
    ∃ lex after : List Char,
      '1' :: "2.5.".toList = lex ++ after ∧ IsNumericLiteral lex ∧
      (∀ x ∈ lex.getLast?, isdigit x = true) ∧
      (∀ n : List Char, IsNumericLiteral n → n <+: '1' :: "2.5.".toList →
        n.length ≤ lex.length) ∧
      ((Lexer.new "12.5.".toList).getNextToken exact).2 =
        { (Lexer.new "12.5.".toList).skipWhitespaceAndComments with
          current_pos :=
            (Lexer.new "12.5.".toList).skipWhitespaceAndComments.current_pos + lex.length } ∧
      (∀ v : ℚ, exact.stod (String.mk lex) = .value v →
        ((Lexer.new "12.5.".toList).getNextToken exact).1 =
          { type := TOKEN_NUMBER, lexeme := String.mk lex, value := v,
            line := (Lexer.new "12.5.".toList).skipWhitespaceAndComments.current_line,
            column := ((Lexer.new "12.5.".toList).skipWhitespaceAndComments.current_pos : Int) -
              (Lexer.new "12.5.".toList).skipWhitespaceAndComments.current_column_start_of_line
              + 1 }) ∧
      ((∀ v : ℚ, exact.stod (String.mk lex) ≠ .value v) →
        ((Lexer.new "12.5.".toList).getNextToken exact).1.type = TOKEN_ERROR) :=
  (number_tokens_maximal exact).1 (Lexer.new "12.5.".toList) '1' "2.5.".toList
    (by decide) (by decide)

/-- C21 (white space between tokens is insignificant). Let a source lex without `Error`
tokens. Write the lexemes of its tokens one after the other, with white space in front of
the first, a non-empty run of white space between two lexemes, and white space after the
last (each run any characters accepted by `isspace`, among them space, tab, carriage
return and newline). The text so formed lexes to tokens with the same kinds, lexemes and
values; `parseProgram` returns the same `Program` for it, or fails for both; and the run
emits the same output. -/
theorem whitespace_insignificant {V : Type} (F : Float64 V) (source : List Char)
    (hok : ∀ t ∈ tokenize F source, t.type ≠ TOKEN_ERROR) (w0 : List Char)
    (items : List (List Char × List Char)) (hw0 : ∀ c ∈ w0, isspace c = true)
    (hitems : items.map Prod.fst = (tokenize F source).dropLast.map (fun t => t.lexeme.data))
    (hsp : Spaced items) :
    (tokenize F (respace w0 items)).map (fun t => (t.type, t.lexeme, t.value)) =
      (tokenize F source).map (fun t => (t.type, t.lexeme, t.value)) ∧
    (parseSource F (respace w0 items)).value? = (parseSource F source).value? ∧
    (run F (respace w0 items)).output = (run F source).output ∧
    (isspace ' ' = true ∧ isspace '\t' = true ∧ isspace '\r' = true ∧ isspace '\n' = true) := by
  have ht := tokenize_respace F source hok w0 items hw0 hitems hsp
  have hp := parseSource_congr F _ _ ht
  have hok' : ∀ t ∈ tokenize F (respace w0 items), t.type ≠ TOKEN_ERROR := by
    intro t hmem hte
    have h1 : t.content ∈ (tokenize F (respace w0 items)).map Token.content :=
      List.mem_map_of_mem _ hmem
    rw [ht] at h1
    obtain ⟨t', hmem', he'⟩ := List.mem_map.mp h1
    have : t'.type = t.type := congrArg Prod.fst he'
    exact hok t' hmem' (by rw [this]; exact hte)
  refine ⟨ht, hp, ?_, by decide⟩
  rw [run_output F _ hok', run_output F _ hok, hp]

/-- C21 at the source `PRINT 1+2;`, respaced over three lines. -/
theorem whitespace_insignificant_witness :
    (tokenize exact (respace "\r\n".toList
        [("PRINT".toList, "  ".toList), ("1".toList, "\n".toList), ("+".toList, "\t".toList),
         ("2".toList, " ".toList), (";".toList, [])])).map
        (fun t => (t.type, t.lexeme, t.value)) =
      (tokenize exact "PRINT 1+2;".toList).map (fun t => (t.type, t.lexeme, t.value)) ∧
    (parseSource exact (respace "\r\n".toList
        [("PRINT".toList, "  ".toList), ("1".toList, "\n".toList), ("+".toList, "\t".toList),
         ("2".toList, " ".toList), (";".toList, [])])).value? =
      (parseSource exact "PRINT 1+2;".toList).value? ∧
    (run exact (respace "\r\n".toList
        [("PRINT".toList, "  ".toList), ("1".toList, "\n".toList), ("+".toList, "\t".toList),
         ("2".toList, " ".toList), (";".toList, [])])).output =
      (run exact "PRINT 1+2;".toList).output ∧
    (isspace ' ' = true ∧ isspace '\t' = true ∧ isspace '\r' = true ∧ isspace '\n' = true) :=
  whitespace_insignificant exact "PRINT 1+2;".toList (by decide!) "\r\n".toList
    [("PRINT".toList, "  ".toList), ("1".toList, "\n".toList), ("+".toList, "\t".toList),
     ("2".toList, " ".toList), (";".toList, [])]
    (by decide) (by decide!) (by simp [Spaced]; decide)

/-- C22 (the parser inverts a fully parenthesising printer), amended. The fully
parenthesised token sequence `cs` of a tree `e` is: for a number, its `Number` token; for
an operation, `(`, the left operand, the operator token, the right operand, `)`; the
trees that have one are those without a null child and with operators among `+ - * /`.
Whenever the tokens in front of the parser are `PRINT cs ; EndOfFile`, `parseProgram`
returns exactly the `Program` with the one statement `PrintNode e`. These tokens only ever
stand in front of the parser when each number of `e` is the value `std::stod` gives for a
numeric literal `[0-9]+(\.[0-9]+)?`; and for every such tree there is a source text whose
tokens are `PRINT cs ; EndOfFile` and whose parse is that `Program`. So a tree is the
parse of some source text exactly when its numbers are values of numeric literals. The
parentheses leave no trace: `PRINT ((1+2)*(3-4));` parses to `(1+2)*(3-4)` and
`PRINT ((1));` to `1`. -/
theorem parser_inverts_printer {V : Type} (F : Float64 V) :
    (∀ (e : ExprNode V) (cs : List (TokenType × String × V)) (p : Parser V)
      (x1 x2 x3 : String) (v1 v2 v3 : V), Renders e cs →
      (p.pending F).map (fun t => (t.type, t.lexeme, t.value)) =
        (TOKEN_PRINT, x1, v1) :: (cs ++ [(TOKEN_SEMICOLON, x2, v2), (TOKEN_EOF, x3, v3)]) →
      ∃ p', Parser.parseProgram F p = .ok { statements := [some (.PrintNode (some e))] } p') ∧
    (∀ (e : ExprNode V) (cs : List (TokenType × String × V)) (p : Parser V)
      (x1 x2 x3 : String) (v1 v2 v3 : V), Renders e cs →
      (p.pending F).map (fun t => (t.type, t.lexeme, t.value)) =
        (TOKEN_PRINT, x1, v1) :: (cs ++ [(TOKEN_SEMICOLON, x2, v2), (TOKEN_EOF, x3, v3)]) →
      e.Writable F) ∧
    (∀ e : ExprNode V, e.Writable F →
      ∃ (source : List Char) (cs : List (TokenType × String × V)) (p' : Parser V),
        Renders e cs ∧
        (tokenize F source).map (fun t => (t.type, t.lexeme, t.value)) =
          (TOKEN_PRINT, "PRINT", F.zero) ::
            (cs ++ [(TOKEN_SEMICOLON, ";", F.zero), (TOKEN_EOF, "", F.zero)]) ∧
        parseSource F source = .ok { statements := [some (.PrintNode (some e))] } p') ∧
    (∀ e : ExprNode V, e.WellFormed ↔ ∃ cs : List (TokenType × String × V), Renders e cs) ∧
    (∀ e : ExprNode V,
      (∃ (source : List Char) (p' : Parser V),
        parseSource F source = .ok { statements := [some (.PrintNode (some e))] } p') ↔
      e.Writable F) ∧
    (∀ e : ExprNode V, e.Writable F ↔
      e.WellFormed ∧ ∀ v ∈ e.numbers,
        ∃ n : List Char, IsNumericLiteral n ∧ F.stod (String.mk n) = .value v) ∧
    (parseSource exact "PRINT ((1+2)*(3-4));".toList).value? =
      some { statements := [some (.PrintNode (some
        (.BinaryOpNode '*'
          (some (.BinaryOpNode '+' (some (.NumberNode 1)) (some (.NumberNode 2))))
          (some (.BinaryOpNode '-' (some (.NumberNode 3)) (some (.NumberNode 4)))))))] } ∧
    (parseSource exact "PRINT ((1));".toList).value? =
      some { statements := [some (.PrintNode (some (.NumberNode 1)))] } := by
  refine ⟨?_, ?_, ?_, ?_, ?_, ?_, by decide!, by decide!⟩
  · intro e cs p x1 x2 x3 v1 v2 v3 hr h
    exact Parser.parseProgram_renders F hr p x1 x2 x3 v1 v2 v3 h
  · intro e cs p x1 x2 x3 v1 v2 v3 hr h
    exact Parser.writable_of_pending F hr p x1 v1 _ h
  · intro e h
    exact h.tokens
  · intro e
    exact ⟨fun h => h.renders F, fun ⟨_, h⟩ => h.isWellFormed⟩
  · intro e
    exact ⟨fun ⟨source, p', h⟩ => parseSource_writable F source e p' h, fun h => h.source⟩
  · intro e
    exact ⟨fun h => ⟨h.toWellFormed, h.numbers_literal⟩, fun ⟨h, hn⟩ => h.writable F hn⟩

/-- C22 at the tree `1 + 2` and the tokens of the source `PRINT (1+2);`. -/
theorem parser_inverts_printer_witness :
    ∃ p' : Parser ℚ, Parser.parseProgram exact (Parser.new exact (Lexer.new "PRINT (1+2);".toList)) =
      .ok { statements := [some (.PrintNode (some
        (.BinaryOpNode '+' (some (.NumberNode 1)) (some (.NumberNode 2)))))] } p' :=
  (parser_inverts_printer exact).1
    (.BinaryOpNode '+' (some (.NumberNode 1)) (some (.NumberNode 2)))
    [(TOKEN_LPAREN, "(", 0), (TOKEN_NUMBER, "1", 1), (TOKEN_PLUS, "+", 0),
     (TOKEN_NUMBER, "2", 2), (TOKEN_RPAREN, ")", 0)]
    (Parser.new exact (Lexer.new "PRINT (1+2);".toList)) "PRINT" ";" "" 0 0 0
    (Renders.binary TOKEN_PLUS (.NumberNode 1) (.NumberNode 2) [(TOKEN_NUMBER, "1", 1)]
      [(TOKEN_NUMBER, "2", 2)] "(" "+" ")" 0 0 0 (Or.inl rfl) (Renders.number "1" 1)
      (Renders.number "2" 2))
    (by decide!)


/-- C22 as stated fails at the tree `NumberNode (-1)`: the tree is built from a
`NumberLiteral`, and its fully parenthesised token sequence is one `Number` token of value
`-1`; yet no source text parses to the `Program` with the one statement
`PrintNode (NumberNode (-1))`, and the tokens `PRINT`, `Number -1`, `;`, `EndOfFile` never
stand in front of the parser, because the lexer gives a `Number` token the value of a
literal `[0-9]+(\.[0-9]+)?`, which is not negative. -/
theorem negative_number_has_no_source :
    (ExprNode.NumberNode (-1 : ℚ)).WellFormed ∧
    (∀ x : String, Renders (ExprNode.NumberNode (-1 : ℚ)) [(TOKEN_NUMBER, x, -1)]) ∧
    (¬ ∃ (source : List Char) (p' : Parser ℚ),
      parseSource exact source =
        .ok { statements := [some (.PrintNode (some (.NumberNode (-1))))] } p') ∧
    ¬ ∃ (p : Parser ℚ) (x1 x x2 x3 : String) (v1 v2 v3 : ℚ),
      (p.pending exact).map (fun t => (t.type, t.lexeme, t.value)) =
        [(TOKEN_PRINT, x1, v1), (TOKEN_NUMBER, x, -1), (TOKEN_SEMICOLON, x2, v2),
          (TOKEN_EOF, x3, v3)] :=
  ⟨.number _, fun x => .number x _,
    fun ⟨source, p', h⟩ => not_writable_negative (parseSource_writable exact source _ p' h),
    fun ⟨p, x1, x, _, _, v1, _, _, h⟩ =>
      not_writable_negative
        (Parser.writable_of_pending exact (Renders.number x (-1)) p x1 v1 _ h)⟩
/-- C23 (lexeme fidelity). For every source and every call of `getNextToken` that
returns a token other than `Error` and `EndOfFile`: the lexeme is not empty and is the
text of the source from the token's first character on, in the length of the lexeme; the
token's line and column are those of that first character and of no other position of the
source; the lexer has then consumed exactly the source up to the end of the lexeme; the
next token starts at or after that end, and the text between the two is white space and
`//` comments. The text in front of any token, from where the previous call stopped, is
white space and comments as well. -/
theorem lexeme_fidelity {V : Type} (F : Float64 V) (source : List Char) (k : Nat)
    (h1 : (nthToken F source k).type ≠ TOKEN_ERROR)
    (h2 : (nthToken F source k).type ≠ TOKEN_EOF) :
    (nthToken F source k).lexeme.data ≠ [] ∧
    nthTokenEnd F source k ≤ source.length ∧
    (source.drop (nthTokenStart F source k)).take (nthToken F source k).lexeme.length =
      (nthToken F source k).lexeme.data ∧
    (nthToken F source k).line = lineOf source (nthTokenStart F source k) ∧
    (nthToken F source k).column = columnOf source (nthTokenStart F source k) ∧
    (∀ j : Nat, j ≤ source.length → lineOf source j = (nthToken F source k).line →
      columnOf source j = (nthToken F source k).column → j = nthTokenStart F source k) ∧
    (Lexer.afterCalls F source (k + 1)).current_pos = nthTokenEnd F source k ∧
    nthTokenEnd F source k ≤ nthTokenStart F source (k + 1) ∧
    Blank ((source.drop (nthTokenEnd F source k)).take
      (nthTokenStart F source (k + 1) - nthTokenEnd F source k)) ∧
    (Lexer.afterCalls F source k).current_pos ≤ nthTokenStart F source k ∧
    Blank ((source.drop (Lexer.afterCalls F source k).current_pos).take
      (nthTokenStart F source k - (Lexer.afterCalls F source k).current_pos)) := by
  obtain ⟨_, hsrc⟩ := Lexer.afterCalls_tracks F source k
  obtain ⟨_, hsrc1⟩ := Lexer.afterCalls_tracks F source (k + 1)
  obtain ⟨hlex, hrest, hpos⟩ := Lexer.getNextToken_lexeme F (Lexer.afterCalls F source k) h1 h2
  obtain ⟨hline, hcol, _⟩ := nthToken_positioned F source k
  have hcol := hcol h1
  have hskipsrc : (Lexer.afterCalls F source k).skipWhitespaceAndComments.source_code = source :=
    (Lexer.skipWhitespaceAndComments_reaches _).1.trans hsrc
  have hne := Lexer.LexemeOf.ne_nil hlex
  have hdrop : source.drop (nthTokenStart F source k) =
      (nthToken F source k).lexeme.data ++
        ((Lexer.afterCalls F source k).getNextToken F).2.rest := by
    show source.drop (nthTokenStart F source k) =
      ((Lexer.afterCalls F source k).getNextToken F).1.lexeme.data ++ _
    rw [← hrest]
    unfold Lexer.rest nthTokenStart
    rw [hskipsrc]
  have hlen : (nthToken F source k).lexeme.length = (nthToken F source k).lexeme.data.length :=
    rfl
  have hend : nthTokenEnd F source k ≤ source.length := by
    have := congrArg List.length hdrop
    rw [List.length_drop, List.length_append] at this
    have hpos0 : 0 < (nthToken F source k).lexeme.data.length :=
      List.length_pos.mpr hne
    unfold nthTokenEnd
    omega
  have hafter : (Lexer.afterCalls F source (k + 1)).current_pos = nthTokenEnd F source k := by
    rw [Lexer.afterCalls_succ]
    exact hpos
  have hblank : ∀ m : Nat, (Lexer.afterCalls F source m).current_pos ≤ nthTokenStart F source m ∧
      Blank ((source.drop (Lexer.afterCalls F source m).current_pos).take
        (nthTokenStart F source m - (Lexer.afterCalls F source m).current_pos)) := by
    intro m
    obtain ⟨seg, hb, he, hp⟩ := Lexer.skip_blank_segment (Lexer.afterCalls F source m)
    have hs := (Lexer.afterCalls_tracks F source m).2
    unfold nthTokenStart
    rw [hp]
    refine ⟨Nat.le_add_right _ _, ?_⟩
    unfold Lexer.rest at he
    rw [hs] at he
    rw [he, Nat.add_sub_cancel_left, List.take_left]
    exact hb
  refine ⟨hne, hend, ?_, hline, hcol, ?_, hafter, ?_, ?_, (hblank k).1, (hblank k).2⟩
  · rw [hdrop, hlen, List.take_left]
  · intro j hj hjl hjc
    refine position_unique source hj ?_ (by rw [hjl, hline]) (by rw [hjc, hcol])
    unfold nthTokenEnd at hend
    omega
  · rw [← hafter]
    exact (hblank (k + 1)).1
  · rw [← hafter]
    exact (hblank (k + 1)).2

/-- C23 on the source `PRINT 12 ;`: the second token is the `Number` token with lexeme
`12`, read from index 6, and the `;` starts after the space that follows it. -/
theorem lexeme_fidelity_witness :
    nthToken exact "PRINT 12 ;".toList 1 =
      { type := TOKEN_NUMBER, lexeme := "12", value := 12, line := 1, column := 7 } ∧
    nthTokenStart exact "PRINT 12 ;".toList 1 = 6 ∧
    nthTokenEnd exact "PRINT 12 ;".toList 1 = 8 ∧
    nthTokenStart exact "PRINT 12 ;".toList 2 = 9 ∧
    ("PRINT 12 ;".toList.drop (nthTokenStart exact "PRINT 12 ;".toList 1)).take
        (nthToken exact "PRINT 12 ;".toList 1).lexeme.length =
      (nthToken exact "PRINT 12 ;".toList 1).lexeme.data ∧
    Blank (("PRINT 12 ;".toList.drop (nthTokenEnd exact "PRINT 12 ;".toList 1)).take
      (nthTokenStart exact "PRINT 12 ;".toList 2 - nthTokenEnd exact "PRINT 12 ;".toList 1)) :=
  ⟨by decide!, by decide!, by decide!, by decide!,
    (lexeme_fidelity exact "PRINT 12 ;".toList 1 (by decide!) (by decide!)).2.2.1,
    (lexeme_fidelity exact "PRINT 12 ;".toList 1 (by decide!) (by decide!)).2.2.2.2.2.2.2.2.1⟩

/-- C24 (the tree keeps the numbers, the operators and the statements of the source). For
every source on which `parseProgram` succeeds, the values of the `NumberNode`s of the
`Program`, read from left to right over all statements, are the values of the `Number`
tokens of the source in source order; the number of `BinaryOpNode`s is the number of
operator tokens `+`, `-`, `*`, `/`; and the number of statements is the number of `PRINT`
tokens and the number of `;` tokens. The left to right reading of a tree is the value of a
`NumberNode`, and the reading of the left child followed by that of the right child of a
`BinaryOpNode`. -/
theorem tree_keeps_tokens {V : Type} (F : Float64 V) :
    (∀ (source : List Char) (prog : ProgramNode V) (p' : Parser V),
      parseSource F source = .ok prog p' →
      prog.numbers = numberValues (tokenize F source) ∧
      prog.operations = countKind isOperator (tokenize F source) ∧
      prog.statements.length =
        countKind (fun k => decide (k = TOKEN_PRINT)) (tokenize F source) ∧
      prog.statements.length =
        countKind (fun k => decide (k = TOKEN_SEMICOLON)) (tokenize F source)) ∧
    (∀ v : V, (ExprNode.NumberNode v).numbers = [v] ∧ (ExprNode.NumberNode v).operations = 0) ∧
    (∀ (op : Char) (l r : ExprNode V),
      (ExprNode.BinaryOpNode op (some l) (some r)).numbers = l.numbers ++ r.numbers ∧
      (ExprNode.BinaryOpNode op (some l) (some r)).operations =
        l.operations + r.operations + 1) ∧
    (∀ (prog : ProgramNode V) (e : ExprNode V),
      (prog.addStatement (some (.PrintNode (some e)))).numbers = prog.numbers ++ e.numbers ∧
      (prog.addStatement (some (.PrintNode (some e)))).operations =
        prog.operations + e.operations) ∧
    (∀ k : TokenType, isOperator k = true ↔
      k = TOKEN_PLUS ∨ k = TOKEN_MINUS ∨ k = TOKEN_STAR ∨ k = TOKEN_SLASH) ∧
    (parseSource exact "PRINT 8-2*(3+4);\nPRINT 5/1;".toList).value?.map
        (fun prog => (prog.numbers, prog.operations, prog.statements.length)) =
      some ([8, 2, 3, 4, 5, 1], 4, 2) ∧
    numberValues (tokenize exact "PRINT 8-2*(3+4);\nPRINT 5/1;".toList) =
      [8, 2, 3, 4, 5, 1] ∧
    countKind isOperator (tokenize exact "PRINT 8-2*(3+4);\nPRINT 5/1;".toList) = 4 ∧
    countKind (fun k => decide (k = TOKEN_PRINT))
      (tokenize exact "PRINT 8-2*(3+4);\nPRINT 5/1;".toList) = 2 ∧
    countKind (fun k => decide (k = TOKEN_SEMICOLON))
      (tokenize exact "PRINT 8-2*(3+4);\nPRINT 5/1;".toList) = 2 := by
  refine ⟨parseSource_consumed F, ?_, ?_, ?_, ?_, by decide!, by decide!, by decide!,
    by decide!, by decide!⟩
  · intro v
    exact ⟨rfl, rfl⟩
  · intro op l r
    constructor
    · simp [ExprNode.numbers]
    · simp [ExprNode.operations]
  · intro prog e
    exact ⟨Parser.numbers_addStatement prog e, Parser.operations_addStatement prog e⟩
  · intro k
    cases k <;> simp [isOperator, isAdditive, isMultiplicative]

/-- C24 at the source `PRINT 1+2;`: the tree holds the numbers 1 and 2, one operator and
one statement, as the tokens do. -/
theorem tree_keeps_tokens_witness :
    parseSource exact "PRINT 1+2;".toList =
        .ok { statements := [some (.PrintNode (some
          (.BinaryOpNode '+' (some (.NumberNode 1)) (some (.NumberNode 2)))))] }
          (Parser.new exact (Lexer.new "PRINT 1+2;".toList) |>.advanceToken exact
            |>.advanceToken exact |>.advanceToken exact |>.advanceToken exact
            |>.advanceToken exact) ∧
      numberValues (tokenize exact "PRINT 1+2;".toList) = [1, 2] ∧
      countKind isOperator (tokenize exact "PRINT 1+2;".toList) = 1 ∧
      countKind (fun k => decide (k = TOKEN_PRINT)) (tokenize exact "PRINT 1+2;".toList) = 1 ∧
      countKind (fun k => decide (k = TOKEN_SEMICOLON))
        (tokenize exact "PRINT 1+2;".toList) = 1 := by
  have hp : parseSource exact "PRINT 1+2;".toList =
      .ok { statements := [some (.PrintNode (some
        (.BinaryOpNode '+' (some (.NumberNode 1)) (some (.NumberNode 2)))))] }
        (Parser.new exact (Lexer.new "PRINT 1+2;".toList) |>.advanceToken exact
          |>.advanceToken exact |>.advanceToken exact |>.advanceToken exact
          |>.advanceToken exact) := by decide!
  have h := (tree_keeps_tokens exact).1 _ _ _ hp
  refine ⟨hp, ?_, ?_, ?_, ?_⟩
  · rw [← h.1]; decide!
  · rw [← h.2.1]; decide!
  · rw [← h.2.2.1]
    rfl
  · rw [← h.2.2.2]
    rfl
/-- C25 (empty program). For every source that consists of white space and `//` comments
only, the empty source included, the first token of the lexer is `EndOfFile`,
`parseProgram` returns a `Program` without statements, and executing that `Program`
emits nothing and throws nothing. -/
theorem empty_program {V : Type} (F : Float64 V) (source : List Char) (h : Blank source) :
    ((Lexer.new source).getNextToken F).1.type = TOKEN_EOF ∧
    kinds (tokenize F source) = [TOKEN_EOF] ∧
    (∃ p' : Parser V, parseSource F source = .ok { statements := [] } p') ∧
    ProgramNode.execute F { statements := [] } = { output := [], thrown := none } := by
  have hrest := Lexer.skip_blank h (Lexer.new source) (Lexer.rest_new source)
  have hg : ((Lexer.new source).getNextToken F).1.type = TOKEN_EOF := by
    rw [Lexer.getNextToken_eq]
    dsimp only
    rw [(Lexer.isAtEnd_iff_rest _).mpr hrest, if_pos rfl]
    rfl
  refine ⟨hg, ?_, ?_, rfl⟩
  · unfold tokenize
    rw [Lexer.tokens_eq, if_pos hg]
    simp [kinds, hg]
  · refine ⟨Parser.new F (Lexer.new source), ?_⟩
    unfold parseSource Parser.parseProgram
    rw [Parser.parseProgramRest_eq, if_neg (fun hne => hne hg)]

/-- C25 at the source ` // note`, newline, tab. -/
theorem empty_program_witness :
    ((Lexer.new " // note\n\t".toList).getNextToken exact).1.type = TOKEN_EOF ∧
    kinds (tokenize exact " // note\n\t".toList) = [TOKEN_EOF] ∧
    (∃ p' : Parser ℚ, parseSource exact " // note\n\t".toList = .ok { statements := [] } p') ∧
    ProgramNode.execute exact { statements := [] } = { output := [], thrown := none } :=
  empty_program exact " // note\n\t".toList
    (Blank.space ' ' _ (by decide)
      (Blank.comment " note".toList "\t".toList (by decide)
        (Blank.space '\t' [] (by decide) Blank.nil)))

end SimLan
